import Mathlib

/-!
Verification development for the cucumber-cpp Gherkin core.

Shallow embedding of
* `src/domain/gherkin/ast.cpp`, `lexer.cpp`, `parser.cpp` (namespace `cucumber_cpp::gherkin`),
* `src/step_registry.cpp` (namespace `cucumber_cpp`),
followed by theorems about the embedded functions.

Conventions of the embedding
* `std::string` is `List Char` (`Str`); one `Char` stands for one byte of the source.
* `std::vector` is `List`; `std::unique_ptr<T>` that may be null is `Option T`.
* `std::map<std::string, std::string>` is a key-sorted association list without
  duplicate keys (`StrMap`), iterated in key order like the C++ container.
* C++ exceptions are `Except`/`Option` results.
* The expression `std::regex_replace(text, std::regex(pat), fmt)` of `expandRow` is
  a parameter of the embedding (`RegexReplace`), so that general statements hold
  whatever a pattern means; `stdRegexReplace` is the standard library on the
  patterns without regex metacharacter and on those with an unclosed group.
* Loops that consume their input are recursions on that input; loops whose
  termination is not structural carry a fuel argument fixed by their caller.
-/

set_option autoImplicit false

/-- The model of `std::string`. -/
abbrev Str := List Char

/-! ## String and regular-expression primitives of the C++ standard library -/

/-- Byte-wise lexicographic `<` of `std::string`, the order of `std::map` keys. -/
def strLt : Str → Str → Bool
  | [], [] => false
  | [], _ :: _ => true
  | _ :: _, [] => false
  | a :: as, b :: bs => if a.toNat < b.toNat then true else if a = b then strLt as bs else false

/-- The model of `std::map<std::string, std::string>`: entries in key order. -/
abbrev StrMap := List (Str × Str)

/-- The assignment `m[k] = v` of `std::map`: overwrite an existing key, else insert in key order. -/
def StrMap.set : StrMap → Str → Str → StrMap
  | [], k, v => [(k, v)]
  | (k0, v0) :: rest, k, v =>
    if k = k0 then (k, v) :: rest
    else if strLt k k0 then (k, v) :: (k0, v0) :: rest
    else (k0, v0) :: StrMap.set rest k v

/-- One left-to-right pass over a text that replaces every non-overlapping match.
`matchAt s` is the length of the match that starts at the head of `s`, if any;
`out m pre suf` is the text written for the match `m` with the unmatched text
`pre` since the previous match and the rest `suf` of the input after the match.
`skip` counts the characters of the current match still to be dropped.
This is the common shape of the `find`/`replace` loops of `toRegex` and of
`std::regex_replace`: text outside matches is copied, replaced text is never rescanned. -/
def scanReplace (matchAt : Str → Option Nat) (out : Str → Str → Str → Str) :
    Nat → Str → Str → Str
  | _, _, [] => []
  | skip + 1, pre, _ :: cs => scanReplace matchAt out skip pre cs
  | 0, pre, c :: cs =>
    match matchAt (c :: cs) with
    | some len =>
      out ((c :: cs).take len) pre.reverse ((c :: cs).drop len)
        ++ scanReplace matchAt out (len - 1) [] cs
    | none => c :: scanReplace matchAt out 0 (c :: pre) cs

/-- A literal pattern matches exactly its own text. -/
def litAt (pat : Str) (s : Str) : Option Nat :=
  if pat.isPrefixOf s then some pat.length else none

/-- The characters that are special in an ECMAScript regular expression.  A
pattern string free of them denotes the literal text itself. -/
def isRegexMeta (c : Char) : Bool :=
  c = '^' || c = '$' || c = '\\' || c = '.' || c = '*' || c = '+' || c = '?' ||
  c = '(' || c = ')' || c = '[' || c = ']' || c = '{' || c = '}' || c = '|'

/-- The double quote character. -/
def dquote : Char := Char.ofNat 34

/-- The single quote character. -/
def squote : Char := Char.ofNat 39

/-- Value of a decimal digit character. -/
def digitVal (c : Char) : Nat := c.toNat - '0'.toNat

/-- The sub-match `$n` of a match of a regex without capture groups
(`match.size() = 1`): only group 0, the whole match, exists. -/
def fmtGroup (m : Str) (n : Nat) : Str := if n < 1 then m else []

/-- Where the scan of a replacement format string stands: in plain text, just
after a `$`, or after `$` and one digit of value `d`. -/
inductive FmtState where
  | plain
  | dollar
  | digit (d : Nat)
  deriving DecidableEq, Repr

/-- The ECMAScript replacement format of `std::match_results::format` as used by
`std::regex_replace`, for a match `m` (no capture groups), the text `pre` before
the match and the text `suf` after it: `$$` is `$`, `$&` the match, `$` followed
by a grave accent the text before, `$` followed by an apostrophe the text
after, `$n` / `$nn` the numbered sub-match (empty when there is none), a `$`
before anything else is kept. -/
def regexFormatGo (m pre suf : Str) : FmtState → Str → Str
  | .plain, [] => []
  | .dollar, [] => ['$']
  | .digit d, [] => fmtGroup m d
  | .plain, c :: r =>
    if c = '$' then regexFormatGo m pre suf .dollar r else c :: regexFormatGo m pre suf .plain r
  | .dollar, c :: r =>
    if c = '$' then '$' :: regexFormatGo m pre suf .plain r
    else if c = '&' then m ++ regexFormatGo m pre suf .plain r
    else if c = Char.ofNat 96 then pre ++ regexFormatGo m pre suf .plain r
    else if c = Char.ofNat 39 then suf ++ regexFormatGo m pre suf .plain r
    else if c.isDigit then regexFormatGo m pre suf (.digit (digitVal c)) r
    else '$' :: c :: regexFormatGo m pre suf .plain r
  | .digit d, c :: r =>
    if c.isDigit then fmtGroup m (10 * d + digitVal c) ++ regexFormatGo m pre suf .plain r
    else if c = '$' then fmtGroup m d ++ regexFormatGo m pre suf .dollar r
    else fmtGroup m d ++ (c :: regexFormatGo m pre suf .plain r)

/-- The expansion of a whole format string. -/
def regexFormat (m pre suf fmt : Str) : Str := regexFormatGo m pre suf .plain fmt

/-- The result of `std::regex_replace(text, regex, fmt)` for a regex that matches
exactly the text `pat`: every occurrence of `pat` is replaced by the expansion
of the format string `fmt`.  Whether the regex built from a pattern is of that
kind is decided by `stdRegexReplace`. -/
def regexReplaceLit (pat fmt text : Str) : Str :=
  scanReplace (litAt pat) (fun m pre suf => regexFormat m pre suf fmt) 0 [] text

/-- A model of the expression `std::regex_replace(text, std::regex(pat), fmt)` as
a function of the pattern, the format and the text; an error stands for an
exception.  The code of `ScenarioOutline::expandRow` is embedded over such a
function, so that what is proved for every function of this type holds for
`std::regex` whatever a pattern means. -/
abbrev RegexReplace (ε : Type) := Str → Str → Str → Except ε Str

/-- Why `stdRegexReplace` gives no text: the constructor `std::regex(pat)` throws
`std::regex_error`, or the pattern is a regex that is not modelled. -/
inductive RegexFailure where
  | regex_error
  | not_modelled
  deriving DecidableEq, Repr

/-- The expression `std::regex_replace(text, std::regex(pat), fmt)` of the
standard library, for the patterns modelled here.  A pattern without regex
metacharacter (see `isRegexMeta`) matches its own text.  A pattern whose only
metacharacters are opening parentheses has a group that is never closed: the
constructor throws `std::regex_error`.  Every other pattern (a wildcard, a
class, a quantifier) is a regex outside this model. -/
def stdRegexReplace : RegexReplace RegexFailure := fun pat fmt text =>
  if pat.all (fun c => !isRegexMeta c) then .ok (regexReplaceLit pat fmt text)
  else if pat.all (fun c => !isRegexMeta c || c = '(') then .error .regex_error
  else .error .not_modelled

/-- A loop that builds one result per element, from left to right, and is left
by the first exception. -/
def mapExcept {ε α β : Type} (f : α → Except ε β) : List α → Except ε (List β)
  | [] => .ok []
  | a :: rest =>
    match f a with
    | .error e => .error e
    | .ok b =>
      match mapExcept f rest with
      | .error e => .error e
      | .ok bs => .ok (b :: bs)

namespace Gherkin

/-! ## `ast.hpp` / `ast.cpp`: the document tree -/

/-- The class `DataTable`: the rows of cells. -/
structure DataTable where
  rows : List (List Str)
  deriving DecidableEq, Repr

/-- The class `DocString`. -/
structure DocString where
  content : Str
  contentType : Str
  deriving DecidableEq, Repr

/-- The enumeration `StepType`. -/
inductive StepType where
  | GIVEN | WHEN | THEN | AND | BUT
  deriving DecidableEq, Repr

/-- The class `Step`. -/
structure Step where
  type : StepType
  text : Str
  dataTable : Option DataTable
  docString : Option DocString
  deriving DecidableEq, Repr

/-- The class `Background`. -/
structure Background where
  name : Str
  description : Str
  steps : List Step
  deriving DecidableEq, Repr

/-- The class `Scenario`. -/
structure Scenario where
  name : Str
  description : Str
  tags : List Str
  steps : List Step
  deriving DecidableEq, Repr

/-- The class `Examples`. -/
structure Examples where
  name : Str
  description : Str
  tags : List Str
  table : Option DataTable
  deriving DecidableEq, Repr

/-- The class `ScenarioOutline`: a `Scenario` that also owns its `Examples` blocks. -/
structure ScenarioOutline extends Scenario where
  examples : List Examples
  deriving DecidableEq, Repr

/-- The class `Feature`. -/
structure Feature where
  name : Str
  description : Str
  tags : List Str
  background : Option Background
  scenarios : List Scenario
  scenario_outlines : List ScenarioOutline
  deriving DecidableEq, Repr

/-- The method `DataTable::headers`: the first row, empty for an empty table. -/
def DataTable.headers (t : DataTable) : List Str :=
  match t.rows with
  | [] => []
  | r :: _ => r

/-- The method `DataTable::dataRows`: all rows except the first. -/
def DataTable.dataRows (t : DataTable) : List (List Str) :=
  if t.rows.length ≤ 1 then [] else t.rows.drop 1

/-- The inner loop of `DataTable::toMaps`: `rowMap[headers[j]] = row[j]` for
`j < headers.size() && j < row.size()`. -/
def DataTable.rowMap : List Str → List Str → StrMap → StrMap
  | h :: hs, c :: cs, m => DataTable.rowMap hs cs (StrMap.set m h c)
  | _, _, m => m

/-- The method `DataTable::toMaps`: one map per row after the first. -/
def DataTable.toMaps (t : DataTable) : List StrMap :=
  if t.rows.length ≤ 1 then []
  else
    match t.rows with
    | [] => []
    | headers :: rest => rest.foldl (fun result row => result ++ [DataTable.rowMap headers row []]) []

/-- The constructor `Scenario(name)`: no description, tags or steps yet. -/
def Scenario.new (name : Str) : Scenario :=
  { name := name, description := [], tags := [], steps := [] }

/-- The method `Scenario::addTag`. -/
def Scenario.addTag (s : Scenario) (tag : Str) : Scenario :=
  { s with tags := s.tags ++ [tag] }

/-- The method `Scenario::addStep`. -/
def Scenario.addStep (s : Scenario) (step : Step) : Scenario :=
  { s with steps := s.steps ++ [step] }

/-- The method `Scenario::setDescription`. -/
def Scenario.setDescription (s : Scenario) (d : Str) : Scenario :=
  { s with description := d }

/-- The method `Scenario::hasTag`: `std::find` over the tag vector. -/
def Scenario.hasTag (s : Scenario) (tag : Str) : Bool :=
  s.tags.contains tag

/-- The loop `for (const auto& [param, value] : values)` of `expandRow` over one
string: `regex_replace` with the regex `"<" + param + ">"` and the format `value`,
one key after the other in map order; the first exception ends it. -/
def substituteAll {ε : Type} (rx : RegexReplace ε) : StrMap → Str → Except ε Str
  | [], s => .ok s
  | kv :: rest, s =>
    match rx ('<' :: kv.1 ++ ['>']) kv.2 s with
    | .error e => .error e
    | .ok s1 => substituteAll rx rest s1

/-- The part of the step loop of `expandRow` for the data table of a step: every
cell of every row, in order. -/
def expandTable {ε : Type} (rx : RegexReplace ε) (values : StrMap) :
    Option DataTable → Except ε (Option DataTable)
  | none => .ok none
  | some t =>
    match mapExcept (fun row => mapExcept (substituteAll rx values) row) t.rows with
    | .error e => .error e
    | .ok rows => .ok (some { rows := rows })

/-- The part of the step loop of `expandRow` for the doc string of a step: the
content is expanded, the content type is kept. -/
def expandDocString {ε : Type} (rx : RegexReplace ε) (values : StrMap) :
    Option DocString → Except ε (Option DocString)
  | none => .ok none
  | some d =>
    match substituteAll rx values d.content with
    | .error e => .error e
    | .ok content => .ok (some { content := content, contentType := d.contentType })

/-- The body of the step loop of `ScenarioOutline::expandRow`: the text, then the
data table, then the doc string. -/
def expandStep {ε : Type} (rx : RegexReplace ε) (values : StrMap) (step : Step) :
    Except ε Step :=
  match substituteAll rx values step.text with
  | .error e => .error e
  | .ok text =>
    match expandTable rx values step.dataTable with
    | .error e => .error e
    | .ok table =>
      match expandDocString rx values step.docString with
      | .error e => .error e
      | .ok doc => .ok { type := step.type, text := text, dataTable := table, docString := doc }

/-- The method `ScenarioOutline::expandRow`: the name is expanded first, then the
steps in order. -/
def ScenarioOutline.expandRow {ε : Type} (o : ScenarioOutline) (rx : RegexReplace ε)
    (values : StrMap) : Except ε Scenario :=
  match substituteAll rx values o.name with
  | .error e => .error e
  | .ok expandedName =>
    match mapExcept (expandStep rx values) o.steps with
    | .error e => .error e
    | .ok steps =>
      .ok (steps.foldl Scenario.addStep
        ((Scenario.new expandedName).setDescription o.description))

/-- The body of the inner loop of `ScenarioOutline::expand`: expand one row and
copy the tags of the outline, then those of the Examples block. -/
def ScenarioOutline.expandOne {ε : Type} (o : ScenarioOutline) (rx : RegexReplace ε)
    (example_ : Examples) (dataMap : StrMap) : Except ε Scenario :=
  match o.expandRow rx dataMap with
  | .error e => .error e
  | .ok scenario =>
    .ok (example_.tags.foldl Scenario.addTag (o.tags.foldl Scenario.addTag scenario))

/-- The inner loop `for (const auto& dataMap : dataMaps)` of
`ScenarioOutline::expand`. -/
def ScenarioOutline.expandMaps {ε : Type} (o : ScenarioOutline) (rx : RegexReplace ε)
    (example_ : Examples) : List StrMap → List Scenario → Except ε (List Scenario)
  | [], expanded => .ok expanded
  | dataMap :: rest, expanded =>
    match o.expandOne rx example_ dataMap with
    | .error e => .error e
    | .ok scenario => ScenarioOutline.expandMaps o rx example_ rest (expanded ++ [scenario])

/-- The outer loop `for (const auto& example : examples_)` of
`ScenarioOutline::expand`: a block without a table is passed. -/
def ScenarioOutline.expandBlocks {ε : Type} (o : ScenarioOutline) (rx : RegexReplace ε) :
    List Examples → List Scenario → Except ε (List Scenario)
  | [], expanded => .ok expanded
  | example_ :: rest, expanded =>
    match example_.table with
    | none => ScenarioOutline.expandBlocks o rx rest expanded
    | some t =>
      match o.expandMaps rx example_ t.toMaps expanded with
      | .error e => .error e
      | .ok expanded1 => ScenarioOutline.expandBlocks o rx rest expanded1

/-- The method `ScenarioOutline::expand`: the scenarios, or the exception that a
`std::regex` constructor throws. -/
def ScenarioOutline.expand {ε : Type} (o : ScenarioOutline) (rx : RegexReplace ε) :
    Except ε (List Scenario) :=
  o.expandBlocks rx o.examples []

/-- The part of a match of the regex `<([^>]+)>` after its `<`: the longest run
of characters other than `>`, which must be non-empty, then a `>`.  The result
is the capture group and the text after the match. -/
def paramBody (cs : Str) : Option (Str × Str) :=
  match cs.dropWhile (fun c => c ≠ '>') with
  | [] => none
  | _ :: suffix =>
    if cs.takeWhile (fun c => c ≠ '>') = [] then none
    else some (cs.takeWhile (fun c => c ≠ '>'), suffix)

/-- The call `std::regex_search(text, matches, std::regex("<([^>]+)>"))`: the
leftmost match, as the pair of `matches[1]` and `matches.suffix()`. -/
def searchParam : Str → Option (Str × Str)
  | [] => none
  | c :: cs =>
    if c = '<' then
      match paramBody cs with
      | some r => some r
      | none => searchParam cs
    else searchParam cs

/-- The loop `while (std::regex_search(text, matches, paramRegex))` of
`extractParameters`: a new name is appended, then the search goes on in the suffix. -/
def collectParams : Nat → Str → List Str → List Str
  | 0, _, parameters => parameters
  | fuel + 1, text, parameters =>
    match searchParam text with
    | none => parameters
    | some (param, suffix) =>
      collectParams fuel suffix
        (if parameters.contains param then parameters else parameters ++ [param])

/-- One search loop of `extractParameters` over one string; every iteration
shortens the text, so its length is enough fuel. -/
def scanField (parameters : List Str) (text : Str) : List Str :=
  collectParams text.length text parameters

/-- The body of the step loop of `ScenarioOutline::extractParameters`: the step
text, then the cells of the data table row by row, then the doc string. -/
def extractFromStep (parameters : List Str) (step : Step) : List Str :=
  let p1 := scanField parameters step.text
  let p2 :=
    match step.dataTable with
    | none => p1
    | some t => t.rows.foldl (fun p row => row.foldl scanField p) p1
  match step.docString with
  | none => p2
  | some d => scanField p2 d.content

/-- The method `ScenarioOutline::extractParameters`. -/
def ScenarioOutline.extractParameters (o : ScenarioOutline) : List Str :=
  o.steps.foldl extractFromStep []

/-- The strings of a step in which placeholders are looked for and replaced: its
text, the cells of its data table row by row, the content of its doc string. -/
def Step.fields (s : Step) : List Str :=
  s.text ::
    ((match s.dataTable with
      | none => []
      | some t => t.rows.flatten)
    ++ (match s.docString with
      | none => []
      | some d => [d.content]))

/-- Whether a text still holds a `<...>` placeholder. -/
def hasPlaceholder (text : Str) : Bool := (searchParam text).isSome

/-- A text made of characters other than `<` and of placeholders `<key>` whose
key satisfies `P`. -/
inductive Flat (P : Str → Prop) : Str → Prop where
  | nil : Flat P []
  | char (c : Char) (cs : Str) : c ≠ '<' → Flat P cs → Flat P (c :: cs)
  | hole (k rest : Str) : P k → Flat P rest → Flat P ('<' :: k ++ '>' :: rest)

/-- A key that is literal text as a regex and has no angle bracket. -/
def PlainKey (k : Str) : Prop := ∀ c ∈ k, isRegexMeta c = false ∧ c ≠ '<' ∧ c ≠ '>'

/-- Literal replacement of every occurrence of `pat` by `value`, as the
specification words it. -/
def replaceLiteral (pat value text : Str) : Str :=
  scanReplace (litAt pat) (fun _ _ _ => value) 0 [] text

/-- The scenarios that one Examples block contributes to an expansion, in the
words of the specification: one scenario per data row, in row order, none
without a table. -/
def expandBlock {ε : Type} (o : ScenarioOutline) (rx : RegexReplace ε) (e : Examples) :
    Except ε (List Scenario) :=
  match e.table with
  | none => .ok []
  | some t =>
    mapExcept (fun row => o.expandOne rx e (DataTable.rowMap t.headers row [])) t.dataRows

/-- The step with `g` applied to its text, to the cells of its data table and to
the content of its doc string. -/
def mapStep (g : Str → Str) (step : Step) : Step :=
  { type := step.type
    text := g step.text
    dataTable :=
      match step.dataTable with
      | none => none
      | some t => some { rows := t.rows.map (fun row => row.map g) }
    docString :=
      match step.docString with
      | none => none
      | some d => some { content := g d.content, contentType := d.contentType } }

/-- Literal replacement with the format rules of `std::regex_replace`, key after
key in map order: what `substituteAll` computes when the regex of every key
matches exactly the text `<key>`. -/
def substituteLit (values : StrMap) (s : Str) : Str :=
  values.foldl (fun acc kv => regexReplaceLit ('<' :: kv.1 ++ ['>']) kv.2 acc) s

/-- The number of data rows of an Examples block: the rows after the header row. -/
def Examples.dataRowCount (e : Examples) : Nat :=
  match e.table with
  | none => 0
  | some t => t.rows.length - 1

/-! ### Sample outlines -/

/-- An outline whose step names `<password>`, which the Examples header omits. -/
def outlineMissingKey : ScenarioOutline :=
  { name := "Login".toList, description := [], tags := []
    steps := [{ type := .GIVEN, text := "I log in as <user> with <password>".toList,
                dataTable := none, docString := none }]
    examples := [{ name := [], description := [], tags := []
                   table := some { rows := [["user".toList], ["bob".toList]] } }] }

/-- An outline whose Examples row holds a value that is itself written `<none>`. -/
def outlineBracketValue : ScenarioOutline :=
  { name := "Login".toList, description := [], tags := []
    steps := [{ type := .GIVEN, text := "I log in as <user>".toList,
                dataTable := none, docString := none }]
    examples := [{ name := [], description := [], tags := []
                   table := some { rows := [["user".toList], ["<none>".toList]] } }] }

/-- An outline whose step nests a placeholder inside angle brackets. -/
def outlineNested : ScenarioOutline :=
  { name := "Nested".toList, description := [], tags := []
    steps := [{ type := .GIVEN, text := "<<a>a>".toList,
                dataTable := none, docString := none }]
    examples := [{ name := [], description := [], tags := []
                   table := some { rows := [["a".toList], ["".toList]] } }] }

/-- A step with a placeholder in its text, in a table cell and in its doc string. -/
def stepLogin : Step :=
  { type := .GIVEN, text := "<u>!".toList,
    dataTable := some { rows := [["<u>".toList, "x".toList]] },
    docString := some { content := "a<u>".toList, contentType := [] } }

/-- The table of `examplesLogin`: the header `u` and one data row. -/
def tableLogin : DataTable := { rows := [["u".toList], ["bob".toList]] }

/-- An Examples block with a tag and one data row. -/
def examplesLogin : Examples :=
  { name := [], description := [], tags := ["fast".toList], table := some tableLogin }

/-- An outline with a placeholder in the name, a step text, a table cell and a doc string. -/
def outlineLogin : ScenarioOutline :=
  { name := "Login of <u>".toList, description := [], tags := ["web".toList]
    steps := [stepLogin]
    examples := [examplesLogin] }

/-- An outline whose Examples table has the header `(`. -/
def outlineParen : ScenarioOutline :=
  { name := "Login".toList, description := [], tags := []
    steps := [{ type := .GIVEN, text := "I log in".toList,
                dataTable := none, docString := none }]
    examples := [{ name := [], description := [], tags := []
                   table := some { rows := [["(".toList], ["bob".toList]] } }] }

/-- An outline whose Examples rows hold the values `$$` and `$&`. -/
def outlineDollar : ScenarioOutline :=
  { name := "Pay".toList, description := [], tags := []
    steps := [{ type := .WHEN, text := "I pay <price>".toList,
                dataTable := none, docString := none }]
    examples := [{ name := [], description := [], tags := []
                   table := some { rows := [["price".toList], ["$$".toList], ["$&".toList]] } }] }


/-! ## `lexer.hpp` / `lexer.cpp`: the tokenizer -/

/-- The struct `Location`. -/
structure Location where
  line : Nat
  column : Nat
  offset : Nat
  deriving DecidableEq, Repr

/-- The enumeration `TokenType`. -/
inductive TokenType where
  | FEATURE | BACKGROUND | SCENARIO | SCENARIO_OUTLINE | EXAMPLES
  | GIVEN | WHEN | THEN | AND | BUT
  | TAG | COMMENT | TABLE_CELL | DOC_STRING
  | TEXT | NUMBER | STRING | PARAMETER
  | NEWLINE | INDENT | DEDENT | EOF_TOKEN
  | UNKNOWN
  deriving DecidableEq, Repr

/-- The struct `Token`. -/
structure Token where
  type : TokenType
  value : Str
  location : Location
  deriving DecidableEq, Repr

/-- The method `Token::isStepKeyword`: the type lies between `GIVEN` and `BUT`. -/
def Token.isStepKeyword (t : Token) : Bool :=
  t.type = .GIVEN || t.type = .WHEN || t.type = .THEN || t.type = .AND || t.type = .BUT

/-- The function `tokenTypeToString`. -/
def tokenTypeToString : TokenType → Str
  | .FEATURE => "FEATURE".toList
  | .BACKGROUND => "BACKGROUND".toList
  | TokenType.SCENARIO => "SCENARIO".toList
  | .SCENARIO_OUTLINE => "SCENARIO_OUTLINE".toList
  | .EXAMPLES => "EXAMPLES".toList
  | .GIVEN => "GIVEN".toList
  | .WHEN => "WHEN".toList
  | .THEN => "THEN".toList
  | .AND => "AND".toList
  | .BUT => "BUT".toList
  | .TAG => "TAG".toList
  | .COMMENT => "COMMENT".toList
  | .TABLE_CELL => "TABLE_CELL".toList
  | .DOC_STRING => "DOC_STRING".toList
  | .TEXT => "TEXT".toList
  | .NUMBER => "NUMBER".toList
  | .STRING => "STRING".toList
  | .PARAMETER => "PARAMETER".toList
  | .NEWLINE => "NEWLINE".toList
  | .INDENT => "INDENT".toList
  | .DEDENT => "DEDENT".toList
  | .EOF_TOKEN => "EOF".toList
  | .UNKNOWN => "UNKNOWN".toList

/-- The state of the class `Lexer`.  `rest` is the part of `source_` from the
index `current_` on, so that `source_.length() = current + rest.length`;
`error_message_` is never assigned by the source. -/
structure Lexer where
  rest : Str
  current : Nat
  line : Nat
  column : Nat
  token_start : Nat
  error_message : Str
  deriving DecidableEq, Repr

/-- The constructor `Lexer(source)`. -/
def Lexer.new (source : Str) : Lexer :=
  { rest := source, current := 0, line := 1, column := 1, token_start := 0, error_message := [] }

/-- The method `Lexer::hasError`. -/
def Lexer.hasError (l : Lexer) : Bool := !l.error_message.isEmpty

/-- The method `Lexer::isAtEnd`. -/
def Lexer.isAtEnd (l : Lexer) : Bool := l.rest.isEmpty

/-- The method `Lexer::peek(offset)`: the NUL character past the end. -/
def Lexer.peek (l : Lexer) (offset : Nat) : Char := l.rest.getD offset (Char.ofNat 0)

/-- The method `Lexer::advance`, as a state change. -/
def Lexer.advance (l : Lexer) : Lexer :=
  match l.rest with
  | [] => l
  | _ :: cs => { l with rest := cs, current := l.current + 1, column := l.column + 1 }

/-- A number of calls of `advance` in a row. -/
def Lexer.advanceN (l : Lexer) : Nat → Lexer
  | 0 => l
  | n + 1 => (l.advance).advanceN n

/-- The loop `while (!isAtEnd() && p(peek())) advance();`. -/
def Lexer.advanceWhile (p : Char → Bool) (l : Lexer) : Lexer :=
  l.advanceN (l.rest.takeWhile p).length

/-- The increment `line_++; column_ = 1;`. -/
def Lexer.newLine (l : Lexer) : Lexer := { l with line := l.line + 1, column := 1 }

/-- The method `Lexer::makeToken`; the column is computed in `size_t` arithmetic. -/
def Lexer.makeToken (l : Lexer) (type : TokenType) (value : Str) : Token :=
  { type := type
    value := if value.isEmpty then tokenTypeToString type else value
    location :=
      { line := l.line
        column := (l.column + 2 ^ 64 - (l.current - l.token_start) % 2 ^ 64) % 2 ^ 64
        offset := l.token_start } }

/-- The method `Lexer::skipWhitespace`. -/
def Lexer.skipWhitespace (l : Lexer) : Lexer :=
  l.advanceWhile (fun c => c = ' ' || c = '\t' || c = '\r')

/-- The keyword tables set by `Lexer::initializeKeywords` and the method
`Lexer::detectKeyword`. -/
def detectKeyword (word : Str) : Option TokenType :=
  if ["Feature".toList].contains word then some .FEATURE
  else if ["Background".toList].contains word then some .BACKGROUND
  else if ["Scenario Outline".toList, "Scenario Template".toList].contains word then
    some .SCENARIO_OUTLINE
  else if ["Scenario".toList].contains word then some TokenType.SCENARIO
  else if ["Examples".toList, "Scenarios".toList].contains word then some .EXAMPLES
  else if ["Given".toList].contains word then some .GIVEN
  else if ["When".toList].contains word then some .WHEN
  else if ["Then".toList].contains word then some .THEN
  else if ["And".toList].contains word then some .AND
  else if ["But".toList].contains word then some .BUT
  else none

/-- Removal of the characters of `set` at the end of a string, as done with
`find_last_not_of`: a string made only of such characters is left unchanged. -/
def trimTrailing (set : Char → Bool) (s : Str) : Str :=
  if s.all set then s else (s.reverse.dropWhile set).reverse

/-- Removal of the characters of `set` at the start of a string, as done with
`find_first_not_of`: a string made only of such characters is left unchanged. -/
def trimLeading (set : Char → Bool) (s : Str) : Str :=
  if s.all set then s else s.dropWhile set

/-- The method `Lexer::scanKeyword`: the run of letters, digits and spaces is
read, its trailing spaces are given back (`current_` is reset, `column_` is not). -/
def Lexer.scanKeyword (l : Lexer) : Token × Lexer :=
  let run := l.rest.takeWhile (fun c => c.isAlphanum || c = ' ')
  let l1 := l.advanceN run.length
  let word := trimTrailing (fun c => c = ' ') run
  let l2 : Lexer :=
    if run.all (fun c => c = ' ') then l1
    else { l1 with rest := l.rest.drop word.length, current := l.current + word.length }
  match detectKeyword word with
  | some keywordType => (l2.makeToken keywordType word, l2)
  | none => (l2.makeToken .TEXT word, l2)

/-- The method `Lexer::scanTag`. -/
def Lexer.scanTag (l : Lexer) : Token × Lexer :=
  let l1 := l.advance
  let tag := l1.rest.takeWhile (fun c => c.isAlphanum || c = '_' || c = '-')
  let l2 := l1.advanceN tag.length
  (l2.makeToken .TAG tag, l2)

/-- The method `Lexer::scanTableRow`: before every `|` of the line a second `|`
is appended to the row text. -/
def Lexer.scanTableRow (l : Lexer) : Token × Lexer :=
  let l1 := l.advance
  let line := l1.rest.takeWhile (fun c => c ≠ '\n')
  let l2 := l1.advanceN line.length
  let row := (line.map (fun c => if c = '|' then ['|', '|'] else [c])).flatten
  (l2.makeToken .TABLE_CELL row, l2)

/-- The content loop of `Lexer::scanDocString`; the first argument is the text
still to be read, which bounds the number of iterations. -/
def Lexer.docStringBody : Str → Lexer → Str → Str × Lexer
  | [], l, content => (content, l)
  | _ :: cs, l, content =>
    if l.isAtEnd then (content, l)
    else if l.peek 0 = dquote && l.peek 1 = dquote && l.peek 2 = dquote then
      (content, l.advance.advance.advance)
    else
      let c := l.peek 0
      let l1 := l.advance
      let l2 := if c = '\n' then l1.newLine else l1
      Lexer.docStringBody cs l2 (content ++ [c])

/-- The method `Lexer::scanDocString`; the text read on the opening line is dropped. -/
def Lexer.scanDocString (l : Lexer) : Token × Lexer :=
  let l1 := l.advance.advance.advance
  let l2 := l1.advanceWhile (fun c => c ≠ '\n')
  let l3 := if l2.peek 0 = '\n' then l2.advance.newLine else l2
  let r := Lexer.docStringBody l3.rest l3 []
  (r.2.makeToken .DOC_STRING r.1, r.2)

/-- The method `Lexer::scanText`. -/
def Lexer.scanText (l : Lexer) : Token × Lexer :=
  let text := l.rest.takeWhile (fun c => c ≠ '\n' && c ≠ '#' && c ≠ '@' && c ≠ '|')
  let l1 := l.advanceN text.length
  (l1.makeToken .TEXT (trimTrailing (fun c => c = ' ' || c = '\t') text), l1)

/-- The method `Lexer::scanComment`. -/
def Lexer.scanComment (l : Lexer) : Token × Lexer :=
  let l1 := l.advance
  let comment := l1.rest.takeWhile (fun c => c ≠ '\n')
  let l2 := l1.advanceN comment.length
  (l2.makeToken .COMMENT (trimLeading (fun c => c = ' ' || c = '\t') comment), l2)

/-- The parameter branch of `Lexer::scanToken`: a token when the `<` is closed
on its line, else no token and the lexer left after the text it has read. -/
def Lexer.scanParameter (l : Lexer) : Option Token × Lexer :=
  let l1 := l.advance
  let l2 := l1.advanceWhile (fun c => c ≠ '>' && c ≠ '\n')
  if l2.peek 0 = '>' then
    let l3 := l2.advance
    (some (l3.makeToken .PARAMETER (l1.rest.take (l3.current - l.current - 2))), l3)
  else (none, l2)

/-- The loop of the quoted-string branch of `Lexer::scanToken`; a backslash
takes the next character with it. -/
def Lexer.quotedLoop (quote : Char) : Nat → Lexer → Lexer
  | 0, l => l
  | fuel + 1, l =>
    if !l.isAtEnd && l.peek 0 ≠ quote && l.peek 0 ≠ '\n' then
      if l.peek 0 = '\\' then
        let l1 := l.advance
        Lexer.quotedLoop quote fuel (if !l1.isAtEnd then l1.advance else l1)
      else Lexer.quotedLoop quote fuel l.advance
    else l

/-- The quoted-string branch of `Lexer::scanToken`: a token when the quote is
closed on its line, else no token and the lexer left after the text it has read. -/
def Lexer.scanQuoted (l : Lexer) (quote : Char) : Option Token × Lexer :=
  let l1 := l.advance
  let l2 := Lexer.quotedLoop quote l1.rest.length l1
  if l2.peek 0 = quote then
    (some (l2.advance.makeToken .STRING (l1.rest.take (l2.current - l1.current))), l2.advance)
  else (none, l2)

/-- The method `Lexer::scanToken`. -/
def Lexer.scanToken (l : Lexer) : Token × Lexer :=
  let c := l.peek 0
  if c = '\n' then
    let l1 := l.advance.newLine
    (l1.makeToken .NEWLINE [], l1)
  else if c = '#' then l.scanComment
  else if c = '@' then l.scanTag
  else if c = '|' then l.scanTableRow
  else if c = dquote && l.peek 1 = dquote && l.peek 2 = dquote then l.scanDocString
  else
    match (if c = '<' then l.scanParameter else (none, l)) with
    | (some token, l1) => (token, l1)
    | (none, l1) =>
      match (if c = dquote || c = squote then l1.scanQuoted c else (none, l1)) with
      | (some token, l2) => (token, l2)
      | (none, l2) => if c.isAlpha then l2.scanKeyword else l2.scanText

/-- The method `Lexer::nextToken`. -/
def Lexer.nextToken (l : Lexer) : Token × Lexer :=
  let l1 := l.skipWhitespace
  if l1.isAtEnd then (l1.makeToken .EOF_TOKEN [], l1)
  else
    let l2 := { l1 with token_start := l1.current }
    l2.scanToken

/-- The loop of `Lexer::tokenize`. -/
def Lexer.tokenizeLoop : Nat → Lexer → List Token → List Token × Lexer
  | 0, l, tokens => (tokens, l)
  | fuel + 1, l, tokens =>
    if l.isAtEnd then (tokens, l)
    else
      let r := l.nextToken
      if r.1.type = .EOF_TOKEN then (tokens ++ [r.1], r.2)
      else if r.2.hasError then (tokens ++ [r.1], r.2)
      else Lexer.tokenizeLoop fuel r.2 (tokens ++ [r.1])

/-- The method `Lexer::tokenize` on a fresh lexer; every iteration of its loop
consumes a character, so the length of the source is enough fuel. -/
def tokenize (source : Str) : List Token :=
  (Lexer.tokenizeLoop source.length (Lexer.new source) []).1


/-! ## `parser.hpp` / `parser.cpp`: the recursive-descent parser -/

/-- The class `ParseError`: the message and the location it is raised at. -/
structure ParseError where
  message : Str
  location : Location
  deriving DecidableEq, Repr

/-- The state of the class `Parser`.  `out_of_range` records whether
`tokens_[current_index_ - 1]` was ever read outside the vector. -/
structure Parser where
  tokens : List Token
  current_index : Nat
  errors : List ParseError
  in_scenario_outline : Bool
  current_parameters : List Str
  out_of_range : Bool
  deriving DecidableEq, Repr

/-- The constructor `Parser(std::vector<Token>)`. -/
def Parser.new (tokens : List Token) : Parser :=
  { tokens := tokens, current_index := 0, errors := [], in_scenario_outline := false
    current_parameters := [], out_of_range := false }

/-- The constructor `Parser(const std::string&)`. -/
def Parser.ofSource (source : Str) : Parser := Parser.new (tokenize source)

/-- The token `Token(TokenType::EOF_TOKEN, "", Location())` returned past the end. -/
def eofToken : Token :=
  { type := .EOF_TOKEN, value := [], location := { line := 1, column := 1, offset := 0 } }

/-- The method `Parser::current`. -/
def Parser.current (p : Parser) : Token := p.tokens.getD p.current_index eofToken

/-- The method `Parser::isAtEnd`. -/
def Parser.isAtEnd (p : Parser) : Bool := p.current.type = .EOF_TOKEN

/-- The method `Parser::check`. -/
def Parser.check (p : Parser) (type : TokenType) : Bool := p.current.type = type

/-- The method `Parser::advance`: the token read and the new state. -/
def Parser.advance (p : Parser) : Token × Parser :=
  let p1 := if !p.isAtEnd then { p with current_index := p.current_index + 1 } else p
  if p1.current_index = 0 ∨ p1.tokens.length < p1.current_index then
    (eofToken, { p1 with out_of_range := true })
  else (p1.tokens.getD (p1.current_index - 1) eofToken, p1)

/-- The method `Parser::match(TokenType)`. -/
def Parser.match_ (p : Parser) (type : TokenType) : Bool × Parser :=
  if p.check type then (true, (p.advance).2) else (false, p)

/-- The result of a parser method that may throw a `ParseError`: the error comes
with the parser state at the throw. -/
abbrev ParseResult (α : Type) := Except (ParseError × Parser) (α × Parser)

/-- The method `Parser::consume`. -/
def Parser.consume (p : Parser) (type : TokenType) (message : Str) : ParseResult Token :=
  if p.check type then .ok p.advance
  else .error ({ message := message, location := p.current.location }, p)

/-- The method `Parser::error`. -/
def Parser.error (p : Parser) (message : Str) : Parser :=
  { p with errors := p.errors ++ [{ message := message, location := p.current.location }] }

/-- The loop of `Parser::skipNewlines`. -/
def Parser.skipNewlinesLoop : Nat → Parser → Parser
  | 0, p => p
  | fuel + 1, p =>
    match p.match_ .NEWLINE with
    | (true, p1) => Parser.skipNewlinesLoop fuel p1
    | (false, p1) => p1

/-- The method `Parser::skipNewlines`; every iteration consumes a token. -/
def Parser.skipNewlines (p : Parser) : Parser :=
  Parser.skipNewlinesLoop (p.tokens.length + 1) p

/-- The loop of `Parser::skipToNextScenario`. -/
def Parser.skipToNextScenarioLoop : Nat → Parser → Parser
  | 0, p => p
  | fuel + 1, p =>
    if !p.isAtEnd then
      if p.check TokenType.SCENARIO || p.check .SCENARIO_OUTLINE then p
      else Parser.skipToNextScenarioLoop fuel (p.advance).2
    else p

/-- The method `Parser::skipToNextScenario`. -/
def Parser.skipToNextScenario (p : Parser) : Parser :=
  Parser.skipToNextScenarioLoop (p.tokens.length + 1) p

/-- The loop of `Parser::parseTags`. -/
def Parser.parseTagsLoop : Nat → Parser → List Str → List Str × Parser
  | 0, p, tags => (tags, p)
  | fuel + 1, p, tags =>
    if p.check .TAG then
      let r := p.advance
      let tags1 := tags ++ [r.1.value]
      if r.2.check .TAG then Parser.parseTagsLoop fuel r.2 tags1
      else
        let p2 := r.2.skipNewlines
        if !p2.check .TAG then (tags1, p2) else Parser.parseTagsLoop fuel p2 tags1
    else (tags, p)

/-- The method `Parser::parseTags`. -/
def Parser.parseTags (p : Parser) : List Str × Parser :=
  Parser.parseTagsLoop (p.tokens.length + 1) p []

/-- The loop of `Parser::parseText`. -/
def Parser.parseTextLoop : Nat → Parser → Str → Str × Parser
  | 0, p, text => (text, p)
  | fuel + 1, p, text =>
    if !p.isAtEnd && !p.check .NEWLINE then
      if p.check .TEXT || p.check .STRING || p.check .PARAMETER || p.check .NUMBER then
        let r := p.advance
        Parser.parseTextLoop fuel r.2 (text ++ r.1.value ++ [' '])
      else if p.check .COMMENT then (text, p)
      else Parser.parseTextLoop fuel (p.advance).2 text
    else (text, p)

/-- The method `Parser::parseText`: the trailing blank is removed. -/
def Parser.parseText (p : Parser) : Str × Parser :=
  let r := Parser.parseTextLoop (p.tokens.length + 1) p []
  (if r.1.getLast? = some ' ' then r.1.dropLast else r.1, r.2)

/-- The loop of `Parser::parseDescription`. -/
def Parser.parseDescriptionLoop : Nat → Parser → Str → Str × Parser
  | 0, p, description => (description, p)
  | fuel + 1, p, description =>
    if !p.isAtEnd then
      if p.check .GIVEN || p.check .WHEN || p.check .THEN || p.check TokenType.SCENARIO
          || p.check .SCENARIO_OUTLINE || p.check .BACKGROUND || p.check .EXAMPLES
          || p.check .TAG then
        (description, p)
      else if p.check .TEXT then
        let d1 := if !description.isEmpty then description ++ ['\n'] else description
        let r := p.advance
        Parser.parseDescriptionLoop fuel r.2 (d1 ++ r.1.value)
      else Parser.parseDescriptionLoop fuel (p.advance).2 description
    else (description, p)

/-- The method `Parser::parseDescription`. -/
def Parser.parseDescription (p : Parser) : Str × Parser :=
  Parser.parseDescriptionLoop (p.tokens.length + 1) p []

/-- The pieces that `std::getline(ss, cell, '|')` returns one after the other:
the text between the bars; no piece is returned for the empty text after the
last bar.  `cur` is the piece being read. -/
def splitBars : Str → Str → List Str
  | [], cur => if cur.isEmpty then [] else [cur]
  | c :: cs, cur => if c = '|' then cur :: splitBars cs [] else splitBars cs (cur ++ [c])

/-- The two `erase` calls of `parseDataTable`: blanks and tabs are removed at both ends. -/
def trimCell (cell : Str) : Str :=
  ((cell.dropWhile (fun c => c = ' ' || c = '\t')).reverse.dropWhile
    (fun c => c = ' ' || c = '\t')).reverse

/-- The row that `parseDataTable` builds from the value of one `TABLE_CELL` token. -/
def parseRow (cellContent : Str) : List Str :=
  ((splitBars cellContent []).map trimCell).filter (fun cell => !cell.isEmpty)

/-- The loop of `Parser::parseDataTable`. -/
def Parser.parseDataTableLoop : Nat → Parser → DataTable → DataTable × Parser
  | 0, p, table => (table, p)
  | fuel + 1, p, table =>
    if p.check .TABLE_CELL then
      let r := p.advance
      let row := parseRow r.1.value
      let table1 : DataTable := if !row.isEmpty then { rows := table.rows ++ [row] } else table
      Parser.parseDataTableLoop fuel r.2.skipNewlines table1
    else (table, p)

/-- The method `Parser::parseDataTable`. -/
def Parser.parseDataTable (p : Parser) : DataTable × Parser :=
  Parser.parseDataTableLoop (p.tokens.length + 1) p { rows := [] }

/-- The method `Parser::parseDocString`. -/
def Parser.parseDocString (p : Parser) : ParseResult DocString :=
  match p.consume .DOC_STRING "Expected doc string".toList with
  | .error e => .error e
  | .ok (docToken, p1) =>
    let content := docToken.value
    let firstLine := content.takeWhile (fun c => c ≠ '\n')
    if content.contains '\n' && 0 < firstLine.length
        && !firstLine.isEmpty && !firstLine.any (fun c => c = ' ' || c = '\t') then
      .ok ({ content := content.drop (firstLine.length + 1), contentType := firstLine }, p1)
    else .ok ({ content := content, contentType := [] }, p1)

/-- The method `Parser::parseStep`. -/
def Parser.parseStep (p : Parser) : ParseResult Step :=
  let typed : Option (StepType × Parser) :=
    match p.match_ .GIVEN with
    | (true, p1) => some (.GIVEN, p1)
    | (false, p1) =>
      match p1.match_ .WHEN with
      | (true, p2) => some (.WHEN, p2)
      | (false, p2) =>
        match p2.match_ .THEN with
        | (true, p3) => some (.THEN, p3)
        | (false, p3) =>
          match p3.match_ .AND with
          | (true, p4) => some (.AND, p4)
          | (false, p4) =>
            match p4.match_ .BUT with
            | (true, p5) => some (.BUT, p5)
            | (false, _) => none
  match typed with
  | none => .error ({ message := "Expected step keyword".toList, location := p.current.location }, p)
  | some (stepType, p1) =>
    let r := p1.parseText
    let p2 := r.2.skipNewlines
    if p2.check .TABLE_CELL then
      let t := p2.parseDataTable
      .ok ({ type := stepType, text := r.1, dataTable := some t.1, docString := none }, t.2)
    else if p2.check .DOC_STRING then
      match p2.parseDocString with
      | .error e => .error e
      | .ok (d, p3) =>
        .ok ({ type := stepType, text := r.1, dataTable := none, docString := some d }, p3)
    else .ok ({ type := stepType, text := r.1, dataTable := none, docString := none }, p2)

/-- The loop `while (!isAtEnd() && (check(GIVEN) || ... || check(BUT)))` shared by
`parseBackground`, `parseScenario` and `parseScenarioOutline`. -/
def Parser.parseStepsLoop : Nat → Parser → List Step → ParseResult (List Step)
  | 0, p, steps => .ok (steps, p)
  | fuel + 1, p, steps =>
    if !p.isAtEnd && (p.check .GIVEN || p.check .WHEN || p.check .THEN || p.check .AND
        || p.check .BUT) then
      match p.parseStep with
      | .error e => .error e
      | .ok (step, p1) => Parser.parseStepsLoop fuel p1.skipNewlines (steps ++ [step])
    else .ok (steps, p)

/-- The steps loop with the fuel of the token count. -/
def Parser.parseSteps (p : Parser) : ParseResult (List Step) :=
  Parser.parseStepsLoop (p.tokens.length + 1) p []

/-- The method `Parser::parseBackground`. -/
def Parser.parseBackground (p : Parser) : ParseResult Background :=
  match p.consume .BACKGROUND "Expected 'Background'".toList with
  | .error e => .error e
  | .ok (_, p1) =>
    let name := p1.parseText
    let description := name.2.skipNewlines.parseDescription
    match description.2.parseSteps with
    | .error e => .error e
    | .ok (steps, p2) => .ok ({ name := name.1, description := description.1, steps := steps }, p2)

/-- The method `Parser::parseScenario`. -/
def Parser.parseScenario (p : Parser) : ParseResult Scenario :=
  match p.consume TokenType.SCENARIO "Expected 'Scenario'".toList with
  | .error e => .error e
  | .ok (_, p1) =>
    let name := p1.parseText
    let description := name.2.skipNewlines.parseDescription
    match description.2.parseSteps with
    | .error e => .error e
    | .ok (steps, p2) =>
      .ok ({ name := name.1, description := description.1, tags := [], steps := steps }, p2)

/-- The loop of `Parser::validateExamples` over the parameters. -/
def Parser.validateParams (headers : List Str) : List Str → Parser → Parser
  | [], p => p
  | param :: rest, p =>
    Parser.validateParams headers rest
      (if !headers.contains param then
        p.error ("Parameter <".toList ++ param ++ "> not found in Examples table headers".toList)
      else p)

/-- The method `Parser::validateExamples`. -/
def Parser.validateExamples (p : Parser) (examples : Examples) (parameters : List Str) : Parser :=
  match examples.table with
  | none => p.error "Examples must have a data table".toList
  | some t => Parser.validateParams t.headers parameters p

/-- The method `Parser::parseExamples`. -/
def Parser.parseExamples (p : Parser) : ParseResult Examples :=
  match p.consume .EXAMPLES "Expected 'Examples'".toList with
  | .error e => .error e
  | .ok (_, p1) =>
    let name := p1.parseText
    let description := name.2.skipNewlines.parseDescription
    let tags := description.2.parseTags
    let p2 := tags.2.skipNewlines
    let examples : Examples :=
      { name := name.1, description := description.1, tags := tags.1, table := none }
    if p2.check .TABLE_CELL then
      let t := p2.parseDataTable
      let examples1 : Examples := { examples with table := some t.1 }
      if !t.2.current_parameters.isEmpty then
        .ok (examples1, t.2.validateExamples examples1 t.2.current_parameters)
      else .ok (examples1, t.2)
    else .ok (examples, p2)

/-- The loop `while (!isAtEnd() && check(TokenType::EXAMPLES))` of `parseScenarioOutline`. -/
def Parser.parseExamplesLoop : Nat → Parser → List Examples → ParseResult (List Examples)
  | 0, p, examples => .ok (examples, p)
  | fuel + 1, p, examples =>
    if !p.isAtEnd && p.check .EXAMPLES then
      match p.parseExamples with
      | .error e => .error e
      | .ok (ex, p1) => Parser.parseExamplesLoop fuel p1.skipNewlines (examples ++ [ex])
    else .ok (examples, p)

/-- The method `Parser::parseScenarioOutline`. -/
def Parser.parseScenarioOutline (p : Parser) : ParseResult ScenarioOutline :=
  let p0 := { p with in_scenario_outline := true }
  match p0.consume .SCENARIO_OUTLINE "Expected 'Scenario Outline'".toList with
  | .error e => .error e
  | .ok (_, p1) =>
    let name := p1.parseText
    let description := name.2.skipNewlines.parseDescription
    match description.2.parseSteps with
    | .error e => .error e
    | .ok (steps, p2) =>
      let outline : ScenarioOutline :=
        { name := name.1, description := description.1, tags := [], steps := steps, examples := [] }
      let p3 := { p2 with current_parameters := outline.extractParameters }
      match Parser.parseExamplesLoop (p3.tokens.length + 1) p3 [] with
      | .error e => .error e
      | .ok (examples, p4) =>
        .ok ({ outline with examples := examples }, { p4 with in_scenario_outline := false })

/-- The loop `while (check(TokenType::COMMENT)) { advance(); skipNewlines(); }`. -/
def Parser.skipCommentsLoop : Nat → Parser → Parser
  | 0, p => p
  | fuel + 1, p =>
    if p.check .COMMENT then Parser.skipCommentsLoop fuel (p.advance).2.skipNewlines else p

/-- The comment loop with the fuel of the token count. -/
def Parser.skipComments (p : Parser) : Parser :=
  Parser.skipCommentsLoop (p.tokens.length + 1) p

/-- The scenario loop `while (!isAtEnd())` of `Parser::parseFeature`. -/
def Parser.parseScenariosLoop : Nat → Parser → Feature → ParseResult Feature
  | 0, p, feature => .ok (feature, p)
  | fuel + 1, p, feature =>
    if !p.isAtEnd then
      let p1 := p.skipNewlines.skipComments
      if p1.isAtEnd then .ok (feature, p1)
      else
        let tags := p1.parseTags
        let p2 := tags.2.skipNewlines
        if p2.check .SCENARIO_OUTLINE then
          match p2.parseScenarioOutline with
          | .error e => .error e
          | .ok (outline, p3) =>
            Parser.parseScenariosLoop fuel p3
              { feature with
                scenario_outlines := feature.scenario_outlines
                  ++ [{ outline with tags := outline.tags ++ tags.1 }] }
        else if p2.check TokenType.SCENARIO then
          match p2.parseScenario with
          | .error e => .error e
          | .ok (scenario, p3) =>
            Parser.parseScenariosLoop fuel p3
              { feature with
                scenarios := feature.scenarios ++ [{ scenario with tags := scenario.tags ++ tags.1 }] }
        else if !p2.isAtEnd then
          Parser.parseScenariosLoop fuel
            (p2.error "Expected 'Scenario' or 'Scenario Outline'".toList).skipToNextScenario feature
        else Parser.parseScenariosLoop fuel p2 feature
    else .ok (feature, p)

/-- The method `Parser::parseFeature`. -/
def Parser.parseFeature (p : Parser) : ParseResult Feature :=
  let p1 := p.skipNewlines.skipComments
  let tags := p1.parseTags
  let p2 := tags.2.skipNewlines
  match p2.consume .FEATURE "Expected 'Feature' keyword".toList with
  | .error e => .error e
  | .ok (_, p3) =>
    let name := p3.parseText
    let description := name.2.skipNewlines.parseDescription
    let feature : Feature :=
      { name := name.1, description := description.1, tags := tags.1, background := none
        scenarios := [], scenario_outlines := [] }
    if description.2.check .BACKGROUND then
      match description.2.parseBackground with
      | .error e => .error e
      | .ok (bg, p4) =>
        Parser.parseScenariosLoop (p4.tokens.length + 1) p4 { feature with background := some bg }
    else Parser.parseScenariosLoop (description.2.tokens.length + 1) description.2 feature

/-- The method `Parser::parse`: the feature, or none after a thrown error, which
is appended to `errors_`. -/
def Parser.parse (p : Parser) : Option Feature × Parser :=
  match p.parseFeature with
  | .ok (feature, p1) => (some feature, p1)
  | .error (e, p1) => (none, { p1 with errors := p1.errors ++ [e] })

/-! ## `ASTPrinter` -/

/-- The function `stepTypeToString`. -/
def stepTypeToString : StepType → Str
  | .GIVEN => "Given".toList
  | .WHEN => "When".toList
  | .THEN => "Then".toList
  | .AND => "And".toList
  | .BUT => "But".toList

/-- The method `ASTPrinter::printIndent` at a given `indent_level_`. -/
def printIndent (level : Nat) : Str := (List.replicate level "  ".toList).flatten

/-- The tag lines printed at the head of a node. -/
def printTags (level : Nat) (tags : List Str) : Str :=
  (tags.map (fun tag => printIndent level ++ "@".toList ++ tag ++ "\n".toList)).flatten

/-- The description line printed one level deeper when the description is not empty. -/
def printDescription (level : Nat) (description : Str) : Str :=
  if !description.isEmpty then printIndent (level + 1) ++ description ++ "\n".toList else []

/-- The method `ASTPrinter::visitDataTable`. -/
def visitDataTable (level : Nat) (table : DataTable) : Str :=
  (table.rows.map (fun row =>
    printIndent level ++ "|".toList
      ++ (row.map (fun cell => " ".toList ++ cell ++ " |".toList)).flatten ++ "\n".toList)).flatten

/-- The lines that `std::getline` reads from a text: the pieces between
newlines, without a last empty piece. -/
def splitLines : Str → Str → List Str
  | [], cur => if cur.isEmpty then [] else [cur]
  | c :: cs, cur => if c = '\n' then cur :: splitLines cs [] else splitLines cs (cur ++ [c])

/-- The method `ASTPrinter::visitDocString`. -/
def visitDocString (level : Nat) (d : DocString) : Str :=
  printIndent level ++ [dquote, dquote, dquote] ++ d.contentType ++ "\n".toList
    ++ ((splitLines d.content []).map (fun line => printIndent level ++ line ++ "\n".toList)).flatten
    ++ printIndent level ++ [dquote, dquote, dquote] ++ "\n".toList

/-- The method `ASTPrinter::visitStep`. -/
def visitStep (level : Nat) (step : Step) : Str :=
  printIndent level ++ stepTypeToString step.type ++ " ".toList ++ step.text ++ "\n".toList
    ++ (match step.dataTable with
        | none => []
        | some t => visitDataTable (level + 1) t)
    ++ (match step.docString with
        | none => []
        | some d => visitDocString (level + 1) d)

/-- The method `ASTPrinter::visitBackground`. -/
def visitBackground (level : Nat) (b : Background) : Str :=
  printIndent level ++ "Background:".toList
    ++ (if !b.name.isEmpty then " ".toList ++ b.name else []) ++ "\n".toList
    ++ printDescription level b.description
    ++ (b.steps.map (visitStep (level + 1))).flatten ++ "\n".toList

/-- The method `ASTPrinter::visitScenario`. -/
def visitScenario (level : Nat) (s : Scenario) : Str :=
  printTags level s.tags
    ++ printIndent level ++ "Scenario: ".toList ++ s.name ++ "\n".toList
    ++ printDescription level s.description
    ++ (s.steps.map (visitStep (level + 1))).flatten

/-- The method `ASTPrinter::visitExamples`. -/
def visitExamples (level : Nat) (e : Examples) : Str :=
  printTags level e.tags
    ++ printIndent level ++ "Examples:".toList
    ++ (if !e.name.isEmpty then " ".toList ++ e.name else []) ++ "\n".toList
    ++ printDescription level e.description
    ++ (match e.table with
        | none => []
        | some t => visitDataTable (level + 1) t)

/-- The method `ASTPrinter::visitScenarioOutline`. -/
def visitScenarioOutline (level : Nat) (o : ScenarioOutline) : Str :=
  printTags level o.tags
    ++ printIndent level ++ "Scenario Outline: ".toList ++ o.name ++ "\n".toList
    ++ printDescription level o.description
    ++ (o.steps.map (visitStep (level + 1))).flatten
    ++ (o.examples.map (fun e => "\n".toList ++ visitExamples (level + 1) e)).flatten

/-- The method `ASTPrinter::visitFeature` of a fresh printer (`indent_level_ = 0`):
the text written to the stream. -/
def visitFeature (f : Feature) : Str :=
  printTags 0 f.tags
    ++ "Feature: ".toList ++ f.name ++ "\n".toList
    ++ printDescription 0 f.description
    ++ "\n".toList
    ++ (match f.background with
        | none => []
        | some b => visitBackground 1 b)
    ++ (f.scenarios.map (fun s => visitScenario 1 s ++ "\n".toList)).flatten
    ++ (f.scenario_outlines.map (fun o => visitScenarioOutline 1 o ++ "\n".toList)).flatten


/-! ### Sample documents -/

/-- A feature file with one scenario of two steps. -/
def docLogin : Str :=
  "Feature: Login\nScenario: Ok\n  Given I am on the \"login\" page\n  When I submit\n".toList

/-- The source of the test case "Step keywords are recognized" of `lexer_test.cpp`. -/
def docStepLines : Str :=
  ("\nGiven I am on the login page\nWhen I enter valid credentials\n"
    ++ "Then I should see the dashboard\nAnd I should see a welcome message\n"
    ++ "But I should not see an error\n").toList

/-- A feature file with an outline whose step names `<username>` and `<password>`,
an Examples table without a `password` column, and a scenario after the outline. -/
def docOutline : Str :=
  ("Feature: Login\nScenario Outline: Login\n  Given I log in as <username> with <password>\n"
    ++ "  Examples:\n    | username |\n    | bob |\nScenario: Next\n  Given \"a\" step\n").toList

/-- A token at the default location. -/
def mkTok (type : TokenType) (value : String) : Token :=
  { type := type, value := value.toList, location := { line := 1, column := 1, offset := 0 } }

/-- The outline of `docOutline` as a token vector in which the step text is one
`TEXT` token that holds both placeholders. -/
def tokensOutline : List Token :=
  [ mkTok .FEATURE "Feature", mkTok .TEXT "Login", mkTok .NEWLINE "NEWLINE",
    mkTok .SCENARIO_OUTLINE "Scenario Outline", mkTok .TEXT "Login", mkTok .NEWLINE "NEWLINE",
    mkTok .GIVEN "Given", mkTok .TEXT "I log in as <username> with <password>",
    mkTok .NEWLINE "NEWLINE",
    mkTok .EXAMPLES "Examples", mkTok .NEWLINE "NEWLINE",
    mkTok .TABLE_CELL " username |", mkTok .NEWLINE "NEWLINE",
    mkTok .TABLE_CELL " bob |", mkTok .NEWLINE "NEWLINE",
    mkTok TokenType.SCENARIO "Scenario", mkTok .TEXT "Next", mkTok .NEWLINE "NEWLINE" ]


/-- The token vector `tokensOutline` with a tag line between the Examples line
and its table. -/
def tokensOutlineTagged : List Token :=
  [ mkTok .FEATURE "Feature", mkTok .TEXT "Login", mkTok .NEWLINE "NEWLINE",
    mkTok .SCENARIO_OUTLINE "Scenario Outline", mkTok .TEXT "Login", mkTok .NEWLINE "NEWLINE",
    mkTok .GIVEN "Given", mkTok .TEXT "I log in as <username> with <password>",
    mkTok .NEWLINE "NEWLINE",
    mkTok .EXAMPLES "Examples", mkTok .NEWLINE "NEWLINE",
    mkTok .TAG "slow", mkTok .NEWLINE "NEWLINE",
    mkTok .TABLE_CELL " username |", mkTok .NEWLINE "NEWLINE",
    mkTok .TABLE_CELL " bob |", mkTok .NEWLINE "NEWLINE",
    mkTok TokenType.SCENARIO "Scenario", mkTok .TEXT "Next", mkTok .NEWLINE "NEWLINE" ]


/-- The number of tokens from the current one to the end of the vector. -/
def Parser.rem (p : Parser) : Nat := p.tokens.length - p.current_index

/-- The parser `q` reads the same token vector as `p`, at the same place or
further on. -/
def Parser.Reaches (p q : Parser) : Prop :=
  q.tokens = p.tokens ∧ p.current_index ≤ q.current_index

/-- The parser `q` reads the same token vector as `p`, at the same place or
further on, with the same recorded errors. -/
def Parser.Skips (p q : Parser) : Prop := p.Reaches q ∧ q.errors = p.errors

/-- The chain of `match` calls that opens `parseStep`: the type of the step
keyword at the current token and the parser after it, none without a keyword. -/
def Parser.stepKeyword (p : Parser) : Option (StepType × Parser) :=
  match p.match_ .GIVEN with
  | (true, p1) => some (.GIVEN, p1)
  | (false, p1) =>
    match p1.match_ .WHEN with
    | (true, p2) => some (.WHEN, p2)
    | (false, p2) =>
      match p2.match_ .THEN with
      | (true, p3) => some (.THEN, p3)
      | (false, p3) =>
        match p3.match_ .AND with
        | (true, p4) => some (.AND, p4)
        | (false, p4) =>
          match p4.match_ .BUT with
          | (true, p5) => some (.BUT, p5)
          | (false, _) => none

/-- The part of `parseStep` after the keyword: the text, then a table or a doc
string. -/
def Parser.stepRest (stepType : StepType) (p1 : Parser) : ParseResult Step :=
  let r := p1.parseText
  let p2 := r.2.skipNewlines
  if p2.check .TABLE_CELL then
    let t := p2.parseDataTable
    .ok ({ type := stepType, text := r.1, dataTable := some t.1, docString := none }, t.2)
  else if p2.check .DOC_STRING then
    match p2.parseDocString with
    | .error e => .error e
    | .ok (d, p3) =>
      .ok ({ type := stepType, text := r.1, dataTable := none, docString := some d }, p3)
  else .ok ({ type := stepType, text := r.1, dataTable := none, docString := none }, p2)

/-- Whether the current token is one of the five step keywords. -/
def Parser.atStep (p : Parser) : Bool :=
  p.check .GIVEN || p.check .WHEN || p.check .THEN || p.check .AND || p.check .BUT

/-- The tags read before a declaration and the parser at the declaration: the
steps `skipNewlines`, the comment loop, `parseTags`, `skipNewlines` that
`parseFeature` makes before the `Feature` keyword and before every scenario. -/
def Parser.declarationTags (p : Parser) : List Str × Parser :=
  let tags := p.skipNewlines.skipComments.parseTags
  (tags.1, tags.2.skipNewlines)

/-- The error that the scenario loop of `parseFeature` records. -/
def expectedScenario : Str := "Expected 'Scenario' or 'Scenario Outline'".toList

/-- The error that `parseFeature` throws without a `Feature` keyword. -/
def expectedFeature : Str := "Expected 'Feature' keyword".toList

/-- A feature of two scenarios with an `Examples` line after the steps of the
first, as a token vector. -/
def tokensRecover : List Token :=
  [ mkTok .FEATURE "Feature", mkTok .TEXT "F", mkTok .NEWLINE "NEWLINE",
    mkTok TokenType.SCENARIO "Scenario", mkTok .TEXT "A", mkTok .NEWLINE "NEWLINE",
    mkTok .GIVEN "Given", mkTok .TEXT "a step", mkTok .NEWLINE "NEWLINE",
    mkTok .EXAMPLES "Examples", mkTok .TEXT "junk", mkTok .NEWLINE "NEWLINE",
    mkTok TokenType.SCENARIO "Scenario", mkTok .TEXT "B", mkTok .NEWLINE "NEWLINE",
    mkTok .GIVEN "Given", mkTok .TEXT "b step", mkTok .NEWLINE "NEWLINE" ]

/-- The parser on `tokensRecover` after the steps of the first scenario, at the
`Examples` token. -/
def parserAfterSteps : Parser := { Parser.new tokensRecover with current_index := 9 }

/-- The feature of `tokensRecover` when its first scenario has been added. -/
def featureAfterSteps : Feature :=
  { name := "F".toList, description := [], tags := [], background := none
    scenarios := [{ name := "A".toList, description := [], tags := []
                    steps := [{ type := .GIVEN, text := "a step".toList, dataTable := none
                                docString := none }] }]
    scenario_outlines := [] }

/-- A document with a tag line before the `Examples` keyword. -/
def docTagBeforeExamples : Str :=
  "Feature: F\nScenario Outline: O\n@slow\nExamples:\n| a |\n| 1 |\nScenario: Next\n".toList

/-- The document with the tag line after the `Examples` line. -/
def docTagAfterExamples : Str :=
  "Feature: F\nScenario Outline: O\nExamples:\n@slow\n| a |\n| 1 |\nScenario: Next\n".toList

/-- A document that ends in a tag line. -/
def docStrayTag : Str := "Feature: F\nScenario: S\n@stray".toList

/-- A parser at a tag that is the last token. -/
def parserAtLastTag : Parser := Parser.new [mkTok .TAG "stray"]

/-- The lexer `l'` is at the same place of the source as `l` or further on, with
the same error message: its rest is an end piece of the rest of `l`. -/
def Lexer.Reads (l l' : Lexer) : Prop :=
  l'.rest <:+ l.rest ∧ l'.error_message = l.error_message

/-- The method `Lexer::getErrorMessage`. -/
def Lexer.getErrorMessage (l : Lexer) : Str := l.error_message

/-- The lexer as `Lexer::tokenize` leaves it. -/
def lexerAfterTokenize (source : Str) : Lexer :=
  (Lexer.tokenizeLoop source.length (Lexer.new source) []).2

/-- A document with an opening `"""` and no closing one. -/
def docUnterminated : Str := "Feature: F\n\"\"\"\nunterminated\n".toList

/-- The structural keywords with their token types. -/
def structuralKeywords : List (Str × TokenType) :=
  [("Feature".toList, .FEATURE), ("Background".toList, .BACKGROUND),
    ("Scenario".toList, TokenType.SCENARIO), ("Scenario Outline".toList, .SCENARIO_OUTLINE),
    ("Examples".toList, .EXAMPLES)]

/-- The characters that `skipWhitespace` skips. -/
def isBlank (c : Char) : Bool := c = ' ' || c = '\t' || c = '\r'

/-- The source of the lexer test `Lexer handles scenario outlines with parameters`. -/
def docOutlineParams : Str :=
  "\nScenario Outline: Login with <username> and <password>\n    Given I enter username \"<username>\"\n    And I enter password \"<password>\"\n    \nExamples:\n    | username | password |\n    | alice    | pass123  |\n    | bob      | secret   |\n".toList

/-- A step line with a placeholder after a run of words. -/
def docStepParam : Str := "Given I have <count> items\n".toList

/-- A step line with a string, an empty string in double quotes and an empty
string in single quotes. -/
def docEmptyStrings : Str := "When I enter \"Login\" then \"\" then ''\n".toList

/-- A comment of three blanks, an empty comment and a comment with text. -/
def docComments : Str := "#   \n#\n#  note\n".toList

/-- A table line of two cells. -/
def docTableRow : Str := "    | a | b |\n".toList

/-- A table line of three cells, the second of which is empty. -/
def docTableEmptyCell : Str := "| a |  | c |\n".toList

/-- A doc string with the content type `json` on its opening line. -/
def docStringTyped : Str := "\"\"\"json\nhello\nworld\n\"\"\"\n".toList

/-- A doc string without a content type. -/
def docStringUntyped : Str := "\"\"\"\nhello\nworld\n\"\"\"\n".toList

/-- The source of the lexer test `Lexer tracks line and column numbers`. -/
def docTwoLines : Str := "Feature: Test\nScenario: Example".toList

/-- The tokens of a type, in order. -/
def tokensOfType (type : TokenType) (tokens : List Token) : List Token :=
  tokens.filter (fun t => t.type = type)

/-- The tokens of a feature with one scenario and the step `Given a step`, up to
the end of the step line. -/
def tokensStepHeader : List Token :=
  [ mkTok .FEATURE "Feature", mkTok .TEXT "F", mkTok .NEWLINE "NEWLINE",
    mkTok TokenType.SCENARIO "Scenario", mkTok .TEXT "S", mkTok .NEWLINE "NEWLINE",
    mkTok .GIVEN "Given", mkTok .TEXT "a step", mkTok .NEWLINE "NEWLINE" ]

/-- The steps of the first scenario of the feature that `parse` returns. -/
def firstScenarioSteps (p : Parser) : List Step :=
  match (p.parse).1 with
  | some feature =>
    match feature.scenarios with
    | scenario :: _ => scenario.steps
    | [] => []
  | none => []

/-- The two views of the position of a lexer in its source agree: `rest` is the
source from the index `current` on. -/
def Lexer.Sync (source : Str) (l : Lexer) : Prop :=
  l.current ≤ source.length ∧ l.rest = source.drop l.current

/-- An empty quoted string. -/
def docEmptyQuoted : Str := "\"\"".toList

/-- A line with a quote that is not closed, followed by a second line. -/
def docUnclosedQuote : Str := "say \"abc\nnext".toList

/-- A line with a `<` that is not closed, followed by a second line. -/
def docUnclosedParameter : Str := "<abc\nnext".toList


/-- The second loop of `Feature::allScenarios`: the expansion of every outline is
appended; an exception of `expand` leaves the method. -/
def Feature.appendExpanded {ε : Type} (rx : RegexReplace ε) :
    List ScenarioOutline → List Scenario → Except ε (List Scenario)
  | [], all => .ok all
  | outline :: rest, all =>
    match outline.expand rx with
    | .error e => .error e
    | .ok expanded =>
      Feature.appendExpanded rx rest (expanded.foldl (fun all scenario => all ++ [scenario]) all)

/-- The method `Feature::allScenarios`: a clone of every regular scenario, made
of its name, description and tags (its steps are not copied), then the
expansion of every outline. -/
def Feature.allScenarios {ε : Type} (f : Feature) (rx : RegexReplace ε) :
    Except ε (List Scenario) :=
  let all := f.scenarios.foldl
    (fun all scenario =>
      all ++ [scenario.tags.foldl Scenario.addTag
        ((Scenario.new scenario.name).setDescription scenario.description)])
    []
  Feature.appendExpanded rx f.scenario_outlines all

/-- A regular scenario with a description, a tag and one step. -/
def scenarioLogin : Scenario :=
  { name := "Login".toList, description := "As a user".toList, tags := ["smoke".toList]
    steps := [stepLogin] }

/-- A feature with one regular scenario and one outline. -/
def featureLogin : Feature :=
  { name := "Login".toList, description := [], tags := [], background := none
    scenarios := [scenarioLogin], scenario_outlines := [outlineLogin] }


/-- The parser state that a method leaves, whether it returns or throws. -/
def resultState {α : Type} (r : ParseResult α) : Parser :=
  match r with
  | .ok (_, p) => p
  | .error (_, p) => p

/-- No read outside the token vector happens between the states `p` and `q`: if
none was recorded in `p`, none is recorded in `q`. -/
def Parser.Within (p q : Parser) : Prop := p.out_of_range = false → q.out_of_range = false

/-- A token vector that does not end with an `EOF_TOKEN`: a feature line only. -/
def tokensNoEof : List Token := [mkTok .FEATURE "Feature", mkTok .TEXT "F"]


/-- The scenario that the sample outline expands to for its data row. -/
def expandedLogin : Scenario :=
  { name := "Login of bob".toList, description := [], tags := ["web".toList, "fast".toList]
    steps := [{ type := .GIVEN, text := "bob!".toList,
                dataTable := some { rows := [["bob".toList, "x".toList]] },
                docString := some { content := "abob".toList, contentType := [] } }] }

/-- A piece of a text: a character, or a placeholder `<name>`. -/
inductive Piece where
  | char (c : Char)
  | hole (name : Str)
  deriving DecidableEq, Repr

/-- The text of a piece. -/
def Piece.render : Piece → Str
  | .char c => [c]
  | .hole name => '<' :: name ++ ['>']

/-- A piece as the specification reads a text: a character other than `<`, or a
placeholder whose name is not empty and has no `>`. -/
def Piece.WellFormed : Piece → Prop
  | .char c => c ≠ '<'
  | .hole name => name ≠ [] ∧ '>' ∉ name

instance (p : Piece) : Decidable p.WellFormed := by
  cases p <;> unfold Piece.WellFormed <;> exact inferInstance

/-- The names of the placeholders of a list of pieces, in order. -/
def holeNames : List Piece → List Str
  | [] => []
  | .char _ :: ps => holeNames ps
  | .hole name :: ps => name :: holeNames ps

end Gherkin

/-- A pass that replaces every non-overlapping match by the fixed text `rep`. -/
def replaceMatches (matchAt : Str → Option Nat) (rep text : Str) : Str :=
  scanReplace matchAt (fun _ _ _ => rep) 0 [] text

/-- The loop `while ((pos = result.find(pat, pos)) != npos) { result.replace(pos,
pat.length(), rep); pos += rep.length(); }`. -/
def findReplaceAll (pat rep text : Str) : Str := replaceMatches (litAt pat) rep text

/-- The class `\w` of an ECMAScript regex in the C locale. -/
def isWordChar (c : Char) : Bool := c.isAlphanum || c = '_'

/-- Length of a match of `\w*\}` at the head of a text. -/
def wordClose : Str → Option Nat
  | [] => none
  | c :: cs =>
    if c = '}' then some 1
    else if isWordChar c then (wordClose cs).map (fun n => n + 1)
    else none

/-- Length of a match of `\w+\}` at the head of a text. -/
def genericTail : Str → Option Nat
  | [] => none
  | c :: cs => if isWordChar c then (wordClose cs).map (fun n => n + 2) else none

/-- Length of a match of the regex `\{\w+\}` at the head of a text. -/
def genericAt : Str → Option Nat
  | [] => none
  | c :: cs => if c = '{' then genericTail cs else none

namespace Cucumber

/-! ## `step_registry.cpp`: Cucumber expressions -/

/-- The constant `CucumberExpressions::INT_PATTERN`. -/
def INT_PATTERN : Str := "(-?\\d+)".toList

/-- The constant `CucumberExpressions::FLOAT_PATTERN`. -/
def FLOAT_PATTERN : Str := "(-?\\d+\\.\\d+)".toList

/-- The constant `CucumberExpressions::STRING_PATTERN`. -/
def STRING_PATTERN : Str := "\"([^\"]*)\"".toList

/-- The constant `CucumberExpressions::WORD_PATTERN`. -/
def WORD_PATTERN : Str := "(\\w+)".toList

/-- The replacement `(.+)` of a generic placeholder. -/
def ANY_PATTERN : Str := "(.+)".toList

/-- The first loop of `toRegex`: `{int}` becomes `INT_PATTERN`. -/
def passInt (text : Str) : Str := findReplaceAll "{int}".toList INT_PATTERN text

/-- The second loop of `toRegex`: `{float}` becomes `FLOAT_PATTERN`. -/
def passFloat (text : Str) : Str := findReplaceAll "{float}".toList FLOAT_PATTERN text

/-- The third loop of `toRegex`: `{string}` becomes `STRING_PATTERN`. -/
def passString (text : Str) : Str := findReplaceAll "{string}".toList STRING_PATTERN text

/-- The fourth loop of `toRegex`: `{word}` becomes `WORD_PATTERN`. -/
def passWord (text : Str) : Str := findReplaceAll "{word}".toList WORD_PATTERN text

/-- The call `std::regex_replace(result, std::regex("\\{\\w+\\}"), "(.+)")` of `toRegex`. -/
def passGeneric (text : Str) : Str :=
  scanReplace genericAt (fun m pre suf => regexFormat m pre suf ANY_PATTERN) 0 [] text

/-- The function `CucumberExpressions::toRegex`: four `find`/`replace` loops, then
the replacement of the remaining placeholders, then the anchors. -/
def toRegex (expression : Str) : Str :=
  "^".toList ++ passGeneric (passWord (passString (passFloat (passInt expression)))) ++ "$".toList

/-- The placeholder that starts a text, in the words of the specification: the
number of characters it takes and the group that stands for it. -/
def placeholderAt (s : Str) : Option (Nat × Str) :=
  if "{int}".toList.isPrefixOf s then some (5, INT_PATTERN)
  else if "{float}".toList.isPrefixOf s then some (7, FLOAT_PATTERN)
  else if "{string}".toList.isPrefixOf s then some (8, STRING_PATTERN)
  else if "{word}".toList.isPrefixOf s then some (6, WORD_PATTERN)
  else
    match genericAt s with
    | some n => some (n, ANY_PATTERN)
    | none => none

/-- The expression with every placeholder replaced by its group and all other
text unchanged, in the words of the specification (`skip` counts the characters
of the current placeholder still to be passed). -/
def expandPlaceholders : Nat → Str → Str
  | _, [] => []
  | skip + 1, _ :: cs => expandPlaceholders skip cs
  | 0, c :: cs =>
    match placeholderAt (c :: cs) with
    | some (n, rep) => rep ++ expandPlaceholders (n - 1) cs
    | none => c :: expandPlaceholders 0 cs

/-! ## `step_registry.cpp`: step definitions

`std::regex` is modelled for the regular expressions that `toRegex` writes for a
pattern whose literal text has no regex metacharacter but the dot: a sequence of
literal characters, of dots and of the five capture groups.  Any other regular
expression is outside the model and matches nothing in it. -/

/-- One element of a modelled regular expression. -/
inductive Item where
  | lit (c : Char)
  | int
  | float
  | str
  | word
  | any
  | dot
  deriving DecidableEq, Repr

/-- The group whose text starts a regular expression, with the length of that text. -/
def groupAt (s : Str) : Option (Nat × Item) :=
  if INT_PATTERN.isPrefixOf s then some (INT_PATTERN.length, .int)
  else if FLOAT_PATTERN.isPrefixOf s then some (FLOAT_PATTERN.length, .float)
  else if STRING_PATTERN.isPrefixOf s then some (STRING_PATTERN.length, .str)
  else if WORD_PATTERN.isPrefixOf s then some (WORD_PATTERN.length, .word)
  else if ANY_PATTERN.isPrefixOf s then some (ANY_PATTERN.length, .any)
  else none

/-- The elements of the text between the anchors of a regular expression; a dot
outside the five groups is the wildcard; none when another metacharacter stands
outside the groups (`skip` counts the characters of the current group still to
be passed). -/
def compileBody : Nat → Str → Option (List Item)
  | _, [] => some []
  | skip + 1, _ :: cs => compileBody skip cs
  | 0, c :: cs =>
    match groupAt (c :: cs) with
    | some (n, g) => (compileBody (n - 1) cs).map (fun items => g :: items)
    | none =>
      if c = '.' then (compileBody 0 cs).map (fun items => .dot :: items)
      else if isRegexMeta c then none else (compileBody 0 cs).map (fun items => .lit c :: items)

/-- The constructor `std::regex(regexPattern)` for an anchored regular expression. -/
def compileRegex (re : Str) : Option (List Item) :=
  match re with
  | [] => none
  | c :: body =>
    if c = '^' && body.getLast? = some '$' then compileBody 0 body.dropLast else none

/-- The text without a leading minus sign. -/
def dropMinus : Str → Str
  | [] => []
  | c :: cs => if c = '-' then cs else c :: cs

/-- A full match of `-?\d+`. -/
def isIntText (p : Str) : Bool := !(dropMinus p).isEmpty && (dropMinus p).all Char.isDigit

/-- A full match of `-?\d+\.\d+`. -/
def isFloatText (p : Str) : Bool :=
  let d := dropMinus p
  let a := d.takeWhile Char.isDigit
  match d.dropWhile Char.isDigit with
  | [] => false
  | c :: b => !a.isEmpty && c = '.' && !b.isEmpty && b.all Char.isDigit

/-- A full match of `"[^"]*"`. -/
def isQuotedText (p : Str) : Bool :=
  match p with
  | [] => false
  | c :: cs =>
    c = dquote && cs.getLast? = some dquote && cs.dropLast.all (fun d => d ≠ dquote)

/-- A full match of `\w+`. -/
def isWordText (p : Str) : Bool := !p.isEmpty && p.all isWordChar

/-- A full match of `.+`: the dot matches every character but a line terminator. -/
def isAnyText (p : Str) : Bool := !p.isEmpty && p.all (fun c => c ≠ '\n' && c ≠ '\r')

/-- Whether an element is a capture group. -/
def Item.isGroup : Item → Bool
  | .lit _ => false
  | .dot => false
  | _ => true

/-- Whether a group matches the whole of a text. -/
def Item.accepts : Item → Str → Bool
  | .lit c, p => p = [c]
  | .int, p => isIntText p
  | .float, p => isFloatText p
  | .str, p => isQuotedText p
  | .word, p => isWordText p
  | .any, p => isAnyText p
  | .dot, p => p.length = 1 && isAnyText p

/-- The sub-match of a group for the text it matches: the parentheses of the
string group stand inside the quotes. -/
def Item.capture : Item → Str → Str
  | .str, p => p.tail.dropLast
  | _, p => p

/-- The ways to cut a text in two, the longest first part first. -/
def splitsDesc (text : Str) : List (Str × Str) :=
  (List.range (text.length + 1)).reverse.map (fun n => (text.take n, text.drop n))

/-- The function `std::regex_match` on the elements of a regular expression:
the sub-matches of the first full match in the order of the backtracking
matcher (every group takes as much as it can), none without a match. -/
def matchItems : List Item → Str → Option (List Str)
  | [], text => if text.isEmpty then some [] else none
  | .lit c :: items, text =>
    match text with
    | [] => none
    | t :: ts => if c = t then matchItems items ts else none
  | .dot :: items, text =>
    match text with
    | [] => none
    | t :: ts => if t ≠ '\n' ∧ t ≠ '\r' then matchItems items ts else none
  | g :: items, text =>
    (splitsDesc text).findSome? (fun ps =>
      if g.accepts ps.1 then (matchItems items ps.2).map (fun caps => g.capture ps.1 :: caps)
      else none)

/-- The call `std::regex_match(stepText, match, regex_)`: the sub-matches
`match[1]`, `match[2]`, ... when the text matches. -/
def regexMatch (re text : Str) : Option (List Str) :=
  match compileRegex re with
  | none => none
  | some items => matchItems items text

/-- The call `std::regex_search(temp, match, std::regex("\\{(\\w+)\\}"))`: the
leftmost match as the pair of `match[1]` and `match.suffix()`. -/
def searchType : Str → Option (Str × Str)
  | [] => none
  | c :: cs =>
    match genericAt (c :: cs) with
    | some n => some (cs.take (n - 2), cs.drop (n - 1))
    | none => searchType cs

/-- The loop `while (std::regex_search(temp, match, paramRegex))` of `parsePattern`. -/
def collectTypes : Nat → Str → List Str → List Str
  | 0, _, types => types
  | fuel + 1, temp, types =>
    match searchType temp with
    | none => types
    | some (name, suffix) => collectTypes fuel suffix (types ++ [name])

/-- The state of a `StepDefinition` after its constructor (without the handler). -/
structure StepDefinition where
  pattern : Str
  regex : Str
  parameterTypes : List Str
  deriving DecidableEq, Repr

/-- The method `StepDefinition::parsePattern`, run by the constructor: the regex
is compiled from `toRegex(pattern_)` as it is (the escaped copy is not used). -/
def StepDefinition.new (pattern : Str) : StepDefinition :=
  { pattern := pattern
    regex := toRegex pattern
    parameterTypes := collectTypes pattern.length pattern [] }

/-- The method `StepDefinition::matches`. -/
def StepDefinition.matches (sd : StepDefinition) (stepText : Str) : Bool :=
  (regexMatch sd.regex stepText).isSome

/-- The exceptions of `std::stoi` and `std::stod`. -/
inductive ConvError where
  | invalid_argument
  | out_of_range
  deriving DecidableEq, Repr

/-- A value held by the `std::any` of a parameter; `D` stands for `double`. -/
inductive ParamValue (D : Type) where
  | int (i : Int)
  | double (d : D)
  | bool (b : Bool)
  | string (s : Str)
  deriving DecidableEq, Repr

/-- The number written by a run of decimal digits. -/
def digitsToNat (ds : Str) : Nat := ds.foldl (fun acc c => 10 * acc + digitVal c) 0

/-- The white space that `std::stoi` skips. -/
def isSpaceChar (c : Char) : Bool :=
  c = ' ' || c = '\t' || c = '\n' || c = '\r' || c = Char.ofNat 11 || c = Char.ofNat 12

/-- The function `std::stoi`: white space, an optional sign, decimal digits; the
result must fit a 32-bit `int`. -/
def stoi (s : Str) : Except ConvError Int :=
  let s1 := s.dropWhile isSpaceChar
  let negative := s1.head? = some '-'
  let s2 := if s1.head? = some '-' || s1.head? = some '+' then s1.tail else s1
  let ds := s2.takeWhile Char.isDigit
  if ds.isEmpty then .error .invalid_argument
  else
    let i : Int := if negative then -(digitsToNat ds : Int) else (digitsToNat ds : Int)
    if i < -(2 : Int) ^ 31 ∨ (2 : Int) ^ 31 - 1 < i then .error .out_of_range else .ok i

/-- The method `StepDefinition::convertParameter`; `stod` stands for `std::stod`. -/
def convertParameter {D : Type} (stod : Str → Except ConvError D) (value type : Str) :
    Except ConvError (ParamValue D) :=
  if type = "int".toList then (stoi value).map .int
  else if type = "float".toList ∨ type = "double".toList then (stod value).map .double
  else if type = "bool".toList then
    .ok (.bool (value = "true".toList || value = "yes".toList || value = "1".toList))
  else .ok (.string value)

/-- The loop of `StepDefinition::extractParameters` over the sub-matches: the
type of a sub-match without a declared type is `string`; an exception of a
conversion ends the loop. -/
def convertAll {D : Type} (stod : Str → Except ConvError D) :
    List Str → List Str → Except ConvError (List (ParamValue D))
  | [], _ => .ok []
  | value :: values, types =>
    match convertParameter stod value (types.head?.getD "string".toList) with
    | .error e => .error e
    | .ok v =>
      match convertAll stod values types.tail with
      | .error e => .error e
      | .ok vs => .ok (v :: vs)

/-- The method `StepDefinition::extractParameters`: no parameter when the text
does not match. -/
def StepDefinition.extractParameters {D : Type} (stod : Str → Except ConvError D)
    (sd : StepDefinition) (stepText : Str) : Except ConvError (List (ParamValue D)) :=
  match regexMatch sd.regex stepText with
  | none => .ok []
  | some values => convertAll stod values sd.parameterTypes

/-- A piece of a pattern: a literal character or a placeholder `{name}`. -/
inductive Seg where
  | lit (c : Char)
  | hole (name : Str)
  deriving DecidableEq, Repr

/-- The text of a piece. -/
def Seg.render : Seg → Str
  | .lit c => [c]
  | .hole name => '{' :: (name ++ ['}'])

/-- The pattern string made of pieces. -/
def renderPattern (segs : List Seg) : Str := (segs.map Seg.render).flatten

/-- The names of the placeholders of a pattern, in order. -/
def holeNames : List Seg → List Str
  | [] => []
  | .lit _ :: segs => holeNames segs
  | .hole name :: segs => name :: holeNames segs

/-- A pattern made of literal text without regex metacharacter and of
placeholders with a name of word characters. -/
def PlainPattern (segs : List Seg) : Prop :=
  ∀ s ∈ segs,
    match s with
    | .lit c => isRegexMeta c = false
    | .hole name => name ≠ [] ∧ ∀ c ∈ name, isWordChar c = true

/-- The group of the regular expression for a placeholder name. -/
def itemOfName (name : Str) : Item :=
  if "int".toList = name then .int
  else if "float".toList = name then .float
  else if "string".toList = name then .str
  else if "word".toList = name then .word
  else .any

/-- The text of the group that stands for a placeholder name. -/
def groupText (name : Str) : Str :=
  if "int".toList = name then INT_PATTERN
  else if "float".toList = name then FLOAT_PATTERN
  else if "string".toList = name then STRING_PATTERN
  else if "word".toList = name then WORD_PATTERN
  else ANY_PATTERN

/-- The text that a piece of a pattern contributes to the regular expression. -/
def Seg.regexText : Seg → Str
  | .lit c => [c]
  | .hole name => groupText name

/-- The regular expression of a pattern between its anchors. -/
def regexOfSegs (segs : List Seg) : Str := (segs.map Seg.regexText).flatten

/-- The element of the regular expression for a piece of a pattern. -/
def Seg.item : Seg → Item
  | .lit c => .lit c
  | .hole name => itemOfName name

/-- The text that a sequence of elements matches with given sub-matches: a
literal character stands for itself, a group for its sub-match, within quotes
for the string group. -/
def assemble : List Item → List Str → Str
  | [], _ => []
  | .lit c :: items, caps => c :: assemble items caps
  | .str :: items, cap :: caps => dquote :: (cap ++ dquote :: assemble items caps)
  | _ :: items, cap :: caps => cap ++ assemble items caps
  | _ :: _, [] => []

/-- A stand-in for `std::stod` on the samples: the text itself. -/
def stodText (s : Str) : Except ConvError Str := .ok s


/-- The shape of the sub-match of a group: the text that the group's regular
expression matches (for the string group: without a quote). -/
def capShape : Item → Str → Prop
  | .lit _, _ => True
  | .int, cap => isIntText cap = true
  | .float, cap => isFloatText cap = true
  | .str, cap => dquote ∉ cap
  | .word, cap => isWordText cap = true
  | .any, cap => isAnyText cap = true
  | .dot, _ => True

/-- The integer written by a text of the form `-?\d+`. -/
def intOfText (v : Str) : Int :=
  if v.head? = some '-' then -(digitsToNat v.tail : Int) else (digitsToNat v : Int)

/-- The pattern `n={int}` as pieces. -/
def segsCount : List Seg := [.lit 'n', .lit '=', .hole "int".toList]


/-! ## `step_registry.hpp` / `step_registry.cpp`: the step context and the registry -/

/-- The call `m.find(key)` on a map from strings, as the value found. -/
def mapFind {α : Type} : List (Str × α) → Str → Option α
  | [], _ => none
  | (k, v) :: m, key => if k = key then some v else mapFind m key

/-- The assignment `m[key] = value` on a map from strings: the value of an
existing key is replaced, a new key is added. -/
def mapSet {α : Type} : List (Str × α) → Str → α → List (Str × α)
  | [], key, value => [(key, value)]
  | (k, v) :: m, key, value =>
    if k = key then (k, value) :: m else (k, v) :: mapSet m key value

/-- The enumeration `Step::Type` of `gherkin_parser.hpp`. -/
inductive StepType where
  | GIVEN | WHEN | THEN | AND | BUT
  deriving DecidableEq, Repr

/-- The class `Step` of `gherkin_parser.hpp`: the table is held by its rows, the
doc string by its content and content type. -/
structure Step where
  type : StepType
  text : Str
  line : Int
  dataTable : Option (List (List Str))
  docString : Option (Str × Str)
  deriving DecidableEq, Repr

/-- The constructor `Step(type, text, line)`. -/
def Step.new (type : StepType) (text : Str) (line : Int) : Step :=
  { type := type, text := text, line := line, dataTable := none, docString := none }

/-- An exception raised by a method of `StepContext`, by a hook or by a handler. -/
inductive StepError where
  | runtime_error (what : Str)
  | out_of_range (what : Str)
  | bad_any_cast
  | conversion (e : ConvError)
  | assertion_failed
  deriving DecidableEq, Repr

/-- The class `StepContext`: the step, the parameters and the member
`sharedData_`.  A `std::any` holds an `int`, a `double`, a `bool` or a string. -/
structure StepContext (D : Type) where
  step : Step
  parameters : List (ParamValue D)
  sharedData : List (Str × ParamValue D)
  deriving DecidableEq, Repr

/-- The constructor `StepContext(step, params)`: `sharedData_` starts empty. -/
def StepContext.new {D : Type} (step : Step) (params : List (ParamValue D)) : StepContext D :=
  { step := step, parameters := params, sharedData := [] }

/-- The call `std::any_cast<int>`. -/
def anyCastInt {D : Type} : ParamValue D → Option Int
  | .int i => some i
  | _ => none

/-- The call `std::any_cast<double>`. -/
def anyCastDouble {D : Type} : ParamValue D → Option D
  | .double d => some d
  | _ => none

/-- The call `std::any_cast<bool>`. -/
def anyCastBool {D : Type} : ParamValue D → Option Bool
  | .bool b => some b
  | _ => none

/-- The call `std::any_cast<std::string>`. -/
def anyCastString {D : Type} : ParamValue D → Option Str
  | .string s => some s
  | _ => none

/-- The method `StepContext::getInt`: the `int` of the parameter, or `std::stoi`
of a string parameter. -/
def StepContext.getInt {D : Type} (ctx : StepContext D) (index : Nat) : Except StepError Int :=
  match ctx.parameters.get? index with
  | none => .error (.out_of_range "Parameter index out of range".toList)
  | some (.int i) => .ok i
  | some (.string s) =>
    match stoi s with
    | .ok i => .ok i
    | .error e => .error (.conversion e)
  | some _ => .error .bad_any_cast

/-- The method `StepContext::set`: `sharedData_[key] = value`. -/
def StepContext.set {D : Type} (ctx : StepContext D) (key : Str) (value : ParamValue D) :
    StepContext D :=
  { ctx with sharedData := mapSet ctx.sharedData key value }

/-- The method `StepContext::get<T>(key)`; `cast` stands for `std::any_cast<T>`. -/
def StepContext.get {D T : Type} (cast : ParamValue D → Option T) (ctx : StepContext D)
    (key : Str) : Except StepError T :=
  match mapFind ctx.sharedData key with
  | none => .error (.runtime_error ("Shared data key not found: ".toList ++ key))
  | some value =>
    match cast value with
    | some t => .ok t
    | none => .error .bad_any_cast

/-- The method `StepContext::hasKey`. -/
def StepContext.hasKey {D : Type} (ctx : StepContext D) (key : Str) : Bool :=
  (mapFind ctx.sharedData key).isSome

/-- A sequence of calls of `set`, one per pair. -/
def StepContext.setAll {D : Type} (ctx : StepContext D) :
    List (Str × ParamValue D) → StepContext D
  | [] => ctx
  | (key, value) :: rest => (ctx.set key value).setAll rest

/-- The type `StepFunction`: a handler works on the context it is given and ends
normally, with the context as it left it, or in an exception. -/
abbrev StepFunction (D : Type) := StepContext D → Except StepError (StepContext D)

/-- The type `Hooks::HookFunction`, a `std::function<void()>`, by how a call ends. -/
abbrev HookFunction := Except StepError Unit

/-- The static members `beforeStepHooks_` and `afterStepHooks_` of `Hooks`. -/
structure Hooks where
  beforeStepHooks : List HookFunction
  afterStepHooks : List HookFunction

/-- The loops of `executeBeforeStepHooks` and `executeAfterStepHooks`: the hooks
run in order; the first exception ends the loop. -/
def runStepHooks : List HookFunction → Except StepError Unit
  | [] => .ok ()
  | .error e :: _ => .error e
  | .ok _ :: hooks => runStepHooks hooks

/-- A `StepDefinition` with its member `function_`. -/
structure RegisteredStep (D : Type) where
  definition : StepDefinition
  function : StepFunction D

/-- How a call of `executeStep` ends in an exception: by its own `throw`, in
`extractParameters`, in a hook or in the handler. -/
inductive ExecError where
  | no_step_definition (what : Str)
  | extract (e : ConvError)
  | before_step_hook (e : StepError)
  | handler (e : StepError)
  | after_step_hook (e : StepError)
  deriving DecidableEq, Repr

/-- The method `StepDefinition::execute`: the hooks before the step, the handler,
the hooks after the step. -/
def RegisteredStep.execute {D : Type} (hooks : Hooks) (sd : RegisteredStep D)
    (context : StepContext D) : Except ExecError (StepContext D) :=
  match runStepHooks hooks.beforeStepHooks with
  | .error e => .error (.before_step_hook e)
  | .ok _ =>
    match sd.function context with
    | .error e => .error (.handler e)
    | .ok context1 =>
      match runStepHooks hooks.afterStepHooks with
      | .error e => .error (.after_step_hook e)
      | .ok _ => .ok context1

/-- The class `StepRegistry`: the member `steps_`, an unordered map from the step
type to the definitions in registration order; the pairs stand in the order in
which the map is iterated. -/
structure StepRegistry (D : Type) where
  steps : List (StepType × List (RegisteredStep D))

/-- The call `steps_.find(type)`. -/
def StepRegistry.find {D : Type} :
    List (StepType × List (RegisteredStep D)) → StepType → Option (List (RegisteredStep D))
  | [], _ => none
  | (t, defs) :: rest, type => if t = type then some defs else StepRegistry.find rest type

/-- The statement `steps_[type].push_back(stepDef)`.  Where a new key stands in
the iteration order of an unordered map is unspecified; it is put first here. -/
def StepRegistry.pushBack {D : Type} :
    List (StepType × List (RegisteredStep D)) → StepType → RegisteredStep D →
      Option (List (StepType × List (RegisteredStep D)))
  | [], _, _ => none
  | (t, defs) :: rest, type, sd =>
    if t = type then some ((t, defs ++ [sd]) :: rest)
    else (StepRegistry.pushBack rest type sd).map (fun rest1 => (t, defs) :: rest1)

/-- The method `StepRegistry::registerStep`. -/
def StepRegistry.registerStep {D : Type} (r : StepRegistry D) (type : StepType) (pattern : Str)
    (func : StepFunction D) : StepRegistry D :=
  let stepDef : RegisteredStep D := { definition := StepDefinition.new pattern, function := func }
  match StepRegistry.pushBack r.steps type stepDef with
  | some steps => { steps := steps }
  | none => { steps := (type, [stepDef]) :: r.steps }

/-- The method `StepRegistry::registerGiven`. -/
def StepRegistry.registerGiven {D : Type} (r : StepRegistry D) (pattern : Str)
    (func : StepFunction D) : StepRegistry D := r.registerStep .GIVEN pattern func

/-- The method `StepRegistry::registerWhen`. -/
def StepRegistry.registerWhen {D : Type} (r : StepRegistry D) (pattern : Str)
    (func : StepFunction D) : StepRegistry D := r.registerStep .WHEN pattern func

/-- The method `StepRegistry::registerThen`. -/
def StepRegistry.registerThen {D : Type} (r : StepRegistry D) (pattern : Str)
    (func : StepFunction D) : StepRegistry D := r.registerStep .THEN pattern func

/-- The method `StepRegistry::resolveStepType`. -/
def resolveStepType (type : StepType) : StepType :=
  if type = .AND ∨ type = .BUT then .GIVEN else type

/-- The loop `for (const auto& stepDef : definitions)` with its `return`: the
first definition that matches the text. -/
def firstMatching {D : Type} : List (RegisteredStep D) → Str → Option (RegisteredStep D)
  | [], _ => none
  | sd :: defs, stepText =>
    if sd.definition.matches stepText then some sd else firstMatching defs stepText

/-- The loop `for (const auto& [stepType, definitions] : steps_)` of `findStep`. -/
def firstMatchingAll {D : Type} :
    List (StepType × List (RegisteredStep D)) → Str → Option (RegisteredStep D)
  | [], _ => none
  | (_, defs) :: rest, stepText =>
    match firstMatching defs stepText with
    | some sd => some sd
    | none => firstMatchingAll rest stepText

/-- The method `StepRegistry::findStep`: the definitions of the resolved type
first, then those of all types; none stands for `nullptr`. -/
def StepRegistry.findStep {D : Type} (r : StepRegistry D) (type : StepType) (stepText : Str) :
    Option (RegisteredStep D) :=
  let actualType := resolveStepType type
  let specific : Option (RegisteredStep D) :=
    match StepRegistry.find r.steps actualType with
    | some defs => firstMatching defs stepText
    | none => none
  match specific with
  | some sd => some sd
  | none => firstMatchingAll r.steps stepText

/-- The method `StepRegistry::executeStep`: the result is the context as the
handler left it, just before it is destroyed at the end of the call. -/
def StepRegistry.executeStep {D : Type} (stod : Str → Except ConvError D) (hooks : Hooks)
    (r : StepRegistry D) (step : Step) : Except ExecError (StepContext D) :=
  match r.findStep step.type step.text with
  | none => .error (.no_step_definition ("No step definition found for: ".toList ++ step.text))
  | some stepDef =>
    match stepDef.definition.extractParameters stod step.text with
    | .error e => .error (.extract e)
    | .ok parameters => stepDef.execute hooks (StepContext.new step parameters)

/-- The definitions of all step types, in the order in which `findStep` goes
through the map. -/
def StepRegistry.definitions {D : Type} (r : StepRegistry D) : List (RegisteredStep D) :=
  (r.steps.map Prod.snd).flatten

/-- What `executeStep` does with the definition that `findStep` returns. -/
def StepRegistry.runDefinition {D : Type} (stod : Str → Except ConvError D) (hooks : Hooks)
    (stepDef : RegisteredStep D) (step : Step) : Except ExecError (StepContext D) :=
  match stepDef.definition.extractParameters stod step.text with
  | .error e => .error (.extract e)
  | .ok parameters => stepDef.execute hooks (StepContext.new step parameters)

/-- The step `I have 99999999999 cucumbers`. -/
def stepTooManyCucumbers : Step := Step.new .GIVEN "I have 99999999999 cucumbers".toList 1

/-! ## `tests/test_step_registry.cpp`: the cucumber steps -/

/-- The handler of `GIVEN("I have {int} cucumbers")`. -/
def stepHaveCucumbers {D : Type} : StepFunction D := fun context =>
  match context.getInt 0 with
  | .error e => .error e
  | .ok count => .ok (context.set "cucumber_count".toList (.int count))

/-- The handler of `WHEN("I eat {int} cucumbers")`. -/
def stepEatCucumbers {D : Type} : StepFunction D := fun context =>
  match context.getInt 0 with
  | .error e => .error e
  | .ok eaten =>
    match context.get anyCastInt "cucumber_count".toList with
    | .error e => .error e
    | .ok current => .ok (context.set "cucumber_count".toList (.int (current - eaten)))

/-- The handler of `THEN("I should have {int} cucumbers")`. -/
def stepShouldHaveCucumbers {D : Type} : StepFunction D := fun context =>
  match context.getInt 0 with
  | .error e => .error e
  | .ok expected =>
    match context.get anyCastInt "cucumber_count".toList with
    | .error e => .error e
    | .ok actual => if actual = expected then .ok context else .error .assertion_failed

/-- The registry after the three registrations, in the order of the file. -/
def cucumberRegistry : StepRegistry Str :=
  (((StepRegistry.mk []).registerGiven "I have {int} cucumbers".toList stepHaveCucumbers).registerWhen
    "I eat {int} cucumbers".toList stepEatCucumbers).registerThen
    "I should have {int} cucumbers".toList stepShouldHaveCucumbers

/-- No step hook is registered. -/
def noHooks : Hooks := { beforeStepHooks := [], afterStepHooks := [] }

/-- The three steps of `test_parameter_extraction`. -/
def cucumberSteps : List Step :=
  [Step.new .GIVEN "I have 10 cucumbers".toList 1, Step.new .WHEN "I eat 3 cucumbers".toList 2,
    Step.new .THEN "I should have 7 cucumbers".toList 3]

/-- The calls `registry.executeStep(step)` one after the other: the contexts of
the steps that ran and the exception that ended the sequence, if any. -/
def executeSteps {D : Type} (stod : Str → Except ConvError D) (hooks : Hooks)
    (r : StepRegistry D) : List Step → List (StepContext D) × Option ExecError
  | [] => ([], none)
  | step :: steps =>
    match r.executeStep stod hooks step with
    | .error e => ([], some e)
    | .ok context =>
      let rest := executeSteps stod hooks r steps
      (context :: rest.1, rest.2)

/-! ## `cucumber/step_registry.hpp` / `domain/cucumber/step_registry.cpp`: the registry
behind `findMatch`

`std::regex` is a parameter `rx` here: `rx pattern text` stands for
`std::regex_match(text, matches, std::regex(pattern))` and gives the texts of
`matches[1]`, `matches[2]`, ... when the whole text matches. -/

namespace Domain

/-- The class `World`: the member `data_`, a map from strings to `std::any`. -/
structure World (D : Type) where
  data : List (Str × ParamValue D)
  deriving DecidableEq, Repr

/-- The method `World::set`: `data_[key] = value`. -/
def World.set {D : Type} (w : World D) (key : Str) (value : ParamValue D) : World D :=
  { data := mapSet w.data key value }

/-- The method `World::get<T>(key)`; `cast` stands for `std::any_cast<T>`. -/
def World.get {D T : Type} (cast : ParamValue D → Option T) (w : World D) (key : Str) :
    Except StepError T :=
  match mapFind w.data key with
  | none => .error (.runtime_error ("Key not found: ".toList ++ key))
  | some value =>
    match cast value with
    | some t => .ok t
    | none => .error .bad_any_cast

/-- The method `World::has`. -/
def World.has {D : Type} (w : World D) (key : Str) : Bool := (mapFind w.data key).isSome

/-- A sequence of calls of `set`, one per pair. -/
def World.setAll {D : Type} (w : World D) : List (Str × ParamValue D) → World D
  | [] => w
  | (key, value) :: rest => (w.set key value).setAll rest

/-- The class `Parameters`: the member `params_`; the entry of `types_` for a
value is the type of what the `std::any` holds. -/
structure Parameters (D : Type) where
  params : List (ParamValue D)
  deriving DecidableEq, Repr

/-- The method `Parameters::add`. -/
def Parameters.add {D : Type} (ps : Parameters D) (value : ParamValue D) : Parameters D :=
  { params := ps.params ++ [value] }

/-- The method `Parameters::size`. -/
def Parameters.size {D : Type} (ps : Parameters D) : Nat := ps.params.length

/-- The type `StepFunction`: a handler works on the world and the parameters. -/
abbrev StepFunction (D : Type) := World D → Parameters D → Except StepError (World D)

/-- The class `StepDefinition`: `regex_` is compiled from `pattern_` as it is. -/
structure StepDefinition (D : Type) where
  pattern : Str
  function : StepFunction D

/-- The call `value.substr(1, value.length() - 2)`, the count in 64-bit
arithmetic: for a value of one character it is `npos`. -/
def unquote (value : Str) : Str :=
  (value.drop 1).take ((value.length + 2 ^ 64 - 2) % 2 ^ 64)

/-- The test of `extractParameters` for a value between two quotes of one kind. -/
def isQuotedValue (value : Str) : Bool :=
  (value.head? = some dquote && value.getLast? = some dquote)
    || (value.head? = some squote && value.getLast? = some squote)

/-- The test of `extractParameters` for a value of digits and minus signs. -/
def isDigitsOrMinus (value : Str) : Bool := value.all (fun c => c.isDigit || c = '-')

/-- The body of the loop of `StepDefinition::extractParameters` for one
sub-match: the value that is added.  None for the empty text, of which
`front()` has no defined value. -/
def convertValue {D : Type} (stod : Str → Except ConvError D) (value : Str) :
    Option (ParamValue D) :=
  match value.head?, value.getLast? with
  | some front, some back =>
    if (front = dquote ∧ back = dquote) ∨ (front = squote ∧ back = squote) then
      some (.string (unquote value))
    else if value.all (fun c => c.isDigit || c = '-') then
      match stoi value with
      | .ok intValue => some (.int intValue)
      | .error _ => some (.string value)
    else if value.contains '.' then
      match stod value with
      | .ok doubleValue => some (.double doubleValue)
      | .error _ => some (.string value)
    else if value = "true".toList ∨ value = "false".toList then
      some (.bool (value = "true".toList))
    else some (.string value)
  | _, _ => none

/-- The loop of `StepDefinition::extractParameters` over the sub-matches; none
when the behaviour is undefined. -/
def extractParameters {D : Type} (stod : Str → Except ConvError D) :
    List Str → Parameters D → Option (Parameters D)
  | [], params => some params
  | value :: values, params =>
    match convertValue stod value with
    | none => none
    | some v => extractParameters stod values (params.add v)

/-- The method `StepDefinition::match`: the inner option is the `std::optional`
that is returned, the outer one is none when the behaviour is undefined. -/
def StepDefinition.match_ {D : Type} (rx : Str → Str → Option (List Str))
    (stod : Str → Except ConvError D) (sd : StepDefinition D) (text : Str) :
    Option (Option (Parameters D)) :=
  match rx sd.pattern text with
  | some subMatches => (extractParameters stod subMatches { params := [] }).map some
  | none => some none

/-- The class `StepMatch`: the pointer to the definition, as its place in
`definitions_`, and the parameters. -/
structure StepMatch (D : Type) where
  definition : Nat
  parameters : Parameters D
  deriving DecidableEq, Repr

/-- The class `StepRegistry`: the member `definitions_`. -/
structure StepRegistry (D : Type) where
  definitions : List (StepDefinition D)

/-- The method `StepRegistry::registerStep`. -/
def StepRegistry.registerStep {D : Type} (r : StepRegistry D) (pattern : Str)
    (func : StepFunction D) : StepRegistry D :=
  { definitions := r.definitions ++ [{ pattern := pattern, function := func }] }

/-- The loop of `StepRegistry::findMatch` from the definition at place `i` on. -/
def StepRegistry.findMatchFrom {D : Type} (rx : Str → Str → Option (List Str))
    (stod : Str → Except ConvError D) :
    Nat → List (StepDefinition D) → Str → Option (Option (StepMatch D))
  | _, [], _ => some none
  | i, sd :: defs, text =>
    match sd.match_ rx stod text with
    | none => none
    | some (some params) => some (some { definition := i, parameters := params })
    | some none => StepRegistry.findMatchFrom rx stod (i + 1) defs text

/-- The method `StepRegistry::findMatch`: the inner option is the `std::optional`
that is returned, the outer one is none when the behaviour is undefined. -/
def StepRegistry.findMatch {D : Type} (rx : Str → Str → Option (List Str))
    (stod : Str → Except ConvError D) (r : StepRegistry D) (text : Str) :
    Option (Option (StepMatch D)) :=
  StepRegistry.findMatchFrom rx stod 0 r.definitions text

/-- A handler that leaves the world as it is. -/
def idleStep {D : Type} : StepFunction D := fun world _ => .ok world

/-- Three definitions of the registry behind `findMatch`, by their regular
expressions, in registration order. -/
def sampleRegistry : StepRegistry Str :=
  (((StepRegistry.mk []).registerStep "^I eat (-?\\d+) cucumbers$".toList idleStep).registerStep
    "^I have (-?\\d+) cucumbers$".toList idleStep).registerStep
    "^I have (.+) cucumbers$".toList idleStep

/-- A definition of the registry behind `findMatch` whose capture group may match
the empty text. -/
def quotedDefinition : StepDefinition Str :=
  { pattern := "^I see \"([^\"]*)\"$".toList, function := idleStep }


end Domain

/-- The loop of `parsePattern` that builds the local string `escaped`, which is
not used afterwards. -/
def escapeSpecial (regexPattern : Str) : Str :=
  regexPattern.foldl
    (fun escaped c =>
      (if c = '.' || c = '^' || c = '$' || c = '*' || c = '+' || c = '?' || c = '['
          || c = ']' || c = '|' then escaped ++ ['\\'] else escaped) ++ [c])
    []


/-! ## `gherkin_parser.hpp` / `gherkin_parser.cpp`: the lexer and parser `GherkinParser` -/

/-- The static function `trim`: blanks, tabs, carriage returns and newlines are
removed at both ends. -/
def trim (str : Str) : Str :=
  ((str.dropWhile (fun c => c = ' ' || c = '\t' || c = '\r' || c = '\n')).reverse.dropWhile
    (fun c => c = ' ' || c = '\t' || c = '\r' || c = '\n')).reverse

/-- The static function `toLower`. -/
def toLower (str : Str) : Str := str.map Char.toLower

/-- The enumeration `TokenType` of `gherkin_parser.hpp`. -/
inductive TokenType where
  | FEATURE | BACKGROUND | SCENARIO | SCENARIO_OUTLINE | EXAMPLES
  | GIVEN | WHEN | THEN | AND | BUT
  | TAG | DATA_ROW | DOC_STRING | COMMENT | TEXT | NEWLINE | EOF_TOKEN
  deriving DecidableEq, Repr

/-- The struct `Token` of `gherkin_parser.hpp`. -/
structure Token where
  type : TokenType
  value : Str
  line : Int
  column : Int
  deriving DecidableEq, Repr

/-- The class `DocString` as a step holds it: the method `getContent`. -/
def DocString.getContent (d : Str × Str) : Str := d.1

/-- The class `DocString` as a step holds it: the method `getContentType`. -/
def DocString.getContentType (d : Str × Str) : Str := d.2

/-- The class `Examples` of `gherkin_parser.hpp`. -/
structure Examples where
  header : List Str
  rows : List (List Str)
  deriving DecidableEq, Repr

/-- The class `Scenario` of `gherkin_parser.hpp`. -/
structure Scenario where
  name : Str
  description : Str
  line : Int
  tags : List Str
  steps : List Step
  examples : Option Examples
  deriving DecidableEq, Repr

/-- The constructor `Scenario(name, line)`. -/
def Scenario.new (name : Str) (line : Int) : Scenario :=
  { name := name, description := [], line := line, tags := [], steps := [], examples := none }

/-- The method `Scenario::getExamples`. -/
def Scenario.getExamples (s : Scenario) : Option Examples := s.examples

/-- The method `Scenario::isOutline`: whether `examples_` is set. -/
def Scenario.isOutline (s : Scenario) : Bool := s.examples.isSome

/-- The class `Feature` of `gherkin_parser.hpp`. -/
structure Feature where
  name : Str
  description : Str
  line : Int
  tags : List Str
  scenarios : List Scenario
  background : Option Scenario
  deriving DecidableEq, Repr

/-- The state of the class `GherkinLexer`: `rest` is the part of `input_` from
`position_` on. -/
structure GherkinLexer where
  rest : Str
  line : Int
  column : Int
  deriving DecidableEq, Repr

/-- The constructor `GherkinLexer(input)`. -/
def GherkinLexer.new (input : Str) : GherkinLexer := { rest := input, line := 1, column := 1 }

/-- The method `GherkinLexer::skipWhitespace`: blanks and tabs are passed. -/
def GherkinLexer.skipWhitespace (l : GherkinLexer) : GherkinLexer :=
  { l with
    rest := l.rest.dropWhile (fun c => c = ' ' || c = '\t')
    column := l.column + (l.rest.takeWhile (fun c => c = ' ' || c = '\t')).length }

/-- The method `GherkinLexer::skipComment`: the rest of the line and its newline
are passed. -/
def GherkinLexer.skipComment (l : GherkinLexer) : GherkinLexer :=
  match l.rest.dropWhile (fun c => c ≠ '\n') with
  | [] => { l with rest := [] }
  | _ :: cs => { l with rest := cs, line := l.line + 1, column := 1 }

/-- The method `GherkinLexer::readTag`. -/
def GherkinLexer.readTag (l : GherkinLexer) : Token × GherkinLexer :=
  let tag := l.rest.takeWhile (fun c => c.isAlphanum || c = '@' || c = '_' || c = '-')
  ({ type := .TAG, value := tag, line := l.line, column := l.column },
    { l with rest := l.rest.drop tag.length, column := l.column + tag.length })

/-- The method `GherkinLexer::readDataRow`. -/
def GherkinLexer.readDataRow (l : GherkinLexer) : Token × GherkinLexer :=
  let row := l.rest.takeWhile (fun c => c ≠ '\n')
  ({ type := .DATA_ROW, value := row, line := l.line, column := l.column },
    { l with rest := l.rest.drop row.length, column := l.column + row.length })

/-- The three quotes that open and close a doc string. -/
def tripleQuote : Str := [dquote, dquote, dquote]

/-- The content loop of `GherkinLexer::readDocString`, over the text still to be
read: it stops at three quotes, which it passes, or when fewer than three
characters are left. -/
def GherkinLexer.readContent : Str → Int → Int → Str → Str × GherkinLexer
  | [], line, column, content => (content, { rest := [], line := line, column := column })
  | c :: cs, line, column, content =>
    if 2 < (c :: cs).length then
      if (c :: cs).take 3 = tripleQuote then
        (content, { rest := cs.drop 2, line := line, column := column + 3 })
      else if c = '\n' then GherkinLexer.readContent cs (line + 1) 1 (content ++ [c])
      else GherkinLexer.readContent cs line (column + 1) (content ++ [c])
    else (content, { rest := c :: cs, line := line, column := column })

/-- The method `GherkinLexer::readDocString`: the value of the token is the
content, a bar and the trimmed content type. -/
def GherkinLexer.readDocString (l : GherkinLexer) : Token × GherkinLexer :=
  let rest1 := l.rest.drop 3
  let contentType := rest1.takeWhile (fun c => c ≠ '\n' && c ≠ dquote)
  let rest2 := rest1.drop contentType.length
  let r :=
    match rest2 with
    | [] => GherkinLexer.readContent rest2 l.line (l.column + 3 + contentType.length) []
    | c :: cs =>
      if c = '\n' then GherkinLexer.readContent cs (l.line + 1) 1 []
      else GherkinLexer.readContent rest2 l.line (l.column + 3 + contentType.length) []
  ({ type := .DOC_STRING, value := r.1 ++ ['|'] ++ trim contentType
     line := l.line, column := l.column }, r.2)

/-- The method `GherkinLexer::isKeyword`. -/
def GherkinLexer.isKeyword (word : Str) : Bool :=
  let lower := toLower word
  lower = "feature".toList || lower = "background".toList || lower = "scenario".toList
    || lower = "examples".toList || lower = "given".toList || lower = "when".toList
    || lower = "then".toList || lower = "and".toList || lower = "but".toList

/-- The method `GherkinLexer::getKeywordType`. -/
def GherkinLexer.getKeywordType (word : Str) : TokenType :=
  let lower := toLower word
  if lower = "feature".toList then .FEATURE
  else if lower = "background".toList then .BACKGROUND
  else if lower = "scenario".toList then TokenType.SCENARIO
  else if lower = "examples".toList then .EXAMPLES
  else if lower = "given".toList then .GIVEN
  else if lower = "when".toList then .WHEN
  else if lower = "then".toList then .THEN
  else if lower = "and".toList then .AND
  else if lower = "but".toList then .BUT
  else .TEXT

/-- The method `GherkinLexer::readText`: the rest of the line; the token is a
`NEWLINE` when the line ends with a newline, which is passed, else a `TEXT`. -/
def GherkinLexer.readText (l : GherkinLexer) : Token × GherkinLexer :=
  let text := l.rest.takeWhile (fun c => c ≠ '\n')
  match l.rest.drop text.length with
  | [] =>
    ({ type := .TEXT, value := trim text, line := l.line, column := l.column },
      { l with rest := [], column := l.column + text.length })
  | _ :: cs =>
    ({ type := .NEWLINE, value := trim text, line := l.line, column := l.column },
      { rest := cs, line := l.line + 1, column := 1 })

/-- The step of `GherkinLexer::readKeyword` that passes a colon when one is the
next character. -/
def GherkinLexer.skipColon (l : GherkinLexer) : GherkinLexer :=
  match l.rest with
  | [] => l
  | c :: cs => if c = ':' then { l with rest := cs, column := l.column + 1 } else l

/-- The part of `GherkinLexer::readKeyword` after a keyword: an optional colon
between blanks is passed and the rest of the line is the text. -/
def GherkinLexer.readKeywordText (l : GherkinLexer) : Str × GherkinLexer :=
  let l3 := l.skipWhitespace.skipColon.skipWhitespace
  let text := l3.rest.takeWhile (fun c => c ≠ '\n')
  (text, { l3 with rest := l3.rest.drop text.length, column := l3.column + text.length })

/-- The method `GherkinLexer::readKeyword`: the run of letters is read; when it
is no keyword the text after it is read by `readText`. -/
def GherkinLexer.readKeyword (l : GherkinLexer) : Token × GherkinLexer :=
  let word := l.rest.takeWhile Char.isAlpha
  let l1 : GherkinLexer :=
    { l with rest := l.rest.drop word.length, column := l.column + word.length }
  if GherkinLexer.isKeyword word then
    let r := l1.readKeywordText
    ({ type := GherkinLexer.getKeywordType word, value := trim r.1
       line := l.line, column := l.column }, r.2)
  else l1.readText

/-- The method `GherkinLexer::nextToken`; the fuel bounds the comments that are
passed before the token. -/
def GherkinLexer.nextTokenFuel : Nat → GherkinLexer → Token × GherkinLexer
  | 0, l => ({ type := .EOF_TOKEN, value := [], line := l.line, column := l.column }, l)
  | fuel + 1, l =>
    let l1 := l.skipWhitespace
    match l1.rest with
    | [] => ({ type := .EOF_TOKEN, value := [], line := l1.line, column := l1.column }, l1)
    | c :: _ =>
      if c = '#' then GherkinLexer.nextTokenFuel fuel l1.skipComment
      else if c = '@' then l1.readTag
      else if c = '|' then l1.readDataRow
      else if 2 < l1.rest.length && l1.rest.take 3 = tripleQuote then l1.readDocString
      else l1.readKeyword

/-- The method `GherkinLexer::nextToken`: every comment passed has a character,
so the length of the text is enough fuel. -/
def GherkinLexer.nextToken (l : GherkinLexer) : Token × GherkinLexer :=
  GherkinLexer.nextTokenFuel (l.rest.length + 1) l

/-- The method `GherkinLexer::hasMoreTokens`. -/
def GherkinLexer.hasMoreTokens (l : GherkinLexer) : Bool := !l.rest.isEmpty

/-- The state of the class `GherkinParser`. -/
structure GherkinParser where
  lexer : GherkinLexer
  currentToken : Token
  currentTags : List Str
  deriving DecidableEq, Repr

/-- The loop of `GherkinParser::advance`: newlines are passed and tags are
collected. -/
def GherkinParser.advanceLoop : Nat → GherkinParser → GherkinParser
  | 0, p => p
  | fuel + 1, p =>
    if p.currentToken.type = .NEWLINE ∨ p.currentToken.type = .TAG then
      let tags :=
        if p.currentToken.type = .TAG then p.currentTags ++ [p.currentToken.value]
        else p.currentTags
      let r := p.lexer.nextToken
      GherkinParser.advanceLoop fuel { lexer := r.2, currentToken := r.1, currentTags := tags }
    else p

/-- The method `GherkinParser::advance`. -/
def GherkinParser.advance (p : GherkinParser) : GherkinParser :=
  let r := p.lexer.nextToken
  GherkinParser.advanceLoop (r.2.rest.length + 1) { p with lexer := r.2, currentToken := r.1 }

/-- The method `GherkinParser::match`. -/
def GherkinParser.match_ (p : GherkinParser) (type : TokenType) : Bool :=
  p.currentToken.type = type

/-- The text of an integer, as `std::to_string` writes it. -/
def intToString (i : Int) : Str := (toString i).toList

/-- The method `GherkinParser::expect`: the message of the `std::runtime_error`
when the current token has another type. -/
def GherkinParser.expect (p : GherkinParser) (type : TokenType) : Except Str GherkinParser :=
  if !p.match_ type then
    .error ("Unexpected token at line ".toList ++ intToString p.currentToken.line)
  else .ok p.advance

/-- The loop of `GherkinParser::parseTags`. -/
def GherkinParser.parseTagsLoop : Nat → GherkinParser → GherkinParser
  | 0, p => p
  | fuel + 1, p =>
    if p.match_ .TAG then
      GherkinParser.parseTagsLoop fuel
        ({ p with currentTags := p.currentTags ++ [p.currentToken.value] } : GherkinParser).advance
    else p

/-- The method `GherkinParser::parseTags`. -/
def GherkinParser.parseTags (p : GherkinParser) : GherkinParser :=
  GherkinParser.parseTagsLoop (p.lexer.rest.length + 2) p

/-- The loop of `GherkinParser::parseDescription`. -/
def GherkinParser.parseDescriptionLoop : Nat → GherkinParser → Str → Str × GherkinParser
  | 0, p, description => (description, p)
  | fuel + 1, p, description =>
    if p.match_ .TEXT || p.match_ .NEWLINE then
      let description1 :=
        if !p.currentToken.value.isEmpty then
          (if !description.isEmpty then description ++ ['\n'] else description)
            ++ p.currentToken.value
        else description
      GherkinParser.parseDescriptionLoop fuel p.advance description1
    else (description, p)

/-- The method `GherkinParser::parseDescription`. -/
def GherkinParser.parseDescription (p : GherkinParser) : Str × GherkinParser :=
  GherkinParser.parseDescriptionLoop (p.lexer.rest.length + 2) p []

/-- The cells of a data row: the text before the first bar is dropped, every
cell is trimmed and an empty last cell is removed. -/
def parseCells (rowStr : Str) : List Str :=
  let row := ((Gherkin.splitBars rowStr []).drop 1).map trim
  if !row.isEmpty && row.getLast? = some [] then row.dropLast else row

/-- The loop `while (match(TokenType::DATA_ROW))` of `parseDataTable` and of
`parseExamples`. -/
def GherkinParser.parseRowsLoop : Nat → GherkinParser → List (List Str)
    → List (List Str) × GherkinParser
  | 0, p, rows => (rows, p)
  | fuel + 1, p, rows =>
    if p.match_ .DATA_ROW then
      GherkinParser.parseRowsLoop fuel p.advance (rows ++ [parseCells p.currentToken.value])
    else (rows, p)

/-- The method `GherkinParser::parseDataTable`: the rows of the table. -/
def GherkinParser.parseDataTable (p : GherkinParser) : List (List Str) × GherkinParser :=
  GherkinParser.parseRowsLoop (p.lexer.rest.length + 2) p []

/-- The method `GherkinParser::parseDocString`: the value of the token is cut at
its first bar into the content and the content type. -/
def GherkinParser.parseDocString (p : GherkinParser) : (Str × Str) × GherkinParser :=
  let content := p.currentToken.value
  let actualContent := content.takeWhile (fun c => c ≠ '|')
  let contentType := if content.contains '|' then content.drop (actualContent.length + 1) else []
  ((actualContent, contentType), p.advance)

/-- The method `GherkinParser::parseExamples`. -/
def GherkinParser.parseExamples (p : GherkinParser) : Except Str (Examples × GherkinParser) :=
  match p.expect .EXAMPLES with
  | .error e => .error e
  | .ok p1 =>
    let r : List Str × GherkinParser :=
      if p1.match_ .DATA_ROW then (parseCells p1.currentToken.value, p1.advance) else ([], p1)
    let rows := GherkinParser.parseRowsLoop (r.2.lexer.rest.length + 2) r.2 []
    .ok ({ header := r.1, rows := rows.1 }, rows.2)

/-- The step type of a step keyword token, none for another token. -/
def stepTypeOfToken : TokenType → Option StepType
  | .GIVEN => some .GIVEN
  | .WHEN => some .WHEN
  | .THEN => some .THEN
  | .AND => some .AND
  | .BUT => some .BUT
  | _ => none

/-- The statement `if (match(TokenType::DATA_ROW)) step->setDataTable(parseDataTable())`
of `parseStep`. -/
def GherkinParser.stepTable (p : GherkinParser) (step : Step) : Step × GherkinParser :=
  if p.match_ .DATA_ROW then
    ({ step with dataTable := some (p.parseDataTable).1 }, (p.parseDataTable).2)
  else (step, p)

/-- The statement `if (match(TokenType::DOC_STRING)) step->setDocString(parseDocString())`
of `parseStep`. -/
def GherkinParser.stepDocString (p : GherkinParser) (step : Step) : Step × GherkinParser :=
  if p.match_ .DOC_STRING then
    ({ step with docString := some (p.parseDocString).1 }, (p.parseDocString).2)
  else (step, p)

/-- The method `GherkinParser::parseStep`. -/
def GherkinParser.parseStep (p : GherkinParser) : Except Str (Step × GherkinParser) :=
  match stepTypeOfToken p.currentToken.type with
  | none => .error "Expected step keyword".toList
  | some type =>
    let r1 := p.advance.stepTable (Step.new type p.currentToken.value p.currentToken.line)
    .ok (r1.2.stepDocString r1.1)

/-- Whether the current token is one of the five step keywords. -/
def GherkinParser.atStep (p : GherkinParser) : Bool :=
  p.match_ .GIVEN || p.match_ .WHEN || p.match_ .THEN || p.match_ .AND || p.match_ .BUT

/-- The loop over the steps of `parseScenario` and of `parseBackground`. -/
def GherkinParser.parseStepsLoop : Nat → GherkinParser → List Step
    → Except Str (List Step × GherkinParser)
  | 0, p, steps => .ok (steps, p)
  | fuel + 1, p, steps =>
    if p.atStep then
      match p.parseStep with
      | .error e => .error e
      | .ok (step, p1) => GherkinParser.parseStepsLoop fuel p1 (steps ++ [step])
    else .ok (steps, p)

/-- The steps loop with the fuel of the text still to be read. -/
def GherkinParser.parseSteps (p : GherkinParser) : Except Str (List Step × GherkinParser) :=
  GherkinParser.parseStepsLoop (p.lexer.rest.length + 2) p []

/-- Whether a text contains the text `outline`. -/
def containsOutline : Str → Bool
  | [] => false
  | c :: cs => "outline".toList.isPrefixOf (c :: cs) || containsOutline cs

/-- The part of `parseScenario` that reads the scenario line: whether the word
`outline` was seen in a `TEXT` token after it, the name, and the parser after
the line. -/
def GherkinParser.scenarioHeader (p : GherkinParser) : (Bool × Str) × GherkinParser :=
  if p.match_ TokenType.SCENARIO then
    if p.advance.currentToken.type = .TEXT
        && containsOutline (toLower p.advance.currentToken.value) then
      ((true, p.currentToken.value), p.advance.advance)
    else ((false, p.currentToken.value), p.advance)
  else ((false, []), p)

/-- The method `GherkinParser::parseScenario`. -/
def GherkinParser.parseScenario (p : GherkinParser) : Except Str (Scenario × GherkinParser) :=
  let p0 := p.parseTags
  let header := p0.scenarioHeader
  let scenario : Scenario :=
    { Scenario.new header.1.2 p0.currentToken.line with tags := header.2.currentTags }
  let description := ({ header.2 with currentTags := [] } : GherkinParser).parseDescription
  let scenario1 : Scenario :=
    if !description.1.isEmpty then { scenario with description := description.1 } else scenario
  match description.2.parseSteps with
  | .error e => .error e
  | .ok (steps, p3) =>
    let scenario2 : Scenario := { scenario1 with steps := steps }
    if header.1.1 && p3.match_ .EXAMPLES then
      match p3.parseExamples with
      | .error e => .error e
      | .ok (examples, p4) => .ok ({ scenario2 with examples := some examples }, p4)
    else .ok (scenario2, p3)

/-- The method `GherkinParser::parseBackground`. -/
def GherkinParser.parseBackground (p : GherkinParser) : Except Str (Scenario × GherkinParser) :=
  match p.expect .BACKGROUND with
  | .error e => .error e
  | .ok p1 =>
    let background := Scenario.new "Background".toList p1.currentToken.line
    match p1.parseSteps with
    | .error e => .error e
    | .ok (steps, p2) => .ok ({ background with steps := steps }, p2)

/-- The loop `while (match(TokenType::SCENARIO) || !currentTags_.empty())` of
`parseFeature`. -/
def GherkinParser.parseScenariosLoop : Nat → GherkinParser → List Scenario
    → Except Str (List Scenario × GherkinParser)
  | 0, p, scenarios => .ok (scenarios, p)
  | fuel + 1, p, scenarios =>
    if p.match_ TokenType.SCENARIO || !p.currentTags.isEmpty then
      match p.parseScenario with
      | .error e => .error e
      | .ok (scenario, p1) => GherkinParser.parseScenariosLoop fuel p1 (scenarios ++ [scenario])
    else .ok (scenarios, p)

/-- The part of `parseFeature` that reads the background when there is one. -/
def GherkinParser.featureBackground (p : GherkinParser) :
    Except Str (Option Scenario × GherkinParser) :=
  if p.match_ .BACKGROUND then
    match p.parseBackground with
    | .error e => .error e
    | .ok (background, p2) => .ok (some background, p2)
  else .ok (none, p)

/-- The part of `parseFeature` from the `Feature` token on: the collected tags
go to the feature, then the description, the background and the scenarios are
read. -/
def GherkinParser.featureBody (p : GherkinParser) : Except Str (Feature × GherkinParser) :=
  let description := ({ p with currentTags := [] } : GherkinParser).advance.parseDescription
  match description.2.featureBackground with
  | .error e => .error e
  | .ok (background, p2) =>
    match GherkinParser.parseScenariosLoop (2 * p2.lexer.rest.length + 4) p2 [] with
    | .error e => .error e
    | .ok (scenarios, p3) =>
      .ok ({ name := p.currentToken.value
             description := if !description.1.isEmpty then description.1 else []
             line := p.currentToken.line, tags := p.currentTags
             scenarios := scenarios, background := background }, p3)

/-- The method `GherkinParser::parseFeature`. -/
def GherkinParser.parseFeature (p : GherkinParser) : Except Str (Feature × GherkinParser) :=
  match (if !p.parseTags.match_ .FEATURE then p.parseTags.expect .FEATURE
      else .ok p.parseTags) with
  | .error e => .error e
  | .ok p0 => p0.featureBody

/-- The method `GherkinParser::parse` of a parser that has parsed nothing yet:
the feature, or the message of the exception thrown. -/
def GherkinParser.parse (input : Str) : Except Str Feature :=
  let p : GherkinParser :=
    { lexer := GherkinLexer.new input
      currentToken := { type := .EOF_TOKEN, value := [], line := 0, column := 0 }
      currentTags := [] }
  match p.advance.parseFeature with
  | .error e => .error e
  | .ok (feature, _) => .ok feature

/-- The source of `test_basic_feature_parsing` of `test_gherkin_parser.cpp`. -/
def docBasicFeature : Str :=
  ("\n@integration @important\nFeature: User Authentication\n  As a user\n"
    ++ "  I want to be able to log in\n  So that I can access my account\n\n"
    ++ "  Background:\n    Given the application is running\n"
    ++ "    And the database is connected\n\n  @smoke\n  Scenario: Successful login\n"
    ++ "    Given I am on the login page\n    When I enter valid credentials\n"
    ++ "      | username | password |\n      | john     | secret   |\n"
    ++ "    Then I should be logged in\n    And I should see the dashboard\n\n"
    ++ "  Scenario Outline: Login with different users\n    Given I am on the login page\n"
    ++ "    When I enter \"<username>\" and \"<password>\"\n"
    ++ "    Then I should see \"<result>\"\n\n    Examples:\n"
    ++ "      | username | password | result        |\n"
    ++ "      | alice    | pass123  | Dashboard     |\n"
    ++ "      | bob      | wrong    | Error message |\n").toList

/-- The source of `test_doc_string_parsing` of `test_gherkin_parser.cpp`. -/
def docDocString : Str :=
  ("\nFeature: Document String Support\n  \n  Scenario: Create a document\n"
    ++ "    Given I have the following document:\n      \"\"\"json\n      \x7b\n"
    ++ "        \"title\": \"Test Document\",\n        \"content\": \"This is a test\"\n"
    ++ "      \x7d\n      \"\"\"\n    When I save the document\n"
    ++ "    Then the document should be created\n").toList

/-- The source of `test_step_types` of `test_gherkin_parser.cpp`. -/
def docStepTypes : Str :=
  ("\nFeature: Step Types Test\n  \n  Scenario: All step types\n    Given a precondition\n"
    ++ "    When an action occurs\n    Then an outcome happens\n    And another outcome\n"
    ++ "    But not this one\n").toList

/-- Two scenarios with a tag each, the first without a step. -/
def docTagsNoSteps : Str := "Feature: F\n@a\nScenario: S1\n@b\nScenario: S2\n".toList

/-- A step with a doc string whose body has a bar. -/
def docDocStringBar : Str :=
  "Feature: F\nScenario: S\nGiven a doc\n\"\"\"json\na|b\n\"\"\"\n".toList

/-- Two step lines with a colon after the keyword. -/
def docStepColon : Str := "Feature: F\nScenario: S\nGiven :x\nWhen: y\n".toList

/-- The feature that `parse` returns, none after an exception. -/
def parsedFeature (input : Str) : Option Feature := (GherkinParser.parse input).toOption

/-- The scenarios of the feature that `parse` returns. -/
def parsedScenarios (input : Str) : List Scenario :=
  match GherkinParser.parse input with
  | .ok feature => feature.scenarios
  | .error _ => []

/-- The steps of the first scenario of the feature that `parse` returns. -/
def firstSteps (input : Str) : List Step :=
  match parsedScenarios input with
  | [] => []
  | scenario :: _ => scenario.steps

/-- What is left to do for a parser state: the characters still to be read, and
one more while the current token is not the end of the input. -/
def GherkinParser.todo (p : GherkinParser) : Nat :=
  p.lexer.rest.length + (if p.currentToken.type = .EOF_TOKEN then 0 else 1)

/-- The parser state `q` is the state `p` or a state with less left to do. -/
def GherkinParser.Adv (p q : GherkinParser) : Prop := q = p ∨ q.todo < p.todo

/-- The bound of the scenario loop of `parseFeature`: twice what is left to do,
and one more while tags are collected. -/
def GherkinParser.weight (p : GherkinParser) : Nat :=
  2 * p.todo + (if p.currentTags = [] then 0 else 1)

/-- The condition of the scenario loop of `parseFeature`. -/
def GherkinParser.atScenario (p : GherkinParser) : Bool :=
  p.match_ TokenType.SCENARIO || !p.currentTags.isEmpty


/-- The text without its leading blanks and tabs. -/
def dropBlanks (s : Str) : Str := s.dropWhile (fun c => c = ' ' || c = '\t')

/-- The text without its first character when that is a colon. -/
def dropColon (s : Str) : Str :=
  match s with
  | [] => []
  | c :: cs => if c = ':' then cs else c :: cs

/-- The value that `readKeyword` gives to the token of a keyword followed on its
line by the text `after`: blanks, one colon if present and blanks are passed,
and what follows is trimmed. -/
def keywordValue (after : Str) : Str := trim (dropBlanks (dropColon (dropBlanks after)))

/-- The end of a line: the end of the input or a newline. -/
def LineEnd (tail : Str) : Prop := tail = [] ∨ ∃ s, tail = '\n' :: s

/-- The keyword of a step type, as written in a feature file. -/
def StepType.keyword : StepType → Str
  | .GIVEN => "Given".toList
  | .WHEN => "When".toList
  | .THEN => "Then".toList
  | .AND => "And".toList
  | .BUT => "But".toList

/-- The token type of the keyword of a step type. -/
def StepType.token : StepType → TokenType
  | .GIVEN => .GIVEN
  | .WHEN => .WHEN
  | .THEN => .THEN
  | .AND => .AND
  | .BUT => .BUT

/-- A step line of a feature file: the indentation, the keyword and the rest of
the line. -/
structure StepLine where
  indent : Str
  keyword : StepType
  rest : Str

/-- The text of a step line, with its newline. -/
def StepLine.render (l : StepLine) : Str :=
  l.indent ++ (l.keyword.keyword ++ (l.rest ++ ['\n']))

/-- The text after a keyword on its line, as assumed below: it has no newline
and does not start with a letter (which would make the keyword a longer word). -/
def AfterKeyword (after : Str) : Prop :=
  '\n' ∉ after ∧ ∀ c ∈ after.head?, c.isAlpha = false

instance (after : Str) : Decidable (AfterKeyword after) := by
  unfold AfterKeyword
  exact inferInstance

/-- A step line with an indentation of blanks and tabs. -/
def StepLine.WellFormed (l : StepLine) : Prop :=
  (∀ c ∈ l.indent, c = ' ' ∨ c = '\t') ∧ AfterKeyword l.rest

instance (l : StepLine) : Decidable l.WellFormed := by
  unfold StepLine.WellFormed
  exact inferInstance

/-- The parser is at the token of the step line `l`, before the newline of that
line, and the step lines `ls` follow. -/
def GherkinParser.AtLine (p : GherkinParser) (l : StepLine) (ls : List StepLine) : Prop :=
  p.currentToken.type = l.keyword.token ∧ p.currentToken.value = keywordValue l.rest
    ∧ p.lexer.rest = '\n' :: (ls.map StepLine.render).flatten

/-- The type and the text of a step. -/
def Step.view (s : Step) : StepType × Str := (s.type, s.text)

/-- The type and the text that a step line stands for. -/
def StepLine.view (l : StepLine) : StepType × Str := (l.keyword, keywordValue l.rest)

/-- The text of a list of step lines. -/
def stepLines (lines : List StepLine) : Str := (lines.map StepLine.render).flatten

/-- A feature file with one scenario: the line of the feature, the line of the
scenario and the step lines. -/
def scenarioText (afterFeature afterScenario : Str) (lines : List StepLine) : Str :=
  "Feature".toList ++ (afterFeature ++ ('\n' :: ("Scenario".toList
    ++ (afterScenario ++ ('\n' :: stepLines lines)))))

/-- Three step lines, the second with a colon after the keyword. -/
def sampleStepLines : List StepLine :=
  [⟨"    ".toList, .GIVEN, " a precondition".toList⟩,
    ⟨"\t".toList, .WHEN, ": an action occurs ".toList⟩,
    ⟨[], .AND, " \"x\" is seen".toList⟩]


end Cucumber


/-! # Theorems -/

namespace Gherkin

/-! ## Scenario outline expansion -/

theorem foldl_append_singleton {α β : Type} (f : α → β) (xs : List α) (acc : List β) :
    xs.foldl (fun r x => r ++ [f x]) acc = acc ++ xs.map f := by
  induction xs generalizing acc with
  | nil => simp
  | cons x xs ih => simp [ih]

theorem toMaps_eq (t : DataTable) :
    t.toMaps = t.dataRows.map (fun row => DataTable.rowMap t.headers row []) := by
  unfold DataTable.toMaps DataTable.dataRows DataTable.headers
  by_cases h : t.rows.length ≤ 1
  · simp [h]
  · cases hr : t.rows with
    | nil => simp [hr] at h
    | cons hd rest =>
      have h2 : ¬ (rest.length + 1 ≤ 1) := by simpa [hr] using h
      simp only [List.length_cons, h2, if_false, List.drop_succ_cons, List.drop_zero]
      rw [foldl_append_singleton]
      simp

theorem dataRows_length (t : DataTable) : t.dataRows.length = t.rows.length - 1 := by
  unfold DataTable.dataRows
  by_cases h : t.rows.length ≤ 1
  · simp [h]
  · simp [h]

/-! ## Loops that an exception can leave -/

theorem mapExcept_cons {ε α β : Type} (f : α → Except ε β) (a : α) (rest : List α) :
    mapExcept f (a :: rest)
      = match f a with
        | .error e => .error e
        | .ok b =>
          match mapExcept f rest with
          | .error e => .error e
          | .ok bs => .ok (b :: bs) := rfl

theorem mapExcept_ok_cons {ε α β : Type} {f : α → Except ε β} {a : α} {rest : List α}
    {bs : List β} (h : mapExcept f (a :: rest) = .ok bs) :
    ∃ b bs1, f a = .ok b ∧ mapExcept f rest = .ok bs1 ∧ bs = b :: bs1 := by
  rw [mapExcept_cons] at h
  cases hfa : f a with
  | error e => rw [hfa] at h; cases h
  | ok b =>
    rw [hfa] at h
    cases hr : mapExcept f rest with
    | error e => rw [hr] at h; cases h
    | ok bs1 =>
      rw [hr] at h
      injection h with h
      exact ⟨b, bs1, rfl, rfl, h.symm⟩

theorem mapExcept_length {ε α β : Type} (f : α → Except ε β) (l : List α) :
    ∀ bs, mapExcept f l = .ok bs → bs.length = l.length := by
  induction l with
  | nil =>
    intro bs h
    injection h with h
    rw [← h]
    rfl
  | cons a rest ih =>
    intro bs h
    obtain ⟨b, bs1, _, h2, rfl⟩ := mapExcept_ok_cons h
    rw [List.length_cons, List.length_cons, ih bs1 h2]

theorem mapExcept_mem {ε α β : Type} (f : α → Except ε β) (l : List α) :
    ∀ bs, mapExcept f l = .ok bs → ∀ b ∈ bs, ∃ a ∈ l, f a = .ok b := by
  induction l with
  | nil =>
    intro bs h b hb
    injection h with h
    rw [← h] at hb
    exact absurd hb (List.not_mem_nil _)
  | cons a rest ih =>
    intro bs h b hb
    obtain ⟨b1, bs1, h1, h2, rfl⟩ := mapExcept_ok_cons h
    rcases List.mem_cons.mp hb with rfl | hb
    · exact ⟨a, List.mem_cons_self _ _, h1⟩
    · obtain ⟨a2, ha2, hf⟩ := ih bs1 h2 b hb
      exact ⟨a2, List.mem_cons_of_mem _ ha2, hf⟩

theorem mapExcept_mem_left {ε α β : Type} (f : α → Except ε β) (l : List α) :
    ∀ bs, mapExcept f l = .ok bs → ∀ a ∈ l, ∃ b ∈ bs, f a = .ok b := by
  induction l with
  | nil =>
    intro bs _ a ha
    exact absurd ha (List.not_mem_nil _)
  | cons a rest ih =>
    intro bs h a2 ha2
    obtain ⟨b1, bs1, h1, h2, rfl⟩ := mapExcept_ok_cons h
    rcases List.mem_cons.mp ha2 with rfl | ha2
    · exact ⟨b1, List.mem_cons_self _ _, h1⟩
    · obtain ⟨b, hb, hf⟩ := ih bs1 h2 a2 ha2
      exact ⟨b, List.mem_cons_of_mem _ hb, hf⟩

theorem mapExcept_eq_map {ε α β : Type} (f : α → Except ε β) (g : α → β) (l : List α)
    (h : ∀ a ∈ l, f a = .ok (g a)) : mapExcept f l = .ok (l.map g) := by
  induction l with
  | nil => rfl
  | cons a rest ih =>
    rw [mapExcept_cons, h a (List.mem_cons_self _ _),
      ih (fun x hx => h x (List.mem_cons_of_mem _ hx))]
    rfl

theorem mapExcept_ok_of_forall {ε α β : Type} (f : α → Except ε β) (l : List α)
    (h : ∀ a ∈ l, ∃ b, f a = .ok b) : ∃ bs, mapExcept f l = .ok bs := by
  induction l with
  | nil => exact ⟨[], rfl⟩
  | cons a rest ih =>
    obtain ⟨b, hb⟩ := h a (List.mem_cons_self _ _)
    obtain ⟨bs, hbs⟩ := ih (fun x hx => h x (List.mem_cons_of_mem _ hx))
    rw [mapExcept_cons, hb, hbs]
    exact ⟨_, rfl⟩

theorem mapExcept_error_of_mem {ε α β : Type} (f : α → Except ε β) (l : List α) (a : α)
    (e : ε) (ha : a ∈ l) (hf : f a = .error e) : ∃ e1, mapExcept f l = .error e1 := by
  cases h : mapExcept f l with
  | error e1 => exact ⟨e1, rfl⟩
  | ok bs =>
    obtain ⟨b, _, hb⟩ := mapExcept_mem_left f l bs h a ha
    rw [hf] at hb
    cases hb

/-! ## Expansion of an outline -/

theorem expandMaps_cons {ε : Type} (o : ScenarioOutline) (rx : RegexReplace ε) (e : Examples)
    (m : StrMap) (rest : List StrMap) (acc : List Scenario) :
    o.expandMaps rx e (m :: rest) acc
      = match o.expandOne rx e m with
        | .error err => .error err
        | .ok scenario => o.expandMaps rx e rest (acc ++ [scenario]) := rfl

theorem expandBlocks_cons {ε : Type} (o : ScenarioOutline) (rx : RegexReplace ε) (e : Examples)
    (rest : List Examples) (acc : List Scenario) :
    o.expandBlocks rx (e :: rest) acc
      = match e.table with
        | none => o.expandBlocks rx rest acc
        | some t =>
          match o.expandMaps rx e t.toMaps acc with
          | .error err => .error err
          | .ok expanded1 => o.expandBlocks rx rest expanded1 := rfl

theorem expandMaps_eq {ε : Type} (o : ScenarioOutline) (rx : RegexReplace ε) (e : Examples)
    (maps : List StrMap) :
    ∀ acc, o.expandMaps rx e maps acc
      = (mapExcept (o.expandOne rx e) maps).map (fun scs => acc ++ scs) := by
  induction maps with
  | nil =>
    intro acc
    show Except.ok acc = Except.ok (acc ++ [])
    rw [List.append_nil]
  | cons m rest ih =>
    intro acc
    rw [mapExcept_cons, expandMaps_cons]
    cases o.expandOne rx e m with
    | error err => rfl
    | ok sc =>
      dsimp only
      rw [ih]
      cases mapExcept (o.expandOne rx e) rest with
      | error err => rfl
      | ok scs =>
        show Except.ok (acc ++ [sc] ++ scs) = Except.ok (acc ++ sc :: scs)
        rw [List.append_assoc]
        rfl

theorem expandBlock_eq_maps {ε : Type} (o : ScenarioOutline) (rx : RegexReplace ε)
    (e : Examples) (t : DataTable) (h : e.table = some t) :
    expandBlock o rx e = mapExcept (o.expandOne rx e) t.toMaps := by
  unfold expandBlock
  rw [h, toMaps_eq]
  dsimp only
  generalize t.dataRows = rows
  induction rows with
  | nil => rfl
  | cons r rows ih =>
    rw [List.map_cons, mapExcept_cons, mapExcept_cons, ih]

theorem expandBlocks_eq {ε : Type} (o : ScenarioOutline) (rx : RegexReplace ε)
    (es : List Examples) :
    ∀ acc, o.expandBlocks rx es acc
      = (mapExcept (expandBlock o rx) es).map (fun bs => acc ++ bs.flatten) := by
  induction es with
  | nil =>
    intro acc
    show Except.ok acc = Except.ok (acc ++ [])
    rw [List.append_nil]
  | cons e rest ih =>
    intro acc
    rw [mapExcept_cons]
    cases ht : e.table with
    | none =>
      have hb : expandBlock o rx e = .ok [] := by
        unfold expandBlock
        rw [ht]
      have hl : o.expandBlocks rx (e :: rest) acc = o.expandBlocks rx rest acc := by
        rw [expandBlocks_cons, ht]
      rw [hl, hb, ih]
      dsimp only
      cases mapExcept (expandBlock o rx) rest with
      | error err => rfl
      | ok bs => rfl
    | some t =>
      have hl : o.expandBlocks rx (e :: rest) acc
          = match o.expandMaps rx e t.toMaps acc with
            | .error err => .error err
            | .ok expanded1 => o.expandBlocks rx rest expanded1 := by
        rw [expandBlocks_cons, ht]
      rw [hl, expandMaps_eq, expandBlock_eq_maps o rx e t ht]
      cases mapExcept (o.expandOne rx e) t.toMaps with
      | error err => rfl
      | ok scs =>
        show o.expandBlocks rx rest (acc ++ scs) = _
        rw [ih]
        cases mapExcept (expandBlock o rx) rest with
        | error err => rfl
        | ok bs =>
          show Except.ok (acc ++ scs ++ bs.flatten) = Except.ok (acc ++ (scs :: bs).flatten)
          rw [List.flatten_cons, List.append_assoc]

theorem expand_eq_flatten {ε : Type} (o : ScenarioOutline) (rx : RegexReplace ε) :
    o.expand rx = (mapExcept (expandBlock o rx) o.examples).map List.flatten := by
  unfold ScenarioOutline.expand
  rw [expandBlocks_eq]
  cases mapExcept (expandBlock o rx) o.examples with
  | error err => rfl
  | ok bs =>
    show Except.ok ([] ++ bs.flatten) = Except.ok bs.flatten
    rw [List.nil_append]

theorem expandBlock_length {ε : Type} (o : ScenarioOutline) (rx : RegexReplace ε)
    (e : Examples) (b : List Scenario) (h : expandBlock o rx e = .ok b) :
    b.length = e.dataRowCount := by
  unfold expandBlock at h
  unfold Examples.dataRowCount
  cases ht : e.table with
  | none =>
    rw [ht] at h
    injection h with h
    rw [← h]
    rfl
  | some t =>
    rw [ht] at h
    dsimp only at h ⊢
    rw [mapExcept_length _ _ _ h, dataRows_length]

theorem expandBlocks_length {ε : Type} (o : ScenarioOutline) (rx : RegexReplace ε)
    (es : List Examples) :
    ∀ bs, mapExcept (expandBlock o rx) es = .ok bs →
      bs.flatten.length = (es.map Examples.dataRowCount).sum := by
  induction es with
  | nil =>
    intro bs h
    injection h with h
    rw [← h]
    rfl
  | cons e rest ih =>
    intro bs h
    obtain ⟨b, bs1, h1, h2, rfl⟩ := mapExcept_ok_cons h
    rw [List.flatten_cons, List.length_append, List.map_cons, List.sum_cons,
      expandBlock_length o rx e b h1, ih bs1 h2]

theorem expand_ok {ε : Type} (o : ScenarioOutline) (rx : RegexReplace ε) (ss : List Scenario)
    (h : o.expand rx = .ok ss) :
    ∃ bs, mapExcept (expandBlock o rx) o.examples = .ok bs ∧ ss = bs.flatten := by
  rw [expand_eq_flatten] at h
  cases hb : mapExcept (expandBlock o rx) o.examples with
  | error err => rw [hb] at h; cases h
  | ok bs =>
    rw [hb] at h
    injection h with h
    exact ⟨bs, rfl, h.symm⟩

theorem foldl_addStep (steps : List Step) (sc : Scenario) :
    steps.foldl Scenario.addStep sc = { sc with steps := sc.steps ++ steps } := by
  induction steps generalizing sc with
  | nil => simp
  | cons st steps ih => simp [List.foldl_cons, ih, Scenario.addStep]

theorem foldl_addTag (tags : List Str) (s : Scenario) :
    tags.foldl Scenario.addTag s = { s with tags := s.tags ++ tags } := by
  induction tags generalizing s with
  | nil => simp
  | cons t tags ih => simp [List.foldl_cons, ih, Scenario.addTag]

theorem expandRow_ok {ε : Type} (o : ScenarioOutline) (rx : RegexReplace ε) (m : StrMap)
    (sc : Scenario) (h : o.expandRow rx m = .ok sc) :
    ∃ name steps, substituteAll rx m o.name = .ok name
      ∧ mapExcept (expandStep rx m) o.steps = .ok steps
      ∧ sc = { name := name, description := o.description, tags := [], steps := steps } := by
  unfold ScenarioOutline.expandRow at h
  cases hn : substituteAll rx m o.name with
  | error err => rw [hn] at h; cases h
  | ok name =>
    rw [hn] at h
    cases hs : mapExcept (expandStep rx m) o.steps with
    | error err => rw [hs] at h; cases h
    | ok steps =>
      rw [hs] at h
      injection h with h
      refine ⟨name, steps, rfl, rfl, ?_⟩
      rw [← h, foldl_addStep]
      rfl

theorem expandOne_ok {ε : Type} (o : ScenarioOutline) (rx : RegexReplace ε) (e : Examples)
    (m : StrMap) (sc : Scenario) (h : o.expandOne rx e m = .ok sc) :
    ∃ sc0, o.expandRow rx m = .ok sc0
      ∧ sc = { sc0 with tags := o.tags ++ e.tags } := by
  unfold ScenarioOutline.expandOne at h
  cases hr : o.expandRow rx m with
  | error err => rw [hr] at h; cases h
  | ok sc0 =>
    rw [hr] at h
    injection h with h
    refine ⟨sc0, rfl, ?_⟩
    obtain ⟨name, steps, _, _, rfl⟩ := expandRow_ok o rx m sc0 hr
    rw [← h, foldl_addTag, foldl_addTag]
    simp

theorem expandOne_of_expandRow {ε : Type} (o : ScenarioOutline) (rx : RegexReplace ε)
    (e : Examples) (m : StrMap) (sc0 : Scenario) (h : o.expandRow rx m = .ok sc0) :
    o.expandOne rx e m
      = .ok (e.tags.foldl Scenario.addTag (o.tags.foldl Scenario.addTag sc0)) := by
  unfold ScenarioOutline.expandOne
  rw [h]

theorem expandOne_error {ε : Type} (o : ScenarioOutline) (rx : RegexReplace ε)
    (e : Examples) (m : StrMap) (err : ε) (h : o.expandRow rx m = .error err) :
    o.expandOne rx e m = .error err := by
  unfold ScenarioOutline.expandOne
  rw [h]

theorem expandTable_map {ε : Type} (rx : RegexReplace ε) (m : StrMap) (g : Str → Str)
    (hg : ∀ s, substituteAll rx m s = .ok (g s)) (table : Option DataTable) :
    expandTable rx m table
      = .ok (match table with
        | none => none
        | some t => some { rows := t.rows.map (fun row => row.map g) }) := by
  cases table with
  | none => rfl
  | some t =>
    have h := mapExcept_eq_map (fun row => mapExcept (substituteAll rx m) row)
      (fun row => row.map g) t.rows
      (fun row _ => mapExcept_eq_map _ g row (fun s _ => hg s))
    unfold expandTable
    dsimp only
    rw [h]

theorem expandDocString_map {ε : Type} (rx : RegexReplace ε) (m : StrMap) (g : Str → Str)
    (hg : ∀ s, substituteAll rx m s = .ok (g s)) (doc : Option DocString) :
    expandDocString rx m doc
      = .ok (match doc with
        | none => none
        | some d => some { content := g d.content, contentType := d.contentType }) := by
  cases doc with
  | none => rfl
  | some d =>
    unfold expandDocString
    dsimp only
    rw [hg]

theorem expandStep_map {ε : Type} (rx : RegexReplace ε) (m : StrMap) (g : Str → Str)
    (hg : ∀ s, substituteAll rx m s = .ok (g s)) (step : Step) :
    expandStep rx m step = .ok (mapStep g step) := by
  unfold expandStep
  rw [hg, expandTable_map rx m g hg, expandDocString_map rx m g hg]
  rfl

theorem expandRow_map {ε : Type} (o : ScenarioOutline) (rx : RegexReplace ε) (m : StrMap)
    (g : Str → Str) (hg : ∀ s, substituteAll rx m s = .ok (g s)) :
    o.expandRow rx m
      = .ok { name := g o.name, description := o.description, tags := []
              steps := o.steps.map (mapStep g) } := by
  unfold ScenarioOutline.expandRow
  rw [hg, mapExcept_eq_map _ (mapStep g) o.steps (fun st _ => expandStep_map rx m g hg st)]
  dsimp only
  rw [foldl_addStep]
  rfl

theorem expandOne_map {ε : Type} (o : ScenarioOutline) (rx : RegexReplace ε) (e : Examples)
    (m : StrMap) (g : Str → Str) (hg : ∀ s, substituteAll rx m s = .ok (g s)) :
    o.expandOne rx e m
      = .ok { name := g o.name, description := o.description, tags := o.tags ++ e.tags
              steps := o.steps.map (mapStep g) } := by
  rw [expandOne_of_expandRow o rx e m _ (expandRow_map o rx m g hg), foldl_addTag, foldl_addTag]
  simp

theorem expandRow_error {ε : Type} (o : ScenarioOutline) (rx : RegexReplace ε) (m : StrMap)
    (h : ∀ s, ∃ err, substituteAll rx m s = .error err) :
    ∃ err, o.expandRow rx m = .error err := by
  obtain ⟨err, he⟩ := h o.name
  unfold ScenarioOutline.expandRow
  rw [he]
  exact ⟨err, rfl⟩

theorem expand_ok_of_rows {ε : Type} (o : ScenarioOutline) (rx : RegexReplace ε)
    (h : ∀ e ∈ o.examples, ∀ t, e.table = some t → ∀ m ∈ t.toMaps,
      ∀ s, ∃ r, substituteAll rx m s = .ok r) :
    ∃ ss, o.expand rx = .ok ss := by
  have hb : ∀ e ∈ o.examples, ∃ b, expandBlock o rx e = .ok b := by
    intro e he
    cases ht : e.table with
    | none =>
      refine ⟨[], ?_⟩
      unfold expandBlock
      rw [ht]
    | some t =>
      rw [expandBlock_eq_maps o rx e t ht]
      apply mapExcept_ok_of_forall
      intro m hm
      choose g hg using h e he t ht m hm
      exact ⟨_, expandOne_map o rx e m g hg⟩
  obtain ⟨bs, hbs⟩ := mapExcept_ok_of_forall _ _ hb
  rw [expand_eq_flatten, hbs]
  exact ⟨_, rfl⟩

theorem expand_error_of_row {ε : Type} (o : ScenarioOutline) (rx : RegexReplace ε)
    (e : Examples) (t : DataTable) (m : StrMap) (he : e ∈ o.examples) (ht : e.table = some t)
    (hm : m ∈ t.toMaps) (h : ∀ s, ∃ err, substituteAll rx m s = .error err) :
    ∃ err, o.expand rx = .error err := by
  obtain ⟨err, herr⟩ := expandRow_error o rx m h
  obtain ⟨e1, h1⟩ := mapExcept_error_of_mem (o.expandOne rx e) t.toMaps m err hm
    (expandOne_error o rx e m err herr)
  obtain ⟨e2, h2⟩ := mapExcept_error_of_mem (expandBlock o rx) o.examples e e1 he
    (by rw [expandBlock_eq_maps o rx e t ht, h1])
  rw [expand_eq_flatten, h2]
  exact ⟨e2, rfl⟩

theorem substituteAll_cons {ε : Type} (rx : RegexReplace ε) (kv : Str × Str) (rest : StrMap)
    (s : Str) :
    substituteAll rx (kv :: rest) s
      = match rx ('<' :: kv.1 ++ ['>']) kv.2 s with
        | .error e => .error e
        | .ok s1 => substituteAll rx rest s1 := rfl

theorem stdRegexReplace_plain (pat fmt text : Str) (h : ∀ c ∈ pat, isRegexMeta c = false) :
    stdRegexReplace pat fmt text = .ok (regexReplaceLit pat fmt text) := by
  have hall : pat.all (fun c => !isRegexMeta c) = true := by
    rw [List.all_eq_true]
    intro c hc
    rw [h c hc]
    rfl
  unfold stdRegexReplace
  rw [if_pos hall]

theorem substituteAll_std (values : StrMap)
    (h : ∀ kv ∈ values, ∀ c ∈ kv.1, isRegexMeta c = false) :
    ∀ s, substituteAll stdRegexReplace values s = .ok (substituteLit values s) := by
  induction values with
  | nil => intro s; rfl
  | cons kv rest ih =>
    intro s
    have hpat : ∀ c ∈ '<' :: kv.1 ++ ['>'], isRegexMeta c = false := by
      intro c hc
      rcases List.mem_cons.mp hc with rfl | hc
      · decide
      · rcases List.mem_append.mp hc with hc | hc
        · exact h kv (List.mem_cons_self _ _) c hc
        · rw [List.mem_singleton.mp hc]
          decide
    rw [substituteAll_cons, stdRegexReplace_plain _ _ _ hpat]
    dsimp only
    rw [ih (fun kv2 hkv2 => h kv2 (List.mem_cons_of_mem _ hkv2))]
    rfl

theorem mem_set (m : StrMap) (k v : Str) (kv : Str × Str) (h : kv ∈ StrMap.set m k v) :
    kv = (k, v) ∨ kv ∈ m := by
  induction m with
  | nil =>
    exact Or.inl (List.mem_singleton.mp h)
  | cons kv0 rest ih =>
    obtain ⟨k0, v0⟩ := kv0
    unfold StrMap.set at h
    by_cases h1 : k = k0
    · rw [if_pos h1] at h
      rcases List.mem_cons.mp h with h | h
      · exact Or.inl h
      · exact Or.inr (List.mem_cons_of_mem _ h)
    · rw [if_neg h1] at h
      by_cases h2 : strLt k k0 = true
      · rw [if_pos h2] at h
        rcases List.mem_cons.mp h with h | h
        · exact Or.inl h
        · exact Or.inr h
      · rw [if_neg h2] at h
        rcases List.mem_cons.mp h with h | h
        · exact Or.inr (h ▸ List.mem_cons_self _ _)
        · rcases ih h with h | h
          · exact Or.inl h
          · exact Or.inr (List.mem_cons_of_mem _ h)

theorem rowMap_keys (headers row : List Str) :
    ∀ (m : StrMap) (kv : Str × Str), kv ∈ DataTable.rowMap headers row m →
      kv.1 ∈ headers ∨ kv ∈ m := by
  induction headers generalizing row with
  | nil =>
    intro m kv h
    exact Or.inr h
  | cons hd hs ih =>
    intro m kv h
    cases row with
    | nil => exact Or.inr h
    | cons c cs =>
      rcases ih cs (StrMap.set m hd c) kv h with h1 | h1
      · exact Or.inl (List.mem_cons_of_mem _ h1)
      · rcases mem_set m hd c kv h1 with h2 | h2
        · rw [h2]
          exact Or.inl (List.mem_cons_self _ _)
        · exact Or.inr h2

theorem toMaps_keys (t : DataTable) (m : StrMap) (hm : m ∈ t.toMaps) (kv : Str × Str)
    (hkv : kv ∈ m) : kv.1 ∈ t.headers := by
  rw [toMaps_eq] at hm
  obtain ⟨row, _, rfl⟩ := List.mem_map.mp hm
  rcases rowMap_keys t.headers row [] kv hkv with h | h
  · exact h
  · exact absurd h (List.not_mem_nil _)

theorem substituteAll_ok_of_keys {ε : Type} (rx : RegexReplace ε) (values : StrMap)
    (h : ∀ kv ∈ values, ∀ fmt text, ∃ r, rx ('<' :: kv.1 ++ ['>']) fmt text = .ok r) :
    ∀ s, ∃ r, substituteAll rx values s = .ok r := by
  induction values with
  | nil => exact fun s => ⟨s, rfl⟩
  | cons kv rest ih =>
    intro s
    obtain ⟨r, hr⟩ := h kv (List.mem_cons_self _ _) kv.2 s
    rw [substituteAll_cons, hr]
    exact ih (fun kv2 hkv2 => h kv2 (List.mem_cons_of_mem _ hkv2)) r

theorem substituteAll_error_of_key {ε : Type} (rx : RegexReplace ε) (values : StrMap)
    (kv : Str × Str) (hkv : kv ∈ values)
    (h : ∀ fmt text, ∃ err, rx ('<' :: kv.1 ++ ['>']) fmt text = .error err) :
    ∀ s, ∃ err, substituteAll rx values s = .error err := by
  induction values with
  | nil => exact absurd hkv (List.not_mem_nil _)
  | cons kv0 rest ih =>
    intro s
    rw [substituteAll_cons]
    cases hr : rx ('<' :: kv0.1 ++ ['>']) kv0.2 s with
    | error err => exact ⟨err, rfl⟩
    | ok r =>
      rcases List.mem_cons.mp hkv with hk | hk
      · obtain ⟨err, he⟩ := h kv0.2 s
        rw [hk, hr] at he
        cases he
      · exact ih hk r

/-- Claim C3 fails for an Examples table whose header is not a valid regular
expression: `expandRow` builds `std::regex("<" + param + ">")` from every
header, and for the header `(` the constructor throws `std::regex_error`, so
`expand()` returns no scenario where the claim counts one.  For every meaning
of the regular expressions, `expand()` is the blocks' contributions
concatenated in block order, each block's in row order, a block without a table
or with at most a header row contributing none; when it returns, it returns as
many scenarios as there are data rows; it returns when the regex of every key
of every row can be built and applied, and throws when the regex of one key of
one row cannot be built.  With headers free of regex metacharacters it returns,
and the count of the claim holds. -/
theorem expand_count_fails_on_invalid_header :
    outlineParen.expand stdRegexReplace = .error .regex_error
    ∧ (outlineParen.examples.map Examples.dataRowCount).sum = 1
    ∧ stdRegexReplace "<(>".toList "bob".toList "Login".toList = .error .regex_error
    ∧ (outlineLogin.expand stdRegexReplace).map List.length = .ok 1
    ∧ (∀ (ε : Type) (rx : RegexReplace ε) (o : ScenarioOutline),
        o.expand rx = (mapExcept (expandBlock o rx) o.examples).map List.flatten
        ∧ (∀ ss, o.expand rx = .ok ss →
            ss.length = (o.examples.map Examples.dataRowCount).sum)
        ∧ ((∀ e ∈ o.examples, ∀ t, e.table = some t → ∀ m ∈ t.toMaps, ∀ kv ∈ m,
              ∀ fmt text, ∃ r, rx ('<' :: kv.1 ++ ['>']) fmt text = .ok r) →
            ∃ ss, o.expand rx = .ok ss)
        ∧ (∀ e ∈ o.examples, ∀ t, e.table = some t → ∀ m ∈ t.toMaps, ∀ kv ∈ m,
              (∀ fmt text, ∃ err, rx ('<' :: kv.1 ++ ['>']) fmt text = .error err) →
              ∃ err, o.expand rx = .error err)
        ∧ (∀ e : Examples, e.table = none → expandBlock o rx e = .ok [])
        ∧ (∀ (e : Examples) (t : DataTable), e.table = some t → t.rows.length ≤ 1 →
            expandBlock o rx e = .ok [])
        ∧ (∀ (e : Examples) (t : DataTable), e.table = some t →
            expandBlock o rx e
              = mapExcept (fun row => o.expandOne rx e (DataTable.rowMap t.headers row []))
                  t.dataRows))
    ∧ (∀ o : ScenarioOutline,
        (∀ e ∈ o.examples, ∀ t, e.table = some t →
          ∀ h ∈ t.headers, ∀ c ∈ h, isRegexMeta c = false) →
        ∃ ss, o.expand stdRegexReplace = .ok ss
          ∧ ss.length = (o.examples.map Examples.dataRowCount).sum) := by
  have hlen : ∀ (ε : Type) (rx : RegexReplace ε) (o : ScenarioOutline) (ss : List Scenario),
      o.expand rx = .ok ss → ss.length = (o.examples.map Examples.dataRowCount).sum := by
    intro ε rx o ss h
    obtain ⟨bs, hbs, rfl⟩ := expand_ok o rx ss h
    exact expandBlocks_length o rx o.examples bs hbs
  refine ⟨rfl, by decide, rfl, rfl, ?_, ?_⟩
  · intro ε rx o
    refine ⟨expand_eq_flatten o rx, hlen ε rx o, ?_, ?_, ?_, ?_, ?_⟩
    · intro h
      exact expand_ok_of_rows o rx (fun e he t ht m hm =>
        substituteAll_ok_of_keys rx m (h e he t ht m hm))
    · intro e he t ht m hm kv hkv h
      exact expand_error_of_row o rx e t m he ht hm (substituteAll_error_of_key rx m kv hkv h)
    · intro e he
      unfold expandBlock
      rw [he]
    · intro e t he hl
      unfold expandBlock
      rw [he]
      dsimp only
      unfold DataTable.dataRows
      rw [if_pos hl]
      rfl
    · intro e t he
      unfold expandBlock
      rw [he]
  · intro o h
    obtain ⟨ss, hss⟩ := expand_ok_of_rows o stdRegexReplace (by
      intro e he t ht m hm s
      exact ⟨_, substituteAll_std m
        (fun kv hkv c hc => h e he t ht kv.1 (toMaps_keys t m hm kv hkv) c hc) s⟩)
    exact ⟨ss, hss, hlen _ _ o ss hss⟩

/-- Claim C6: every scenario that `expand()` produces from an Examples block `e`
of an outline `o` has as its tag list the tags of `o` followed by the tags of
`e`, and `hasTag t` holds exactly when `t` is a tag of `o` or of `e`, whatever
the regular expressions of the headers mean.  The scenario is one of those that
`expand()` returns, and every scenario that `expand()` returns is produced from
one of the blocks of `o`. -/
theorem expand_tags_union {ε : Type} (rx : RegexReplace ε) (o : ScenarioOutline)
    (e : Examples) (b : List Scenario) (sc : Scenario)
    (he : e ∈ o.examples) (hb : expandBlock o rx e = .ok b) (hsc : sc ∈ b) :
    sc.tags = o.tags ++ e.tags
    ∧ (∀ t : Str, sc.hasTag t = true ↔ (t ∈ o.tags ∨ t ∈ e.tags))
    ∧ (∀ ss, o.expand rx = .ok ss → sc ∈ ss)
    ∧ (∀ ss, o.expand rx = .ok ss → ∀ sc2 ∈ ss, ∃ e2 ∈ o.examples, ∃ b2,
        expandBlock o rx e2 = .ok b2 ∧ sc2 ∈ b2 ∧ sc2.tags = o.tags ++ e2.tags) := by
  have htags : ∀ (e2 : Examples) (b2 : List Scenario), expandBlock o rx e2 = .ok b2 →
      ∀ sc2 ∈ b2, sc2.tags = o.tags ++ e2.tags := by
    intro e2 b2 hb2 sc2 hsc2
    unfold expandBlock at hb2
    cases ht : e2.table with
    | none =>
      rw [ht] at hb2
      injection hb2 with hb2
      rw [← hb2] at hsc2
      exact absurd hsc2 (List.not_mem_nil _)
    | some t =>
      rw [ht] at hb2
      obtain ⟨row, _, hrow⟩ := mapExcept_mem _ _ _ hb2 sc2 hsc2
      obtain ⟨sc0, _, rfl⟩ := expandOne_ok o rx e2 _ sc2 hrow
      rfl
  have h1 := htags e b hb sc hsc
  refine ⟨h1, ?_, ?_, ?_⟩
  · intro t
    simp [Scenario.hasTag, h1]
  · intro ss hss
    obtain ⟨bs, hbs, rfl⟩ := expand_ok o rx ss hss
    obtain ⟨b2, hb2, hb3⟩ := mapExcept_mem_left _ _ _ hbs e he
    rw [hb] at hb3
    injection hb3 with hb3
    rw [List.mem_flatten]
    exact ⟨b2, hb2, hb3 ▸ hsc⟩
  · intro ss hss sc2 hsc2
    obtain ⟨bs, hbs, rfl⟩ := expand_ok o rx ss hss
    obtain ⟨b2, hb2, hsc3⟩ := List.mem_flatten.mp hsc2
    obtain ⟨e2, he2, hbe⟩ := mapExcept_mem _ _ _ hbs b2 hb2
    exact ⟨e2, he2, b2, hbe, hsc3, htags e2 b2 hbe sc2 hsc3⟩

/-- Claim C6 on the sample outline: its only expanded scenario carries the tag of
the outline followed by the tag of the Examples block. -/
theorem expand_tags_union_witness :
    examplesLogin ∈ outlineLogin.examples
    ∧ expandBlock outlineLogin stdRegexReplace examplesLogin = .ok [expandedLogin]
    ∧ expandedLogin ∈ [expandedLogin]
    ∧ expandedLogin.tags = ["web".toList, "fast".toList]
    ∧ outlineLogin.expand stdRegexReplace = .ok [expandedLogin] :=
  ⟨by decide, rfl, by decide,
    (expand_tags_union stdRegexReplace outlineLogin examplesLogin [expandedLogin] expandedLogin
      (by decide) rfl (by decide)).1, rfl⟩

/-! ## Placeholder extraction -/

theorem searchParam_cons (c : Char) (cs : Str) :
    searchParam (c :: cs) =
      if c = '<' then
        match paramBody cs with
        | some r => some r
        | none => searchParam cs
      else searchParam cs := rfl

theorem regexFormatGo_plain (m pre suf fmt : Str) (h : '$' ∉ fmt) :
    regexFormatGo m pre suf .plain fmt = fmt := by
  induction fmt with
  | nil => rfl
  | cons c r ih =>
    have hc : c ≠ '$' := fun e => h (by simp [e])
    have hr : '$' ∉ r := fun e => h (List.mem_cons_of_mem _ e)
    simp [regexFormatGo, hc, ih hr]

theorem regexReplaceLit_eq_replaceLiteral (pat fmt text : Str) (h : '$' ∉ fmt) :
    regexReplaceLit pat fmt text = replaceLiteral pat fmt text := by
  unfold regexReplaceLit replaceLiteral
  congr 1
  funext m pre suf
  exact regexFormatGo_plain m pre suf fmt h

theorem scanReplace_skip (matchAt : Str → Option Nat) (out : Str → Str → Str → Str)
    (xs rest pre : Str) :
    scanReplace matchAt out xs.length pre (xs ++ rest) = scanReplace matchAt out 0 pre rest := by
  induction xs with
  | nil => cases rest <;> rfl
  | cons x xs ih => simpa [scanReplace] using ih

theorem scanReplace_zero_cons (matchAt : Str → Option Nat) (out : Str → Str → Str → Str)
    (pre : Str) (c : Char) (cs : Str) :
    scanReplace matchAt out 0 pre (c :: cs) =
      match matchAt (c :: cs) with
      | some len =>
        out ((c :: cs).take len) pre.reverse ((c :: cs).drop len)
          ++ scanReplace matchAt out (len - 1) [] cs
      | none => c :: scanReplace matchAt out 0 (c :: pre) cs := rfl

theorem litAt_ne_head (p : Char) (ps : Str) (c : Char) (cs : Str) (h : c ≠ p) :
    litAt (p :: ps) (c :: cs) = none := by
  have : (p == c) = false := by simpa using (Ne.symm h)
  simp [litAt, List.isPrefixOf, this]

theorem scanReplace_copy (p : Char) (ps : Str) (out : Str → Str → Str → Str)
    (xs rest : Str) (hxs : p ∉ xs) (pre : Str) :
    scanReplace (litAt (p :: ps)) out 0 pre (xs ++ rest)
      = xs ++ scanReplace (litAt (p :: ps)) out 0 (xs.reverse ++ pre) rest := by
  induction xs generalizing pre with
  | nil => rfl
  | cons x xs ih =>
    have hx : x ≠ p := fun e => hxs (by simp [e])
    have hr : p ∉ xs := fun e => hxs (List.mem_cons_of_mem _ e)
    rw [List.cons_append, scanReplace_zero_cons, litAt_ne_head p ps x _ hx]
    simp only [List.cons_append, List.reverse_cons, List.append_assoc, List.singleton_append,
      List.nil_append]
    rw [ih hr]

theorem hole_prefix_iff (k k2 rest : Str) (hk : '>' ∉ k) (hk2 : '>' ∉ k2) :
    ('<' :: (k ++ ['>'])) <+: ('<' :: (k2 ++ '>' :: rest)) ↔ k = k2 := by
  constructor
  · rintro ⟨t, ht⟩
    simp only [List.cons_append, List.append_assoc, List.singleton_append, List.cons.injEq,
      true_and] at ht
    have key : ∀ (a b : Str) (s1 s2 : Str), '>' ∉ a → '>' ∉ b →
        a ++ '>' :: s1 = b ++ '>' :: s2 → a = b := by
      intro a
      induction a with
      | nil =>
        intro b s1 s2 _ hb h
        cases b with
        | nil => rfl
        | cons y b =>
          simp only [List.nil_append, List.cons_append, List.cons.injEq] at h
          exact absurd (by simp [← h.1]) hb
      | cons x a ih =>
        intro b s1 s2 ha hb h
        cases b with
        | nil =>
          simp only [List.nil_append, List.cons_append, List.cons.injEq] at h
          exact absurd (by simp [h.1]) ha
        | cons y b =>
          simp only [List.cons_append, List.cons.injEq] at h
          rw [h.1, ih b s1 s2 (fun e => ha (List.mem_cons_of_mem _ e))
            (fun e => hb (List.mem_cons_of_mem _ e)) h.2]
    exact key k k2 t rest hk hk2 ht
  · rintro rfl
    exact ⟨rest, by simp⟩

theorem Flat.append_plain {P : Str → Prop} (v rest : Str) (hv : '<' ∉ v) (h : Flat P rest) :
    Flat P (v ++ rest) := by
  induction v with
  | nil => exact h
  | cons c v ih =>
    exact Flat.char c _ (fun e => hv (by simp [e])) (ih (fun e => hv (List.mem_cons_of_mem _ e)))

theorem Flat.mono {P Q : Str → Prop} (hPQ : ∀ k, P k → Q k) {f : Str} (h : Flat P f) :
    Flat Q f := by
  induction h with
  | nil => exact Flat.nil
  | char c cs hc _ ih => exact Flat.char c cs hc ih
  | hole k rest hk _ ih => exact Flat.hole k rest (hPQ k hk) ih

theorem Flat.no_lt {f : Str} (h : Flat (fun _ => False) f) : '<' ∉ f := by
  induction h with
  | nil => simp
  | char c cs hc _ ih =>
    intro hm
    rcases List.mem_cons.mp hm with e | e
    · exact hc e.symm
    · exact ih e
  | hole k rest hk _ _ => exact hk.elim

theorem replaceLiteral_flat (P : Str → Prop) (k v : Str)
    (hP : ∀ k2, P k2 → '<' ∉ k2 ∧ '>' ∉ k2) (hk : '>' ∉ k) (hv : '<' ∉ v)
    {f : Str} (h : Flat P f) (pre : Str) :
    Flat (fun k2 => P k2 ∧ k2 ≠ k)
      (scanReplace (litAt ('<' :: (k ++ ['>']))) (fun _ _ _ => v) 0 pre f) := by
  induction h generalizing pre with
  | nil => exact Flat.nil
  | char c cs hc _ ih =>
    rw [scanReplace_zero_cons, litAt_ne_head _ _ _ _ hc]
    exact Flat.char c _ hc (ih _)
  | hole k2 rest hk2 _ ih =>
    obtain ⟨hlt2, hgt2⟩ := hP k2 hk2
    rw [List.cons_append]
    by_cases hkk : k = k2
    · subst hkk
      have hpre : ('<' :: (k ++ ['>'])).isPrefixOf ('<' :: (k ++ '>' :: rest)) = true := by
        rw [List.isPrefixOf_iff_prefix]
        exact (hole_prefix_iff k k rest hk hk).mpr rfl
      rw [scanReplace_zero_cons]
      simp only [litAt, hpre, if_true]
      have hskip := scanReplace_skip (litAt ('<' :: (k ++ ['>']))) (fun _ _ _ => v)
        (k ++ ['>']) rest []
      simp only [List.length_append, List.length_singleton, List.append_assoc,
        List.singleton_append] at hskip
      simp only [List.length_cons, List.length_append, List.length_singleton,
        List.length_nil, Nat.zero_add, Nat.add_sub_cancel]
      rw [hskip]
      exact Flat.append_plain v _ hv (ih _)
    · have hpre : ('<' :: (k ++ ['>'])).isPrefixOf ('<' :: (k2 ++ '>' :: rest)) = false := by
        rw [Bool.eq_false_iff]
        intro hp
        rw [List.isPrefixOf_iff_prefix] at hp
        exact hkk ((hole_prefix_iff k k2 rest hk hgt2).mp hp)
      rw [scanReplace_zero_cons]
      simp only [litAt, hpre, Bool.false_eq_true, if_false]
      rw [scanReplace_copy '<' (k ++ ['>']) _ k2 ('>' :: rest) hlt2]
      have hgt : ('>' : Char) ≠ '<' := by decide
      rw [scanReplace_zero_cons, litAt_ne_head _ _ _ _ hgt]
      exact Flat.hole k2 _ ⟨hk2, fun e => hkk e.symm⟩ (ih _)

theorem substituteLit_flat (values : StrMap) (P : Str → Prop)
    (hP : ∀ k2, P k2 → '<' ∉ k2 ∧ '>' ∉ k2)
    (hvals : ∀ kv ∈ values, PlainKey kv.1 ∧ '<' ∉ kv.2 ∧ '$' ∉ kv.2)
    {f : Str} (h : Flat P f) :
    Flat (fun k2 => P k2 ∧ k2 ∉ values.map Prod.fst) (substituteLit values f) := by
  induction values generalizing P f with
  | nil =>
    exact Flat.mono (fun k hk => ⟨hk, by simp⟩) h
  | cons kv rest ih =>
    obtain ⟨hkey, hv1, hv2⟩ := hvals kv (List.mem_cons_self _ _)
    have hk : '>' ∉ kv.1 := fun e => (hkey _ e).2.2 rfl
    have hstep := replaceLiteral_flat P kv.1 kv.2 hP hk hv1 h []
    have hrest := ih (fun k2 => P k2 ∧ k2 ≠ kv.1) (fun k2 hk2 => hP k2 hk2.1)
      (fun kv2 hkv2 => hvals kv2 (List.mem_cons_of_mem _ hkv2)) hstep
    unfold substituteLit at hrest ⊢
    rw [List.foldl_cons, regexReplaceLit_eq_replaceLiteral _ _ _ hv2]
    refine Flat.mono ?_ hrest
    rintro k2 ⟨⟨h1, h2⟩, h3⟩
    refine ⟨h1, ?_⟩
    simp only [List.map_cons, List.mem_cons, not_or]
    exact ⟨h2, h3⟩

theorem searchParam_no_lt {f : Str} (h : '<' ∉ f) : searchParam f = none := by
  induction f with
  | nil => rfl
  | cons c cs ih =>
    have hc : c ≠ '<' := fun e => h (by simp [e])
    rw [searchParam_cons, if_neg hc]
    exact ih (fun e => h (List.mem_cons_of_mem _ e))

theorem substituteLit_no_placeholder (values : StrMap)
    (hvals : ∀ kv ∈ values, PlainKey kv.1 ∧ '<' ∉ kv.2 ∧ '$' ∉ kv.2)
    {f : Str} (h : Flat (fun k => k ∈ values.map Prod.fst) f) :
    hasPlaceholder (substituteLit values f) = false := by
  have hP : ∀ k2, k2 ∈ values.map Prod.fst → '<' ∉ k2 ∧ '>' ∉ k2 := by
    intro k2 hk2
    obtain ⟨kv, hkv, rfl⟩ := List.mem_map.mp hk2
    obtain ⟨hkey, _, _⟩ := hvals kv hkv
    exact ⟨fun e => (hkey _ e).2.1 rfl, fun e => (hkey _ e).2.2 rfl⟩
  have h1 := substituteLit_flat values _ hP hvals h
  have h2 : Flat (fun _ => False) (substituteLit values f) :=
    Flat.mono (fun k hk => hk.2 hk.1) h1
  unfold hasPlaceholder
  rw [searchParam_no_lt (Flat.no_lt h2)]
  rfl

theorem mapStep_fields (g : Str → Str) (s : Step) :
    (mapStep g s).fields = s.fields.map g := by
  unfold mapStep Step.fields
  cases s.dataTable <;> cases s.docString <;> simp [List.map_flatten]


/-- Claim C4, as stated, fails: a placeholder whose name is not a header of the
Examples table stays in the expanded step, a value written with angle brackets
is inserted as it is, and a replacement inside angle brackets can leave a new
placeholder behind. -/
theorem expand_can_leave_placeholder :
    ((outlineMissingKey.expand stdRegexReplace).map
          (fun ss => ss.map (fun sc => sc.steps.map (fun s => s.text)))
        = .ok [["I log in as bob with <password>".toList]]
      ∧ hasPlaceholder "I log in as bob with <password>".toList = true)
    ∧ ((outlineBracketValue.expand stdRegexReplace).map
          (fun ss => ss.map (fun sc => sc.steps.map (fun s => s.text)))
        = .ok [["I log in as <none>".toList]]
      ∧ hasPlaceholder "I log in as <none>".toList = true)
    ∧ ((outlineNested.expand stdRegexReplace).map
          (fun ss => ss.map (fun sc => sc.steps.map (fun s => s.text)))
        = .ok [["<a>".toList]]
      ∧ hasPlaceholder "<a>".toList = true) :=
  ⟨⟨rfl, by decide⟩, ⟨rfl, by decide⟩, ⟨rfl, by decide⟩⟩

/-- Claim C4, amended: when the keys of the row's map are plain (no angle
bracket, no regex metacharacter), its values hold neither `<` nor `$`, and every
step text, table cell and doc-string content of the outline is made of
characters other than `<` and of placeholders `<key>` for keys of that map,
then `expandRow` builds a scenario for the row, that scenario has no
placeholder left in any step text, table cell or doc-string content, and it is
one of the scenarios of `expand()` whenever `expand()` returns. -/
theorem expand_no_placeholder_left (o : ScenarioOutline) (e : Examples) (t : DataTable)
    (row : List Str) (he : e ∈ o.examples) (ht : e.table = some t) (hrow : row ∈ t.dataRows)
    (hvals : ∀ kv ∈ DataTable.rowMap t.headers row [],
      PlainKey kv.1 ∧ '<' ∉ kv.2 ∧ '$' ∉ kv.2)
    (hflat : ∀ s ∈ o.steps, ∀ f ∈ s.fields,
      Flat (fun k => k ∈ (DataTable.rowMap t.headers row []).map Prod.fst) f) :
    ∃ sc, o.expandOne stdRegexReplace e (DataTable.rowMap t.headers row []) = .ok sc
      ∧ (∀ s ∈ sc.steps, ∀ f ∈ s.fields, hasPlaceholder f = false)
      ∧ (∀ ss, o.expand stdRegexReplace = .ok ss → sc ∈ ss) := by
  have hsub := substituteAll_std (DataTable.rowMap t.headers row [])
    (fun kv hkv c hc => ((hvals kv hkv).1 c hc).1)
  have hone := expandOne_map o stdRegexReplace e _ _ hsub
  refine ⟨_, hone, ?_, ?_⟩
  · intro s hs f hf
    obtain ⟨s0, hs0, rfl⟩ := List.mem_map.mp hs
    rw [mapStep_fields] at hf
    obtain ⟨f0, hf0, rfl⟩ := List.mem_map.mp hf
    exact substituteLit_no_placeholder _ hvals (hflat s0 hs0 f0 hf0)
  · intro ss hss
    obtain ⟨bs, hbs, rfl⟩ := expand_ok o stdRegexReplace ss hss
    obtain ⟨b, hb, hbe⟩ := mapExcept_mem_left _ _ _ hbs e he
    unfold expandBlock at hbe
    rw [ht] at hbe
    obtain ⟨sc2, hsc2, hrow2⟩ := mapExcept_mem_left _ _ _ hbe row hrow
    rw [hone] at hrow2
    injection hrow2 with hrow2
    rw [List.mem_flatten]
    exact ⟨b, hb, hrow2 ▸ hsc2⟩

theorem outlineLogin_flat (f : Str)
    (hf : f ∈ ["<u>!".toList, "<u>".toList, "x".toList, "a<u>".toList]) :
    Flat (fun k => k ∈ [("u".toList, "bob".toList)].map Prod.fst) f := by
  have hu : "u".toList ∈ [("u".toList, "bob".toList)].map Prod.fst := by decide
  simp only [List.mem_cons, List.mem_singleton, List.not_mem_nil, or_false] at hf
  rcases hf with rfl | rfl | rfl | rfl
  · exact Flat.hole ['u'] ['!'] hu (Flat.char '!' [] (by decide) Flat.nil)
  · exact Flat.hole ['u'] [] hu Flat.nil
  · exact Flat.char 'x' [] (by decide) Flat.nil
  · exact Flat.char 'a' _ (by decide) (Flat.hole ['u'] [] hu Flat.nil)

/-- Claim C4, amended, on a sample outline with a placeholder in a step text, a
table cell and a doc string. -/
theorem expand_no_placeholder_left_witness :
    examplesLogin ∈ outlineLogin.examples ∧ ["bob".toList] ∈ tableLogin.dataRows
    ∧ ∃ sc, outlineLogin.expandOne stdRegexReplace examplesLogin
          (DataTable.rowMap tableLogin.headers ["bob".toList] []) = .ok sc
      ∧ (∀ s ∈ sc.steps, ∀ f ∈ s.fields, hasPlaceholder f = false)
      ∧ (∀ ss, outlineLogin.expand stdRegexReplace = .ok ss → sc ∈ ss) :=
  ⟨by decide, by decide,
    expand_no_placeholder_left outlineLogin examplesLogin tableLogin ["bob".toList]
      (by decide) rfl (by decide)
      (by
        intro kv hkv
        have : kv = ("u".toList, "bob".toList) := by
          simpa [DataTable.rowMap, DataTable.headers, StrMap.set, tableLogin] using hkv
        subst this
        refine ⟨?_, by decide, by decide⟩
        intro c hc
        have : c = 'u' := by simpa using hc
        subst this
        decide)
      (by
        intro s hs f hf
        have hs2 : s = stepLogin := by simpa [outlineLogin] using hs
        subst hs2
        exact outlineLogin_flat f (by simpa [Step.fields, stepLogin] using hf))⟩

/-- Claim C5 evaluated: for the Examples values `$$` and `$&` the expanded step
text is not the step text with `<price>` replaced by the value: `$$` is inserted
as a single `$`, and `$&` as the matched placeholder itself. -/
theorem expand_dollar_value_not_verbatim :
    (outlineDollar.expand stdRegexReplace).map
        (fun ss => ss.map (fun sc => sc.steps.map (fun s => s.text)))
      = .ok [["I pay $".toList], ["I pay <price>".toList]]
    ∧ replaceLiteral "<price>".toList "$$".toList "I pay <price>".toList = "I pay $$".toList
    ∧ replaceLiteral "<price>".toList "$&".toList "I pay <price>".toList = "I pay $&".toList :=
  ⟨rfl, by decide, by decide⟩


/-! ## Lexer and parser on sample documents -/

set_option maxRecDepth 1000000 in
/-- C1 evaluated: for a feature file with one scenario of two steps, the parsed
scenario has no step at all (the step lines end up in its description, without
the quoted word), the names start with the colon, and the printed text does not
show the steps of the document. -/
theorem parse_print_loses_steps :
    (Parser.ofSource docLogin).parse.1.map
        (fun f => (f.name, f.scenarios.map (fun s => (s.name, s.description, s.steps))))
      = some (": Login".toList,
          [(": Ok".toList, "Given I am on the\npage\nWhen I submit".toList, [])])
    ∧ (Parser.ofSource docLogin).parse.1.map visitFeature
      = some "Feature: : Login\n\n  Scenario: : Ok\n    Given I am on the\npage\nWhen I submit\n\n".toList := by
  decide

set_option maxRecDepth 1000000 in
/-- C2 evaluated: for the five step lines of the lexer test, `tokenize` emits no
step-keyword token; every line is one `TEXT` token. -/
theorem tokenize_step_lines_as_text :
    (tokenize docStepLines).filter Token.isStepKeyword = []
    ∧ (tokenize docStepLines).map (fun t => t.type)
      = [.NEWLINE, .TEXT, .NEWLINE, .TEXT, .NEWLINE, .TEXT, .NEWLINE, .TEXT, .NEWLINE, .TEXT,
          .NEWLINE]
    ∧ ((tokenize docStepLines).map (fun t => t.value)).get? 1
      = some "Given I am on the login page".toList := by
  decide

set_option maxRecDepth 1000000 in
/-- C8 evaluated: for an outline whose step names `<username>` and `<password>`
and whose Examples table has only a `username` column, the parser returns the
feature with the outline and the scenario after it, but records no error: the
Examples block is left without its table.  This holds for the source text and
for a token vector whose step text keeps both placeholders.  Only when a tag
line stands between the Examples line and the table is the table read and the
missing parameter reported. -/
theorem parse_outline_missing_column_no_error :
    ((Parser.ofSource docOutline).parse.2.errors = []
      ∧ (Parser.ofSource docOutline).parse.1.map
          (fun f => f.scenario_outlines.map (fun o => o.steps)) = some [[]]
      ∧ (Parser.ofSource docOutline).parse.1.map
          (fun f => f.scenario_outlines.map (fun o => o.examples.map (fun e => e.table)))
        = some [[none]]
      ∧ (Parser.ofSource docOutline).parse.1.map (fun f => f.scenarios.map (fun s => s.name))
        = some [": Next".toList])
    ∧ ((Parser.new tokensOutline).parse.2.errors = []
      ∧ (Parser.new tokensOutline).parse.1.map
          (fun f => f.scenario_outlines.map (fun o => o.extractParameters))
        = some [["username".toList, "password".toList]]
      ∧ (Parser.new tokensOutline).parse.1.map
          (fun f => f.scenario_outlines.map (fun o => o.examples.map (fun e => e.table)))
        = some [[none]]
      ∧ (Parser.new tokensOutline).parse.1.map (fun f => f.scenarios.map (fun s => s.name))
        = some ["Next".toList])
    ∧ (Parser.new tokensOutlineTagged).parse.2.errors.map (fun e => e.message)
        = ["Parameter <password> not found in Examples table headers".toList] := by
  refine ⟨⟨?_, ?_, ?_, ?_⟩, ⟨?_, ?_, ?_, ?_⟩, ?_⟩ <;> decide

/-- Claim C16: for every `DataTable`, `headers()` is the first row (empty for a table
without rows) and `dataRows()` is the sequence of the rows after the first, in their
order: as many as the rows but one, none for a table of no row or of one row; a table
of three rows of three cells has three headers and two data rows. -/
theorem headers_first_dataRows_rest (t : DataTable) :
    t.headers = t.rows.headD [] ∧ t.dataRows = t.rows.tail
      ∧ t.dataRows.length = t.rows.length - 1
      ∧ (DataTable.mk []).headers = [] ∧ (DataTable.mk []).dataRows = []
      ∧ (∀ r : List Str, (DataTable.mk [r]).headers = r ∧ (DataTable.mk [r]).dataRows = [])
      ∧ (∀ (r : List Str) (rest : List (List Str)),
          (DataTable.mk (r :: rest)).headers = r ∧ (DataTable.mk (r :: rest)).dataRows = rest)
      ∧ (∀ a b c d e f g h i : Str,
          (DataTable.mk [[a, b, c], [d, e, f], [g, h, i]]).headers.length = 3
            ∧ (DataTable.mk [[a, b, c], [d, e, f], [g, h, i]]).dataRows.length = 2) := by
  have hrest : ∀ (r : List Str) (rest : List (List Str)),
      (DataTable.mk (r :: rest)).headers = r ∧ (DataTable.mk (r :: rest)).dataRows = rest := by
    intro r rest
    refine ⟨rfl, ?_⟩
    cases rest with
    | nil => rfl
    | cons x xs => simp [DataTable.dataRows]
  refine ⟨?_, ?_, dataRows_length t, rfl, rfl, fun r => hrest r [], hrest, fun a b c d e f g h i => ⟨rfl, rfl⟩⟩
  · cases t with
    | mk rows => cases rows <;> rfl
  · cases t with
    | mk rows =>
      cases rows with
      | nil => rfl
      | cons r rest => exact (hrest r rest).2

/-! ## The parser: what every method keeps and how far it reads -/

theorem reaches_refl (p : Parser) : p.Reaches p := ⟨rfl, Nat.le_refl _⟩

theorem reaches_trans {p q r : Parser} (h1 : p.Reaches q) (h2 : q.Reaches r) : p.Reaches r :=
  ⟨h2.1.trans h1.1, Nat.le_trans h1.2 h2.2⟩

theorem isAtEnd_false_lt (p : Parser) (h : p.isAtEnd = false) :
    p.current_index < p.tokens.length := by
  by_contra hlt
  have hd : p.tokens.getD p.current_index eofToken = eofToken :=
    List.getD_eq_default _ _ (Nat.le_of_not_lt hlt)
  have : p.isAtEnd = true := by
    unfold Parser.isAtEnd Parser.current
    rw [hd]
    rfl
  rw [h] at this
  exact Bool.noConfusion this

theorem check_isAtEnd (p : Parser) (t : TokenType) (h : p.check t = true)
    (ht : t ≠ .EOF_TOKEN) : p.isAtEnd = false := by
  have hc : p.current.type = t := by simpa [Parser.check] using h
  simp [Parser.isAtEnd, hc, ht]

theorem check_of_same (p q : Parser) (ht : q.tokens = p.tokens)
    (hi : q.current_index = p.current_index) (t : TokenType) : q.check t = p.check t := by
  simp [Parser.check, Parser.current, ht, hi]

theorem isAtEnd_of_same (p q : Parser) (ht : q.tokens = p.tokens)
    (hi : q.current_index = p.current_index) : q.isAtEnd = p.isAtEnd := by
  simp [Parser.isAtEnd, Parser.current, ht, hi]

theorem current_of_same (p q : Parser) (ht : q.tokens = p.tokens)
    (hi : q.current_index = p.current_index) : q.current = p.current := by
  simp [Parser.current, ht, hi]

theorem advance_tokens (p : Parser) : (p.advance).2.tokens = p.tokens := by
  unfold Parser.advance
  by_cases h : p.isAtEnd = true <;> simp [h] <;> split <;> rfl

theorem advance_errors (p : Parser) : (p.advance).2.errors = p.errors := by
  unfold Parser.advance
  by_cases h : p.isAtEnd = true <;> simp [h] <;> split <;> rfl

theorem advance_index (p : Parser) :
    (p.advance).2.current_index
      = if p.isAtEnd = true then p.current_index else p.current_index + 1 := by
  unfold Parser.advance
  by_cases h : p.isAtEnd = true <;> simp [h] <;> split <;> rfl

theorem advance_index_of_not_end (p : Parser) (h : p.isAtEnd = false) :
    (p.advance).2.current_index = p.current_index + 1 := by
  rw [advance_index, h]
  simp

theorem advance_reaches (p : Parser) : p.Reaches (p.advance).2 := by
  refine ⟨advance_tokens p, ?_⟩
  rw [advance_index]
  split <;> omega

theorem rem_advance_lt (p : Parser) (h : p.isAtEnd = false) : (p.advance).2.rem < p.rem := by
  have hlt := isAtEnd_false_lt p h
  unfold Parser.rem
  rw [advance_tokens, advance_index_of_not_end p h]
  omega

theorem rem_le_of_reaches {p q : Parser} (h : p.Reaches q) : q.rem ≤ p.rem := by
  unfold Parser.rem
  rw [h.1]
  have := h.2
  omega

theorem rem_lt_of_reaches {p q : Parser} (h : p.Reaches q) (hne : p.isAtEnd = false)
    (hlt : p.current_index < q.current_index) : q.rem < p.rem := by
  have hl := isAtEnd_false_lt p hne
  unfold Parser.rem
  rw [h.1]
  omega

theorem skips_refl (p : Parser) : p.Skips p := ⟨reaches_refl p, rfl⟩

theorem skips_trans {p q r : Parser} (h1 : p.Skips q) (h2 : q.Skips r) : p.Skips r :=
  ⟨reaches_trans h1.1 h2.1, h2.2.trans h1.2⟩

theorem advance_skips (p : Parser) : p.Skips (p.advance).2 :=
  ⟨advance_reaches p, advance_errors p⟩

theorem match_eq (p : Parser) (t : TokenType) :
    p.match_ t = if p.check t = true then (true, (p.advance).2) else (false, p) := rfl

theorem match_skips (p : Parser) (t : TokenType) : p.Skips (p.match_ t).2 := by
  rw [match_eq]
  split
  · exact advance_skips p
  · exact skips_refl p

theorem skipNewlinesLoop_succ (fuel : Nat) (p : Parser) :
    Parser.skipNewlinesLoop (fuel + 1) p
      = if p.check .NEWLINE = true then Parser.skipNewlinesLoop fuel (p.advance).2 else p := by
  rw [Parser.skipNewlinesLoop, match_eq]
  by_cases h : p.check .NEWLINE = true
  · rw [if_pos h, if_pos h]
  · rw [if_neg h, if_neg h]

theorem skipNewlinesLoop_skips (fuel : Nat) (p : Parser) :
    p.Skips (Parser.skipNewlinesLoop fuel p) := by
  induction fuel generalizing p with
  | zero => exact skips_refl p
  | succ fuel ih =>
    rw [skipNewlinesLoop_succ]
    split
    · exact skips_trans (advance_skips p) (ih _)
    · exact skips_refl p

theorem skipNewlines_skips (p : Parser) : p.Skips p.skipNewlines :=
  skipNewlinesLoop_skips _ p

theorem skipNewlinesLoop_exit (fuel : Nat) (p : Parser) (h : p.rem < fuel) :
    (Parser.skipNewlinesLoop fuel p).check .NEWLINE = false := by
  induction fuel generalizing p with
  | zero => exact absurd h (Nat.not_lt_zero _)
  | succ fuel ih =>
    rw [skipNewlinesLoop_succ]
    by_cases hc : p.check .NEWLINE = true
    · rw [if_pos hc]
      have hne := check_isAtEnd p _ hc (by decide)
      have := rem_advance_lt p hne
      exact ih _ (by omega)
    · rw [if_neg hc]
      simpa using hc

theorem rem_lt_length_succ (p : Parser) : p.rem < p.tokens.length + 1 := by
  unfold Parser.rem
  omega

theorem skipNewlines_exit (p : Parser) : p.skipNewlines.check .NEWLINE = false :=
  skipNewlinesLoop_exit _ p (rem_lt_length_succ p)

theorem skipNewlines_of_not_newline (p : Parser) (h : p.check .NEWLINE = false) :
    p.skipNewlines = p := by
  unfold Parser.skipNewlines
  rw [skipNewlinesLoop_succ, h]
  rfl

theorem skipCommentsLoop_succ (fuel : Nat) (p : Parser) :
    Parser.skipCommentsLoop (fuel + 1) p
      = if p.check .COMMENT = true then
          Parser.skipCommentsLoop fuel (p.advance).2.skipNewlines
        else p := rfl

theorem skipCommentsLoop_skips (fuel : Nat) (p : Parser) :
    p.Skips (Parser.skipCommentsLoop fuel p) := by
  induction fuel generalizing p with
  | zero => exact skips_refl p
  | succ fuel ih =>
    rw [skipCommentsLoop_succ]
    split
    · exact skips_trans (skips_trans (advance_skips p) (skipNewlines_skips _)) (ih _)
    · exact skips_refl p

theorem skipComments_skips (p : Parser) : p.Skips p.skipComments :=
  skipCommentsLoop_skips _ p

theorem skipCommentsLoop_exit (fuel : Nat) (p : Parser) (h : p.rem < fuel) :
    (Parser.skipCommentsLoop fuel p).check .COMMENT = false := by
  induction fuel generalizing p with
  | zero => exact absurd h (Nat.not_lt_zero _)
  | succ fuel ih =>
    rw [skipCommentsLoop_succ]
    by_cases hc : p.check .COMMENT = true
    · rw [if_pos hc]
      have hne := check_isAtEnd p _ hc (by decide)
      have h1 := rem_advance_lt p hne
      have h2 := rem_le_of_reaches (skipNewlines_skips (p.advance).2).1
      exact ih _ (by omega)
    · rw [if_neg hc]
      simpa using hc

theorem skipComments_exit (p : Parser) : p.skipComments.check .COMMENT = false :=
  skipCommentsLoop_exit _ p (rem_lt_length_succ p)

theorem skipComments_of_not_comment (p : Parser) (h : p.check .COMMENT = false) :
    p.skipComments = p := by
  unfold Parser.skipComments
  rw [skipCommentsLoop_succ, h]
  rfl

theorem skipToNextScenarioLoop_succ (fuel : Nat) (p : Parser) :
    Parser.skipToNextScenarioLoop (fuel + 1) p
      = if p.isAtEnd = false then
          if (p.check TokenType.SCENARIO || p.check .SCENARIO_OUTLINE) = true then p
          else Parser.skipToNextScenarioLoop fuel (p.advance).2
        else p := by
  rw [Parser.skipToNextScenarioLoop]
  cases p.isAtEnd <;> rfl

theorem skipToNextScenarioLoop_skips (fuel : Nat) (p : Parser) :
    p.Skips (Parser.skipToNextScenarioLoop fuel p) := by
  induction fuel generalizing p with
  | zero => exact skips_refl p
  | succ fuel ih =>
    rw [skipToNextScenarioLoop_succ]
    split
    · split
      · exact skips_refl p
      · exact skips_trans (advance_skips p) (ih _)
    · exact skips_refl p

theorem skipToNextScenario_skips (p : Parser) : p.Skips p.skipToNextScenario :=
  skipToNextScenarioLoop_skips _ p

theorem skipToNextScenarioLoop_exit (fuel : Nat) (p : Parser) (h : p.rem < fuel) :
    (Parser.skipToNextScenarioLoop fuel p).isAtEnd = true
      ∨ ((Parser.skipToNextScenarioLoop fuel p).check TokenType.SCENARIO
          || (Parser.skipToNextScenarioLoop fuel p).check .SCENARIO_OUTLINE) = true := by
  induction fuel generalizing p with
  | zero => exact absurd h (Nat.not_lt_zero _)
  | succ fuel ih =>
    rw [skipToNextScenarioLoop_succ]
    by_cases hne : p.isAtEnd = false
    · rw [if_pos hne]
      by_cases hs : (p.check TokenType.SCENARIO || p.check .SCENARIO_OUTLINE) = true
      · rw [if_pos hs]
        exact Or.inr hs
      · rw [if_neg hs]
        have := rem_advance_lt p hne
        exact ih _ (by omega)
    · rw [if_neg hne]
      left
      simpa using hne

theorem skipToNextScenario_exit (p : Parser) :
    p.skipToNextScenario.isAtEnd = true
      ∨ (p.skipToNextScenario.check TokenType.SCENARIO
          || p.skipToNextScenario.check .SCENARIO_OUTLINE) = true :=
  skipToNextScenarioLoop_exit _ p (rem_lt_length_succ p)

theorem skipToNextScenarioLoop_skipped (fuel : Nat) (p : Parser) (i : Nat)
    (hlo : p.current_index ≤ i)
    (hhi : i < (Parser.skipToNextScenarioLoop fuel p).current_index) :
    (p.tokens.getD i eofToken).type ≠ TokenType.SCENARIO
      ∧ (p.tokens.getD i eofToken).type ≠ .SCENARIO_OUTLINE
      ∧ (p.tokens.getD i eofToken).type ≠ .EOF_TOKEN := by
  induction fuel generalizing p with
  | zero =>
    have : i < p.current_index := hhi
    omega
  | succ fuel ih =>
    rw [skipToNextScenarioLoop_succ] at hhi
    by_cases hne : p.isAtEnd = false
    · rw [if_pos hne] at hhi
      by_cases hs : (p.check TokenType.SCENARIO || p.check .SCENARIO_OUTLINE) = true
      · rw [if_pos hs] at hhi
        omega
      · rw [if_neg hs] at hhi
        by_cases hi : i = p.current_index
        · subst hi
          have h1 : p.check TokenType.SCENARIO = false := by
            cases hc : p.check TokenType.SCENARIO
            · rfl
            · exact absurd (by rw [hc]; rfl) hs
          have h2 : p.check .SCENARIO_OUTLINE = false := by
            cases hc : p.check .SCENARIO_OUTLINE
            · rfl
            · exact absurd (by rw [hc]; simp) hs
          refine ⟨?_, ?_, ?_⟩
          · simpa [Parser.check, Parser.current] using h1
          · simpa [Parser.check, Parser.current] using h2
          · simpa [Parser.isAtEnd, Parser.current] using hne
        · have hidx := advance_index_of_not_end p hne
          have := ih (p.advance).2 (by rw [hidx]; omega) hhi
          rw [advance_tokens] at this
          exact this
    · rw [if_neg hne] at hhi
      omega

theorem skipToNextScenario_advances (p : Parser) (hne : p.isAtEnd = false)
    (hs : p.check TokenType.SCENARIO = false) (ho : p.check .SCENARIO_OUTLINE = false) :
    p.current_index < p.skipToNextScenario.current_index := by
  unfold Parser.skipToNextScenario
  rw [skipToNextScenarioLoop_succ, if_pos hne, hs, ho]
  simp only [Bool.or_self, Bool.false_eq_true, if_false]
  have h1 := (skipToNextScenarioLoop_skips p.tokens.length (p.advance).2).1.2
  rw [advance_index_of_not_end p hne] at h1
  omega

theorem parseTagsLoop_skips (fuel : Nat) (p : Parser) (tags : List Str) :
    p.Skips (Parser.parseTagsLoop fuel p tags).2 := by
  induction fuel generalizing p tags with
  | zero => exact skips_refl p
  | succ fuel ih =>
    rw [Parser.parseTagsLoop]
    dsimp only
    split
    · split
      · exact skips_trans (advance_skips p) (ih _ _)
      · split
        · exact skips_trans (advance_skips p) (skipNewlines_skips _)
        · exact skips_trans (skips_trans (advance_skips p) (skipNewlines_skips _)) (ih _ _)
    · exact skips_refl p

theorem parseTags_skips (p : Parser) : p.Skips (p.parseTags).2 :=
  parseTagsLoop_skips _ p []

theorem parseTags_of_not_tag (p : Parser) (h : p.check .TAG = false) :
    p.parseTags = ([], p) := by
  unfold Parser.parseTags
  rw [Parser.parseTagsLoop]
  simp [h]

theorem parseTextLoop_skips (fuel : Nat) (p : Parser) (text : Str) :
    p.Skips (Parser.parseTextLoop fuel p text).2 := by
  induction fuel generalizing p text with
  | zero => exact skips_refl p
  | succ fuel ih =>
    rw [Parser.parseTextLoop]
    dsimp only
    split
    · split
      · exact skips_trans (advance_skips p) (ih _ _)
      · split
        · exact skips_refl p
        · exact skips_trans (advance_skips p) (ih _ _)
    · exact skips_refl p

theorem parseText_skips (p : Parser) : p.Skips (p.parseText).2 :=
  parseTextLoop_skips _ p []

theorem parseDescriptionLoop_skips (fuel : Nat) (p : Parser) (description : Str) :
    p.Skips (Parser.parseDescriptionLoop fuel p description).2 := by
  induction fuel generalizing p description with
  | zero => exact skips_refl p
  | succ fuel ih =>
    rw [Parser.parseDescriptionLoop]
    dsimp only
    split
    · split
      · exact skips_refl p
      · split
        · exact skips_trans (advance_skips p) (ih _ _)
        · exact skips_trans (advance_skips p) (ih _ _)
    · exact skips_refl p

theorem parseDescription_skips (p : Parser) : p.Skips (p.parseDescription).2 :=
  parseDescriptionLoop_skips _ p []

theorem parseDataTableLoop_skips (fuel : Nat) (p : Parser) (table : DataTable) :
    p.Skips (Parser.parseDataTableLoop fuel p table).2 := by
  induction fuel generalizing p table with
  | zero => exact skips_refl p
  | succ fuel ih =>
    rw [Parser.parseDataTableLoop]
    dsimp only
    split
    · exact skips_trans (skips_trans (advance_skips p) (skipNewlines_skips _)) (ih _ _)
    · exact skips_refl p

theorem parseDataTable_skips (p : Parser) : p.Skips (p.parseDataTable).2 :=
  parseDataTableLoop_skips _ p _

theorem consume_ok (p : Parser) (t : TokenType) (message : Str) (h : p.check t = true) :
    p.consume t message = .ok p.advance := by
  unfold Parser.consume
  rw [if_pos h]

theorem consume_error (p : Parser) (t : TokenType) (message : Str) (h : p.check t = false) :
    p.consume t message
      = .error ({ message := message, location := p.current.location }, p) := by
  unfold Parser.consume
  rw [if_neg (by rw [h]; exact Bool.false_ne_true)]

theorem parseDocString_ok (p : Parser) (h : p.check .DOC_STRING = true) :
    ∃ d, p.parseDocString = .ok (d, (p.advance).2) := by
  unfold Parser.parseDocString
  rw [consume_ok p _ _ h]
  dsimp only
  split <;> exact ⟨_, rfl⟩

theorem parseStep_eq (p : Parser) :
    p.parseStep
      = match p.stepKeyword with
        | none =>
          .error ({ message := "Expected step keyword".toList, location := p.current.location }, p)
        | some (stepType, p1) => Parser.stepRest stepType p1 := rfl

theorem stepKeyword_some (p : Parser) (h : p.atStep = true) :
    ∃ stepType, p.stepKeyword = some (stepType, (p.advance).2) := by
  unfold Parser.stepKeyword
  simp only [match_eq]
  by_cases h1 : p.check .GIVEN = true
  · exact ⟨.GIVEN, by simp [h1]⟩
  · by_cases h2 : p.check .WHEN = true
    · exact ⟨.WHEN, by simp [h1, h2]⟩
    · by_cases h3 : p.check .THEN = true
      · exact ⟨.THEN, by simp [h1, h2, h3]⟩
      · by_cases h4 : p.check .AND = true
        · exact ⟨.AND, by simp [h1, h2, h3, h4]⟩
        · by_cases h5 : p.check .BUT = true
          · exact ⟨.BUT, by simp [h1, h2, h3, h4, h5]⟩
          · simp [Parser.atStep, h1, h2, h3, h4, h5] at h

theorem stepRest_ok (stepType : StepType) (p1 : Parser) :
    ∃ step q, Parser.stepRest stepType p1 = .ok (step, q) ∧ p1.Skips q := by
  unfold Parser.stepRest
  dsimp only
  have h12 : p1.Skips (p1.parseText).2.skipNewlines :=
    skips_trans (parseText_skips p1) (skipNewlines_skips _)
  split
  · exact ⟨_, _, rfl, skips_trans h12 (parseDataTable_skips _)⟩
  · split
    · rename_i hdoc
      obtain ⟨d, hd⟩ := parseDocString_ok _ hdoc
      rw [hd]
      exact ⟨_, _, rfl, skips_trans h12 (advance_skips _)⟩
    · exact ⟨_, _, rfl, h12⟩

theorem atStep_not_end (p : Parser) (h : p.atStep = true) : p.isAtEnd = false := by
  unfold Parser.atStep at h
  simp only [Bool.or_eq_true] at h
  rcases h with (((h | h) | h) | h) | h <;> exact check_isAtEnd p _ h (by decide)

theorem parseStep_ok (p : Parser) (h : p.atStep = true) :
    ∃ step q, p.parseStep = .ok (step, q) ∧ (p.advance).2.Skips q := by
  obtain ⟨stepType, hk⟩ := stepKeyword_some p h
  rw [parseStep_eq, hk]
  exact stepRest_ok stepType _

theorem parseStepsLoop_succ (fuel : Nat) (p : Parser) (steps : List Step) :
    Parser.parseStepsLoop (fuel + 1) p steps
      = if (!p.isAtEnd && p.atStep) = true then
          match p.parseStep with
          | .error e => .error e
          | .ok (step, p1) => Parser.parseStepsLoop fuel p1.skipNewlines (steps ++ [step])
        else .ok (steps, p) := rfl

theorem parseStepsLoop_ok (fuel : Nat) (p : Parser) (steps : List Step) :
    ∃ ss q, Parser.parseStepsLoop fuel p steps = .ok (ss, q) ∧ p.Skips q := by
  induction fuel generalizing p steps with
  | zero => exact ⟨steps, p, rfl, skips_refl p⟩
  | succ fuel ih =>
    rw [parseStepsLoop_succ]
    by_cases hc : (!p.isAtEnd && p.atStep) = true
    · rw [if_pos hc]
      have hstep : p.atStep = true := by
        simp only [Bool.and_eq_true] at hc
        exact hc.2
      obtain ⟨step, q, hq, hskip⟩ := parseStep_ok p hstep
      rw [hq]
      dsimp only
      obtain ⟨ss, q2, hq2, hskip2⟩ := ih q.skipNewlines (steps ++ [step])
      exact ⟨ss, q2, hq2, skips_trans (advance_skips p)
        (skips_trans hskip (skips_trans (skipNewlines_skips _) hskip2))⟩
    · rw [if_neg hc]
      exact ⟨steps, p, rfl, skips_refl p⟩

theorem parseSteps_ok (p : Parser) :
    ∃ ss q, p.parseSteps = .ok (ss, q) ∧ p.Skips q := parseStepsLoop_ok _ p []

theorem parseBackground_ok (p : Parser) (h : p.check .BACKGROUND = true) :
    ∃ bg q, p.parseBackground = .ok (bg, q) ∧ (p.advance).2.Skips q := by
  unfold Parser.parseBackground
  rw [consume_ok p _ _ h]
  dsimp only
  obtain ⟨ss, q, hq, hskip⟩ :=
    parseSteps_ok (((p.advance).2.parseText).2.skipNewlines.parseDescription).2
  rw [hq]
  exact ⟨_, q, rfl, skips_trans (skips_trans (skips_trans (parseText_skips _)
    (skipNewlines_skips _)) (parseDescription_skips _)) hskip⟩

theorem parseScenario_ok (p : Parser) (h : p.check TokenType.SCENARIO = true) :
    ∃ sc q, p.parseScenario = .ok (sc, q) ∧ (p.advance).2.Skips q := by
  unfold Parser.parseScenario
  rw [consume_ok p _ _ h]
  dsimp only
  obtain ⟨ss, q, hq, hskip⟩ :=
    parseSteps_ok (((p.advance).2.parseText).2.skipNewlines.parseDescription).2
  rw [hq]
  exact ⟨_, q, rfl, skips_trans (skips_trans (skips_trans (parseText_skips _)
    (skipNewlines_skips _)) (parseDescription_skips _)) hskip⟩

theorem error_same (p : Parser) (message : Str) :
    (p.error message).tokens = p.tokens ∧ (p.error message).current_index = p.current_index :=
  ⟨rfl, rfl⟩

theorem validateParams_same (headers : List Str) (params : List Str) (p : Parser) :
    (Parser.validateParams headers params p).tokens = p.tokens
      ∧ (Parser.validateParams headers params p).current_index = p.current_index := by
  induction params generalizing p with
  | nil => exact ⟨rfl, rfl⟩
  | cons param rest ih =>
    rw [Parser.validateParams]
    split
    · exact ih _
    · exact ih _

theorem validateExamples_same (p : Parser) (examples : Examples) (parameters : List Str) :
    (p.validateExamples examples parameters).tokens = p.tokens
      ∧ (p.validateExamples examples parameters).current_index = p.current_index := by
  unfold Parser.validateExamples
  split
  · exact ⟨rfl, rfl⟩
  · exact validateParams_same _ _ _

theorem reaches_of_same {p q : Parser} (h : q.tokens = p.tokens ∧ q.current_index = p.current_index) :
    p.Reaches q := ⟨h.1, Nat.le_of_eq h.2.symm⟩

theorem parseExamples_ok (p : Parser) (h : p.check .EXAMPLES = true) :
    ∃ ex q, p.parseExamples = .ok (ex, q) ∧ (p.advance).2.Reaches q := by
  unfold Parser.parseExamples
  rw [consume_ok p _ _ h]
  dsimp only
  have h1 : (p.advance).2.Reaches
      (((((p.advance).2.parseText).2.skipNewlines.parseDescription).2.parseTags).2.skipNewlines) :=
    (skips_trans (skips_trans (skips_trans (skips_trans (parseText_skips _)
      (skipNewlines_skips _)) (parseDescription_skips _)) (parseTags_skips _))
      (skipNewlines_skips _)).1
  split
  · have h2 := reaches_trans h1 (parseDataTable_skips _).1
    split
    · exact ⟨_, _, rfl, reaches_trans h2 (reaches_of_same (validateExamples_same _ _ _))⟩
    · exact ⟨_, _, rfl, h2⟩
  · exact ⟨_, _, rfl, h1⟩

theorem parseExamplesLoop_succ (fuel : Nat) (p : Parser) (examples : List Examples) :
    Parser.parseExamplesLoop (fuel + 1) p examples
      = if (!p.isAtEnd && p.check .EXAMPLES) = true then
          match p.parseExamples with
          | .error e => .error e
          | .ok (ex, p1) => Parser.parseExamplesLoop fuel p1.skipNewlines (examples ++ [ex])
        else .ok (examples, p) := rfl

theorem parseExamplesLoop_ok (fuel : Nat) (p : Parser) (examples : List Examples) :
    ∃ exs q, Parser.parseExamplesLoop fuel p examples = .ok (exs, q) ∧ p.Reaches q := by
  induction fuel generalizing p examples with
  | zero => exact ⟨examples, p, rfl, reaches_refl p⟩
  | succ fuel ih =>
    rw [parseExamplesLoop_succ]
    by_cases hc : (!p.isAtEnd && p.check .EXAMPLES) = true
    · rw [if_pos hc]
      have hex : p.check .EXAMPLES = true := by
        simp only [Bool.and_eq_true] at hc
        exact hc.2
      obtain ⟨ex, q, hq, hreach⟩ := parseExamples_ok p hex
      rw [hq]
      dsimp only
      obtain ⟨exs, q2, hq2, hreach2⟩ := ih q.skipNewlines (examples ++ [ex])
      exact ⟨exs, q2, hq2, reaches_trans (advance_reaches p)
        (reaches_trans hreach (reaches_trans (skipNewlines_skips _).1 hreach2))⟩
    · rw [if_neg hc]
      exact ⟨examples, p, rfl, reaches_refl p⟩

theorem parseExamplesLoop_reaches (fuel : Nat) (p : Parser) (examples exs : List Examples)
    (q : Parser) (h : Parser.parseExamplesLoop fuel p examples = .ok (exs, q)) : p.Reaches q := by
  obtain ⟨exs1, q1, h1, hr⟩ := parseExamplesLoop_ok fuel p examples
  rw [h1] at h
  injection h with h
  injection h with _ hq
  rw [← hq]
  exact hr

theorem parseExamplesLoop_no_error (fuel : Nat) (p : Parser) (examples : List Examples)
    (e : ParseError × Parser) : Parser.parseExamplesLoop fuel p examples ≠ .error e := by
  obtain ⟨exs1, q1, h1, _⟩ := parseExamplesLoop_ok fuel p examples
  rw [h1]
  intro h
  cases h

theorem parseScenarioOutline_ok (p : Parser) (h : p.check .SCENARIO_OUTLINE = true) :
    ∃ o q, p.parseScenarioOutline = .ok (o, q) ∧ q.tokens = p.tokens
      ∧ p.current_index < q.current_index := by
  have hne : p.isAtEnd = false := check_isAtEnd p _ h (by decide)
  have h0 : ({ p with in_scenario_outline := true } : Parser).check .SCENARIO_OUTLINE = true := h
  have hne0 : ({ p with in_scenario_outline := true } : Parser).isAtEnd = false := hne
  unfold Parser.parseScenarioOutline
  dsimp only
  rw [consume_ok _ _ _ h0]
  dsimp only
  have hadv := advance_reaches ({ p with in_scenario_outline := true } : Parser)
  have hidx := advance_index_of_not_end ({ p with in_scenario_outline := true } : Parser) hne0
  obtain ⟨ss, q, hq, hskip⟩ := parseSteps_ok
    ((((({ p with in_scenario_outline := true } : Parser).advance).2.parseText).2.skipNewlines.parseDescription).2)
  rw [hq]
  dsimp only
  have hchain : (({ p with in_scenario_outline := true } : Parser).advance).2.Reaches q :=
    (skips_trans (skips_trans (skips_trans (parseText_skips _) (skipNewlines_skips _))
      (parseDescription_skips _)) hskip).1
  split
  · rename_i e heq
    exact absurd heq (parseExamplesLoop_no_error _ _ _ _)
  · rename_i exs q2 heq
    have hreach2 := parseExamplesLoop_reaches _ _ _ _ _ heq
    refine ⟨_, _, rfl, ?_, ?_⟩
    · show q2.tokens = p.tokens
      rw [hreach2.1]
      show q.tokens = p.tokens
      rw [hchain.1]
      exact hadv.1
    · show p.current_index < q2.current_index
      have h1 : q.current_index ≤ q2.current_index := hreach2.2
      have h2 := hchain.2
      rw [hidx] at h2
      have h3 : ({ p with in_scenario_outline := true } : Parser).current_index
          = p.current_index := rfl
      omega

/-! ## The scenario loop of `parseFeature` -/

theorem check_of_atEnd (p : Parser) (t : TokenType) (h : p.isAtEnd = true)
    (ht : t ≠ .EOF_TOKEN) : p.check t = false := by
  have hc : p.current.type = .EOF_TOKEN := by simpa [Parser.isAtEnd] using h
  simp only [Parser.check, hc, decide_eq_false_iff_not]
  exact fun e => ht e.symm

section ScenarioLoop

attribute [local irreducible] Parser.skipNewlines Parser.skipComments Parser.parseTags
  Parser.parseScenarioOutline Parser.parseScenario Parser.skipToNextScenario

theorem declarationTags_snd (p : Parser) :
    (p.declarationTags).2 = (p.skipNewlines.skipComments.parseTags).2.skipNewlines := rfl

theorem declarationTags_fst (p : Parser) :
    (p.declarationTags).1 = (p.skipNewlines.skipComments.parseTags).1 := rfl

theorem declarationTags_skips (p : Parser) : p.Skips (p.declarationTags).2 := by
  rw [declarationTags_snd]
  exact skips_trans (skips_trans (skips_trans (skipNewlines_skips p) (skipComments_skips _))
    (parseTags_skips _)) (skipNewlines_skips _)

theorem parseScenariosLoop_succ (fuel : Nat) (p : Parser) (feature : Feature) :
    Parser.parseScenariosLoop (fuel + 1) p feature
      = if (!p.isAtEnd) = true then
          if p.skipNewlines.skipComments.isAtEnd = true then
            .ok (feature, p.skipNewlines.skipComments)
          else if (p.declarationTags).2.check .SCENARIO_OUTLINE = true then
            match (p.declarationTags).2.parseScenarioOutline with
            | .error e => .error e
            | .ok (outline, p3) =>
              Parser.parseScenariosLoop fuel p3
                { feature with
                  scenario_outlines := feature.scenario_outlines
                    ++ [{ outline with tags := outline.tags ++ (p.declarationTags).1 }] }
          else if (p.declarationTags).2.check TokenType.SCENARIO = true then
            match (p.declarationTags).2.parseScenario with
            | .error e => .error e
            | .ok (scenario, p3) =>
              Parser.parseScenariosLoop fuel p3
                { feature with
                  scenarios := feature.scenarios
                    ++ [{ scenario with tags := scenario.tags ++ (p.declarationTags).1 }] }
          else if (!(p.declarationTags).2.isAtEnd) = true then
            Parser.parseScenariosLoop fuel
              ((p.declarationTags).2.error expectedScenario).skipToNextScenario feature
          else Parser.parseScenariosLoop fuel (p.declarationTags).2 feature
        else .ok (feature, p) := rfl

theorem declarationTags_of_atEnd (p : Parser)
    (h : p.skipNewlines.skipComments.isAtEnd = true) :
    p.declarationTags = ([], p.skipNewlines.skipComments) := by
  unfold Parser.declarationTags
  dsimp only
  rw [parseTags_of_not_tag _ (check_of_atEnd _ _ h (by decide))]
  dsimp only
  rw [skipNewlines_of_not_newline _ (check_of_atEnd _ _ h (by decide))]

theorem skipped_of_atEnd (p : Parser) (h : p.isAtEnd = true) :
    p.skipNewlines.skipComments = p := by
  rw [skipNewlines_of_not_newline _ (check_of_atEnd _ _ h (by decide)),
    skipComments_of_not_comment _ (check_of_atEnd _ _ h (by decide))]

theorem not_atEnd_of_declaration (p : Parser) (h2 : (p.declarationTags).2.isAtEnd = false) :
    p.isAtEnd = false ∧ p.skipNewlines.skipComments.isAtEnd = false := by
  have h1 : p.skipNewlines.skipComments.isAtEnd = false := by
    cases hc : p.skipNewlines.skipComments.isAtEnd
    · rfl
    · rw [declarationTags_of_atEnd p hc] at h2
      rw [hc] at h2
      exact Bool.noConfusion h2
  refine ⟨?_, h1⟩
  cases hc : p.isAtEnd
  · rfl
  · rw [skipped_of_atEnd p hc, hc] at h1
    exact Bool.noConfusion h1

theorem parseScenariosLoop_atEnd (fuel : Nat) (p : Parser) (feature : Feature)
    (h : p.isAtEnd = true) : Parser.parseScenariosLoop fuel p feature = .ok (feature, p) := by
  cases fuel with
  | zero => rfl
  | succ fuel =>
    rw [parseScenariosLoop_succ, h]
    rfl

theorem parseScenariosLoop_done (fuel : Nat) (p : Parser) (feature : Feature)
    (hne : p.isAtEnd = false) (h2 : (p.declarationTags).2.isAtEnd = true) :
    Parser.parseScenariosLoop (fuel + 1) p feature = .ok (feature, (p.declarationTags).2) := by
  rw [parseScenariosLoop_succ, hne]
  by_cases h1 : p.skipNewlines.skipComments.isAtEnd = true
  · rw [declarationTags_of_atEnd p h1]
    simp [h1]
  · have ho := check_of_atEnd _ .SCENARIO_OUTLINE h2 (by decide)
    have hs := check_of_atEnd _ TokenType.SCENARIO h2 (by decide)
    have hloop := parseScenariosLoop_atEnd fuel _ feature h2
    simp only [h1, ho, hs, h2, Bool.not_false, Bool.not_true, if_true,
      Bool.false_eq_true, if_false]
    exact hloop

theorem parseScenariosLoop_outline (fuel : Nat) (p : Parser) (feature : Feature)
    (outline : ScenarioOutline) (p3 : Parser)
    (ho : (p.declarationTags).2.check .SCENARIO_OUTLINE = true)
    (hp : (p.declarationTags).2.parseScenarioOutline = .ok (outline, p3)) :
    Parser.parseScenariosLoop (fuel + 1) p feature
      = Parser.parseScenariosLoop fuel p3
          { feature with
            scenario_outlines := feature.scenario_outlines
              ++ [{ outline with tags := outline.tags ++ (p.declarationTags).1 }] } := by
  obtain ⟨hne, h1⟩ := not_atEnd_of_declaration p (check_isAtEnd _ _ ho (by decide))
  rw [parseScenariosLoop_succ]
  simp only [hne, h1, ho, hp, Bool.not_false, if_true, Bool.false_eq_true, if_false]

theorem parseScenariosLoop_scenario (fuel : Nat) (p : Parser) (feature : Feature)
    (scenario : Scenario) (p3 : Parser)
    (hs : (p.declarationTags).2.check TokenType.SCENARIO = true)
    (hp : (p.declarationTags).2.parseScenario = .ok (scenario, p3)) :
    Parser.parseScenariosLoop (fuel + 1) p feature
      = Parser.parseScenariosLoop fuel p3
          { feature with
            scenarios := feature.scenarios
              ++ [{ scenario with tags := scenario.tags ++ (p.declarationTags).1 }] } := by
  obtain ⟨hne, h1⟩ := not_atEnd_of_declaration p (check_isAtEnd _ _ hs (by decide))
  have ho : (p.declarationTags).2.check .SCENARIO_OUTLINE = false := by
    have hc : (p.declarationTags).2.current.type = TokenType.SCENARIO := by
      simpa [Parser.check] using hs
    simp [Parser.check, hc]
  rw [parseScenariosLoop_succ]
  simp only [hne, h1, ho, hs, hp, Bool.not_false, if_true, Bool.false_eq_true, if_false]

theorem parseScenariosLoop_recover (fuel : Nat) (p : Parser) (feature : Feature)
    (ho : (p.declarationTags).2.check .SCENARIO_OUTLINE = false)
    (hs : (p.declarationTags).2.check TokenType.SCENARIO = false)
    (h2 : (p.declarationTags).2.isAtEnd = false) :
    Parser.parseScenariosLoop (fuel + 1) p feature
      = Parser.parseScenariosLoop fuel
          ((p.declarationTags).2.error expectedScenario).skipToNextScenario feature := by
  obtain ⟨hne, h1⟩ := not_atEnd_of_declaration p h2
  rw [parseScenariosLoop_succ]
  simp only [hne, h1, ho, hs, h2, Bool.not_false, if_true, Bool.false_eq_true, if_false]

theorem parseScenariosLoop_total (fuel : Nat) (p : Parser) (feature : Feature) :
    ∃ f q, Parser.parseScenariosLoop fuel p feature = .ok (f, q) ∧ p.Reaches q
      ∧ (p.rem < fuel →
          q.isAtEnd = true ∧ Parser.parseScenariosLoop (fuel + 1) p feature = .ok (f, q)) := by
  induction fuel generalizing p feature with
  | zero => exact ⟨feature, p, rfl, reaches_refl p, fun h => absurd h (Nat.not_lt_zero _)⟩
  | succ fuel ih =>
    by_cases hend : p.isAtEnd = true
    · exact ⟨feature, p, parseScenariosLoop_atEnd _ p feature hend, reaches_refl p,
        fun _ => ⟨hend, parseScenariosLoop_atEnd _ p feature hend⟩⟩
    · have hne : p.isAtEnd = false := by simpa using hend
      have hskip := declarationTags_skips p
      by_cases h2 : (p.declarationTags).2.isAtEnd = true
      · exact ⟨feature, _, parseScenariosLoop_done fuel p feature hne h2, hskip.1,
          fun _ => ⟨h2, parseScenariosLoop_done (fuel + 1) p feature hne h2⟩⟩
      · have h2' : (p.declarationTags).2.isAtEnd = false := by simpa using h2
        have hstep : ∀ (p3 : Parser) (feature1 : Feature),
            (∀ n, Parser.parseScenariosLoop (n + 1) p feature
              = Parser.parseScenariosLoop n p3 feature1) →
            p3.tokens = p.tokens → (p.declarationTags).2.current_index < p3.current_index →
            ∃ f q, Parser.parseScenariosLoop (fuel + 1) p feature = .ok (f, q) ∧ p.Reaches q
              ∧ (p.rem < fuel + 1 →
                q.isAtEnd = true
                  ∧ Parser.parseScenariosLoop (fuel + 1 + 1) p feature = .ok (f, q)) := by
          intro p3 feature1 hloop htok hidx
          obtain ⟨f, q, hq, hreach, hfuel⟩ := ih p3 feature1
          have hp3 : p.Reaches p3 := ⟨htok, by have := hskip.1.2; omega⟩
          refine ⟨f, q, by rw [hloop, hq], reaches_trans hp3 hreach, ?_⟩
          intro hrem
          have hlt : p3.rem < p.rem :=
            rem_lt_of_reaches hp3 hne (by have := hskip.1.2; omega)
          obtain ⟨hqend, hq1⟩ := hfuel (by omega)
          exact ⟨hqend, by rw [hloop, hq1]⟩
        by_cases ho : (p.declarationTags).2.check .SCENARIO_OUTLINE = true
        · obtain ⟨o, p3, hp, htok, hidx⟩ := parseScenarioOutline_ok _ ho
          exact hstep p3 _ (fun n => parseScenariosLoop_outline n p feature o p3 ho hp)
            (htok.trans hskip.1.1) hidx
        · have ho' : (p.declarationTags).2.check .SCENARIO_OUTLINE = false := by simpa using ho
          by_cases hs : (p.declarationTags).2.check TokenType.SCENARIO = true
          · obtain ⟨sc, p3, hp, hsk⟩ := parseScenario_ok _ hs
            have hadv := advance_index_of_not_end _ h2'
            have htok : p3.tokens = p.tokens := by
              rw [hsk.1.1, advance_tokens]
              exact hskip.1.1
            exact hstep p3 _ (fun n => parseScenariosLoop_scenario n p feature sc p3 hs hp)
              htok (by have := hsk.1.2; omega)
          · have hs' : (p.declarationTags).2.check TokenType.SCENARIO = false := by
              simpa using hs
            have hadv := skipToNextScenario_advances
              ((p.declarationTags).2.error expectedScenario) h2' hs' ho'
            have hsk := skipToNextScenario_skips ((p.declarationTags).2.error expectedScenario)
            exact hstep _ feature (fun n => parseScenariosLoop_recover n p feature ho' hs' h2')
              (hsk.1.1.trans hskip.1.1) hadv

theorem parseScenariosLoop_ok (fuel : Nat) (p : Parser) (feature : Feature) :
    ∃ f q, Parser.parseScenariosLoop fuel p feature = .ok (f, q) ∧ p.Reaches q := by
  obtain ⟨f, q, h, hr, _⟩ := parseScenariosLoop_total fuel p feature
  exact ⟨f, q, h, hr⟩

theorem parseScenariosLoop_fuel (fuel : Nat) (p : Parser) (feature : Feature)
    (h : p.rem < fuel) :
    Parser.parseScenariosLoop (fuel + 1) p feature = Parser.parseScenariosLoop fuel p feature
      ∧ ∀ f q, Parser.parseScenariosLoop fuel p feature = .ok (f, q) → q.isAtEnd = true := by
  obtain ⟨f, q, hq, _, hfuel⟩ := parseScenariosLoop_total fuel p feature
  obtain ⟨hend, hq1⟩ := hfuel h
  refine ⟨by rw [hq, hq1], ?_⟩
  intro f' q' h'
  rw [hq] at h'
  injection h' with h'
  injection h' with _ hqq
  rw [← hqq]
  exact hend

theorem parseScenariosLoop_fuel_le (fuel fuel' : Nat) (p : Parser) (feature : Feature)
    (h : p.rem < fuel) (hle : fuel ≤ fuel') :
    Parser.parseScenariosLoop fuel' p feature = Parser.parseScenariosLoop fuel p feature := by
  induction fuel' with
  | zero =>
    have : fuel = 0 := by omega
    rw [this]
  | succ n ih =>
    by_cases heq : fuel = n + 1
    · rw [heq]
    · have hle' : fuel ≤ n := by omega
      rw [(parseScenariosLoop_fuel n p feature (by omega)).1]
      exact ih hle'

theorem parseScenariosLoop_keeps (fuel : Nat) (p : Parser) (feature f : Feature) (q : Parser)
    (h : Parser.parseScenariosLoop fuel p feature = .ok (f, q)) :
    f.name = feature.name ∧ f.description = feature.description ∧ f.tags = feature.tags
      ∧ f.background = feature.background
      ∧ feature.scenarios <+: f.scenarios
      ∧ feature.scenario_outlines <+: f.scenario_outlines := by
  induction fuel generalizing p feature with
  | zero =>
    have hf : feature = f := by
      have h' : (Except.ok (feature, p) : ParseResult Feature) = .ok (f, q) := h
      injection h' with h'
      injection h' with h1 _
    rw [← hf]
    exact ⟨rfl, rfl, rfl, rfl, List.prefix_refl _, List.prefix_refl _⟩
  | succ fuel ih =>
    have hsame : ∀ (r : Parser),
        (Except.ok (feature, r) : ParseResult Feature) = .ok (f, q) →
        f.name = feature.name ∧ f.description = feature.description ∧ f.tags = feature.tags
          ∧ f.background = feature.background
          ∧ feature.scenarios <+: f.scenarios
          ∧ feature.scenario_outlines <+: f.scenario_outlines := by
      intro r h'
      injection h' with h'
      injection h' with h1 _
      rw [← h1]
      exact ⟨rfl, rfl, rfl, rfl, List.prefix_refl _, List.prefix_refl _⟩
    by_cases hend : p.isAtEnd = true
    · rw [parseScenariosLoop_atEnd _ p feature hend] at h
      exact hsame _ h
    · have hne : p.isAtEnd = false := by simpa using hend
      by_cases h2 : (p.declarationTags).2.isAtEnd = true
      · rw [parseScenariosLoop_done fuel p feature hne h2] at h
        exact hsame _ h
      · have h2' : (p.declarationTags).2.isAtEnd = false := by simpa using h2
        by_cases ho : (p.declarationTags).2.check .SCENARIO_OUTLINE = true
        · obtain ⟨o, p3, hp, _, _⟩ := parseScenarioOutline_ok _ ho
          rw [parseScenariosLoop_outline fuel p feature o p3 ho hp] at h
          obtain ⟨h1, h3, h4, h5, h6, h7⟩ := ih _ _ h
          exact ⟨h1, h3, h4, h5, h6, List.IsPrefix.trans (List.prefix_append _ _) h7⟩
        · have ho' : (p.declarationTags).2.check .SCENARIO_OUTLINE = false := by simpa using ho
          by_cases hs : (p.declarationTags).2.check TokenType.SCENARIO = true
          · obtain ⟨sc, p3, hp, _⟩ := parseScenario_ok _ hs
            rw [parseScenariosLoop_scenario fuel p feature sc p3 hs hp] at h
            obtain ⟨h1, h3, h4, h5, h6, h7⟩ := ih _ _ h
            exact ⟨h1, h3, h4, h5, List.IsPrefix.trans (List.prefix_append _ _) h6, h7⟩
          · have hs' : (p.declarationTags).2.check TokenType.SCENARIO = false := by
              simpa using hs
            rw [parseScenariosLoop_recover fuel p feature ho' hs' h2'] at h
            exact ih _ _ h

attribute [local irreducible] Parser.parseText Parser.parseDescription Parser.parseBackground

theorem parseFeature_error (p : Parser)
    (h : (p.skipNewlines.skipComments.parseTags).2.skipNewlines.check .FEATURE = false) :
    p.parseFeature
      = .error ({ message := expectedFeature
                  location := (p.skipNewlines.skipComments.parseTags).2.skipNewlines.current.location },
                (p.skipNewlines.skipComments.parseTags).2.skipNewlines) := by
  unfold Parser.parseFeature
  dsimp only
  rw [consume_error _ _ _ h]
  rfl

theorem parseFeature_ok (p : Parser)
    (h : (p.skipNewlines.skipComments.parseTags).2.skipNewlines.check .FEATURE = true) :
    ∃ f q, p.parseFeature = .ok (f, q) ∧ q.isAtEnd = true
      ∧ f.tags = (p.skipNewlines.skipComments.parseTags).1 ∧ q.tokens = p.tokens := by
  have hskip := declarationTags_skips p
  rw [declarationTags_snd] at hskip
  have hadv := advance_skips (p.skipNewlines.skipComments.parseTags).2.skipNewlines
  have hchain := skips_trans (skips_trans (skips_trans hskip hadv) (parseText_skips _))
    (skips_trans (skipNewlines_skips _) (parseDescription_skips _))
  unfold Parser.parseFeature
  dsimp only
  rw [consume_ok _ _ _ h]
  dsimp only
  split
  · rename_i hbg
    obtain ⟨bg, p4, hp4, hsk4⟩ := parseBackground_ok _ hbg
    rw [hp4]
    dsimp only
    obtain ⟨f, q, hq, hreach, hfuel⟩ := parseScenariosLoop_total (p4.tokens.length + 1) p4
      { name := (((p.skipNewlines.skipComments.parseTags).2.skipNewlines.advance).2.parseText).1
        description := ((((p.skipNewlines.skipComments.parseTags).2.skipNewlines.advance).2.parseText).2.skipNewlines.parseDescription).1
        tags := (p.skipNewlines.skipComments.parseTags).1
        background := some bg, scenarios := [], scenario_outlines := [] }
    refine ⟨f, q, hq, (hfuel (rem_lt_length_succ p4)).1,
      (parseScenariosLoop_keeps _ _ _ _ _ hq).2.2.1, ?_⟩
    rw [hreach.1, hsk4.1.1, advance_tokens]
    exact hchain.1.1
  · obtain ⟨f, q, hq, hreach, hfuel⟩ := parseScenariosLoop_total
      (((((p.skipNewlines.skipComments.parseTags).2.skipNewlines.advance).2.parseText).2.skipNewlines.parseDescription).2.tokens.length + 1)
      ((((p.skipNewlines.skipComments.parseTags).2.skipNewlines.advance).2.parseText).2.skipNewlines.parseDescription).2
      { name := (((p.skipNewlines.skipComments.parseTags).2.skipNewlines.advance).2.parseText).1
        description := ((((p.skipNewlines.skipComments.parseTags).2.skipNewlines.advance).2.parseText).2.skipNewlines.parseDescription).1
        tags := (p.skipNewlines.skipComments.parseTags).1
        background := none, scenarios := [], scenario_outlines := [] }
    refine ⟨f, q, hq, (hfuel (rem_lt_length_succ _)).1,
      (parseScenariosLoop_keeps _ _ _ _ _ hq).2.2.1, ?_⟩
    rw [hreach.1]
    exact hchain.1.1

theorem parse_eq (p : Parser) :
    p.parse
      = match p.parseFeature with
        | .ok (feature, p1) => (some feature, p1)
        | .error (e, p1) => (none, { p1 with errors := p1.errors ++ [e] }) := rfl

theorem declarationTags_of_keyword (p : Parser) (hn : p.check .NEWLINE = false)
    (hc : p.check .COMMENT = false) (ht : p.check .TAG = false) :
    p.declarationTags = ([], p) := by
  unfold Parser.declarationTags
  dsimp only
  rw [skipNewlines_of_not_newline p hn, skipComments_of_not_comment p hc,
    parseTags_of_not_tag p ht]
  dsimp only
  rw [skipNewlines_of_not_newline p hn]

theorem check_other (p : Parser) (t u : TokenType) (h : p.check t = true) (hne : u ≠ t) :
    p.check u = false := by
  have hc : p.current.type = t := by simpa [Parser.check] using h
  simp only [Parser.check, hc, decide_eq_false_iff_not]
  exact fun e => hne e.symm

/-- Claim C17: `parse` on a token vector returns a `Feature` if and only if, after
the leading newlines and comments, the tags that follow them and the newlines
after these, the current token is the `Feature` keyword.  Otherwise it returns no
feature and records exactly one error, `Expected 'Feature' keyword`, at that
token.  With the keyword there, `parse` returns a feature that carries the tags
read, whatever tokens follow, and the parser has then read up to the end. -/
theorem parse_returns_feature_iff (tokens : List Token) :
    (((Parser.new tokens).parse).1.isSome = true
      ↔ ((Parser.new tokens).skipNewlines.skipComments.parseTags).2.skipNewlines.check .FEATURE
          = true)
    ∧ (((Parser.new tokens).skipNewlines.skipComments.parseTags).2.skipNewlines.check .FEATURE
          = false →
        ((Parser.new tokens).parse).1 = none
          ∧ ((Parser.new tokens).parse).2.errors
            = [{ message := "Expected 'Feature' keyword".toList
                 location := ((Parser.new tokens).skipNewlines.skipComments.parseTags).2.skipNewlines.current.location }])
    ∧ (((Parser.new tokens).skipNewlines.skipComments.parseTags).2.skipNewlines.check .FEATURE
          = true →
        ∃ f, ((Parser.new tokens).parse).1 = some f
          ∧ f.tags = ((Parser.new tokens).skipNewlines.skipComments.parseTags).1
          ∧ ((Parser.new tokens).parse).2.isAtEnd = true
          ∧ ((Parser.new tokens).parse).2.tokens = tokens) := by
  have hyes : ((Parser.new tokens).skipNewlines.skipComments.parseTags).2.skipNewlines.check
        .FEATURE = true →
      ∃ f, ((Parser.new tokens).parse).1 = some f
        ∧ f.tags = ((Parser.new tokens).skipNewlines.skipComments.parseTags).1
        ∧ ((Parser.new tokens).parse).2.isAtEnd = true
        ∧ ((Parser.new tokens).parse).2.tokens = tokens := by
    intro h
    obtain ⟨f, q, hq, hend, htags, htok⟩ := parseFeature_ok (Parser.new tokens) h
    rw [parse_eq, hq]
    exact ⟨f, rfl, htags, hend, htok⟩
  have hno : ((Parser.new tokens).skipNewlines.skipComments.parseTags).2.skipNewlines.check
        .FEATURE = false →
      ((Parser.new tokens).parse).1 = none
        ∧ ((Parser.new tokens).parse).2.errors
          = [{ message := "Expected 'Feature' keyword".toList
               location := ((Parser.new tokens).skipNewlines.skipComments.parseTags).2.skipNewlines.current.location }] := by
    intro h
    have herr := (declarationTags_skips (Parser.new tokens)).2
    rw [declarationTags_snd] at herr
    rw [parse_eq, parseFeature_error (Parser.new tokens) h]
    refine ⟨rfl, ?_⟩
    show ((Parser.new tokens).skipNewlines.skipComments.parseTags).2.skipNewlines.errors ++ _ = _
    rw [herr]
    rfl
  refine ⟨?_, hno, hyes⟩
  constructor
  · intro hsome
    cases hc : ((Parser.new tokens).skipNewlines.skipComments.parseTags).2.skipNewlines.check
        .FEATURE
    · rw [(hno hc).1] at hsome
      exact Bool.noConfusion hsome
    · rfl
  · intro h
    obtain ⟨f, hf, _⟩ := hyes h
    rw [hf]
    rfl

/-- Claim C18: in the scenario loop of `parseFeature`, when the token met after
the newlines, comments and tags is not at the end and starts neither a Scenario
nor a Scenario Outline, the parser appends one `ParseError` at that token and
skips at least that token, up to the next `Scenario` or `Scenario Outline`
keyword or the end: no skipped token is such a keyword.  The loop then goes on
from there with the feature as it was: its result is the result of the loop
started at that keyword, it is a feature that holds all scenarios added before,
and a scenario that starts at the keyword is parsed and added first. -/
theorem scenario_loop_recovers (p : Parser) (feature : Feature)
    (ho : (p.skipNewlines.skipComments.parseTags).2.skipNewlines.check .SCENARIO_OUTLINE = false)
    (hs : (p.skipNewlines.skipComments.parseTags).2.skipNewlines.check TokenType.SCENARIO = false)
    (h2 : (p.skipNewlines.skipComments.parseTags).2.skipNewlines.isAtEnd = false) :
    ∃ q, q = ((p.skipNewlines.skipComments.parseTags).2.skipNewlines.error
          expectedScenario).skipToNextScenario
      ∧ q.errors = p.errors
          ++ [{ message := expectedScenario
                location := (p.skipNewlines.skipComments.parseTags).2.skipNewlines.current.location }]
      ∧ q.tokens = p.tokens
      ∧ (p.skipNewlines.skipComments.parseTags).2.skipNewlines.current_index < q.current_index
      ∧ (q.isAtEnd = true ∨ q.check TokenType.SCENARIO = true
          ∨ q.check .SCENARIO_OUTLINE = true)
      ∧ (∀ i, (p.skipNewlines.skipComments.parseTags).2.skipNewlines.current_index ≤ i →
          i < q.current_index →
          (p.tokens.getD i eofToken).type ≠ TokenType.SCENARIO
            ∧ (p.tokens.getD i eofToken).type ≠ .SCENARIO_OUTLINE)
      ∧ (∀ n m, p.rem < n → q.rem < m →
          Parser.parseScenariosLoop n p feature = Parser.parseScenariosLoop m q feature)
      ∧ (∃ f r, Parser.parseScenariosLoop (p.tokens.length + 1) p feature = .ok (f, r)
          ∧ r.isAtEnd = true ∧ feature.scenarios <+: f.scenarios
          ∧ feature.scenario_outlines <+: f.scenario_outlines)
      ∧ (q.check TokenType.SCENARIO = true →
          ∃ sc q3, q.parseScenario = .ok (sc, q3)
            ∧ ∀ n, Parser.parseScenariosLoop (n + 1) q feature
              = Parser.parseScenariosLoop n q3
                  { feature with scenarios := feature.scenarios ++ [sc] })
      ∧ (q.check .SCENARIO_OUTLINE = true →
          ∃ o q3, q.parseScenarioOutline = .ok (o, q3)
            ∧ ∀ n, Parser.parseScenariosLoop (n + 1) q feature
              = Parser.parseScenariosLoop n q3
                  { feature with scenario_outlines := feature.scenario_outlines ++ [o] }) := by
  have hskip := declarationTags_skips p
  rw [← declarationTags_snd] at ho hs h2 ⊢
  have hne := (not_atEnd_of_declaration p h2).1
  have hsk := skipToNextScenario_skips ((p.declarationTags).2.error expectedScenario)
  have hadv := skipToNextScenario_advances
    ((p.declarationTags).2.error expectedScenario) h2 hs ho
  have hreach : p.Reaches ((p.declarationTags).2.error expectedScenario).skipToNextScenario :=
    ⟨hsk.1.1.trans hskip.1.1, by
      have h1 := hskip.1.2
      have h3 := hsk.1.2
      have h4 : ((p.declarationTags).2.error expectedScenario).current_index
          = (p.declarationTags).2.current_index := rfl
      omega⟩
  have hrem : (((p.declarationTags).2.error expectedScenario).skipToNextScenario).rem < p.rem :=
    rem_lt_of_reaches hreach hne (by
      have h1 := hskip.1.2
      have h4 : ((p.declarationTags).2.error expectedScenario).current_index
          = (p.declarationTags).2.current_index := rfl
      omega)
  have hloop : ∀ n m, p.rem < n →
      (((p.declarationTags).2.error expectedScenario).skipToNextScenario).rem < m →
      Parser.parseScenariosLoop n p feature
        = Parser.parseScenariosLoop m
            ((p.declarationTags).2.error expectedScenario).skipToNextScenario feature := by
    intro n m hn hm
    rw [parseScenariosLoop_fuel_le (p.rem + 1) n p feature (by omega) (by omega),
      parseScenariosLoop_recover p.rem p feature ho hs h2,
      parseScenariosLoop_fuel_le
        ((((p.declarationTags).2.error expectedScenario).skipToNextScenario).rem + 1) p.rem _
        feature (by omega) (by omega),
      parseScenariosLoop_fuel_le
        ((((p.declarationTags).2.error expectedScenario).skipToNextScenario).rem + 1) m _
        feature (by omega) (by omega)]
  refine ⟨_, rfl, ?_, hreach.1, hadv, ?_, ?_, hloop, ?_, ?_, ?_⟩
  · rw [hsk.2]
    show (p.declarationTags).2.errors ++ _ = _
    rw [hskip.2]
  · rcases skipToNextScenario_exit ((p.declarationTags).2.error expectedScenario) with h | h
    · exact Or.inl h
    · simp only [Bool.or_eq_true] at h
      rcases h with h | h
      · exact Or.inr (Or.inl h)
      · exact Or.inr (Or.inr h)
  · intro i hlo hhi
    have := skipToNextScenarioLoop_skipped _
      ((p.declarationTags).2.error expectedScenario) i hlo (by
        have hh : (Parser.skipToNextScenarioLoop
            (((p.declarationTags).2.error expectedScenario).tokens.length + 1)
            ((p.declarationTags).2.error expectedScenario))
            = ((p.declarationTags).2.error expectedScenario).skipToNextScenario := by
          unfold Parser.skipToNextScenario
          rfl
        rw [hh]
        exact hhi)
    have htok : ((p.declarationTags).2.error expectedScenario).tokens = p.tokens :=
      hskip.1.1
    rw [htok] at this
    exact ⟨this.1, this.2.1⟩
  · obtain ⟨f, r, hfr, _, hfuel⟩ :=
      parseScenariosLoop_total (p.tokens.length + 1) p feature
    obtain ⟨_, _, _, _, h5, h6⟩ := parseScenariosLoop_keeps _ _ _ _ _ hfr
    exact ⟨f, r, hfr, (hfuel (rem_lt_length_succ p)).1, h5, h6⟩
  · intro hq
    obtain ⟨sc, q3, hp, _⟩ := parseScenario_ok _ hq
    refine ⟨sc, q3, hp, ?_⟩
    intro n
    have hd := declarationTags_of_keyword _ (check_other _ _ _ hq (by decide))
      (check_other _ _ _ hq (by decide)) (check_other _ _ _ hq (by decide))
    rw [parseScenariosLoop_scenario n _ feature sc q3 (by rw [hd]; exact hq)
      (by rw [hd]; exact hp), hd]
    simp
  · intro hq
    obtain ⟨o, q3, hp, _⟩ := parseScenarioOutline_ok _ hq
    refine ⟨o, q3, hp, ?_⟩
    intro n
    have hd := declarationTags_of_keyword _ (check_other _ _ _ hq (by decide))
      (check_other _ _ _ hq (by decide)) (check_other _ _ _ hq (by decide))
    rw [parseScenariosLoop_outline n _ feature o q3 (by rw [hd]; exact hq)
      (by rw [hd]; exact hp), hd]
    simp

/-- Claim C20, amended: in the scenario loop of `parseFeature`, whatever tags are
read before the next declaration, an error is recorded only when a token
follows them: when the parser is at the end after the tags and the newlines
(tags on the last line of the document), the loop ends with the feature as it
was and the errors as they were, so the tags are dropped without an error; when
a token follows that starts neither a Scenario nor a Scenario Outline, the
error `Expected 'Scenario' or 'Scenario Outline'` is appended at that token. -/
theorem stray_tags_error_needs_token (p : Parser) (feature : Feature) (fuel : Nat)
    (hne : p.isAtEnd = false) :
    ((p.skipNewlines.skipComments.parseTags).2.skipNewlines.isAtEnd = true →
        Parser.parseScenariosLoop (fuel + 1) p feature
            = .ok (feature, (p.skipNewlines.skipComments.parseTags).2.skipNewlines)
          ∧ (p.skipNewlines.skipComments.parseTags).2.skipNewlines.errors = p.errors)
    ∧ ((p.skipNewlines.skipComments.parseTags).2.skipNewlines.isAtEnd = false →
        (p.skipNewlines.skipComments.parseTags).2.skipNewlines.check TokenType.SCENARIO = false →
        (p.skipNewlines.skipComments.parseTags).2.skipNewlines.check .SCENARIO_OUTLINE = false →
        ∃ q, Parser.parseScenariosLoop (fuel + 1) p feature
              = Parser.parseScenariosLoop fuel q feature
          ∧ q.errors = p.errors
              ++ [{ message := expectedScenario
                    location := (p.skipNewlines.skipComments.parseTags).2.skipNewlines.current.location }]) := by
  have hskip := declarationTags_skips p
  rw [← declarationTags_snd]
  refine ⟨?_, ?_⟩
  · intro h2
    exact ⟨parseScenariosLoop_done fuel p feature hne h2, hskip.2⟩
  · intro h2 hs ho
    refine ⟨_, parseScenariosLoop_recover fuel p feature ho hs h2, ?_⟩
    rw [(skipToNextScenario_skips _).2]
    show (p.declarationTags).2.errors ++ _ = _
    rw [hskip.2]

end ScenarioLoop

/-! ## Evaluation of the parser on sample documents -/

set_option maxRecDepth 1000000 in
/-- A token vector that starts with a tag and has no `Feature` keyword gives no
feature and the one error. -/
theorem parse_returns_feature_iff_witness :
    ((Parser.new [mkTok .TAG "t", mkTok .NEWLINE "NEWLINE", mkTok .TEXT "x"]).skipNewlines.skipComments.parseTags).2.skipNewlines.check
        .FEATURE = false
    ∧ ((Parser.new [mkTok .TAG "t", mkTok .NEWLINE "NEWLINE", mkTok .TEXT "x"]).parse).1 = none
    ∧ ((Parser.new [mkTok .TAG "t", mkTok .NEWLINE "NEWLINE", mkTok .TEXT "x"]).parse).2.errors
      = [{ message := "Expected 'Feature' keyword".toList
           location := { line := 1, column := 1, offset := 0 } }] := by
  have hc : ((Parser.new [mkTok .TAG "t", mkTok .NEWLINE "NEWLINE",
      mkTok .TEXT "x"]).skipNewlines.skipComments.parseTags).2.skipNewlines.check
        .FEATURE = false := by decide
  have h := (parse_returns_feature_iff
    [mkTok .TAG "t", mkTok .NEWLINE "NEWLINE", mkTok .TEXT "x"]).2.1 hc
  refine ⟨hc, h.1, ?_⟩
  rw [h.2]
  decide

set_option maxRecDepth 1000000 in
/-- After the steps of the first scenario of `tokensRecover` the `Examples` line
gives one error, the parser skips to the second `Scenario` keyword, and the
whole parse returns both scenarios with that one error. -/
theorem scenario_loop_recovers_witness :
    ((parserAfterSteps.skipNewlines.skipComments.parseTags).2.skipNewlines.check
        .SCENARIO_OUTLINE = false
      ∧ (parserAfterSteps.skipNewlines.skipComments.parseTags).2.skipNewlines.check
        TokenType.SCENARIO = false
      ∧ (parserAfterSteps.skipNewlines.skipComments.parseTags).2.skipNewlines.isAtEnd = false)
    ∧ (∃ q, q.errors = [{ message := expectedScenario
                          location := { line := 1, column := 1, offset := 0 } }]
        ∧ q.current_index = 12 ∧ q.check TokenType.SCENARIO = true
        ∧ ∀ n m, parserAfterSteps.rem < n → q.rem < m →
            Parser.parseScenariosLoop n parserAfterSteps featureAfterSteps
              = Parser.parseScenariosLoop m q featureAfterSteps)
    ∧ (((Parser.new tokensRecover).parse).1.map
          (fun f => f.scenarios.map (fun s => (s.name, s.steps.length)))
        = some [("A".toList, 1), ("B".toList, 1)]
      ∧ ((Parser.new tokensRecover).parse).2.errors.length = 1) := by
  have ho : (parserAfterSteps.skipNewlines.skipComments.parseTags).2.skipNewlines.check
      .SCENARIO_OUTLINE = false := by decide
  have hs : (parserAfterSteps.skipNewlines.skipComments.parseTags).2.skipNewlines.check
      TokenType.SCENARIO = false := by decide
  have h2 : (parserAfterSteps.skipNewlines.skipComments.parseTags).2.skipNewlines.isAtEnd
      = false := by decide
  obtain ⟨q, hq, herr, _, _, _, _, hloop, _⟩ :=
    scenario_loop_recovers parserAfterSteps featureAfterSteps ho hs h2
  refine ⟨⟨ho, hs, h2⟩, ⟨q, ?_, ?_, ?_, hloop⟩, ?_, ?_⟩
  · rw [herr]
    decide
  · rw [hq]
    decide
  · rw [hq]
    decide
  · decide
  · decide

set_option maxRecDepth 1000000 in
/-- Claim C19: for the document `docTagBeforeExamples`, in which the tag `@slow`
stands on the line before `Examples:`, the parser ends the outline at the tag:
the outline has no `Examples` block, the tag is attached to no declaration, and
the error `Expected 'Scenario' or 'Scenario Outline'` is recorded at the
`Examples` line.  Only a tag line after the `Examples:` line, as in
`docTagAfterExamples`, becomes the tags of that block. -/
theorem parse_tag_before_examples_drops_block :
    ((Parser.ofSource docTagBeforeExamples).parse).1.map
        (fun f => f.scenario_outlines.map (fun o => o.name)) = some [": O".toList]
    ∧ ((Parser.ofSource docTagBeforeExamples).parse).1.map
        (fun f => f.scenario_outlines.map (fun o => o.examples)) = some [[]]
    ∧ ((Parser.ofSource docTagBeforeExamples).parse).1.map
        (fun f => f.scenario_outlines.map (fun o => o.tags)) = some [[]]
    ∧ ((Parser.ofSource docTagBeforeExamples).parse).1.map
        (fun f => f.scenarios.map (fun s => s.tags)) = some [[]]
    ∧ ((Parser.ofSource docTagBeforeExamples).parse).1.map (fun f => f.tags) = some []
    ∧ ((Parser.ofSource docTagBeforeExamples).parse).2.errors.map (fun e => e.message)
      = [expectedScenario]
    ∧ ((Parser.ofSource docTagBeforeExamples).parse).2.errors.map (fun e => e.location.line)
      = [4]
    ∧ ((Parser.ofSource docTagAfterExamples).parse).1.map
        (fun f => f.scenario_outlines.map (fun o => o.examples.map (fun e => e.tags)))
      = some [[["slow".toList]]]
    ∧ ((Parser.ofSource docTagAfterExamples).parse).1.map
        (fun f => f.scenario_outlines.map (fun o => o.examples.map (fun e => e.table)))
      = some [[some { rows := [["a".toList], ["1".toList]] }]]
    ∧ ((Parser.ofSource docTagAfterExamples).parse).2.errors = [] := by
  refine ⟨?_, ?_, ?_, ?_, ?_, ?_, ?_, ?_, ?_, ?_⟩ <;> decide

set_option maxRecDepth 1000000 in
/-- Claim C20 as stated fails: the document `docStrayTag` ends in the tag line
`@stray`, after which no declaration follows; the parser returns the feature and
records no error. -/
theorem parse_stray_tag_no_error :
    ((Parser.ofSource docStrayTag).parse).1.map
        (fun f => f.scenarios.map (fun s => (s.name, s.tags)))
      = some [(": S".toList, [])]
    ∧ ((Parser.ofSource docStrayTag).parse).2.errors = [] := by
  refine ⟨?_, ?_⟩ <;> decide

set_option maxRecDepth 1000000 in
/-- At a tag that is the last token the scenario loop ends without an error. -/
theorem stray_tags_error_needs_token_witness :
    parserAtLastTag.isAtEnd = false
    ∧ (parserAtLastTag.skipNewlines.skipComments.parseTags).1 = ["stray".toList]
    ∧ (parserAtLastTag.skipNewlines.skipComments.parseTags).2.skipNewlines.isAtEnd = true
    ∧ ∃ q, Parser.parseScenariosLoop 2 parserAtLastTag featureAfterSteps
          = .ok (featureAfterSteps, q)
        ∧ q.errors = [] := by
  have hne : parserAtLastTag.isAtEnd = false := by decide
  have h2 : (parserAtLastTag.skipNewlines.skipComments.parseTags).2.skipNewlines.isAtEnd
      = true := by decide
  have h := (stray_tags_error_needs_token parserAtLastTag featureAfterSteps 1 hne).1 h2
  exact ⟨hne, by decide, h2, _, h.1, by rw [h.2]; rfl⟩

/-! ## The lexer: what every method keeps and how far it reads -/

theorem reads_refl (l : Lexer) : l.Reads l := ⟨List.suffix_refl _, rfl⟩

theorem reads_trans {l l1 l2 : Lexer} (h1 : l.Reads l1) (h2 : l1.Reads l2) : l.Reads l2 :=
  ⟨List.IsSuffix.trans h2.1 h1.1, h2.2.trans h1.2⟩

theorem reads_length {l l1 : Lexer} (h : l.Reads l1) : l1.rest.length ≤ l.rest.length :=
  List.IsSuffix.length_le h.1

theorem advance_rest (l : Lexer) : l.advance.rest = l.rest.tail := by
  unfold Lexer.advance
  cases h : l.rest with
  | nil => simp [h]
  | cons c cs => simp

theorem advance_error (l : Lexer) : l.advance.error_message = l.error_message := by
  unfold Lexer.advance
  cases l.rest <;> rfl

theorem advance_reads_lexer (l : Lexer) : l.Reads l.advance :=
  ⟨by rw [advance_rest]; exact List.tail_suffix _, advance_error l⟩

theorem advance_length (l : Lexer) (h : l.rest ≠ []) :
    l.advance.rest.length + 1 = l.rest.length := by
  rw [advance_rest]
  cases hr : l.rest with
  | nil => exact absurd hr h
  | cons c cs => simp

theorem advanceN_rest (l : Lexer) (n : Nat) : (l.advanceN n).rest = l.rest.drop n := by
  induction n generalizing l with
  | zero => rfl
  | succ n ih =>
    rw [Lexer.advanceN, ih, advance_rest]
    cases l.rest <;> simp

theorem advanceN_error (l : Lexer) (n : Nat) :
    (l.advanceN n).error_message = l.error_message := by
  induction n generalizing l with
  | zero => rfl
  | succ n ih => rw [Lexer.advanceN, ih, advance_error]

theorem advanceN_reads (l : Lexer) (n : Nat) : l.Reads (l.advanceN n) :=
  ⟨by rw [advanceN_rest]; exact List.drop_suffix _ _, advanceN_error l n⟩

theorem advanceWhile_reads (p : Char → Bool) (l : Lexer) : l.Reads (l.advanceWhile p) :=
  advanceN_reads l _

theorem advanceWhile_rest (p : Char → Bool) (l : Lexer) :
    (l.advanceWhile p).rest = l.rest.dropWhile p := by
  unfold Lexer.advanceWhile
  rw [advanceN_rest]
  induction l.rest with
  | nil => rfl
  | cons c cs ih =>
    by_cases h : p c = true
    · simp [List.takeWhile, List.dropWhile, h, ih]
    · simp [List.takeWhile, List.dropWhile, h]

theorem newLine_reads (l : Lexer) : l.Reads l.newLine := ⟨List.suffix_refl _, rfl⟩

theorem isAtEnd_iff (l : Lexer) : l.isAtEnd = true ↔ l.rest = [] := by
  unfold Lexer.isAtEnd
  exact List.isEmpty_iff

theorem rest_ne_nil_of_peek (l : Lexer) (c : Char) (h : l.peek 0 = c) (hc : c ≠ Char.ofNat 0) :
    l.rest ≠ [] := by
  intro hr
  unfold Lexer.peek at h
  rw [hr] at h
  exact hc h.symm

theorem peek_cons (l : Lexer) (c : Char) (cs : Str) (h : l.rest = c :: cs) : l.peek 0 = c := by
  unfold Lexer.peek
  rw [h]
  rfl

theorem lt_of_advance_reads (l l' : Lexer) (h : l.rest ≠ []) (hr : l.advance.Reads l') :
    l'.rest.length < l.rest.length := by
  have h1 := reads_length hr
  have h2 := advance_length l h
  omega

theorem scanComment_reads (l : Lexer) : l.advance.Reads (l.scanComment).2 :=
  advanceN_reads _ _

theorem scanTag_reads (l : Lexer) : l.advance.Reads (l.scanTag).2 :=
  advanceN_reads _ _

theorem scanTableRow_reads (l : Lexer) : l.advance.Reads (l.scanTableRow).2 :=
  advanceN_reads _ _

theorem docStringBody_reads (fuel : Str) (l : Lexer) (content : Str) :
    l.Reads (Lexer.docStringBody fuel l content).2 := by
  induction fuel generalizing l content with
  | nil => exact reads_refl l
  | cons c cs ih =>
    rw [Lexer.docStringBody]
    split
    · exact reads_refl l
    · split
      · exact reads_trans (advance_reads_lexer l)
          (reads_trans (advance_reads_lexer _) (advance_reads_lexer _))
      · dsimp only
        split
        · exact reads_trans (reads_trans (advance_reads_lexer l) (newLine_reads _)) (ih _ _)
        · exact reads_trans (advance_reads_lexer l) (ih _ _)

theorem scanDocString_reads (l : Lexer) : l.advance.Reads (l.scanDocString).2 := by
  unfold Lexer.scanDocString
  dsimp only
  have h1 : l.advance.Reads (l.advance.advance.advance.advanceWhile (fun c => c ≠ '\n')) :=
    reads_trans (advance_reads_lexer _)
      (reads_trans (advance_reads_lexer _) (advanceWhile_reads _ _))
  split
  · exact reads_trans h1 (reads_trans (reads_trans (advance_reads_lexer _) (newLine_reads _))
      (docStringBody_reads _ _ _))
  · exact reads_trans h1 (docStringBody_reads _ _ _)

theorem scanParameter_reads (l : Lexer) : l.advance.Reads (l.scanParameter).2 := by
  unfold Lexer.scanParameter
  dsimp only
  split
  · exact reads_trans (advanceWhile_reads _ _) (advance_reads_lexer _)
  · exact advanceWhile_reads _ _

theorem quotedLoop_reads (quote : Char) (fuel : Nat) (l : Lexer) :
    l.Reads (Lexer.quotedLoop quote fuel l) := by
  induction fuel generalizing l with
  | zero => exact reads_refl l
  | succ fuel ih =>
    rw [Lexer.quotedLoop]
    split
    · split
      · dsimp only
        split
        · exact reads_trans (reads_trans (advance_reads_lexer l) (advance_reads_lexer _)) (ih _)
        · exact reads_trans (advance_reads_lexer l) (ih _)
      · exact reads_trans (advance_reads_lexer l) (ih _)
    · exact reads_refl l

theorem scanQuoted_reads (l : Lexer) (quote : Char) :
    l.advance.Reads (l.scanQuoted quote).2 := by
  unfold Lexer.scanQuoted
  dsimp only
  split
  · exact reads_trans (quotedLoop_reads _ _ _) (advance_reads_lexer _)
  · exact quotedLoop_reads _ _ _

theorem scanText_reads (l : Lexer) : l.Reads (l.scanText).2 := advanceN_reads _ _

theorem scanKeyword_snd (l : Lexer) :
    (l.scanKeyword).2
      = if (l.rest.takeWhile (fun c => c.isAlphanum || c = ' ')).all (fun c => c = ' ') = true
        then l.advanceN (l.rest.takeWhile (fun c => c.isAlphanum || c = ' ')).length
        else
          { l.advanceN (l.rest.takeWhile (fun c => c.isAlphanum || c = ' ')).length with
            rest := l.rest.drop (trimTrailing (fun c => c = ' ')
              (l.rest.takeWhile (fun c => c.isAlphanum || c = ' '))).length
            current := l.current + (trimTrailing (fun c => c = ' ')
              (l.rest.takeWhile (fun c => c.isAlphanum || c = ' '))).length } := by
  unfold Lexer.scanKeyword
  dsimp only
  split <;> rfl

theorem scanKeyword_reads (l : Lexer) : l.Reads (l.scanKeyword).2 := by
  rw [scanKeyword_snd]
  split
  · exact advanceN_reads _ _
  · exact ⟨List.drop_suffix _ _, advanceN_error _ _⟩

theorem trimTrailing_length_pos (set : Char → Bool) (s : Str)
    (h : ∃ x ∈ s, set x = false) : 0 < (trimTrailing set s).length := by
  obtain ⟨x, hx, hset⟩ := h
  unfold trimTrailing
  split
  · exact List.length_pos_of_mem hx
  · rw [List.length_reverse]
    apply List.length_pos.mpr
    intro hnil
    rw [List.dropWhile_eq_nil_iff] at hnil
    have := hnil x (List.mem_reverse.mpr hx)
    rw [hset] at this
    exact Bool.noConfusion this

theorem scanKeyword_lt (l : Lexer) (c : Char) (cs : Str) (h : l.rest = c :: cs)
    (hc : c.isAlpha = true) : (l.scanKeyword).2.rest.length < l.rest.length := by
  have hsp : c ≠ ' ' := by
    intro e
    rw [e] at hc
    exact absurd hc (by decide)
  have hp : (c.isAlphanum || c = ' ') = true := by
    simp [Char.isAlphanum, hc]
  have hrun : l.rest.takeWhile (fun c => c.isAlphanum || c = ' ')
      = c :: cs.takeWhile (fun c => c.isAlphanum || c = ' ') := by
    rw [h, List.takeWhile_cons, if_pos hp]
  rw [scanKeyword_snd, hrun]
  have hall : (c :: cs.takeWhile (fun c => c.isAlphanum || c = ' ')).all (fun c => c = ' ')
      = false := by
    simp [hsp]
  rw [hall]
  simp only [Bool.false_eq_true, if_false]
  have hpos := trimTrailing_length_pos (fun c => c = ' ')
    (c :: cs.takeWhile (fun c => c.isAlphanum || c = ' '))
    ⟨c, List.mem_cons_self _ _, by simp [hsp]⟩
  rw [List.length_drop, h]
  simp only [List.length_cons]
  omega

theorem scanText_lt (l : Lexer) (c : Char) (cs : Str) (h : l.rest = c :: cs)
    (hc : (c ≠ '\n' && c ≠ '#' && c ≠ '@' && c ≠ '|') = true) :
    (l.scanText).2.rest.length < l.rest.length := by
  unfold Lexer.scanText
  dsimp only
  rw [advanceN_rest, h, List.takeWhile_cons, if_pos hc, List.length_drop]
  simp only [List.length_cons]
  omega

theorem scanToken_progress (l : Lexer) (h : l.rest ≠ []) :
    l.Reads (l.scanToken).2 ∧ (l.scanToken).2.rest.length < l.rest.length := by
  have hadv : ∀ l', l.advance.Reads l' → l.Reads l' ∧ l'.rest.length < l.rest.length :=
    fun l' hr => ⟨reads_trans (advance_reads_lexer l) hr, lt_of_advance_reads l l' h hr⟩
  have hafter : ∀ l1 l', l.advance.Reads l1 → l1.Reads l' →
      l.Reads l' ∧ l'.rest.length < l.rest.length :=
    fun l1 l' h1 h2 => hadv l' (reads_trans h1 h2)
  obtain ⟨c, cs, hrest⟩ : ∃ c cs, l.rest = c :: cs := by
    cases hr : l.rest with
    | nil => exact absurd hr h
    | cons c cs => exact ⟨c, cs, rfl⟩
  have hpeek : l.peek 0 = c := peek_cons l c cs hrest
  unfold Lexer.scanToken
  dsimp only
  rw [hpeek]
  by_cases h1 : c = '\n'
  · rw [if_pos h1]
    exact hadv _ (newLine_reads _)
  rw [if_neg h1]
  by_cases h2 : c = '#'
  · rw [if_pos h2]
    exact hadv _ (scanComment_reads l)
  rw [if_neg h2]
  by_cases h3 : c = '@'
  · rw [if_pos h3]
    exact hadv _ (scanTag_reads l)
  rw [if_neg h3]
  by_cases h4 : c = '|'
  · rw [if_pos h4]
    exact hadv _ (scanTableRow_reads l)
  rw [if_neg h4]
  by_cases h5 : (c = dquote && l.peek 1 = dquote && l.peek 2 = dquote) = true
  · rw [if_pos h5]
    exact hadv _ (scanDocString_reads l)
  rw [if_neg h5]
  by_cases h6 : c = '<'
  · have hq : (c = dquote || c = squote) = false := by
      rw [h6]
      decide
    have ha : c.isAlpha = false := by
      rw [h6]
      decide
    rw [if_pos h6, hq, ha]
    have hpar := scanParameter_reads l
    cases hp : l.scanParameter with
    | mk o l1 =>
      rw [hp] at hpar
      cases o with
      | some token => exact hadv _ hpar
      | none => exact hafter _ _ hpar (scanText_reads l1)
  rw [if_neg h6]
  dsimp only
  by_cases h7 : (c = dquote || c = squote) = true
  · have ha : c.isAlpha = false := by
      simp only [Bool.or_eq_true, decide_eq_true_eq] at h7
      rcases h7 with e | e <;> rw [e] <;> decide
    rw [if_pos h7, ha]
    have hquo := scanQuoted_reads l c
    cases hp : l.scanQuoted c with
    | mk o l2 =>
      rw [hp] at hquo
      cases o with
      | some token => exact hadv _ hquo
      | none => exact hafter _ _ hquo (scanText_reads l2)
  rw [if_neg h7]
  dsimp only
  by_cases h8 : c.isAlpha = true
  · rw [if_pos h8]
    exact ⟨scanKeyword_reads l, scanKeyword_lt l c cs hrest h8⟩
  · rw [if_neg h8]
    refine ⟨scanText_reads l, scanText_lt l c cs hrest ?_⟩
    simp [h1, h2, h3, h4]

theorem skipWhitespace_reads (l : Lexer) : l.Reads l.skipWhitespace := advanceWhile_reads _ _

theorem nextToken_eq (l : Lexer) :
    l.nextToken
      = if l.skipWhitespace.isAtEnd = true then
          (l.skipWhitespace.makeToken .EOF_TOKEN [], l.skipWhitespace)
        else
          ({ l.skipWhitespace with token_start := l.skipWhitespace.current } : Lexer).scanToken :=
  rfl

theorem nextToken_reads (l : Lexer) : l.Reads (l.nextToken).2 := by
  rw [nextToken_eq]
  split
  · exact skipWhitespace_reads l
  · rename_i hne
    have hrest : ({ l.skipWhitespace with token_start := l.skipWhitespace.current } : Lexer).rest
        ≠ [] := by
      intro e
      exact hne ((isAtEnd_iff _).mpr e)
    exact reads_trans (skipWhitespace_reads l)
      (reads_trans ⟨List.suffix_refl _, rfl⟩ (scanToken_progress _ hrest).1)

theorem nextToken_eof (l : Lexer) (h : l.skipWhitespace.isAtEnd = true) :
    (l.nextToken).1.type = .EOF_TOKEN ∧ (l.nextToken).2.isAtEnd = true := by
  rw [nextToken_eq, if_pos h]
  exact ⟨rfl, h⟩

theorem nextToken_lt (l : Lexer) (h : l.skipWhitespace.isAtEnd = false) :
    (l.nextToken).2.rest.length < l.rest.length := by
  rw [nextToken_eq, if_neg (by rw [h]; exact Bool.false_ne_true)]
  have hrest : ({ l.skipWhitespace with token_start := l.skipWhitespace.current } : Lexer).rest
      ≠ [] := by
    intro e
    have := (isAtEnd_iff l.skipWhitespace).mpr e
    rw [h] at this
    exact Bool.noConfusion this
  have h1 := (scanToken_progress _ hrest).2
  have h2 := reads_length (skipWhitespace_reads l)
  have h3 : ({ l.skipWhitespace with token_start := l.skipWhitespace.current } : Lexer).rest
      = l.skipWhitespace.rest := rfl
  rw [h3] at h1
  omega

theorem nextToken_consumes_unless_eof (l : Lexer) (h : (l.nextToken).1.type ≠ .EOF_TOKEN) :
    (l.nextToken).2.rest.length < l.rest.length := by
  cases hend : l.skipWhitespace.isAtEnd
  · exact nextToken_lt l hend
  · exact absurd (nextToken_eof l hend).1 h

theorem detectKeyword_ne_eof (word : Str) (t : TokenType) (h : detectKeyword word = some t) :
    t ≠ .EOF_TOKEN := by
  unfold detectKeyword at h
  repeat' split at h
  all_goals first
    | (injection h with h; rw [← h]; decide)
    | exact Option.noConfusion h

theorem scanKeyword_type (l : Lexer) : (l.scanKeyword).1.type ≠ .EOF_TOKEN := by
  unfold Lexer.scanKeyword
  dsimp only
  split
  · rename_i k hk
    exact detectKeyword_ne_eof _ k hk
  · intro e
    exact TokenType.noConfusion e

theorem scanParameter_type (l : Lexer) (token : Token) (l1 : Lexer)
    (h : l.scanParameter = (some token, l1)) : token.type = .PARAMETER := by
  unfold Lexer.scanParameter at h
  dsimp only at h
  split at h
  · injection h with h1 _
    injection h1 with h1
    rw [← h1]
    rfl
  · injection h with h1 _
    exact Option.noConfusion h1

theorem scanQuoted_type (l : Lexer) (quote : Char) (token : Token) (l1 : Lexer)
    (h : l.scanQuoted quote = (some token, l1)) : token.type = .STRING := by
  unfold Lexer.scanQuoted at h
  dsimp only at h
  split at h
  · injection h with h1 _
    injection h1 with h1
    rw [← h1]
    rfl
  · injection h with h1 _
    exact Option.noConfusion h1

theorem scanToken_type (l : Lexer) : (l.scanToken).1.type ≠ .EOF_TOKEN := by
  have hne : ∀ t : TokenType, t ≠ .EOF_TOKEN → ∀ tok : Token, tok.type = t →
      tok.type ≠ .EOF_TOKEN := fun t ht tok e => by rw [e]; exact ht
  unfold Lexer.scanToken
  dsimp only
  split
  · exact hne .NEWLINE (by decide) _ rfl
  split
  · exact hne .COMMENT (by decide) _ rfl
  split
  · exact hne .TAG (by decide) _ rfl
  split
  · exact hne .TABLE_CELL (by decide) _ rfl
  split
  · exact hne .DOC_STRING (by decide) _ rfl
  split
  · rename_i token l1 heq
    split at heq
    · exact hne .PARAMETER (by decide) _ (scanParameter_type l token l1 heq)
    · injection heq with h1 _
      exact Option.noConfusion h1
  · split
    · rename_i token l2 heq
      split at heq
      · exact hne .STRING (by decide) _ (scanQuoted_type _ _ token l2 heq)
      · injection heq with h1 _
        exact Option.noConfusion h1
    · split
      · exact scanKeyword_type _
      · exact hne .TEXT (by decide) _ rfl

theorem nextToken_eof_iff (l : Lexer) :
    (l.nextToken).1.type = .EOF_TOKEN ↔ l.skipWhitespace.isAtEnd = true := by
  constructor
  · intro h
    cases hend : l.skipWhitespace.isAtEnd
    · rw [nextToken_eq, if_neg (by rw [hend]; exact Bool.false_ne_true)] at h
      exact absurd h (scanToken_type _)
    · rfl
  · intro h
    exact (nextToken_eof l h).1

theorem hasError_of_reads {l l' : Lexer} (h : l.Reads l') (he : l.error_message = []) :
    l'.hasError = false := by
  unfold Lexer.hasError
  rw [h.2, he]
  rfl

theorem tokenizeLoop_succ (fuel : Nat) (l : Lexer) (tokens : List Token) :
    Lexer.tokenizeLoop (fuel + 1) l tokens
      = if l.isAtEnd = true then (tokens, l)
        else if (l.nextToken).1.type = .EOF_TOKEN then
          (tokens ++ [(l.nextToken).1], (l.nextToken).2)
        else if (l.nextToken).2.hasError = true then
          (tokens ++ [(l.nextToken).1], (l.nextToken).2)
        else Lexer.tokenizeLoop fuel (l.nextToken).2 (tokens ++ [(l.nextToken).1]) := rfl

theorem tokenizeLoop_step (fuel : Nat) (l : Lexer) (tokens : List Token)
    (hne : l.isAtEnd = false) (he : l.error_message = [])
    (ht : (l.nextToken).1.type ≠ .EOF_TOKEN) :
    Lexer.tokenizeLoop (fuel + 1) l tokens
      = Lexer.tokenizeLoop fuel (l.nextToken).2 (tokens ++ [(l.nextToken).1]) := by
  rw [tokenizeLoop_succ, hne, if_neg Bool.false_ne_true, if_neg ht,
    hasError_of_reads (nextToken_reads l) he, if_neg Bool.false_ne_true]

theorem tokenizeLoop_last (fuel : Nat) (l : Lexer) (tokens : List Token)
    (hne : l.isAtEnd = false) (ht : (l.nextToken).1.type = .EOF_TOKEN) :
    Lexer.tokenizeLoop (fuel + 1) l tokens = (tokens ++ [(l.nextToken).1], (l.nextToken).2) := by
  rw [tokenizeLoop_succ, hne, if_neg Bool.false_ne_true, if_pos ht]

theorem tokenizeLoop_atEnd (fuel : Nat) (l : Lexer) (tokens : List Token)
    (h : l.isAtEnd = true) : Lexer.tokenizeLoop fuel l tokens = (tokens, l) := by
  cases fuel with
  | zero => rfl
  | succ fuel => rw [tokenizeLoop_succ, if_pos h]

theorem tokenizeLoop_total (fuel : Nat) (l : Lexer) (tokens : List Token)
    (he : l.error_message = []) :
    l.Reads (Lexer.tokenizeLoop fuel l tokens).2
      ∧ tokens <+: (Lexer.tokenizeLoop fuel l tokens).1
      ∧ (Lexer.tokenizeLoop fuel l tokens).1.length ≤ tokens.length + l.rest.length
      ∧ (l.rest.length ≤ fuel →
          (Lexer.tokenizeLoop fuel l tokens).2.isAtEnd = true
            ∧ Lexer.tokenizeLoop (fuel + 1) l tokens = Lexer.tokenizeLoop fuel l tokens) := by
  induction fuel generalizing l tokens with
  | zero =>
    refine ⟨reads_refl l, List.prefix_refl _, Nat.le_add_right _ _, ?_⟩
    intro h
    have hnil : l.rest = [] := List.length_eq_zero.mp (Nat.le_zero.mp h)
    have hend := (isAtEnd_iff l).mpr hnil
    exact ⟨hend, tokenizeLoop_atEnd _ l tokens hend⟩
  | succ fuel ih =>
    by_cases hend : l.isAtEnd = true
    · rw [tokenizeLoop_atEnd _ l tokens hend]
      exact ⟨reads_refl l, List.prefix_refl _, Nat.le_add_right _ _,
        fun _ => ⟨hend, tokenizeLoop_atEnd _ l tokens hend⟩⟩
    · have hne : l.isAtEnd = false := by simpa using hend
      have hpos : 0 < l.rest.length := by
        apply List.length_pos.mpr
        intro e
        exact hend ((isAtEnd_iff l).mpr e)
      by_cases ht : (l.nextToken).1.type = .EOF_TOKEN
      · rw [tokenizeLoop_last fuel l tokens hne ht]
        refine ⟨nextToken_reads l, List.prefix_append _ _, ?_, ?_⟩
        · simp only [List.length_append, List.length_singleton]
          omega
        · intro _
          exact ⟨(nextToken_eof l ((nextToken_eof_iff l).mp ht)).2,
            by rw [tokenizeLoop_last (fuel + 1) l tokens hne ht]⟩
      · rw [tokenizeLoop_step fuel l tokens hne he ht]
        have he1 : (l.nextToken).2.error_message = [] := by
          rw [(nextToken_reads l).2, he]
        obtain ⟨h1, h2, h3, h4⟩ := ih (l.nextToken).2 (tokens ++ [(l.nextToken).1]) he1
        have hlt := nextToken_consumes_unless_eof l ht
        refine ⟨reads_trans (nextToken_reads l) h1,
          List.IsPrefix.trans (List.prefix_append _ _) h2, ?_, ?_⟩
        · simp only [List.length_append, List.length_singleton] at h3
          omega
        · intro hfuel
          obtain ⟨h5, h6⟩ := h4 (by omega)
          exact ⟨h5, by rw [tokenizeLoop_step (fuel + 1) l tokens hne he ht, h6]⟩

theorem tokenizeLoop_fuel_le (fuel fuel' : Nat) (l : Lexer) (tokens : List Token)
    (he : l.error_message = []) (h : l.rest.length ≤ fuel) (hle : fuel ≤ fuel') :
    Lexer.tokenizeLoop fuel' l tokens = Lexer.tokenizeLoop fuel l tokens := by
  induction fuel' with
  | zero =>
    have : fuel = 0 := by omega
    rw [this]
  | succ n ih =>
    by_cases heq : fuel = n + 1
    · rw [heq]
    · have hle' : fuel ≤ n := by omega
      rw [((tokenizeLoop_total n l tokens he).2.2.2 (by omega)).2]
      exact ih hle'

/-! ## The index `current_` and the text still to be read -/

theorem sync_new (source : Str) : (Lexer.new source).Sync source :=
  ⟨Nat.zero_le _, rfl⟩

theorem sync_advance (source : Str) (l : Lexer) (h : l.Sync source) : l.advance.Sync source := by
  unfold Lexer.advance
  cases hr : l.rest with
  | nil => exact h
  | cons c cs =>
    have hdrop : source.drop l.current = c :: cs := by rw [← h.2, hr]
    have hlt : l.current < source.length := by
      by_contra hcon
      rw [List.drop_eq_nil_of_le (Nat.le_of_not_lt hcon)] at hdrop
      exact List.noConfusion hdrop
    refine ⟨hlt, ?_⟩
    show cs = source.drop (l.current + 1)
    rw [← List.tail_drop, hdrop]
    rfl

theorem sync_advanceN (source : Str) (n : Nat) (l : Lexer) (h : l.Sync source) :
    (l.advanceN n).Sync source := by
  induction n generalizing l with
  | zero => exact h
  | succ n ih => exact ih _ (sync_advance source l h)

theorem sync_advanceWhile (source : Str) (p : Char → Bool) (l : Lexer) (h : l.Sync source) :
    (l.advanceWhile p).Sync source := sync_advanceN source _ l h

theorem sync_newLine (source : Str) (l : Lexer) (h : l.Sync source) : l.newLine.Sync source := h

theorem sync_docStringBody (source : Str) (fuel : Str) (l : Lexer) (content : Str)
    (h : l.Sync source) : (Lexer.docStringBody fuel l content).2.Sync source := by
  induction fuel generalizing l content with
  | nil => exact h
  | cons c cs ih =>
    rw [Lexer.docStringBody]
    split
    · exact h
    · split
      · exact sync_advance _ _ (sync_advance _ _ (sync_advance _ _ h))
      · dsimp only
        split
        · exact ih _ _ (sync_newLine _ _ (sync_advance _ _ h))
        · exact ih _ _ (sync_advance _ _ h)

theorem sync_scanDocString (source : Str) (l : Lexer) (h : l.Sync source) :
    (l.scanDocString).2.Sync source := by
  unfold Lexer.scanDocString
  dsimp only
  have h1 := sync_advanceWhile source (fun c => c ≠ '\n') _
    (sync_advance _ _ (sync_advance _ _ (sync_advance _ _ h)))
  split
  · exact sync_docStringBody _ _ _ _ (sync_newLine _ _ (sync_advance _ _ h1))
  · exact sync_docStringBody _ _ _ _ h1

theorem sync_scanParameter (source : Str) (l : Lexer) (h : l.Sync source) :
    (l.scanParameter).2.Sync source := by
  unfold Lexer.scanParameter
  dsimp only
  split
  · exact sync_advance _ _ (sync_advanceWhile _ _ _ (sync_advance _ _ h))
  · exact sync_advanceWhile _ _ _ (sync_advance _ _ h)

theorem sync_quotedLoop (source : Str) (quote : Char) (fuel : Nat) (l : Lexer)
    (h : l.Sync source) : (Lexer.quotedLoop quote fuel l).Sync source := by
  induction fuel generalizing l with
  | zero => exact h
  | succ fuel ih =>
    rw [Lexer.quotedLoop]
    split
    · split
      · dsimp only
        split
        · exact ih _ (sync_advance _ _ (sync_advance _ _ h))
        · exact ih _ (sync_advance _ _ h)
      · exact ih _ (sync_advance _ _ h)
    · exact h

theorem sync_scanQuoted (source : Str) (l : Lexer) (quote : Char) (h : l.Sync source) :
    (l.scanQuoted quote).2.Sync source := by
  unfold Lexer.scanQuoted
  dsimp only
  split
  · exact sync_advance _ _ (sync_quotedLoop _ _ _ _ (sync_advance _ _ h))
  · exact sync_quotedLoop _ _ _ _ (sync_advance _ _ h)

theorem trimTrailing_length_le (set : Char → Bool) (s : Str) :
    (trimTrailing set s).length ≤ s.length := by
  unfold trimTrailing
  split
  · exact Nat.le_refl _
  · rw [List.length_reverse]
    have := List.IsSuffix.length_le (List.dropWhile_suffix set (l := s.reverse))
    rw [List.length_reverse] at this
    exact this

theorem sync_scanKeyword (source : Str) (l : Lexer) (h : l.Sync source) :
    (l.scanKeyword).2.Sync source := by
  rw [scanKeyword_snd]
  split
  · exact sync_advanceN _ _ _ h
  · have hle := trimTrailing_length_le (fun c => c = ' ')
      (l.rest.takeWhile (fun c => c.isAlphanum || c = ' '))
    have htake := List.IsPrefix.length_le
      (List.takeWhile_prefix (fun c => c.isAlphanum || c = ' ') (l := l.rest))
    have hlen : l.rest.length = source.length - l.current := by
      rw [h.2, List.length_drop]
    refine ⟨?_, ?_⟩
    · show l.current + _ ≤ source.length
      have := h.1
      omega
    · show l.rest.drop _ = source.drop (l.current + _)
      rw [h.2, List.drop_drop]

theorem sync_scanToken (source : Str) (l : Lexer) (h : l.Sync source) :
    (l.scanToken).2.Sync source := by
  unfold Lexer.scanToken
  dsimp only
  split
  · exact sync_newLine _ _ (sync_advance _ _ h)
  split
  · exact sync_advanceN _ _ _ (sync_advance _ _ h)
  split
  · exact sync_advanceN _ _ _ (sync_advance _ _ h)
  split
  · exact sync_advanceN _ _ _ (sync_advance _ _ h)
  split
  · exact sync_scanDocString _ _ h
  have hpar : ((if l.peek 0 = '<' then l.scanParameter else (none, l)) :
      Option Token × Lexer).2.Sync source := by
    split
    · exact sync_scanParameter _ _ h
    · exact h
  split
  · rename_i token l1 heq
    rw [heq] at hpar
    exact hpar
  · rename_i l1 heq
    rw [heq] at hpar
    have hquo : ((if (decide (l.peek 0 = dquote) || decide (l.peek 0 = squote)) = true
        then l1.scanQuoted (l.peek 0) else (none, l1)) : Option Token × Lexer).2.Sync source := by
      split
      · exact sync_scanQuoted _ _ _ hpar
      · exact hpar
    split
    · rename_i token l2 heq2
      rw [heq2] at hquo
      exact hquo
    · rename_i l2 heq2
      rw [heq2] at hquo
      split
      · exact sync_scanKeyword _ _ hquo
      · exact sync_advanceN _ _ _ hquo

theorem sync_nextToken (source : Str) (l : Lexer) (h : l.Sync source) :
    (l.nextToken).2.Sync source := by
  rw [nextToken_eq]
  split
  · exact sync_advanceWhile _ _ _ h
  · exact sync_scanToken _ _ (sync_advanceWhile _ _ _ h)

theorem sync_tokenizeLoop (source : Str) (fuel : Nat) (l : Lexer) (tokens : List Token)
    (h : l.Sync source) : (Lexer.tokenizeLoop fuel l tokens).2.Sync source := by
  induction fuel generalizing l tokens with
  | zero => exact h
  | succ fuel ih =>
    rw [tokenizeLoop_succ]
    split
    · exact h
    · split
      · exact sync_nextToken _ _ h
      · split
        · exact sync_nextToken _ _ h
        · exact ih _ _ (sync_nextToken _ _ h)

theorem current_after_tokenize (source : Str) :
    (lexerAfterTokenize source).current = source.length := by
  have hsync := sync_tokenizeLoop source source.length (Lexer.new source) [] (sync_new source)
  have hend := (tokenizeLoop_total source.length (Lexer.new source) [] rfl).2.2.2 (Nat.le_refl _)
  have hnil := (isAtEnd_iff _).mp hend.1
  have h1 : (lexerAfterTokenize source).current ≤ source.length := hsync.1
  have h2 : (lexerAfterTokenize source).rest
      = source.drop (lexerAfterTokenize source).current := hsync.2
  have h3 : (lexerAfterTokenize source).rest = [] := hnil
  rw [h3] at h2
  have := List.drop_eq_nil_iff.mp h2.symm
  omega

/-- Claim C22: every call of `nextToken` that does not return `EOF` leaves less
of the source to read than before, and so does `scanToken` on a source that is
not at its end, whichever branch it takes; what is left is always an end piece
of what was there.  So the loop of `tokenize` ends: the length of the source is
enough fuel (more fuel gives the same result), the lexer is then at the end of
the source (`current_` is its length), and there are at most as many tokens as
characters. -/
theorem tokenize_terminates (source : Str) :
    (∀ l : Lexer, (l.nextToken).1.type ≠ .EOF_TOKEN →
        (l.nextToken).2.rest.length < l.rest.length)
    ∧ (∀ l : Lexer, l.rest ≠ [] → (l.scanToken).2.rest.length < l.rest.length)
    ∧ (∀ l : Lexer, (l.nextToken).2.rest <:+ l.rest)
    ∧ (∀ fuel, source.length ≤ fuel →
        Lexer.tokenizeLoop fuel (Lexer.new source) []
          = Lexer.tokenizeLoop source.length (Lexer.new source) [])
    ∧ (Lexer.tokenizeLoop source.length (Lexer.new source) []).2.isAtEnd = true
    ∧ (lexerAfterTokenize source).current = source.length
    ∧ (tokenize source).length ≤ source.length := by
  have htotal := tokenizeLoop_total source.length (Lexer.new source) [] rfl
  refine ⟨nextToken_consumes_unless_eof, fun l h => (scanToken_progress l h).2,
    fun l => (nextToken_reads l).1, ?_, ?_, current_after_tokenize source, ?_⟩
  · intro fuel hfuel
    exact tokenizeLoop_fuel_le source.length fuel (Lexer.new source) [] rfl (Nat.le_refl _) hfuel
  · exact (htotal.2.2.2 (Nat.le_refl _)).1
  · have := htotal.2.2.1
    simpa [tokenize, Lexer.new] using this

set_option maxRecDepth 1000000 in
/-- After an unclosed `<` the call of `nextToken` returns a `TEXT` token and has
consumed the line. -/
theorem tokenize_terminates_witness :
    ((Lexer.new "<abc\nx".toList).nextToken).1.type ≠ .EOF_TOKEN
    ∧ ((Lexer.new "<abc\nx".toList).nextToken).2.rest.length
      < (Lexer.new "<abc\nx".toList).rest.length :=
  ⟨by decide, (tokenize_terminates []).1 (Lexer.new "<abc\nx".toList) (by decide)⟩

set_option maxRecDepth 1000000 in
/-- Claim C21: no method of the lexer assigns `error_message_`, so for every
source `hasError()` is false and `getErrorMessage()` is empty after `tokenize`;
for the document `docUnterminated`, whose `"""` is never closed, `tokenize` ends
with a `DOC_STRING` token that holds the text up to the end of the source and
reports no error. -/
theorem tokenize_never_reports_error (source : Str) :
    (lexerAfterTokenize source).hasError = false
    ∧ (lexerAfterTokenize source).getErrorMessage = []
    ∧ (tokenize docUnterminated).map (fun t => t.type)
      = [.FEATURE, .TEXT, .NEWLINE, .DOC_STRING]
    ∧ ((tokenize docUnterminated).map (fun t => t.value)).getLast?
      = some "unterminated\n".toList
    ∧ (lexerAfterTokenize docUnterminated).hasError = false := by
  have h : ∀ s : Str, (lexerAfterTokenize s).error_message = [] := by
    intro s
    have := (tokenizeLoop_total s.length (Lexer.new s) [] rfl).1.2
    exact this
  have hfalse : ∀ s : Str, (lexerAfterTokenize s).hasError = false := by
    intro s
    unfold Lexer.hasError
    rw [h s]
    rfl
  exact ⟨hfalse source, h source, by decide, by decide, hfalse docUnterminated⟩

/-! ## The first token of a line that starts with a word -/

theorem takeWhile_append_stop (p : Char → Bool) (K : Str) (d : Char) (s : Str)
    (hK : ∀ c ∈ K, p c = true) (hd : p d = false) : (K ++ d :: s).takeWhile p = K := by
  induction K with
  | nil => simp [List.takeWhile, hd]
  | cons c K ih =>
    have hc := hK c (List.mem_cons_self _ _)
    rw [List.cons_append, List.takeWhile_cons, if_pos hc,
      ih (fun x hx => hK x (List.mem_cons_of_mem _ hx))]

theorem dropWhile_append_stop (p : Char → Bool) (ws : Str) (d : Char) (s : Str)
    (hws : ∀ c ∈ ws, p c = true) (hd : p d = false) : (ws ++ d :: s).dropWhile p = d :: s := by
  induction ws with
  | nil => simp [List.dropWhile, hd]
  | cons c ws ih =>
    have hc := hws c (List.mem_cons_self _ _)
    rw [List.cons_append, List.dropWhile_cons, if_pos hc,
      ih (fun x hx => hws x (List.mem_cons_of_mem _ hx))]

theorem tokenize_head (source : Str) (h : source ≠ []) :
    (tokenize source).head? = some ((Lexer.new source).nextToken).1 := by
  obtain ⟨n, hn⟩ : ∃ n, source.length = n + 1 := by
    cases source with
    | nil => exact absurd rfl h
    | cons c cs => exact ⟨cs.length, rfl⟩
  have hne : (Lexer.new source).isAtEnd = false := by
    cases hc : (Lexer.new source).isAtEnd
    · rfl
    · exact absurd ((isAtEnd_iff _).mp hc) h
  unfold tokenize
  rw [hn]
  by_cases ht : ((Lexer.new source).nextToken).1.type = .EOF_TOKEN
  · rw [tokenizeLoop_last n _ [] hne ht]
    rfl
  · rw [tokenizeLoop_step n _ [] hne rfl ht]
    have hpre := (tokenizeLoop_total n ((Lexer.new source).nextToken).2
      ([] ++ [((Lexer.new source).nextToken).1]) (by rw [(nextToken_reads _).2]; rfl)).2.1
    obtain ⟨t, ht⟩ := hpre
    rw [← ht]
    rfl

theorem alpha_not_special (c : Char) (h : c.isAlpha = true) :
    c ≠ '\n' ∧ c ≠ '#' ∧ c ≠ '@' ∧ c ≠ '|' ∧ c ≠ dquote ∧ c ≠ squote ∧ c ≠ '<'
      ∧ isBlank c = false := by
  have hne : ∀ d : Char, d.isAlpha = false → c ≠ d := by
    intro d hd e
    rw [e, hd] at h
    exact Bool.noConfusion h
  refine ⟨hne _ (by decide), hne _ (by decide), hne _ (by decide), hne _ (by decide),
    hne _ (by decide), hne _ (by decide), hne _ (by decide), ?_⟩
  have h1 := hne ' ' (by decide)
  have h2 := hne '\t' (by decide)
  have h3 := hne '\r' (by decide)
  simp [isBlank, h1, h2, h3]

theorem scanToken_alpha (l : Lexer) (c : Char) (cs : Str) (h : l.rest = c :: cs)
    (hc : c.isAlpha = true) : l.scanToken = l.scanKeyword := by
  obtain ⟨h1, h2, h3, h4, h5, h6, h7, _⟩ := alpha_not_special c hc
  unfold Lexer.scanToken
  dsimp only
  rw [peek_cons l c cs h, if_neg h1, if_neg h2, if_neg h3, if_neg h4]
  have hdoc : (decide (c = dquote) && decide (l.peek 1 = dquote) && decide (l.peek 2 = dquote))
      = false := by
    simp [h5]
  have hq : (decide (c = dquote) || decide (c = squote)) = false := by
    simp [h5, h6]
  rw [hdoc, if_neg Bool.false_ne_true, if_neg h7]
  dsimp only
  rw [hq, if_neg Bool.false_ne_true]
  dsimp only
  rw [if_pos hc]

theorem scanKeyword_fst (l : Lexer) :
    (l.scanKeyword).1.type
        = (detectKeyword (trimTrailing (fun c => c = ' ')
            (l.rest.takeWhile (fun c => c.isAlphanum || c = ' ')))).getD .TEXT
    ∧ (l.scanKeyword).1.value
        = if (trimTrailing (fun c => c = ' ')
            (l.rest.takeWhile (fun c => c.isAlphanum || c = ' '))).isEmpty = true
          then tokenTypeToString ((detectKeyword (trimTrailing (fun c => c = ' ')
            (l.rest.takeWhile (fun c => c.isAlphanum || c = ' ')))).getD .TEXT)
          else trimTrailing (fun c => c = ' ')
            (l.rest.takeWhile (fun c => c.isAlphanum || c = ' ')) := by
  unfold Lexer.scanKeyword
  dsimp only
  split
  · rename_i k hk
    rw [hk]
    exact ⟨rfl, rfl⟩
  · rename_i hk
    rw [hk]
    exact ⟨rfl, rfl⟩

theorem first_token_of_word (indent K s : Str) (k d : Char) (K' : Str)
    (hind : ∀ c ∈ indent, isBlank c = true) (hK : K = k :: K') (hk : k.isAlpha = true)
    (hall : ∀ c ∈ K, (c.isAlphanum || c = ' ') = true)
    (hd : (d.isAlphanum || d = ' ') = false) :
    ((tokenize (indent ++ (K ++ d :: s))).head?.map (fun t => t.type)
        = some ((detectKeyword (trimTrailing (fun c => c = ' ') K)).getD .TEXT))
    ∧ ((tokenize (indent ++ (K ++ d :: s))).head?.map (fun t => t.value)
        = some (if (trimTrailing (fun c => c = ' ') K).isEmpty = true
          then tokenTypeToString ((detectKeyword (trimTrailing (fun c => c = ' ') K)).getD .TEXT)
          else trimTrailing (fun c => c = ' ') K)) := by
  have hsrc : indent ++ (K ++ d :: s) ≠ [] := by
    rw [hK]
    simp
  have hkb := (alpha_not_special k hk).2.2.2.2.2.2.2
  have hsw : (Lexer.new (indent ++ (K ++ d :: s))).skipWhitespace.rest = K ++ d :: s := by
    unfold Lexer.skipWhitespace
    rw [advanceWhile_rest]
    show (indent ++ (K ++ d :: s)).dropWhile isBlank = _
    rw [hK, List.cons_append]
    exact dropWhile_append_stop isBlank indent k _ hind hkb
  have hne : (Lexer.new (indent ++ (K ++ d :: s))).skipWhitespace.isAtEnd = false := by
    cases hc : (Lexer.new (indent ++ (K ++ d :: s))).skipWhitespace.isAtEnd
    · rfl
    · have := (isAtEnd_iff _).mp hc
      rw [hsw, hK] at this
      exact absurd this (by simp)
  have hrest2 : ({ (Lexer.new (indent ++ (K ++ d :: s))).skipWhitespace with
      token_start := (Lexer.new (indent ++ (K ++ d :: s))).skipWhitespace.current } : Lexer).rest
      = k :: (K' ++ d :: s) := by
    show (Lexer.new (indent ++ (K ++ d :: s))).skipWhitespace.rest = _
    rw [hsw, hK]
    rfl
  have hrun : (k :: (K' ++ d :: s)).takeWhile (fun c => c.isAlphanum || c = ' ') = K := by
    have := takeWhile_append_stop (fun c => c.isAlphanum || c = ' ') K d s hall hd
    rw [hK] at this ⊢
    exact this
  rw [tokenize_head _ hsrc, nextToken_eq, if_neg (by rw [hne]; exact Bool.false_ne_true),
    scanToken_alpha _ k _ hrest2 hk]
  have hfst := scanKeyword_fst ({ (Lexer.new (indent ++ (K ++ d :: s))).skipWhitespace with
      token_start := (Lexer.new (indent ++ (K ++ d :: s))).skipWhitespace.current } : Lexer)
  rw [hrest2, hrun] at hfst
  exact ⟨by rw [Option.map_some', hfst.1], by rw [Option.map_some', hfst.2]⟩

/-- Claim C23: for every structural keyword `K` among `Feature`, `Background`,
`Scenario`, `Scenario Outline` and `Examples`, every indentation of blanks and
every text after the colon, the first token of `tokenize` on the line `K:` with
that text has the type of `K` and the value `K`; in particular the first token of
`Scenario Outline: ...` has the type `SCENARIO_OUTLINE`, not `SCENARIO`. -/
theorem tokenize_structural_keyword (kw : Str × TokenType) (indent title : Str)
    (hkw : kw ∈ structuralKeywords) (hind : ∀ c ∈ indent, isBlank c = true) :
    (tokenize (indent ++ (kw.1 ++ ':' :: title))).head?.map (fun t => t.type) = some kw.2
    ∧ (tokenize (indent ++ (kw.1 ++ ':' :: title))).head?.map (fun t => t.value) = some kw.1
    ∧ ((tokenize (indent ++ ("Scenario Outline".toList ++ ':' :: title))).head?.map
        (fun t => t.type) = some .SCENARIO_OUTLINE) := by
  have hcolon : ((':' : Char).isAlphanum || (':' : Char) = ' ') = false := by decide
  have houtline := (first_token_of_word indent "Scenario Outline".toList title 'S' ':'
    "cenario Outline".toList hind rfl (by decide) (by decide) hcolon).1
  have hcases : kw = ("Feature".toList, .FEATURE) ∨ kw = ("Background".toList, .BACKGROUND)
      ∨ kw = ("Scenario".toList, TokenType.SCENARIO)
      ∨ kw = ("Scenario Outline".toList, .SCENARIO_OUTLINE)
      ∨ kw = ("Examples".toList, .EXAMPLES) := by
    simpa [structuralKeywords] using hkw
  rcases hcases with e | e | e | e | e
  · rw [e]
    have h := first_token_of_word indent "Feature".toList title 'F' ':' "eature".toList hind rfl
      (by decide) (by decide) hcolon
    exact ⟨h.1, h.2, houtline⟩
  · rw [e]
    have h := first_token_of_word indent "Background".toList title 'B' ':' "ackground".toList
      hind rfl (by decide) (by decide) hcolon
    exact ⟨h.1, h.2, houtline⟩
  · rw [e]
    have h := first_token_of_word indent "Scenario".toList title 'S' ':' "cenario".toList hind
      rfl (by decide) (by decide) hcolon
    exact ⟨h.1, h.2, houtline⟩
  · rw [e]
    have h := first_token_of_word indent "Scenario Outline".toList title 'S' ':'
      "cenario Outline".toList hind rfl (by decide) (by decide) hcolon
    exact ⟨h.1, h.2, houtline⟩
  · rw [e]
    have h := first_token_of_word indent "Examples".toList title 'E' ':' "xamples".toList hind
      rfl (by decide) (by decide) hcolon
    exact ⟨h.1, h.2, houtline⟩

/-! ## Evaluation of the lexer on sample documents -/

/-- The line `  Scenario Outline: Login` starts with a `SCENARIO_OUTLINE` token. -/
theorem tokenize_structural_keyword_witness :
    (("Scenario Outline".toList, TokenType.SCENARIO_OUTLINE) ∈ structuralKeywords
      ∧ ∀ c ∈ "  ".toList, isBlank c = true)
    ∧ (tokenize ("  ".toList ++ ("Scenario Outline".toList ++ ':' :: " Login\n".toList))).head?.map
        (fun t => t.type) = some .SCENARIO_OUTLINE :=
  ⟨⟨by decide, by decide⟩,
    (tokenize_structural_keyword ("Scenario Outline".toList, .SCENARIO_OUTLINE) "  ".toList
      " Login\n".toList (by decide) (by decide)).1⟩

set_option maxRecDepth 1000000 in
/-- Claim C24: for the source of the lexer test, whose outline title is
`Login with <username> and <password>` and whose steps quote the placeholders,
`tokenize` emits no `PARAMETER` token at all: the title after the colon is one
`TEXT` token that holds both placeholders.  A placeholder is a token of its own
only where a token starts at its `<`, as after the words `Given I have`. -/
theorem tokenize_title_placeholders_no_parameter :
    tokensOfType .PARAMETER (tokenize docOutlineParams) = []
    ∧ ((tokenize docOutlineParams).map (fun t => t.type)).take 4
      = [.NEWLINE, .SCENARIO_OUTLINE, .TEXT, .NEWLINE]
    ∧ ((tokenize docOutlineParams).map (fun t => t.value)).get? 2
      = some ": Login with <username> and <password>".toList
    ∧ (tokensOfType .STRING (tokenize docOutlineParams)).map (fun t => t.value)
      = ["<username>".toList, "<password>".toList]
    ∧ (tokensOfType .PARAMETER (tokenize docStepParam)).map (fun t => t.value)
      = ["count".toList] := by
  refine ⟨?_, ?_, ?_, ?_, ?_⟩ <;> decide

set_option maxRecDepth 1000000 in
/-- Claim C25: in the step line `When I enter "Login" then "" then ''` the string
`Login` gives a `STRING` token with the value `Login`, but each of the two empty
strings gives a `STRING` token with the value `STRING`, the name of the token
type, instead of the empty text between its quotes. -/
theorem tokenize_empty_string_value :
    (tokensOfType .STRING (tokenize docEmptyStrings)).map (fun t => t.value)
      = ["Login".toList, "STRING".toList, "STRING".toList] := by
  decide

set_option maxRecDepth 1000000 in
/-- Claim C26: for the comment line `#` followed by three blanks the `COMMENT`
token has the three blanks as its value (nothing is removed), for the line `#`
it has the value `COMMENT`, the name of the token type; only a comment with
other text loses its leading blanks. -/
theorem tokenize_blank_comment_value :
    (tokensOfType .COMMENT (tokenize docComments)).map (fun t => t.value)
      = ["   ".toList, "COMMENT".toList, "note".toList] := by
  decide

set_option maxRecDepth 1000000 in
/-- Claim C27: for the table line `| a | b |` the lexer emits one `TABLE_CELL`
token, but its value has every `|` of the rest of the line twice: it is
` a || b ||` and not the rest of the line ` a | b |`. -/
theorem tokenize_table_row_doubles_bars :
    (tokensOfType .TABLE_CELL (tokenize docTableRow)).map (fun t => t.value)
      = [" a || b ||".toList]
    ∧ (tokenize docTableRow).map (fun t => t.type) = [.TABLE_CELL, .NEWLINE] := by
  refine ⟨?_, ?_⟩ <;> decide

set_option maxRecDepth 1000000 in
/-- Claim C28: for the table line `| a |  | c |`, with an empty second cell,
`parseDataTable` on the tokens of the lexer builds the row `a`, `c` of two
cells: the empty cell is dropped and the row loses a column.  The same holds of
the text ` a |  | c |` split by `parseRow`, so of the parser alone, and of the
table that `parse` attaches to a step before these tokens. -/
theorem parseDataTable_drops_empty_cell :
    ((Parser.ofSource docTableEmptyCell).parseDataTable).1.rows
      = [["a".toList, "c".toList]]
    ∧ parseRow " a |  | c |".toList = ["a".toList, "c".toList]
    ∧ (tokensOfType .TABLE_CELL (tokenize docTableEmptyCell)).map (fun t => t.value)
      = [" a ||  || c ||".toList]
    ∧ (firstScenarioSteps (Parser.new (tokensStepHeader ++ tokenize docTableEmptyCell))).map
        (fun step => step.dataTable)
      = [some { rows := [["a".toList, "c".toList]] }] := by
  refine ⟨?_, ?_, ?_, ?_⟩ <;> decide

set_option maxRecDepth 1000000 in
/-- Claim C29: for the doc string opened by `"""json` with the lines `hello` and
`world`, the `DOC_STRING` token holds only the two lines (the text `json` of
the opening line is dropped by the lexer) and `parseDocString` returns the
content type `hello` and the content `world`; for the doc string without a
content type the result is the same: the first line of the content is taken as
the content type.  So is the doc string that `parse` attaches to a step before
these tokens. -/
theorem parseDocString_type_from_content :
    (tokensOfType .DOC_STRING (tokenize docStringTyped)).map (fun t => t.value)
      = ["hello\nworld\n".toList]
    ∧ ((Parser.ofSource docStringTyped).parseDocString).toOption.map (fun r => r.1)
      = some { content := "world\n".toList, contentType := "hello".toList }
    ∧ ((Parser.ofSource docStringUntyped).parseDocString).toOption.map (fun r => r.1)
      = some { content := "world\n".toList, contentType := "hello".toList }
    ∧ (firstScenarioSteps (Parser.new (tokensStepHeader ++ tokenize docStringTyped))).map
        (fun step => step.docString)
      = [some { content := "world\n".toList, contentType := "hello".toList }]
    ∧ (firstScenarioSteps (Parser.new (tokensStepHeader ++ tokenize docStringUntyped))).map
        (fun step => step.docString)
      = [some { content := "world\n".toList, contentType := "hello".toList }] := by
  refine ⟨?_, ?_, ?_, ?_, ?_⟩ <;> decide

set_option maxRecDepth 1000000 in
/-- Claim C30: for the source `Feature: Test` / `Scenario: Example` the
`Feature` token is on line 1 and the `Scenario` token on line 2, both in column
1; but the `NEWLINE` token, which starts on line 1 in column 14, has the
location line 2, column 0; the `TEXT` token of `Given I have <count> items`,
which starts in column 1, has column 2; and the `DOC_STRING` token of
`docStringTyped`, which starts on line 1 in column 1, has line 4 and a column
that has wrapped around in `size_t`. -/
theorem tokenize_locations_off :
    (tokenize docTwoLines).map (fun t => t.type)
      = [.FEATURE, .TEXT, .NEWLINE, TokenType.SCENARIO, .TEXT]
    ∧ (tokenize docTwoLines).map (fun t => t.location.line) = [1, 1, 2, 2, 2]
    ∧ (tokenize docTwoLines).map (fun t => t.location.column) = [1, 8, 0, 1, 9]
    ∧ ((tokenize docStepParam).map (fun t => t.location.column)).head? = some 2
    ∧ ((tokenize docStringTyped).map (fun t => t.location.line)).head? = some 4
    ∧ ((tokenize docStringTyped).map (fun t => t.location.column)).head?
      = some (2 ^ 64 - 19) := by
  refine ⟨?_, ?_, ?_, ?_, ?_, ?_⟩ <;> decide


/-! ## The value of a token is never empty -/

theorem tokenTypeToString_ne_nil (t : TokenType) : tokenTypeToString t ≠ [] := by
  cases t <;> decide

theorem makeToken_value (l : Lexer) (type : TokenType) (value : Str) :
    (l.makeToken type value).value = if value = [] then tokenTypeToString type else value := by
  cases value <;> rfl

theorem makeToken_value_ne_nil (l : Lexer) (type : TokenType) (value : Str) :
    (l.makeToken type value).value ≠ [] := by
  rw [makeToken_value]
  split
  · exact tokenTypeToString_ne_nil type
  · assumption

theorem scanKeyword_made (l : Lexer) :
    ∃ (m : Lexer) (type : TokenType) (value : Str), (l.scanKeyword).1 = m.makeToken type value := by
  unfold Lexer.scanKeyword
  dsimp only
  split <;> exact ⟨_, _, _, rfl⟩

theorem scanParameter_made (l : Lexer) (token : Token) (l1 : Lexer)
    (h : l.scanParameter = (some token, l1)) :
    ∃ (m : Lexer) (type : TokenType) (value : Str), token = m.makeToken type value := by
  unfold Lexer.scanParameter at h
  dsimp only at h
  split at h
  · injection h with h1 _
    injection h1 with h1
    exact ⟨_, _, _, h1.symm⟩
  · injection h with h1 _
    exact Option.noConfusion h1

theorem scanQuoted_made (l : Lexer) (quote : Char) (token : Token) (l1 : Lexer)
    (h : l.scanQuoted quote = (some token, l1)) :
    ∃ (m : Lexer) (type : TokenType) (value : Str), token = m.makeToken type value := by
  unfold Lexer.scanQuoted at h
  dsimp only at h
  split at h
  · injection h with h1 _
    injection h1 with h1
    exact ⟨_, _, _, h1.symm⟩
  · injection h with h1 _
    exact Option.noConfusion h1

theorem scanToken_made (l : Lexer) :
    ∃ (m : Lexer) (type : TokenType) (value : Str), (l.scanToken).1 = m.makeToken type value := by
  unfold Lexer.scanToken
  dsimp only
  split
  · exact ⟨_, _, _, rfl⟩
  split
  · exact ⟨_, _, _, rfl⟩
  split
  · exact ⟨_, _, _, rfl⟩
  split
  · exact ⟨_, _, _, rfl⟩
  split
  · exact ⟨_, _, _, rfl⟩
  split
  · rename_i token l1 heq
    split at heq
    · exact scanParameter_made l token l1 heq
    · injection heq with h1 _
      exact Option.noConfusion h1
  · split
    · rename_i token l2 heq
      split at heq
      · exact scanQuoted_made _ _ token l2 heq
      · injection heq with h1 _
        exact Option.noConfusion h1
    · split
      · exact scanKeyword_made _
      · exact ⟨_, _, _, rfl⟩

theorem nextToken_made (l : Lexer) :
    ∃ (m : Lexer) (type : TokenType) (value : Str), (l.nextToken).1 = m.makeToken type value := by
  rw [nextToken_eq]
  split
  · exact ⟨_, _, _, rfl⟩
  · exact scanToken_made _

theorem nextToken_value (l : Lexer) : (l.nextToken).1.value ≠ [] := by
  obtain ⟨m, type, value, h⟩ := nextToken_made l
  rw [h]
  exact makeToken_value_ne_nil _ _ _

theorem tokenizeLoop_all (P : Token → Prop) (hP : ∀ l : Lexer, P (l.nextToken).1) (fuel : Nat)
    (l : Lexer) (tokens : List Token) (h : ∀ t ∈ tokens, P t) :
    ∀ t ∈ (Lexer.tokenizeLoop fuel l tokens).1, P t := by
  induction fuel generalizing l tokens with
  | zero => exact h
  | succ fuel ih =>
    have h1 : ∀ t ∈ tokens ++ [(l.nextToken).1], P t := by
      intro t ht
      rcases List.mem_append.mp ht with ht | ht
      · exact h t ht
      · rw [List.mem_singleton.mp ht]
        exact hP l
    rw [tokenizeLoop_succ]
    split
    · exact h
    split
    · exact h1
    split
    · exact h1
    · exact ih _ _ h1

theorem scanText_at_line_end (l : Lexer) (h : l.rest = [] ∨ ∃ s, l.rest = '\n' :: s) :
    l.scanText = (l.makeToken .TEXT [], l) := by
  have ht : l.rest.takeWhile (fun c => c ≠ '\n' && c ≠ '#' && c ≠ '@' && c ≠ '|') = [] := by
    rcases h with h | ⟨s, h⟩ <;> rw [h] <;> rfl
  unfold Lexer.scanText
  dsimp only
  rw [ht]
  rfl

theorem scanParameter_unclosed (l : Lexer) (body tail : Str)
    (h : l.rest = '<' :: (body ++ tail)) (hb : ∀ c ∈ body, c ≠ '>' ∧ c ≠ '\n')
    (ht : tail = [] ∨ ∃ s, tail = '\n' :: s) :
    (l.scanParameter).1 = none ∧ (l.scanParameter).2.rest = tail := by
  have h1 : l.advance.rest = body ++ tail := by rw [advance_rest, h]; rfl
  have hdrop : (body ++ tail).dropWhile (fun c => c ≠ '>' && c ≠ '\n') = tail := by
    rcases ht with ht | ⟨s, ht⟩
    · rw [ht, List.append_nil]
      apply List.dropWhile_eq_nil_iff.mpr
      intro c hc
      simp [hb c hc]
    · rw [ht]
      exact dropWhile_append_stop _ body '\n' s (fun c hc => by simp [hb c hc]) (by decide)
  have h2 : (l.advance.advanceWhile (fun c => c ≠ '>' && c ≠ '\n')).rest = tail := by
    rw [advanceWhile_rest, h1, hdrop]
  have hp : (l.advance.advanceWhile (fun c => c ≠ '>' && c ≠ '\n')).peek 0 ≠ '>' := by
    unfold Lexer.peek
    rw [h2]
    rcases ht with ht | ⟨s, ht⟩
    · rw [ht]; decide
    · rw [ht]
      show '\n' ≠ '>'
      decide
  unfold Lexer.scanParameter
  dsimp only
  rw [if_neg hp]
  exact ⟨rfl, h2⟩

theorem scanToken_unclosed_parameter (l : Lexer) (body tail : Str)
    (h : l.rest = '<' :: (body ++ tail)) (hb : ∀ c ∈ body, c ≠ '>' ∧ c ≠ '\n')
    (ht : tail = [] ∨ ∃ s, tail = '\n' :: s) :
    (l.scanToken).1.type = .TEXT ∧ (l.scanToken).1.value = "TEXT".toList
      ∧ (l.scanToken).2.rest = tail := by
  obtain ⟨hs1, hs2⟩ := scanParameter_unclosed l body tail h hb ht
  have hsp : l.scanParameter = (none, (l.scanParameter).2) := by
    rw [← hs1]
  have hend : (l.scanParameter).2.rest = [] ∨ ∃ s, (l.scanParameter).2.rest = '\n' :: s := by
    rw [hs2]; exact ht
  have e : l.scanToken = (l.scanParameter).2.scanText := by
    unfold Lexer.scanToken
    dsimp only
    rw [peek_cons l '<' _ h, if_neg (by decide), if_neg (by decide), if_neg (by decide),
      if_neg (by decide)]
    have hd : (decide ('<' = dquote) && decide (l.peek 1 = dquote) && decide (l.peek 2 = dquote))
        = false := by
      have : decide ('<' = dquote) = false := by decide
      rw [this]
      rfl
    rw [hd, if_neg Bool.false_ne_true, if_pos rfl, hsp]
    rfl
  rw [e, scanText_at_line_end _ hend]
  exact ⟨rfl, rfl, hs2⟩

theorem quotedLoop_plain (quote : Char) (body tail : Str)
    (hb : ∀ c ∈ body, c ≠ quote ∧ c ≠ '\n' ∧ c ≠ '\\')
    (ht : tail = [] ∨ ∃ s, tail = '\n' :: s) :
    ∀ (fuel : Nat) (l : Lexer), l.rest = body ++ tail → body.length ≤ fuel →
      (Lexer.quotedLoop quote fuel l).rest = tail := by
  induction body with
  | nil =>
    intro fuel l h _
    rw [List.nil_append] at h
    cases fuel with
    | zero => exact h
    | succ fuel =>
      unfold Lexer.quotedLoop
      have hstop : (!l.isAtEnd && decide (l.peek 0 ≠ quote) && decide (l.peek 0 ≠ '\n')) = false := by
        rcases ht with ht | ⟨s, ht⟩
        · have : l.isAtEnd = true := (isAtEnd_iff l).mpr (by rw [h, ht])
          rw [this]
          rfl
        · rw [peek_cons l '\n' s (by rw [h, ht])]
          simp
      rw [hstop]
      exact h
  | cons c body ih =>
    intro fuel l h hf
    obtain ⟨hc1, hc2, hc3⟩ := hb c (List.mem_cons_self _ _)
    cases fuel with
    | zero => exact absurd hf (by simp)
    | succ fuel =>
      unfold Lexer.quotedLoop
      have hp := peek_cons l c (body ++ tail) h
      have hne : l.isAtEnd = false := by
        cases he : l.isAtEnd
        · rfl
        · rw [(isAtEnd_iff l).mp he] at h
          exact absurd h (by simp)
      have hgo : (!l.isAtEnd && decide (l.peek 0 ≠ quote) && decide (l.peek 0 ≠ '\n')) = true := by
        rw [hne, hp]
        simp [hc1, hc2]
      rw [hgo, if_pos rfl, hp, if_neg hc3]
      exact ih (fun x hx => hb x (List.mem_cons_of_mem _ hx)) fuel l.advance
        (by rw [advance_rest, h]; rfl) (by simpa using hf)

theorem scanToken_unclosed_quote (l : Lexer) (quote : Char) (body tail : Str)
    (hq : quote = dquote ∨ quote = squote)
    (h : l.rest = quote :: (body ++ tail)) (hb : ∀ c ∈ body, c ≠ quote ∧ c ≠ '\n' ∧ c ≠ '\\')
    (ht : tail = [] ∨ ∃ s, tail = '\n' :: s) :
    (l.scanToken).1.type = .TEXT ∧ (l.scanToken).1.value = "TEXT".toList
      ∧ (l.scanToken).2.rest = tail := by
  have h1 : l.advance.rest = body ++ tail := by rw [advance_rest, h]; rfl
  have h2 : (Lexer.quotedLoop quote l.advance.rest.length l.advance).rest = tail :=
    quotedLoop_plain quote body tail hb ht _ _ h1 (by rw [h1]; simp)
  have hpq : (Lexer.quotedLoop quote l.advance.rest.length l.advance).peek 0 ≠ quote := by
    unfold Lexer.peek
    rw [h2]
    rcases ht with ht | ⟨s, ht⟩
    · rw [ht]
      rcases hq with hq | hq <;> rw [hq] <;> decide
    · rw [ht]
      show '\n' ≠ quote
      rcases hq with hq | hq <;> rw [hq] <;> decide
  have hsq : l.scanQuoted quote
      = (none, Lexer.quotedLoop quote l.advance.rest.length l.advance) := by
    unfold Lexer.scanQuoted
    dsimp only
    rw [if_neg hpq]
  have hend : (Lexer.quotedLoop quote l.advance.rest.length l.advance).rest = []
      ∨ ∃ s, (Lexer.quotedLoop quote l.advance.rest.length l.advance).rest = '\n' :: s := by
    rw [h2]; exact ht
  have hp1 : l.peek 1 ≠ dquote ∨ quote ≠ dquote := by
    by_cases hqd : quote = dquote
    · left
      unfold Lexer.peek
      rw [h]
      show (body ++ tail).getD 0 (Char.ofNat 0) ≠ dquote
      cases body with
      | nil =>
        rcases ht with ht | ⟨s, ht⟩
        · rw [ht]; decide
        · rw [ht]
          show '\n' ≠ dquote
          decide
      | cons c body =>
        show c ≠ dquote
        rw [← hqd]
        exact (hb c (List.mem_cons_self _ _)).1
    · right; exact hqd
  have hd : (decide (quote = dquote) && decide (l.peek 1 = dquote) && decide (l.peek 2 = dquote))
      = false := by
    rcases hp1 with hp1 | hp1
    · simp [hp1]
    · simp [hp1]
  have hspecial : quote ≠ '\n' ∧ quote ≠ '#' ∧ quote ≠ '@' ∧ quote ≠ '|' ∧ quote ≠ '<'
      ∧ quote.isAlpha = false ∧ (decide (quote = dquote) || decide (quote = squote)) = true := by
    rcases hq with hq | hq <;> rw [hq] <;> decide
  obtain ⟨n1, n2, n3, n4, n5, n6, n7⟩ := hspecial
  have e : l.scanToken
      = (Lexer.quotedLoop quote l.advance.rest.length l.advance).scanText := by
    unfold Lexer.scanToken
    dsimp only
    rw [peek_cons l quote _ h, if_neg n1, if_neg n2, if_neg n3, if_neg n4, hd,
      if_neg Bool.false_ne_true, if_neg n5]
    dsimp only
    rw [n7, if_pos rfl, hsq]
    dsimp only
    rw [n6]
    rfl
  rw [e, scanText_at_line_end _ hend]
  exact ⟨rfl, rfl, h2⟩



theorem nextToken_of_not_blank (l : Lexer) (c : Char) (cs : Str) (h : l.rest = c :: cs)
    (hc : (c = ' ' || c = '\t' || c = '\r') = false) :
    l.nextToken = ({ l with token_start := l.current } : Lexer).scanToken := by
  have hs : l.skipWhitespace = l := by
    unfold Lexer.skipWhitespace Lexer.advanceWhile
    rw [h, List.takeWhile_cons, hc]
    rfl
  have hne : ¬ (l.isAtEnd = true) := by
    intro he
    rw [(isAtEnd_iff l).mp he] at h
    exact absurd h (by simp)
  rw [nextToken_eq, hs, if_neg hne]

set_option maxRecDepth 1000000 in
/-- Claim C38: every token that the lexer returns has a value that is not empty.
The method `makeToken` replaces an empty value by the name of the token type,
which is never empty; every token returned by `nextToken` is built by
`makeToken`, so its value is not empty, and so is the value of every token of
`tokenize`.  The empty quoted string yields a `STRING` token with the value
`STRING`; after a quote that is not closed on its line (and without a
backslash), and after a `<` that is not closed on its line, the token returned
is a `TEXT` token with the value `TEXT`, the lexer being left at the end of the
line. -/
theorem token_value_never_empty (source : Str) :
    (∀ (l : Lexer) (type : TokenType) (value : Str),
        (l.makeToken type value).value = if value = [] then tokenTypeToString type else value)
    ∧ (∀ type : TokenType, tokenTypeToString type ≠ [])
    ∧ (∀ l : Lexer, ∃ (m : Lexer) (type : TokenType) (value : Str),
        (l.nextToken).1 = m.makeToken type value)
    ∧ (∀ l : Lexer, (l.nextToken).1.value ≠ [])
    ∧ (∀ t ∈ tokenize source, t.value ≠ [])
    ∧ (tokenize docEmptyQuoted).map (fun t => (t.type, t.value))
        = [(.STRING, "STRING".toList)]
    ∧ (∀ (l : Lexer) (quote : Char) (body tail : Str), (quote = dquote ∨ quote = squote) →
        l.rest = quote :: (body ++ tail) → (∀ c ∈ body, c ≠ quote ∧ c ≠ '\n' ∧ c ≠ '\\') →
        (tail = [] ∨ ∃ s, tail = '\n' :: s) →
        (l.nextToken).1.type = .TEXT ∧ (l.nextToken).1.value = "TEXT".toList
          ∧ (l.nextToken).2.rest = tail)
    ∧ (∀ (l : Lexer) (body tail : Str), l.rest = '<' :: (body ++ tail) →
        (∀ c ∈ body, c ≠ '>' ∧ c ≠ '\n') → (tail = [] ∨ ∃ s, tail = '\n' :: s) →
        (l.nextToken).1.type = .TEXT ∧ (l.nextToken).1.value = "TEXT".toList
          ∧ (l.nextToken).2.rest = tail)
    ∧ (tokenize docUnclosedQuote).map (fun t => (t.type, t.value))
        = [(.TEXT, "say".toList), (.TEXT, "TEXT".toList), (.NEWLINE, "NEWLINE".toList),
            (.TEXT, "next".toList)]
    ∧ (tokenize docUnclosedParameter).map (fun t => (t.type, t.value))
        = [(.TEXT, "TEXT".toList), (.NEWLINE, "NEWLINE".toList), (.TEXT, "next".toList)] := by
  refine ⟨makeToken_value, tokenTypeToString_ne_nil, nextToken_made, nextToken_value, ?_, by decide,
    ?_, ?_, by decide, by decide⟩
  · exact tokenizeLoop_all (fun t => t.value ≠ []) nextToken_value _ _ _
      (fun t ht => absurd ht (List.not_mem_nil t))
  · intro l quote body tail hq h hb ht
    have hc : (quote = ' ' || quote = '\t' || quote = '\r') = false := by
      rcases hq with hq | hq <;> rw [hq] <;> decide
    rw [nextToken_of_not_blank l quote _ h hc]
    exact scanToken_unclosed_quote _ quote body tail hq h hb ht
  · intro l body tail h hb ht
    rw [nextToken_of_not_blank l '<' _ h (by decide)]
    exact scanToken_unclosed_parameter _ body tail h hb ht

/-- The lexer at the text `"abc`, a quote that is never closed, returns a `TEXT`
token with the value `TEXT` and is left at the end of the source. -/
theorem token_value_never_empty_witness :
    ((Lexer.new "\"abc".toList).nextToken).1.type = .TEXT
      ∧ ((Lexer.new "\"abc".toList).nextToken).1.value = "TEXT".toList
      ∧ ((Lexer.new "\"abc".toList).nextToken).2.rest = [] :=
  (token_value_never_empty []).2.2.2.2.2.2.1 (Lexer.new "\"abc".toList) dquote "abc".toList []
    (Or.inl rfl) rfl (by decide) (Or.inl rfl)


theorem foldl_push {α : Type} (xs acc : List α) :
    xs.foldl (fun all x => all ++ [x]) acc = acc ++ xs := by
  induction xs generalizing acc with
  | nil => simp
  | cons x xs ih => simp [List.foldl_cons, ih]

theorem foldl_clone (scenarios acc : List Scenario) :
    scenarios.foldl
        (fun all scenario =>
          all ++ [scenario.tags.foldl Scenario.addTag
            ((Scenario.new scenario.name).setDescription scenario.description)])
        acc
      = acc ++ scenarios.map (fun s => { s with steps := [] }) := by
  induction scenarios generalizing acc with
  | nil => simp
  | cons s scenarios ih =>
    rw [List.foldl_cons, ih, foldl_addTag]
    simp [Scenario.new, Scenario.setDescription]

theorem appendExpanded_eq {ε : Type} (rx : RegexReplace ε) (outlines : List ScenarioOutline) :
    ∀ acc, Feature.appendExpanded rx outlines acc
      = (mapExcept (fun o => o.expand rx) outlines).map (fun ess => acc ++ ess.flatten) := by
  induction outlines with
  | nil =>
    intro acc
    show Except.ok acc = Except.ok (acc ++ [])
    rw [List.append_nil]
  | cons o outlines ih =>
    intro acc
    rw [mapExcept_cons]
    show (match o.expand rx with
      | Except.error e => Except.error e
      | Except.ok expanded =>
        Feature.appendExpanded rx outlines
          (expanded.foldl (fun all scenario => all ++ [scenario]) acc)) = _
    cases o.expand rx with
    | error err => rfl
    | ok expanded =>
      dsimp only
      rw [ih, foldl_push]
      cases mapExcept (fun o => o.expand rx) outlines with
      | error err => rfl
      | ok ess =>
        show Except.ok (acc ++ expanded ++ ess.flatten)
          = Except.ok (acc ++ (expanded :: ess).flatten)
        rw [List.flatten_cons, List.append_assoc]

set_option maxRecDepth 1000000 in
/-- Claim C35 fails for the steps: `allScenarios` returns, for every feature and
whatever the regular expressions of the outlines mean, one scenario per regular
scenario, in order, with the name, the description and the tags of the original
but with no steps, then the expansions of the outlines in order (an exception
of `expand()` leaves `allScenarios`); its length is the number of regular
scenarios plus the sum of the lengths of the expansions.  For the sample
feature the clone of the scenario `Login`, which has one step, has none. -/
theorem allScenarios_clones_without_steps {ε : Type} (rx : RegexReplace ε) (f : Feature) :
    f.allScenarios rx
        = (mapExcept (fun o => o.expand rx) f.scenario_outlines).map
            (fun ess => f.scenarios.map (fun s => { s with steps := [] }) ++ ess.flatten)
    ∧ (∀ all, f.allScenarios rx = .ok all →
        ∃ ess, mapExcept (fun o => o.expand rx) f.scenario_outlines = .ok ess
          ∧ all = f.scenarios.map (fun s => { s with steps := [] }) ++ ess.flatten
          ∧ all.length = f.scenarios.length + (ess.map List.length).sum
          ∧ all.take f.scenarios.length = f.scenarios.map (fun s => { s with steps := [] }))
    ∧ ((∀ o ∈ f.scenario_outlines, ∃ ss, o.expand rx = .ok ss) →
        ∃ all, f.allScenarios rx = .ok all)
    ∧ scenarioLogin.steps = [stepLogin]
    ∧ (featureLogin.allScenarios stdRegexReplace).map List.head?
        = .ok (some { name := "Login".toList, description := "As a user".toList
                      tags := ["smoke".toList], steps := [] })
    ∧ (featureLogin.allScenarios stdRegexReplace).map List.head? ≠ .ok (some scenarioLogin)
    ∧ (featureLogin.allScenarios stdRegexReplace).map (List.drop 1)
        = outlineLogin.expand stdRegexReplace := by
  have h : f.allScenarios rx
      = (mapExcept (fun o => o.expand rx) f.scenario_outlines).map
          (fun ess => f.scenarios.map (fun s => { s with steps := [] }) ++ ess.flatten) := by
    unfold Feature.allScenarios
    dsimp only
    rw [foldl_clone, appendExpanded_eq]
    simp
  refine ⟨h, ?_, ?_, rfl, rfl, ?_, rfl⟩
  · intro all hall
    rw [h] at hall
    cases hm : mapExcept (fun o => o.expand rx) f.scenario_outlines with
    | error err => rw [hm] at hall; cases hall
    | ok ess =>
      rw [hm] at hall
      injection hall with hall
      refine ⟨ess, rfl, hall.symm, ?_, ?_⟩
      · rw [← hall]
        simp [List.length_flatten]
      · rw [← hall]
        simp
  · intro hall
    obtain ⟨ess, hess⟩ := mapExcept_ok_of_forall (fun o => o.expand rx) f.scenario_outlines hall
    rw [h, hess]
    exact ⟨_, rfl⟩
  · intro hne
    have h2 : (Except.ok (some { scenarioLogin with steps := [] })
        : Except RegexFailure (Option Scenario)) = Except.ok (some scenarioLogin) := hne
    injection h2 with h2
    exact absurd h2 (by decide)


/-! ## No read outside the token vector -/

theorem within_refl (p : Parser) : p.Within p := fun h => h

theorem within_trans {p q r : Parser} (h1 : p.Within q) (h2 : q.Within r) : p.Within r :=
  fun h => h2 (h1 h)

theorem advance_within (p : Parser) (h : p.isAtEnd = false) : p.Within (p.advance).2 := by
  intro hr
  have hlt := isAtEnd_false_lt p h
  unfold Parser.advance
  simp only [h, Bool.not_false, if_true]
  rw [if_neg (by
    show ¬ (p.current_index + 1 = 0 ∨ p.tokens.length < p.current_index + 1)
    omega)]
  exact hr

theorem advance_token (p : Parser) (h : p.isAtEnd = false) : (p.advance).1 = p.current := by
  have hlt := isAtEnd_false_lt p h
  unfold Parser.advance
  simp only [h, Bool.not_false, if_true]
  rw [if_neg (by
    show ¬ (p.current_index + 1 = 0 ∨ p.tokens.length < p.current_index + 1)
    omega)]
  rfl

theorem advance_within_of_check (p : Parser) (t : TokenType) (h : p.check t = true)
    (ht : t ≠ .EOF_TOKEN) : p.Within (p.advance).2 :=
  advance_within p (check_isAtEnd p t h ht)

theorem match_within (p : Parser) (t : TokenType) (ht : t ≠ .EOF_TOKEN) :
    p.Within (p.match_ t).2 := by
  rw [match_eq]
  split
  · rename_i h
    exact advance_within_of_check p t h ht
  · exact within_refl p

theorem skipNewlinesLoop_within (fuel : Nat) (p : Parser) :
    p.Within (Parser.skipNewlinesLoop fuel p) := by
  induction fuel generalizing p with
  | zero => exact within_refl p
  | succ fuel ih =>
    rw [skipNewlinesLoop_succ]
    split
    · rename_i h
      exact within_trans (advance_within_of_check p _ h (by decide)) (ih _)
    · exact within_refl p

theorem skipNewlines_within (p : Parser) : p.Within p.skipNewlines :=
  skipNewlinesLoop_within _ p

theorem skipCommentsLoop_within (fuel : Nat) (p : Parser) :
    p.Within (Parser.skipCommentsLoop fuel p) := by
  induction fuel generalizing p with
  | zero => exact within_refl p
  | succ fuel ih =>
    rw [skipCommentsLoop_succ]
    split
    · rename_i h
      exact within_trans (within_trans (advance_within_of_check p _ h (by decide))
        (skipNewlines_within _)) (ih _)
    · exact within_refl p

theorem skipComments_within (p : Parser) : p.Within p.skipComments :=
  skipCommentsLoop_within _ p

theorem skipToNextScenarioLoop_within (fuel : Nat) (p : Parser) :
    p.Within (Parser.skipToNextScenarioLoop fuel p) := by
  induction fuel generalizing p with
  | zero => exact within_refl p
  | succ fuel ih =>
    rw [skipToNextScenarioLoop_succ]
    split
    · rename_i h
      split
      · exact within_refl p
      · exact within_trans (advance_within p h) (ih _)
    · exact within_refl p

theorem skipToNextScenario_within (p : Parser) : p.Within p.skipToNextScenario :=
  skipToNextScenarioLoop_within _ p

theorem parseTagsLoop_within (fuel : Nat) (p : Parser) (tags : List Str) :
    p.Within (Parser.parseTagsLoop fuel p tags).2 := by
  induction fuel generalizing p tags with
  | zero => exact within_refl p
  | succ fuel ih =>
    rw [Parser.parseTagsLoop]
    dsimp only
    split
    · rename_i h
      have ha := advance_within_of_check p _ h (by decide)
      split
      · exact within_trans ha (ih _ _)
      · split
        · exact within_trans ha (skipNewlines_within _)
        · exact within_trans (within_trans ha (skipNewlines_within _)) (ih _ _)
    · exact within_refl p

theorem parseTags_within (p : Parser) : p.Within (p.parseTags).2 :=
  parseTagsLoop_within _ p []

theorem not_atEnd_of_and (p : Parser) (b : Bool) (h : (!p.isAtEnd && b) = true) :
    p.isAtEnd = false := by
  cases hp : p.isAtEnd
  · rfl
  · rw [hp] at h
    exact Bool.noConfusion h

theorem parseTextLoop_within (fuel : Nat) (p : Parser) (text : Str) :
    p.Within (Parser.parseTextLoop fuel p text).2 := by
  induction fuel generalizing p text with
  | zero => exact within_refl p
  | succ fuel ih =>
    rw [Parser.parseTextLoop]
    dsimp only
    split
    · rename_i h
      have ha := advance_within p (not_atEnd_of_and p _ h)
      split
      · exact within_trans ha (ih _ _)
      · split
        · exact within_refl p
        · exact within_trans ha (ih _ _)
    · exact within_refl p

theorem parseText_within (p : Parser) : p.Within (p.parseText).2 :=
  parseTextLoop_within _ p []

theorem parseDescriptionLoop_within (fuel : Nat) (p : Parser) (description : Str) :
    p.Within (Parser.parseDescriptionLoop fuel p description).2 := by
  induction fuel generalizing p description with
  | zero => exact within_refl p
  | succ fuel ih =>
    rw [Parser.parseDescriptionLoop]
    dsimp only
    split
    · rename_i h
      have hne : p.isAtEnd = false := by
        cases hp : p.isAtEnd
        · rfl
        · rw [hp] at h
          exact Bool.noConfusion h
      have ha := advance_within p hne
      split
      · exact within_refl p
      · split
        · exact within_trans ha (ih _ _)
        · exact within_trans ha (ih _ _)
    · exact within_refl p

theorem parseDescription_within (p : Parser) : p.Within (p.parseDescription).2 :=
  parseDescriptionLoop_within _ p []

theorem parseDataTableLoop_within (fuel : Nat) (p : Parser) (table : DataTable) :
    p.Within (Parser.parseDataTableLoop fuel p table).2 := by
  induction fuel generalizing p table with
  | zero => exact within_refl p
  | succ fuel ih =>
    rw [Parser.parseDataTableLoop]
    dsimp only
    split
    · rename_i h
      exact within_trans (within_trans (advance_within_of_check p _ h (by decide))
        (skipNewlines_within _)) (ih _ _)
    · exact within_refl p

theorem parseDataTable_within (p : Parser) : p.Within (p.parseDataTable).2 :=
  parseDataTableLoop_within _ p _

theorem stepRest_within (stepType : StepType) (p1 : Parser) :
    p1.Within (resultState (Parser.stepRest stepType p1)) := by
  unfold Parser.stepRest
  dsimp only
  have h12 : p1.Within (p1.parseText).2.skipNewlines :=
    within_trans (parseText_within p1) (skipNewlines_within _)
  split
  · exact within_trans h12 (parseDataTable_within _)
  · split
    · rename_i hdoc
      obtain ⟨d, hd⟩ := parseDocString_ok _ hdoc
      rw [hd]
      exact within_trans h12 (advance_within_of_check _ _ hdoc (by decide))
    · exact h12

theorem parseStep_within (p : Parser) : p.Within (resultState p.parseStep) := by
  by_cases h : p.atStep = true
  · obtain ⟨stepType, hk⟩ := stepKeyword_some p h
    rw [parseStep_eq, hk]
    exact within_trans (advance_within p (atStep_not_end p h)) (stepRest_within stepType _)
  · have hk : p.stepKeyword = none := by
      unfold Parser.atStep at h
      simp only [Bool.or_eq_true, not_or, Bool.not_eq_true] at h
      obtain ⟨⟨⟨⟨h1, h2⟩, h3⟩, h4⟩, h5⟩ := h
      unfold Parser.stepKeyword
      simp [match_eq, h1, h2, h3, h4, h5]
    rw [parseStep_eq, hk]
    exact within_refl p

theorem parseStepsLoop_within (fuel : Nat) (p : Parser) (steps : List Step) :
    p.Within (resultState (Parser.parseStepsLoop fuel p steps)) := by
  induction fuel generalizing p steps with
  | zero => exact within_refl p
  | succ fuel ih =>
    rw [parseStepsLoop_succ]
    split
    · have hs := parseStep_within p
      cases hps : p.parseStep with
      | error e =>
        rw [hps] at hs
        exact hs
      | ok r =>
        rw [hps] at hs
        exact within_trans (within_trans hs (skipNewlines_within _)) (ih _ _)
    · exact within_refl p

theorem parseSteps_within (p : Parser) : p.Within (resultState p.parseSteps) :=
  parseStepsLoop_within _ p []

section InRange

attribute [local irreducible] Parser.parseText Parser.skipNewlines Parser.parseDescription
  Parser.parseTags Parser.parseDataTable Parser.parseSteps Parser.advance
  Parser.validateExamples Parser.parseExamplesLoop

theorem consume_within (p : Parser) (t : TokenType) (message : Str) (ht : t ≠ .EOF_TOKEN) :
    p.Within (resultState (p.consume t message)) := by
  unfold Parser.consume
  split
  · rename_i h
    exact advance_within_of_check p t h ht
  · exact within_refl p

theorem parseBackground_within (p : Parser) : p.Within (resultState p.parseBackground) := by
  by_cases h : p.check .BACKGROUND = true
  · unfold Parser.parseBackground
    rw [consume_ok p _ _ h]
    dsimp only
    have hs := parseSteps_within (((p.advance).2.parseText).2.skipNewlines.parseDescription).2
    have hchain := within_trans (within_trans (within_trans
      (advance_within_of_check p _ h (by decide)) (parseText_within _))
      (skipNewlines_within _)) (parseDescription_within _)
    cases hps : Parser.parseSteps (((p.advance).2.parseText).2.skipNewlines.parseDescription).2 with
    | error e =>
      rw [hps] at hs
      exact within_trans hchain hs
    | ok r =>
      rw [hps] at hs
      exact within_trans hchain hs
  · unfold Parser.parseBackground
    rw [consume_error p _ _ (by simpa using h)]
    exact within_refl p

theorem parseScenario_within (p : Parser) : p.Within (resultState p.parseScenario) := by
  by_cases h : p.check TokenType.SCENARIO = true
  · unfold Parser.parseScenario
    rw [consume_ok p _ _ h]
    dsimp only
    have hs := parseSteps_within (((p.advance).2.parseText).2.skipNewlines.parseDescription).2
    have hchain := within_trans (within_trans (within_trans
      (advance_within_of_check p _ h (by decide)) (parseText_within _))
      (skipNewlines_within _)) (parseDescription_within _)
    cases hps : Parser.parseSteps (((p.advance).2.parseText).2.skipNewlines.parseDescription).2 with
    | error e =>
      rw [hps] at hs
      exact within_trans hchain hs
    | ok r =>
      rw [hps] at hs
      exact within_trans hchain hs
  · unfold Parser.parseScenario
    rw [consume_error p _ _ (by simpa using h)]
    exact within_refl p

theorem validateParams_within (headers : List Str) (params : List Str) (p : Parser) :
    p.Within (Parser.validateParams headers params p) := by
  induction params generalizing p with
  | nil => exact within_refl p
  | cons param rest ih =>
    rw [Parser.validateParams]
    split
    · exact fun h => ih _ h
    · exact ih _

theorem validateExamples_within (p : Parser) (examples : Examples) (parameters : List Str) :
    p.Within (p.validateExamples examples parameters) := by
  unfold Parser.validateExamples
  split
  · exact fun h => h
  · exact validateParams_within _ _ _

theorem parseExamples_within (p : Parser) : p.Within (resultState p.parseExamples) := by
  by_cases h : p.check .EXAMPLES = true
  · unfold Parser.parseExamples
    rw [consume_ok p _ _ h]
    dsimp only
    have h1 : p.Within
        (((((p.advance).2.parseText).2.skipNewlines.parseDescription).2.parseTags).2.skipNewlines) :=
      within_trans (within_trans (within_trans (within_trans (within_trans
        (advance_within_of_check p _ h (by decide)) (parseText_within _))
        (skipNewlines_within _)) (parseDescription_within _)) (parseTags_within _))
        (skipNewlines_within _)
    split
    · have h2 := within_trans h1 (parseDataTable_within _)
      split
      · exact within_trans h2 (validateExamples_within _ _ _)
      · exact h2
    · exact h1
  · unfold Parser.parseExamples
    rw [consume_error p _ _ (by simpa using h)]
    exact within_refl p

theorem parseExamplesLoop_within (fuel : Nat) (p : Parser) (examples : List Examples) :
    p.Within (resultState (Parser.parseExamplesLoop fuel p examples)) := by
  induction fuel generalizing p examples with
  | zero =>
    rw [Parser.parseExamplesLoop]
    exact within_refl p
  | succ fuel ih =>
    rw [parseExamplesLoop_succ]
    split
    · have hs := parseExamples_within p
      cases hps : p.parseExamples with
      | error e =>
        rw [hps] at hs
        exact hs
      | ok r =>
        rw [hps] at hs
        exact within_trans (within_trans hs (skipNewlines_within _)) (ih _ _)
    · exact within_refl p

theorem parseScenarioOutline_within (p : Parser) :
    p.Within (resultState p.parseScenarioOutline) := by
  by_cases h : p.check .SCENARIO_OUTLINE = true
  · have h0 : ({ p with in_scenario_outline := true } : Parser).check .SCENARIO_OUTLINE = true := h
    have hp0 : p.Within ({ p with in_scenario_outline := true } : Parser) := fun hr => hr
    unfold Parser.parseScenarioOutline
    dsimp only
    rw [consume_ok _ _ _ h0]
    dsimp only
    have hchain := within_trans (within_trans (within_trans (within_trans hp0
      (advance_within_of_check _ _ h0 (by decide))) (parseText_within _))
      (skipNewlines_within _)) (parseDescription_within _)
    have hs := parseSteps_within
      ((((({ p with in_scenario_outline := true } : Parser).advance).2.parseText).2.skipNewlines.parseDescription).2)
    cases hps : Parser.parseSteps
      ((((({ p with in_scenario_outline := true } : Parser).advance).2.parseText).2.skipNewlines.parseDescription).2) with
    | error e =>
      rw [hps] at hs
      exact within_trans hchain hs
    | ok r =>
      rw [hps] at hs
      dsimp only
      have hl := parseExamplesLoop_within
        (({ r.2 with current_parameters :=
            ({ name := ((({ p with in_scenario_outline := true } : Parser).advance).2.parseText).1
               description := (((({ p with in_scenario_outline := true } : Parser).advance).2.parseText).2.skipNewlines.parseDescription).1
               tags := [], steps := r.1, examples := [] } : ScenarioOutline).extractParameters } : Parser).tokens.length + 1)
        ({ r.2 with current_parameters :=
            ({ name := ((({ p with in_scenario_outline := true } : Parser).advance).2.parseText).1
               description := (((({ p with in_scenario_outline := true } : Parser).advance).2.parseText).2.skipNewlines.parseDescription).1
               tags := [], steps := r.1, examples := [] } : ScenarioOutline).extractParameters } : Parser) []
      have hr2 : r.2.Within ({ r.2 with current_parameters :=
            ({ name := ((({ p with in_scenario_outline := true } : Parser).advance).2.parseText).1
               description := (((({ p with in_scenario_outline := true } : Parser).advance).2.parseText).2.skipNewlines.parseDescription).1
               tags := [], steps := r.1, examples := [] } : ScenarioOutline).extractParameters } : Parser) :=
        fun hr => hr
      have hall := within_trans (within_trans (within_trans hchain hs) hr2) hl
      split
      · rename_i e heq
        rw [heq] at hall
        exact hall
      · rename_i exs q heq
        rw [heq] at hall
        exact fun hr => hall hr
  · unfold Parser.parseScenarioOutline
    dsimp only
    rw [consume_error _ _ _ (by
      show ({ p with in_scenario_outline := true } : Parser).check .SCENARIO_OUTLINE = false
      simpa using h)]
    exact fun hr => hr

end InRange

section InRangeFeature

attribute [local irreducible] Parser.skipNewlines Parser.skipComments Parser.parseTags
  Parser.parseScenarioOutline Parser.parseScenario Parser.skipToNextScenario
  Parser.parseText Parser.parseDescription Parser.parseBackground Parser.advance

theorem declarationTags_within (p : Parser) : p.Within (p.declarationTags).2 := by
  rw [declarationTags_snd]
  exact within_trans (within_trans (within_trans (skipNewlines_within p) (skipComments_within _))
    (parseTags_within _)) (skipNewlines_within _)

theorem parseScenariosLoop_within (fuel : Nat) (p : Parser) (feature : Feature) :
    p.Within (resultState (Parser.parseScenariosLoop fuel p feature)) := by
  induction fuel generalizing p feature with
  | zero =>
    rw [Parser.parseScenariosLoop]
    exact within_refl p
  | succ fuel ih =>
    by_cases hend : p.isAtEnd = true
    · rw [parseScenariosLoop_atEnd _ p feature hend]
      exact within_refl p
    · have hne : p.isAtEnd = false := by simpa using hend
      have hd := declarationTags_within p
      by_cases h2 : (p.declarationTags).2.isAtEnd = true
      · rw [parseScenariosLoop_done fuel p feature hne h2]
        exact hd
      · have h2' : (p.declarationTags).2.isAtEnd = false := by simpa using h2
        by_cases ho : (p.declarationTags).2.check .SCENARIO_OUTLINE = true
        · obtain ⟨o, p3, hp, _, _⟩ := parseScenarioOutline_ok _ ho
          have hw := parseScenarioOutline_within (p.declarationTags).2
          rw [hp] at hw
          rw [parseScenariosLoop_outline fuel p feature o p3 ho hp]
          exact within_trans (within_trans hd hw) (ih _ _)
        · have ho' : (p.declarationTags).2.check .SCENARIO_OUTLINE = false := by simpa using ho
          by_cases hs : (p.declarationTags).2.check TokenType.SCENARIO = true
          · obtain ⟨sc, p3, hp, _⟩ := parseScenario_ok _ hs
            have hw := parseScenario_within (p.declarationTags).2
            rw [hp] at hw
            rw [parseScenariosLoop_scenario fuel p feature sc p3 hs hp]
            exact within_trans (within_trans hd hw) (ih _ _)
          · have hs' : (p.declarationTags).2.check TokenType.SCENARIO = false := by
              simpa using hs
            rw [parseScenariosLoop_recover fuel p feature ho' hs' h2']
            have he : (p.declarationTags).2.Within ((p.declarationTags).2.error expectedScenario) :=
              fun hr => hr
            exact within_trans (within_trans (within_trans hd he)
              (skipToNextScenario_within _)) (ih _ _)

theorem parseFeature_within (p : Parser) : p.Within (resultState p.parseFeature) := by
  have hd := declarationTags_within p
  rw [declarationTags_snd] at hd
  by_cases h : (p.skipNewlines.skipComments.parseTags).2.skipNewlines.check .FEATURE = true
  · have hchain := within_trans (within_trans (within_trans hd
      (advance_within_of_check _ _ h (by decide))) (parseText_within _))
      (within_trans (skipNewlines_within _) (parseDescription_within _))
    unfold Parser.parseFeature
    dsimp only
    rw [consume_ok _ _ _ h]
    dsimp only
    split
    · rename_i hbg
      obtain ⟨bg, p4, hp4, _⟩ := parseBackground_ok _ hbg
      have hw := parseBackground_within
        ((((p.skipNewlines.skipComments.parseTags).2.skipNewlines.advance).2.parseText).2.skipNewlines.parseDescription).2
      rw [hp4] at hw
      rw [hp4]
      dsimp only
      exact within_trans (within_trans hchain hw) (parseScenariosLoop_within _ _ _)
    · exact within_trans hchain (parseScenariosLoop_within _ _ _)
  · rw [parseFeature_error p (by simpa using h)]
    exact hd

theorem parse_within (p : Parser) : p.Within (p.parse).2 := by
  have h := parseFeature_within p
  rw [parse_eq]
  cases hpf : p.parseFeature with
  | error e =>
    rw [hpf] at h
    exact fun hr => h hr
  | ok r =>
    rw [hpf] at h
    exact h

end InRangeFeature

set_option maxRecDepth 1000000 in
/-- Claim C37: `Parser::parse` never reads `tokens_` out of range.  For every
token vector, the empty one and those without an `EOF_TOKEN` included, no read of
`tokens_[current_index_ - 1]` outside the vector is recorded after `parse`;
starting from any parser state with no such read recorded, `parse` records
none.  The method `advance` at a current token that is not the end raises the
index by one and returns that token, which is inside the vector; a call of
`advance` on the empty vector would read outside it, but `parse` makes no such
call. -/
theorem parse_never_out_of_range (tokens : List Token) :
    ((Parser.new tokens).parse).2.out_of_range = false
    ∧ (∀ p : Parser, p.out_of_range = false → (p.parse).2.out_of_range = false)
    ∧ (∀ p : Parser, p.isAtEnd = false →
        (p.advance).2.out_of_range = p.out_of_range ∧ (p.advance).1 = p.current
          ∧ p.current_index < p.tokens.length
          ∧ (p.advance).2.current_index = p.current_index + 1)
    ∧ ((Parser.new []).advance).2.out_of_range = true
    ∧ ((Parser.new []).parse).1 = none
    ∧ ((Parser.new []).parse).2.out_of_range = false
    ∧ ((Parser.new tokensNoEof).parse).1.map (fun f => f.name) = some "F".toList
    ∧ ((Parser.new tokensNoEof).parse).2.out_of_range = false := by
  refine ⟨parse_within _ rfl, fun p h => parse_within p h, ?_, by decide, by decide, by decide,
    by decide, by decide⟩
  intro p h
  refine ⟨?_, advance_token p h, isAtEnd_false_lt p h, advance_index_of_not_end p h⟩
  cases hr : p.out_of_range
  · exact advance_within p h hr
  · have hlt := isAtEnd_false_lt p h
    unfold Parser.advance
    simp only [h, Bool.not_false, if_true]
    rw [if_neg (by
      show ¬ (p.current_index + 1 = 0 ∨ p.tokens.length < p.current_index + 1)
      omega)]
    exact hr


/-! ## Every loop of the parser ends by its own condition -/

theorem rem_lt_of_skips {p q : Parser} {n : Nat} (h : p.Skips q) (hn : p.rem < n) : q.rem < n :=
  Nat.lt_of_le_of_lt (rem_le_of_reaches h.1) hn

theorem skipNewlinesLoop_stable (fuel : Nat) (p : Parser) (h : p.rem < fuel) :
    Parser.skipNewlinesLoop (fuel + 1) p = Parser.skipNewlinesLoop fuel p := by
  induction fuel generalizing p with
  | zero => exact absurd h (Nat.not_lt_zero _)
  | succ fuel ih =>
    rw [skipNewlinesLoop_succ (fuel + 1) p, skipNewlinesLoop_succ fuel p]
    split
    · rename_i hc
      have := rem_advance_lt p (check_isAtEnd p _ hc (by decide))
      exact ih _ (by omega)
    · rfl

theorem skipCommentsLoop_stable (fuel : Nat) (p : Parser) (h : p.rem < fuel) :
    Parser.skipCommentsLoop (fuel + 1) p = Parser.skipCommentsLoop fuel p := by
  induction fuel generalizing p with
  | zero => exact absurd h (Nat.not_lt_zero _)
  | succ fuel ih =>
    rw [skipCommentsLoop_succ (fuel + 1) p, skipCommentsLoop_succ fuel p]
    split
    · rename_i hc
      have h1 := rem_advance_lt p (check_isAtEnd p _ hc (by decide))
      have h2 := rem_le_of_reaches (skipNewlines_skips (p.advance).2).1
      exact ih _ (by omega)
    · rfl

theorem skipToNextScenarioLoop_stable (fuel : Nat) (p : Parser) (h : p.rem < fuel) :
    Parser.skipToNextScenarioLoop (fuel + 1) p = Parser.skipToNextScenarioLoop fuel p := by
  induction fuel generalizing p with
  | zero => exact absurd h (Nat.not_lt_zero _)
  | succ fuel ih =>
    rw [skipToNextScenarioLoop_succ (fuel + 1) p, skipToNextScenarioLoop_succ fuel p]
    split
    · rename_i hne
      split
      · rfl
      · have := rem_advance_lt p hne
        exact ih _ (by omega)
    · rfl

theorem parseTagsLoop_succ (fuel : Nat) (p : Parser) (tags : List Str) :
    Parser.parseTagsLoop (fuel + 1) p tags
      = if p.check .TAG = true then
          if (p.advance).2.check .TAG = true then
            Parser.parseTagsLoop fuel (p.advance).2 (tags ++ [(p.advance).1.value])
          else if (!(p.advance).2.skipNewlines.check .TAG) = true then
            (tags ++ [(p.advance).1.value], (p.advance).2.skipNewlines)
          else
            Parser.parseTagsLoop fuel (p.advance).2.skipNewlines (tags ++ [(p.advance).1.value])
        else (tags, p) := rfl

theorem parseTagsLoop_exit (fuel : Nat) (p : Parser) (tags : List Str) (h : p.rem < fuel) :
    (Parser.parseTagsLoop fuel p tags).2.check .TAG = false
      ∧ Parser.parseTagsLoop (fuel + 1) p tags = Parser.parseTagsLoop fuel p tags := by
  induction fuel generalizing p tags with
  | zero => exact absurd h (Nat.not_lt_zero _)
  | succ fuel ih =>
    rw [parseTagsLoop_succ (fuel + 1) p tags, parseTagsLoop_succ fuel p tags]
    by_cases hc : p.check .TAG = true
    · rw [if_pos hc, if_pos hc]
      have h1 := rem_advance_lt p (check_isAtEnd p _ hc (by decide))
      have h2 := rem_le_of_reaches (skipNewlines_skips (p.advance).2).1
      by_cases hc2 : (p.advance).2.check .TAG = true
      · rw [if_pos hc2, if_pos hc2]
        exact ih _ _ (by omega)
      · rw [if_neg hc2, if_neg hc2]
        by_cases hc3 : (!(p.advance).2.skipNewlines.check .TAG) = true
        · rw [if_pos hc3, if_pos hc3]
          exact ⟨by simpa using hc3, rfl⟩
        · rw [if_neg hc3, if_neg hc3]
          exact ih _ _ (by omega)
    · rw [if_neg hc, if_neg hc]
      exact ⟨by simpa using hc, rfl⟩

theorem parseTextLoop_succ (fuel : Nat) (p : Parser) (text : Str) :
    Parser.parseTextLoop (fuel + 1) p text
      = if (!p.isAtEnd && !p.check .NEWLINE) = true then
          if (p.check .TEXT || p.check .STRING || p.check .PARAMETER || p.check .NUMBER) = true then
            Parser.parseTextLoop fuel (p.advance).2 (text ++ (p.advance).1.value ++ [' '])
          else if p.check .COMMENT = true then (text, p)
          else Parser.parseTextLoop fuel (p.advance).2 text
        else (text, p) := rfl

theorem parseTextLoop_exit (fuel : Nat) (p : Parser) (text : Str) (h : p.rem < fuel) :
    ((!(Parser.parseTextLoop fuel p text).2.isAtEnd
        && !(Parser.parseTextLoop fuel p text).2.check .NEWLINE) = false
      ∨ (Parser.parseTextLoop fuel p text).2.check .COMMENT = true)
      ∧ Parser.parseTextLoop (fuel + 1) p text = Parser.parseTextLoop fuel p text := by
  induction fuel generalizing p text with
  | zero => exact absurd h (Nat.not_lt_zero _)
  | succ fuel ih =>
    rw [parseTextLoop_succ (fuel + 1) p text, parseTextLoop_succ fuel p text]
    by_cases hc : (!p.isAtEnd && !p.check .NEWLINE) = true
    · rw [if_pos hc, if_pos hc]
      have h1 := rem_advance_lt p (not_atEnd_of_and p _ hc)
      by_cases hc2 : (p.check .TEXT || p.check .STRING || p.check .PARAMETER || p.check .NUMBER)
          = true
      · rw [if_pos hc2, if_pos hc2]
        exact ih _ _ (by omega)
      · rw [if_neg hc2, if_neg hc2]
        by_cases hc3 : p.check .COMMENT = true
        · rw [if_pos hc3, if_pos hc3]
          exact ⟨Or.inr hc3, rfl⟩
        · rw [if_neg hc3, if_neg hc3]
          exact ih _ _ (by omega)
    · rw [if_neg hc, if_neg hc]
      exact ⟨Or.inl (by simpa using hc), rfl⟩

theorem parseDescriptionLoop_succ (fuel : Nat) (p : Parser) (description : Str) :
    Parser.parseDescriptionLoop (fuel + 1) p description
      = if (!p.isAtEnd) = true then
          if (p.check .GIVEN || p.check .WHEN || p.check .THEN || p.check TokenType.SCENARIO
              || p.check .SCENARIO_OUTLINE || p.check .BACKGROUND || p.check .EXAMPLES
              || p.check .TAG) = true then
            (description, p)
          else if p.check .TEXT = true then
            Parser.parseDescriptionLoop fuel (p.advance).2
              ((if (!description.isEmpty) = true then description ++ ['\n'] else description)
                ++ (p.advance).1.value)
          else Parser.parseDescriptionLoop fuel (p.advance).2 description
        else (description, p) := rfl

theorem parseDescriptionLoop_exit (fuel : Nat) (p : Parser) (description : Str)
    (h : p.rem < fuel) :
    ((Parser.parseDescriptionLoop fuel p description).2.isAtEnd = true
      ∨ ((Parser.parseDescriptionLoop fuel p description).2.check .GIVEN
          || (Parser.parseDescriptionLoop fuel p description).2.check .WHEN
          || (Parser.parseDescriptionLoop fuel p description).2.check .THEN
          || (Parser.parseDescriptionLoop fuel p description).2.check TokenType.SCENARIO
          || (Parser.parseDescriptionLoop fuel p description).2.check .SCENARIO_OUTLINE
          || (Parser.parseDescriptionLoop fuel p description).2.check .BACKGROUND
          || (Parser.parseDescriptionLoop fuel p description).2.check .EXAMPLES
          || (Parser.parseDescriptionLoop fuel p description).2.check .TAG) = true)
      ∧ Parser.parseDescriptionLoop (fuel + 1) p description
          = Parser.parseDescriptionLoop fuel p description := by
  induction fuel generalizing p description with
  | zero => exact absurd h (Nat.not_lt_zero _)
  | succ fuel ih =>
    rw [parseDescriptionLoop_succ (fuel + 1) p description, parseDescriptionLoop_succ fuel p description]
    by_cases hc : (!p.isAtEnd) = true
    · rw [if_pos hc, if_pos hc]
      have h1 := rem_advance_lt p (by simpa using hc)
      by_cases hc2 : (p.check .GIVEN || p.check .WHEN || p.check .THEN
          || p.check TokenType.SCENARIO || p.check .SCENARIO_OUTLINE || p.check .BACKGROUND
          || p.check .EXAMPLES || p.check .TAG) = true
      · rw [if_pos hc2, if_pos hc2]
        exact ⟨Or.inr hc2, rfl⟩
      · rw [if_neg hc2, if_neg hc2]
        by_cases hc3 : p.check .TEXT = true
        · rw [if_pos hc3, if_pos hc3]
          exact ih _ _ (by omega)
        · rw [if_neg hc3, if_neg hc3]
          exact ih _ _ (by omega)
    · rw [if_neg hc, if_neg hc]
      exact ⟨Or.inl (by simpa using hc), rfl⟩

theorem parseDataTableLoop_succ (fuel : Nat) (p : Parser) (table : DataTable) :
    Parser.parseDataTableLoop (fuel + 1) p table
      = if p.check .TABLE_CELL = true then
          Parser.parseDataTableLoop fuel (p.advance).2.skipNewlines
            (if (!(parseRow (p.advance).1.value).isEmpty) = true then
              { rows := table.rows ++ [parseRow (p.advance).1.value] }
            else table)
        else (table, p) := rfl

theorem parseDataTableLoop_exit (fuel : Nat) (p : Parser) (table : DataTable)
    (h : p.rem < fuel) :
    (Parser.parseDataTableLoop fuel p table).2.check .TABLE_CELL = false
      ∧ Parser.parseDataTableLoop (fuel + 1) p table = Parser.parseDataTableLoop fuel p table := by
  induction fuel generalizing p table with
  | zero => exact absurd h (Nat.not_lt_zero _)
  | succ fuel ih =>
    rw [parseDataTableLoop_succ (fuel + 1) p table, parseDataTableLoop_succ fuel p table]
    by_cases hc : p.check .TABLE_CELL = true
    · rw [if_pos hc, if_pos hc]
      have h1 := rem_advance_lt p (check_isAtEnd p _ hc (by decide))
      have h2 := rem_le_of_reaches (skipNewlines_skips (p.advance).2).1
      exact ih _ _ (by omega)
    · rw [if_neg hc, if_neg hc]
      exact ⟨by simpa using hc, rfl⟩

theorem parseStepsLoop_exit (fuel : Nat) (p : Parser) (steps : List Step) (h : p.rem < fuel) :
    (∃ ss q, Parser.parseStepsLoop fuel p steps = .ok (ss, q)
        ∧ (!q.isAtEnd && q.atStep) = false)
      ∧ Parser.parseStepsLoop (fuel + 1) p steps = Parser.parseStepsLoop fuel p steps := by
  induction fuel generalizing p steps with
  | zero => exact absurd h (Nat.not_lt_zero _)
  | succ fuel ih =>
    rw [parseStepsLoop_succ (fuel + 1) p steps, parseStepsLoop_succ fuel p steps]
    by_cases hc : (!p.isAtEnd && p.atStep) = true
    · rw [if_pos hc, if_pos hc]
      have hstep : p.atStep = true := by
        simp only [Bool.and_eq_true] at hc
        exact hc.2
      obtain ⟨step, q, hq, hskip⟩ := parseStep_ok p hstep
      rw [hq]
      dsimp only
      have h1 := rem_advance_lt p (atStep_not_end p hstep)
      have h2 := rem_le_of_reaches hskip.1
      have h3 := rem_le_of_reaches (skipNewlines_skips q).1
      exact ih _ _ (by omega)
    · rw [if_neg hc, if_neg hc]
      exact ⟨⟨steps, p, rfl, by simpa using hc⟩, rfl⟩

theorem parseExamplesLoop_exit (fuel : Nat) (p : Parser) (examples : List Examples)
    (h : p.rem < fuel) :
    (∃ exs q, Parser.parseExamplesLoop fuel p examples = .ok (exs, q)
        ∧ (!q.isAtEnd && q.check .EXAMPLES) = false)
      ∧ Parser.parseExamplesLoop (fuel + 1) p examples
          = Parser.parseExamplesLoop fuel p examples := by
  induction fuel generalizing p examples with
  | zero => exact absurd h (Nat.not_lt_zero _)
  | succ fuel ih =>
    rw [parseExamplesLoop_succ (fuel + 1) p examples, parseExamplesLoop_succ fuel p examples]
    by_cases hc : (!p.isAtEnd && p.check .EXAMPLES) = true
    · rw [if_pos hc, if_pos hc]
      have hex : p.check .EXAMPLES = true := by
        simp only [Bool.and_eq_true] at hc
        exact hc.2
      obtain ⟨ex, q, hq, hreach⟩ := parseExamples_ok p hex
      rw [hq]
      dsimp only
      have h1 := rem_advance_lt p (check_isAtEnd p _ hex (by decide))
      have h2 := rem_le_of_reaches hreach
      have h3 := rem_le_of_reaches (skipNewlines_skips q).1
      exact ih _ _ (by omega)
    · rw [if_neg hc, if_neg hc]
      exact ⟨⟨examples, p, rfl, by simpa using hc⟩, rfl⟩

theorem parse_ends_at_end (p : Parser) (f : Feature) (h : (p.parse).1 = some f) :
    (p.parse).2.isAtEnd = true ∧ (p.parse).2.tokens = p.tokens := by
  by_cases hf : (p.skipNewlines.skipComments.parseTags).2.skipNewlines.check .FEATURE = true
  · obtain ⟨f1, q, hq, hend, _, htok⟩ := parseFeature_ok p hf
    rw [parse_eq, hq]
    exact ⟨hend, htok⟩
  · rw [parse_eq, parseFeature_error p (by simpa using hf)] at h
    exact absurd h (by simp)

set_option maxRecDepth 1000000 in
/-- Claim C36: `Parser::parse` terminates on every token vector.  A call of
`advance` at a token that is not the end leaves one token less to read.  Each of
the loops of `skipNewlines`, of the comment loop, of `skipToNextScenario`,
`parseTags`, `parseText`, `parseDescription`, `parseDataTable`, of the steps and
of the Examples blocks ends with its own condition false (or by its `break`)
when it is given more iterations than tokens are left, and a further iteration
then changes nothing: every iteration that continues has consumed a token.  So
does every iteration of the scenario loop of `parseFeature`, which ends at the
end of the tokens; a step, an Examples block, an outline and a scenario each
consume their keyword.  When `parse` returns a feature, the parser is at the
end of the token vector, which is unchanged. -/
theorem parse_terminates (tokens : List Token) :
    (∀ p : Parser, p.isAtEnd = false → (p.advance).2.rem < p.rem)
    ∧ (∀ p : Parser, p.skipNewlines.check .NEWLINE = false
        ∧ p.skipComments.check .COMMENT = false
        ∧ (p.skipToNextScenario.isAtEnd = true
            ∨ (p.skipToNextScenario.check TokenType.SCENARIO
                || p.skipToNextScenario.check .SCENARIO_OUTLINE) = true)
        ∧ (p.parseTags).2.check .TAG = false
        ∧ ((!(p.parseText).2.isAtEnd && !(p.parseText).2.check .NEWLINE) = false
            ∨ (p.parseText).2.check .COMMENT = true)
        ∧ ((p.parseDescription).2.isAtEnd = true
            ∨ ((p.parseDescription).2.check .GIVEN || (p.parseDescription).2.check .WHEN
                || (p.parseDescription).2.check .THEN
                || (p.parseDescription).2.check TokenType.SCENARIO
                || (p.parseDescription).2.check .SCENARIO_OUTLINE
                || (p.parseDescription).2.check .BACKGROUND
                || (p.parseDescription).2.check .EXAMPLES
                || (p.parseDescription).2.check .TAG) = true)
        ∧ (p.parseDataTable).2.check .TABLE_CELL = false
        ∧ (∃ ss q, p.parseSteps = .ok (ss, q) ∧ (!q.isAtEnd && q.atStep) = false)
        ∧ (∃ exs q, Parser.parseExamplesLoop (p.tokens.length + 1) p [] = .ok (exs, q)
            ∧ (!q.isAtEnd && q.check .EXAMPLES) = false)
        ∧ (∀ feature, ∃ f q,
            Parser.parseScenariosLoop (p.tokens.length + 1) p feature = .ok (f, q)
              ∧ q.isAtEnd = true))
    ∧ (∀ (fuel : Nat) (p : Parser), p.rem < fuel →
        Parser.skipNewlinesLoop (fuel + 1) p = Parser.skipNewlinesLoop fuel p
        ∧ Parser.skipCommentsLoop (fuel + 1) p = Parser.skipCommentsLoop fuel p
        ∧ Parser.skipToNextScenarioLoop (fuel + 1) p = Parser.skipToNextScenarioLoop fuel p
        ∧ (∀ tags, Parser.parseTagsLoop (fuel + 1) p tags = Parser.parseTagsLoop fuel p tags)
        ∧ (∀ text, Parser.parseTextLoop (fuel + 1) p text = Parser.parseTextLoop fuel p text)
        ∧ (∀ d, Parser.parseDescriptionLoop (fuel + 1) p d = Parser.parseDescriptionLoop fuel p d)
        ∧ (∀ t, Parser.parseDataTableLoop (fuel + 1) p t = Parser.parseDataTableLoop fuel p t)
        ∧ (∀ ss, Parser.parseStepsLoop (fuel + 1) p ss = Parser.parseStepsLoop fuel p ss)
        ∧ (∀ exs, Parser.parseExamplesLoop (fuel + 1) p exs = Parser.parseExamplesLoop fuel p exs)
        ∧ (∀ feature, Parser.parseScenariosLoop (fuel + 1) p feature
            = Parser.parseScenariosLoop fuel p feature))
    ∧ (∀ p : Parser,
        (p.atStep = true → ∃ step q, p.parseStep = .ok (step, q) ∧ q.rem < p.rem)
        ∧ (p.check .EXAMPLES = true → ∃ ex q, p.parseExamples = .ok (ex, q) ∧ q.rem < p.rem)
        ∧ (p.check .SCENARIO_OUTLINE = true →
            ∃ o q, p.parseScenarioOutline = .ok (o, q) ∧ q.rem < p.rem)
        ∧ (p.check TokenType.SCENARIO = true →
            ∃ sc q, p.parseScenario = .ok (sc, q) ∧ q.rem < p.rem)
        ∧ (p.isAtEnd = false → p.check TokenType.SCENARIO = false →
            p.check .SCENARIO_OUTLINE = false → p.skipToNextScenario.rem < p.rem))
    ∧ (∀ f, ((Parser.new tokens).parse).1 = some f →
        ((Parser.new tokens).parse).2.isAtEnd = true
          ∧ ((Parser.new tokens).parse).2.tokens = tokens)
    ∧ ((Parser.new tokensRecover).parse).2.current_index = tokensRecover.length := by
  refine ⟨rem_advance_lt, ?_, ?_, ?_, ?_, by decide⟩
  · intro p
    have hfuel := rem_lt_length_succ p
    refine ⟨skipNewlines_exit p, skipComments_exit p, skipToNextScenario_exit p,
      (parseTagsLoop_exit _ p [] hfuel).1, (parseTextLoop_exit _ p [] hfuel).1,
      (parseDescriptionLoop_exit _ p [] hfuel).1, (parseDataTableLoop_exit _ p _ hfuel).1,
      (parseStepsLoop_exit _ p [] hfuel).1, (parseExamplesLoop_exit _ p [] hfuel).1, ?_⟩
    intro feature
    obtain ⟨f, q, hq, _, hend⟩ := parseScenariosLoop_total (p.tokens.length + 1) p feature
    exact ⟨f, q, hq, (hend hfuel).1⟩
  · intro fuel p h
    exact ⟨skipNewlinesLoop_stable fuel p h, skipCommentsLoop_stable fuel p h,
      skipToNextScenarioLoop_stable fuel p h, fun tags => (parseTagsLoop_exit fuel p tags h).2,
      fun text => (parseTextLoop_exit fuel p text h).2,
      fun d => (parseDescriptionLoop_exit fuel p d h).2,
      fun t => (parseDataTableLoop_exit fuel p t h).2,
      fun ss => (parseStepsLoop_exit fuel p ss h).2,
      fun exs => (parseExamplesLoop_exit fuel p exs h).2,
      fun feature => (parseScenariosLoop_fuel fuel p feature h).1⟩
  · intro p
    refine ⟨?_, ?_, ?_, ?_, ?_⟩
    · intro h
      obtain ⟨step, q, hq, hskip⟩ := parseStep_ok p h
      have h1 := rem_advance_lt p (atStep_not_end p h)
      have h2 := rem_le_of_reaches hskip.1
      exact ⟨step, q, hq, by omega⟩
    · intro h
      obtain ⟨ex, q, hq, hreach⟩ := parseExamples_ok p h
      have h1 := rem_advance_lt p (check_isAtEnd p _ h (by decide))
      have h2 := rem_le_of_reaches hreach
      exact ⟨ex, q, hq, by omega⟩
    · intro h
      obtain ⟨o, q, hq, htok, hidx⟩ := parseScenarioOutline_ok p h
      exact ⟨o, q, hq, rem_lt_of_reaches ⟨htok, Nat.le_of_lt hidx⟩
        (check_isAtEnd p _ h (by decide)) hidx⟩
    · intro h
      obtain ⟨sc, q, hq, hskip⟩ := parseScenario_ok p h
      have h1 := rem_advance_lt p (check_isAtEnd p _ h (by decide))
      have h2 := rem_le_of_reaches hskip.1
      exact ⟨sc, q, hq, by omega⟩
    · intro hne hs ho
      exact rem_lt_of_reaches (skipToNextScenario_skips p).1 hne
        (skipToNextScenario_advances p hne hs ho)
  · intro f h
    exact parse_ends_at_end (Parser.new tokens) f h

end Gherkin

/-! ## Passes that replace matches -/

theorem scanReplace_const_pre (matchAt : Str → Option Nat) (rep : Str) (k : Nat)
    (pre text : Str) :
    scanReplace matchAt (fun _ _ _ => rep) k pre text
      = scanReplace matchAt (fun _ _ _ => rep) k [] text := by
  induction text generalizing k pre with
  | nil => cases k <;> rfl
  | cons c cs ih =>
    cases k with
    | succ k => exact ih k pre
    | zero =>
      show scanReplace matchAt (fun _ _ _ => rep) 0 pre (c :: cs)
        = scanReplace matchAt (fun _ _ _ => rep) 0 [] (c :: cs)
      rw [Gherkin.scanReplace_zero_cons, Gherkin.scanReplace_zero_cons]
      cases matchAt (c :: cs) with
      | some len => rfl
      | none =>
        show c :: _ = c :: _
        rw [ih 0 (c :: pre), ih 0 [c]]

theorem replaceMatches_nil (matchAt : Str → Option Nat) (rep : Str) :
    replaceMatches matchAt rep [] = [] := rfl

theorem replaceMatches_cons_none (matchAt : Str → Option Nat) (rep : Str) (c : Char) (cs : Str)
    (h : matchAt (c :: cs) = none) :
    replaceMatches matchAt rep (c :: cs) = c :: replaceMatches matchAt rep cs := by
  unfold replaceMatches
  rw [Gherkin.scanReplace_zero_cons, h]
  show c :: _ = c :: _
  rw [scanReplace_const_pre]

theorem replaceMatches_match (matchAt : Str → Option Nat) (rep : Str) (c : Char) (m rest : Str)
    (h : matchAt (c :: (m ++ rest)) = some (m.length + 1)) :
    replaceMatches matchAt rep (c :: (m ++ rest)) = rep ++ replaceMatches matchAt rep rest := by
  unfold replaceMatches
  rw [Gherkin.scanReplace_zero_cons, h]
  show rep ++ scanReplace matchAt (fun _ _ _ => rep) (m.length + 1 - 1) [] (m ++ rest) = _
  rw [Nat.add_sub_cancel, Gherkin.scanReplace_skip]

theorem replaceMatches_copy (matchAt : Str → Option Nat) (rep : Str) (xs rest : Str)
    (h : ∀ c ∈ xs, ∀ cs, matchAt (c :: cs) = none) :
    replaceMatches matchAt rep (xs ++ rest) = xs ++ replaceMatches matchAt rep rest := by
  induction xs with
  | nil => rfl
  | cons x xs ih =>
    rw [List.cons_append, replaceMatches_cons_none _ _ _ _ (h x (List.mem_cons_self _ _) _),
      ih (fun c hc => h c (List.mem_cons_of_mem _ hc))]
    rfl

theorem bracket_prefix_iff (o cl : Char) (k k2 rest : Str) (hk : cl ∉ k) (hk2 : cl ∉ k2) :
    (o :: (k ++ [cl])) <+: (o :: (k2 ++ cl :: rest)) ↔ k = k2 := by
  constructor
  · rintro ⟨t, ht⟩
    simp only [List.cons_append, List.append_assoc, List.singleton_append, List.cons.injEq,
      true_and] at ht
    have key : ∀ (a b : Str) (s1 s2 : Str), cl ∉ a → cl ∉ b →
        a ++ cl :: s1 = b ++ cl :: s2 → a = b := by
      intro a
      induction a with
      | nil =>
        intro b s1 s2 _ hb h
        cases b with
        | nil => rfl
        | cons y b =>
          simp only [List.nil_append, List.cons_append, List.cons.injEq] at h
          exact absurd (by simp [← h.1]) hb
      | cons x a ih =>
        intro b s1 s2 ha hb h
        cases b with
        | nil =>
          simp only [List.nil_append, List.cons_append, List.cons.injEq] at h
          exact absurd (by simp [h.1]) ha
        | cons y b =>
          simp only [List.cons_append, List.cons.injEq] at h
          rw [h.1, ih b s1 s2 (fun e => ha (List.mem_cons_of_mem _ e))
            (fun e => hb (List.mem_cons_of_mem _ e)) h.2]
    exact key k k2 t rest hk hk2 ht
  · rintro rfl
    exact ⟨rest, by simp⟩

theorem litAt_bracket (o cl : Char) (k w rest : Str) (hk : cl ∉ k) (hw : cl ∉ w) :
    litAt (o :: (k ++ [cl])) (o :: (w ++ cl :: rest))
      = if k = w then some (k.length + 2) else none := by
  unfold litAt
  by_cases h : k = w
  · have hp : (o :: (k ++ [cl])).isPrefixOf (o :: (w ++ cl :: rest)) = true := by
      rw [List.isPrefixOf_iff_prefix]
      exact (bracket_prefix_iff o cl k w rest hk hw).mpr h
    simp [hp, h]
  · have hp : (o :: (k ++ [cl])).isPrefixOf (o :: (w ++ cl :: rest)) = false := by
      rw [Bool.eq_false_iff]
      intro hp
      rw [List.isPrefixOf_iff_prefix] at hp
      exact h ((bracket_prefix_iff o cl k w rest hk hw).mp hp)
    simp [hp, h]


namespace Cucumber

/-! ## Cucumber expressions -/

theorem word_ne_lbrace {c : Char} (h : isWordChar c = true) : c ≠ '{' := by
  rintro rfl
  exact absurd h (by decide)

theorem word_ne_rbrace {c : Char} (h : isWordChar c = true) : c ≠ '}' := by
  rintro rfl
  exact absurd h (by decide)

theorem wordClose_of_word (w rest : Str) (hw : ∀ c ∈ w, isWordChar c = true) :
    wordClose (w ++ '}' :: rest) = some (w.length + 1) := by
  induction w with
  | nil => simp [wordClose]
  | cons c w ih =>
    have hc := hw c (List.mem_cons_self _ _)
    simp [wordClose, word_ne_rbrace hc, hc, ih (fun d hd => hw d (List.mem_cons_of_mem _ hd))]

theorem wordClose_some {cs : Str} {k : Nat} (h : wordClose cs = some k) :
    ∃ w rest, cs = w ++ '}' :: rest ∧ (∀ c ∈ w, isWordChar c = true) ∧ k = w.length + 1 := by
  induction cs generalizing k with
  | nil => simp [wordClose] at h
  | cons c cs ih =>
    unfold wordClose at h
    by_cases hc : c = '}'
    · rw [if_pos hc] at h
      injection h with h
      exact ⟨[], cs, by simp [hc], by simp, by simp [← h]⟩
    · rw [if_neg hc] at h
      by_cases hwc : isWordChar c = true
      · rw [if_pos hwc] at h
        cases hcs : wordClose cs with
        | none => rw [hcs] at h; cases h
        | some j =>
          rw [hcs] at h
          injection h with h
          obtain ⟨w, rest, h1, h2, h3⟩ := ih hcs
          refine ⟨c :: w, rest, by simp [h1], ?_, by simp [← h, h3]⟩
          intro d hd
          rcases List.mem_cons.mp hd with e | e
          · rw [e]; exact hwc
          · exact h2 d e
      · rw [if_neg hwc] at h; cases h

theorem genericTail_some {cs : Str} {n : Nat} (h : genericTail cs = some n) :
    ∃ w rest, cs = w ++ '}' :: rest ∧ w ≠ [] ∧ (∀ c ∈ w, isWordChar c = true)
      ∧ n = w.length + 2 := by
  cases cs with
  | nil => simp [genericTail] at h
  | cons c cs =>
    unfold genericTail at h
    dsimp only at h
    by_cases hwc : isWordChar c = true
    · rw [if_pos hwc] at h
      cases hcs : wordClose cs with
      | none => rw [hcs] at h; cases h
      | some j =>
        rw [hcs] at h
        injection h with h
        obtain ⟨w, rest, h1, h2, h3⟩ := wordClose_some hcs
        refine ⟨c :: w, rest, by simp [h1], by simp, ?_, by simp [← h, h3]⟩
        intro d hd
        rcases List.mem_cons.mp hd with e | e
        · rw [e]; exact hwc
        · exact h2 d e
    · rw [if_neg hwc] at h; cases h

theorem genericTail_of_word (w rest : Str) (hne : w ≠ [])
    (hw : ∀ c ∈ w, isWordChar c = true) :
    genericTail (w ++ '}' :: rest) = some (w.length + 2) := by
  cases w with
  | nil => exact absurd rfl hne
  | cons c w =>
    have hc := hw c (List.mem_cons_self _ _)
    simp [genericTail, hc, wordClose_of_word w rest (fun d hd => hw d (List.mem_cons_of_mem _ hd))]

theorem genericAt_ne_head (c : Char) (cs : Str) (h : c ≠ '{') : genericAt (c :: cs) = none := by
  simp [genericAt, h]

theorem wordClose_pass (matchAt : Str → Option Nat) (rep : Str)
    (hb : ∀ c cs, c ≠ '{' → matchAt (c :: cs) = none)
    (hrep : ∀ x, wordClose (rep ++ x) = none) (x : Str) :
    wordClose (replaceMatches matchAt rep x) = wordClose x := by
  induction x with
  | nil => rfl
  | cons c cs ih =>
    cases hm : matchAt (c :: cs) with
    | some len =>
      have hc : c = '{' := by
        by_contra hne
        rw [hb c cs hne] at hm
        cases hm
      have h1 : replaceMatches matchAt rep (c :: cs)
          = rep ++ scanReplace matchAt (fun _ _ _ => rep) (len - 1) [] cs := by
        unfold replaceMatches
        rw [Gherkin.scanReplace_zero_cons, hm]
      rw [h1, hrep, hc]
      simp [wordClose, isWordChar]
    | none =>
      rw [replaceMatches_cons_none _ _ _ _ hm]
      simp only [wordClose, ih]

theorem genericTail_pass (matchAt : Str → Option Nat) (rep : Str)
    (hb : ∀ c cs, c ≠ '{' → matchAt (c :: cs) = none)
    (hrep : ∀ x, wordClose (rep ++ x) = none) (hrep2 : ∀ x, genericTail (rep ++ x) = none)
    (x : Str) :
    genericTail (replaceMatches matchAt rep x) = genericTail x := by
  cases x with
  | nil => rfl
  | cons c cs =>
    cases hm : matchAt (c :: cs) with
    | some len =>
      have hc : c = '{' := by
        by_contra hne
        rw [hb c cs hne] at hm
        cases hm
      have h1 : replaceMatches matchAt rep (c :: cs)
          = rep ++ scanReplace matchAt (fun _ _ _ => rep) (len - 1) [] cs := by
        unfold replaceMatches
        rw [Gherkin.scanReplace_zero_cons, hm]
      rw [h1, hrep2, hc]
      simp [genericTail, isWordChar]
    | none =>
      rw [replaceMatches_cons_none _ _ _ _ hm]
      simp only [genericTail, wordClose_pass matchAt rep hb hrep cs]

theorem findReplaceAll_placeholder (k rep w x : Str) (hk : '}' ∉ k)
    (hw : ∀ c ∈ w, isWordChar c = true) :
    findReplaceAll ('{' :: (k ++ ['}'])) rep ('{' :: (w ++ '}' :: x))
      = if k = w then rep ++ findReplaceAll ('{' :: (k ++ ['}'])) rep x
        else '{' :: (w ++ '}' :: findReplaceAll ('{' :: (k ++ ['}'])) rep x) := by
  have hw2 : '}' ∉ w := fun e => word_ne_rbrace (hw _ e) rfl
  have hlit := litAt_bracket '{' '}' k w x hk hw2
  unfold findReplaceAll
  by_cases h : k = w
  · rw [if_pos h] at hlit ⊢
    have hshape : '{' :: (w ++ '}' :: x) = '{' :: ((w ++ ['}']) ++ x) := by simp
    rw [hshape] at hlit ⊢
    apply replaceMatches_match
    rw [hlit, h]
    simp
  · rw [if_neg h] at hlit ⊢
    rw [replaceMatches_cons_none _ _ _ _ hlit]
    have hshape : w ++ '}' :: x = (w ++ ['}']) ++ x := by simp
    rw [hshape, replaceMatches_copy]
    · simp
    · intro c hc cs
      apply Gherkin.litAt_ne_head
      rcases List.mem_append.mp hc with e | e
      · exact word_ne_lbrace (hw c e)
      · have : c = '}' := by simpa using e
        rw [this]; decide

theorem generic_placeholder (rep w x : Str) (hne : w ≠ [])
    (hw : ∀ c ∈ w, isWordChar c = true) :
    replaceMatches genericAt rep ('{' :: (w ++ '}' :: x))
      = rep ++ replaceMatches genericAt rep x := by
  have hshape : '{' :: (w ++ '}' :: x) = '{' :: ((w ++ ['}']) ++ x) := by simp
  rw [hshape]
  apply replaceMatches_match
  rw [← hshape]
  simp [genericAt, genericTail_of_word w x hne hw]

theorem expandPlaceholders_skip (xs rest : Str) :
    expandPlaceholders xs.length (xs ++ rest) = expandPlaceholders 0 rest := by
  induction xs with
  | nil => cases rest <;> rfl
  | cons x xs ih => simpa [expandPlaceholders] using ih

theorem expandPlaceholders_zero_cons (c : Char) (cs : Str) :
    expandPlaceholders 0 (c :: cs) =
      match placeholderAt (c :: cs) with
      | some (n, rep) => rep ++ expandPlaceholders (n - 1) cs
      | none => c :: expandPlaceholders 0 cs := rfl

theorem isPrefixOf_bracket (k w rest : Str) (hk : '}' ∉ k) (hw : '}' ∉ w) :
    ('{' :: (k ++ ['}'])).isPrefixOf ('{' :: (w ++ '}' :: rest)) = decide (k = w) := by
  have := litAt_bracket '{' '}' k w rest hk hw
  unfold litAt at this
  by_cases h : k = w
  · rw [if_pos h] at this
    by_cases hp : ('{' :: (k ++ ['}'])).isPrefixOf ('{' :: (w ++ '}' :: rest)) = true
    · simp [hp, h]
    · simp [hp] at this
  · rw [if_neg h] at this
    by_cases hp : ('{' :: (k ++ ['}'])).isPrefixOf ('{' :: (w ++ '}' :: rest)) = true
    · simp [hp] at this
    · simp [hp, h]

theorem passGeneric_eq (text : Str) :
    passGeneric text = replaceMatches genericAt ANY_PATTERN text := by
  have h : (fun m pre suf => regexFormat m pre suf ANY_PATTERN)
      = (fun (_ _ _ : Str) => ANY_PATTERN) := by
    funext m pre suf
    exact Gherkin.regexFormatGo_plain m pre suf ANY_PATTERN (by decide)
  unfold passGeneric replaceMatches
  rw [h]

theorem findReplaceAll_cons_ne (k rep : Str) (c : Char) (cs : Str) (h : c ≠ '{') :
    findReplaceAll ('{' :: k) rep (c :: cs) = c :: findReplaceAll ('{' :: k) rep cs :=
  replaceMatches_cons_none _ _ _ _ (Gherkin.litAt_ne_head _ _ _ _ h)

theorem findReplaceAll_copy (k rep r x : Str) (hr : ∀ c ∈ r, c ≠ '{') :
    findReplaceAll ('{' :: k) rep (r ++ x) = r ++ findReplaceAll ('{' :: k) rep x :=
  replaceMatches_copy _ _ _ _ (fun c hc _ => Gherkin.litAt_ne_head _ _ _ _ (hr c hc))

theorem generic_cons_ne (rep : Str) (c : Char) (cs : Str) (h : c ≠ '{') :
    replaceMatches genericAt rep (c :: cs) = c :: replaceMatches genericAt rep cs :=
  replaceMatches_cons_none _ _ _ _ (genericAt_ne_head _ _ h)

theorem generic_copy (rep r x : Str) (hr : ∀ c ∈ r, c ≠ '{') :
    replaceMatches genericAt rep (r ++ x) = r ++ replaceMatches genericAt rep x :=
  replaceMatches_copy _ _ _ _ (fun c hc _ => genericAt_ne_head _ _ (hr c hc))

theorem pat_int : "{int}".toList = '{' :: ("int".toList ++ ['}']) := rfl

theorem pat_float : "{float}".toList = '{' :: ("float".toList ++ ['}']) := rfl

theorem pat_string : "{string}".toList = '{' :: ("string".toList ++ ['}']) := rfl

theorem pat_word : "{word}".toList = '{' :: ("word".toList ++ ['}']) := rfl

/-- The group that the specification gives for the placeholder named `w`. -/
theorem placeholderAt_word (w rest : Str) (hne : w ≠ [])
    (hw : ∀ c ∈ w, isWordChar c = true) :
    placeholderAt ('{' :: (w ++ '}' :: rest))
      = some (w.length + 2,
          if "int".toList = w then INT_PATTERN
          else if "float".toList = w then FLOAT_PATTERN
          else if "string".toList = w then STRING_PATTERN
          else if "word".toList = w then WORD_PATTERN
          else ANY_PATTERN) := by
  have hw2 : '}' ∉ w := fun e => word_ne_rbrace (hw _ e) rfl
  unfold placeholderAt
  rw [pat_int, pat_float, pat_string, pat_word,
    isPrefixOf_bracket _ w rest (by decide) hw2, isPrefixOf_bracket _ w rest (by decide) hw2,
    isPrefixOf_bracket _ w rest (by decide) hw2, isPrefixOf_bracket _ w rest (by decide) hw2]
  simp only [decide_eq_true_eq]
  by_cases h1 : "int".toList = w
  · rw [if_pos h1, if_pos h1, ← h1]; rfl
  · rw [if_neg h1, if_neg h1]
    by_cases h2 : "float".toList = w
    · rw [if_pos h2, if_pos h2, ← h2]; rfl
    · rw [if_neg h2, if_neg h2]
      by_cases h3 : "string".toList = w
      · rw [if_pos h3, if_pos h3, ← h3]; rfl
      · rw [if_neg h3, if_neg h3]
        by_cases h4 : "word".toList = w
        · rw [if_pos h4, if_pos h4, ← h4]; rfl
        · rw [if_neg h4, if_neg h4]
          simp [genericAt, genericTail_of_word w rest hne hw]

theorem placeholderAt_ne_head (c : Char) (cs : Str) (h : c ≠ '{') :
    placeholderAt (c :: cs) = none := by
  have hb : ('{' == c) = false := by simpa using (Ne.symm h)
  unfold placeholderAt
  rw [pat_int, pat_float, pat_string, pat_word]
  simp [List.isPrefixOf, hb, genericAt, h]

theorem litAt_brace_no_generic (k : Str) (cs : Str) (hne : k ≠ [])
    (hk : ∀ c ∈ k, isWordChar c = true) (h : genericTail cs = none) :
    litAt ('{' :: (k ++ ['}'])) ('{' :: cs) = none := by
  unfold litAt
  by_cases hp : ('{' :: (k ++ ['}'])).isPrefixOf ('{' :: cs) = true
  · exfalso
    rw [List.isPrefixOf_iff_prefix] at hp
    obtain ⟨t, ht⟩ := hp
    have hcs : cs = k ++ '}' :: t := by
      simp only [List.cons_append, List.append_assoc, List.singleton_append, List.cons.injEq,
        true_and] at ht
      exact ht.symm
    rw [hcs, genericTail_of_word k t hne hk] at h
    cases h
  · simp [hp]

theorem placeholderAt_no_generic (cs : Str) (h : genericTail cs = none) :
    placeholderAt ('{' :: cs) = none := by
  have h1 := litAt_brace_no_generic "int".toList cs (by decide) (by decide) h
  have h2 := litAt_brace_no_generic "float".toList cs (by decide) (by decide) h
  have h3 := litAt_brace_no_generic "string".toList cs (by decide) (by decide) h
  have h4 := litAt_brace_no_generic "word".toList cs (by decide) (by decide) h
  unfold litAt at h1 h2 h3 h4
  unfold placeholderAt
  rw [pat_int, pat_float, pat_string, pat_word]
  have f : ∀ (p s : Str) (n : Nat), (if p.isPrefixOf s = true then some n else none) = none →
      p.isPrefixOf s = false := by
    intro p s n hh
    by_cases hp : p.isPrefixOf s = true
    · rw [if_pos hp] at hh; cases hh
    · exact Bool.eq_false_iff.mpr hp
  rw [f _ _ _ h1, f _ _ _ h2, f _ _ _ h3, f _ _ _ h4]
  simp [genericAt, h]

theorem findReplaceAll_brace (k rep cs : Str) (hne : k ≠ [])
    (hk : ∀ c ∈ k, isWordChar c = true) (h : genericTail cs = none) :
    findReplaceAll ('{' :: (k ++ ['}'])) rep ('{' :: cs)
      = '{' :: findReplaceAll ('{' :: (k ++ ['}'])) rep cs :=
  replaceMatches_cons_none _ _ _ _ (litAt_brace_no_generic k cs hne hk h)

theorem findReplaceAll_tail (k rep x : Str)
    (hrep : ∀ y, wordClose (rep ++ y) = none) (hrep2 : ∀ y, genericTail (rep ++ y) = none) :
    genericTail (findReplaceAll ('{' :: k) rep x) = genericTail x :=
  genericTail_pass _ _ (fun _ _ hc => Gherkin.litAt_ne_head _ _ _ _ hc) hrep hrep2 x

theorem expandPlaceholders_word (w rest : Str) (hne : w ≠ [])
    (hw : ∀ c ∈ w, isWordChar c = true) :
    expandPlaceholders 0 ('{' :: (w ++ '}' :: rest))
      = (if "int".toList = w then INT_PATTERN
          else if "float".toList = w then FLOAT_PATTERN
          else if "string".toList = w then STRING_PATTERN
          else if "word".toList = w then WORD_PATTERN
          else ANY_PATTERN) ++ expandPlaceholders 0 rest := by
  rw [expandPlaceholders_zero_cons, placeholderAt_word w rest hne hw]
  have := expandPlaceholders_skip (w ++ ['}']) rest
  simp only [List.length_append, List.length_singleton, List.append_assoc,
    List.singleton_append] at this
  show _ ++ expandPlaceholders (w.length + 2 - 1) (w ++ '}' :: rest) = _
  rw [show w.length + 2 - 1 = w.length + 1 from rfl, this]

theorem passes_eq (n : Nat) : ∀ e : Str, e.length ≤ n →
    passGeneric (passWord (passString (passFloat (passInt e)))) = expandPlaceholders 0 e := by
  have hINT : ∀ c ∈ INT_PATTERN, c ≠ '{' := by decide
  have hFLOAT : ∀ c ∈ FLOAT_PATTERN, c ≠ '{' := by decide
  have hSTRING : ∀ c ∈ STRING_PATTERN, c ≠ '{' := by decide
  have hWORD : ∀ c ∈ WORD_PATTERN, c ≠ '{' := by decide
  have wI : ∀ c ∈ "int".toList, isWordChar c = true := by decide
  have wF : ∀ c ∈ "float".toList, isWordChar c = true := by decide
  have wS : ∀ c ∈ "string".toList, isWordChar c = true := by decide
  have wW : ∀ c ∈ "word".toList, isWordChar c = true := by decide
  have tI : ∀ y, wordClose (INT_PATTERN ++ y) = none := fun _ => rfl
  have tF : ∀ y, wordClose (FLOAT_PATTERN ++ y) = none := fun _ => rfl
  have tS : ∀ y, wordClose (STRING_PATTERN ++ y) = none := fun _ => rfl
  have tW : ∀ y, wordClose (WORD_PATTERN ++ y) = none := fun _ => rfl
  have gI : ∀ y, genericTail (INT_PATTERN ++ y) = none := fun _ => rfl
  have gF : ∀ y, genericTail (FLOAT_PATTERN ++ y) = none := fun _ => rfl
  have gS : ∀ y, genericTail (STRING_PATTERN ++ y) = none := fun _ => rfl
  have gW : ∀ y, genericTail (WORD_PATTERN ++ y) = none := fun _ => rfl
  induction n with
  | zero =>
    intro e he
    have : e = [] := List.length_eq_zero.mp (Nat.le_zero.mp he)
    subst this
    rfl
  | succ n ih =>
    intro e he
    simp only [passGeneric_eq, passInt, passFloat, passString, passWord, pat_int, pat_float,
      pat_string, pat_word] at ih ⊢
    cases e with
    | nil => rfl
    | cons c cs =>
      have hcs : cs.length ≤ n := by simpa using he
      by_cases hc : c = '{'
      · subst hc
        cases hg : genericTail cs with
        | none =>
          rw [findReplaceAll_brace _ _ _ (by decide) wI hg]
          have g1 := findReplaceAll_tail ("int".toList ++ ['}']) INT_PATTERN cs tI gI
          rw [← g1] at hg
          rw [findReplaceAll_brace _ _ _ (by decide) wF hg]
          have g2 := findReplaceAll_tail ("float".toList ++ ['}']) FLOAT_PATTERN
            (findReplaceAll ('{' :: ("int".toList ++ ['}'])) INT_PATTERN cs) tF gF
          rw [← g2] at hg
          rw [findReplaceAll_brace _ _ _ (by decide) wS hg]
          have g3 := findReplaceAll_tail ("string".toList ++ ['}']) STRING_PATTERN
            (findReplaceAll ('{' :: ("float".toList ++ ['}'])) FLOAT_PATTERN
              (findReplaceAll ('{' :: ("int".toList ++ ['}'])) INT_PATTERN cs)) tS gS
          rw [← g3] at hg
          rw [findReplaceAll_brace _ _ _ (by decide) wW hg]
          have g4 := findReplaceAll_tail ("word".toList ++ ['}']) WORD_PATTERN
            (findReplaceAll ('{' :: ("string".toList ++ ['}'])) STRING_PATTERN
              (findReplaceAll ('{' :: ("float".toList ++ ['}'])) FLOAT_PATTERN
                (findReplaceAll ('{' :: ("int".toList ++ ['}'])) INT_PATTERN cs))) tW gW
          rw [← g4] at hg
          rw [replaceMatches_cons_none _ _ _ _ (by simpa [genericAt] using hg)]
          rw [ih cs hcs, expandPlaceholders_zero_cons,
            placeholderAt_no_generic cs (by rw [← g1, ← g2, ← g3, ← g4]; exact hg)]
        | some m =>
          obtain ⟨w, rest, rfl, hne, hw, -⟩ := genericTail_some hg
          have hrest : rest.length ≤ n := by
            simp only [List.length_append, List.length_cons] at hcs
            omega
          have hw2 : '}' ∉ w := fun e => word_ne_rbrace (hw _ e) rfl
          rw [expandPlaceholders_word w rest hne hw, ← ih rest hrest]
          rw [findReplaceAll_placeholder _ _ w _ (by decide) hw]
          by_cases h1 : "int".toList = w
          · rw [if_pos h1, if_pos h1, findReplaceAll_copy _ _ _ _ hINT,
              findReplaceAll_copy _ _ _ _ hINT, findReplaceAll_copy _ _ _ _ hINT,
              generic_copy _ _ _ hINT]
          · rw [if_neg h1, if_neg h1, findReplaceAll_placeholder _ _ w _ (by decide) hw]
            by_cases h2 : "float".toList = w
            · rw [if_pos h2, if_pos h2, findReplaceAll_copy _ _ _ _ hFLOAT,
                findReplaceAll_copy _ _ _ _ hFLOAT, generic_copy _ _ _ hFLOAT]
            · rw [if_neg h2, if_neg h2, findReplaceAll_placeholder _ _ w _ (by decide) hw]
              by_cases h3 : "string".toList = w
              · rw [if_pos h3, if_pos h3, findReplaceAll_copy _ _ _ _ hSTRING,
                  generic_copy _ _ _ hSTRING]
              · rw [if_neg h3, if_neg h3, findReplaceAll_placeholder _ _ w _ (by decide) hw]
                by_cases h4 : "word".toList = w
                · rw [if_pos h4, if_pos h4, generic_copy _ _ _ hWORD]
                · rw [if_neg h4, if_neg h4, generic_placeholder _ w _ hne hw]
      · rw [findReplaceAll_cons_ne _ _ _ _ hc, findReplaceAll_cons_ne _ _ _ _ hc,
          findReplaceAll_cons_ne _ _ _ _ hc, findReplaceAll_cons_ne _ _ _ _ hc,
          generic_cons_ne _ _ _ hc, ih cs hcs, expandPlaceholders_zero_cons,
          placeholderAt_ne_head c cs hc]

theorem toRegex_eq (e : Str) : toRegex e = "^".toList ++ expandPlaceholders 0 e ++ "$".toList := by
  unfold toRegex
  rw [passes_eq e.length e (Nat.le_refl _)]

/-- C9: `toRegex(e)` is `^`, then `e` with every `{int}`, `{float}`, `{string}`,
`{word}` replaced by its group, every other `{name}` placeholder by `(.+)` and
all other text unchanged, then `$`; the two expressions of the specification
give the regexes it states. -/
theorem toRegex_spec :
    (∀ e : Str, toRegex e = "^".toList ++ expandPlaceholders 0 e ++ "$".toList)
    ∧ toRegex "I have {int} cucumbers".toList = "^I have (-?\\d+) cucumbers$".toList
    ∧ toRegex "User {string} is logged in".toList
        = "^User \"([^\"]*)\" is logged in$".toList := by
  exact ⟨toRegex_eq, by decide, by decide⟩


/-! ## Step definitions -/

theorem meta_lbrace : isRegexMeta '{' = true := by decide

theorem plain_tail {s : Seg} {segs : List Seg} (h : PlainPattern (s :: segs)) :
    PlainPattern segs := fun t ht => h t (List.mem_cons_of_mem _ ht)

theorem expandPlaceholders_render (segs : List Seg) (hp : PlainPattern segs) :
    expandPlaceholders 0 (renderPattern segs) = regexOfSegs segs := by
  induction segs with
  | nil => rfl
  | cons s segs ih =>
    have hs := hp s (List.mem_cons_self _ _)
    have ih2 := ih (plain_tail hp)
    cases s with
    | lit c =>
      have hc : c ≠ '{' := by
        rintro rfl
        simp only [meta_lbrace] at hs
        cases hs
      show expandPlaceholders 0 (c :: renderPattern segs) = c :: regexOfSegs segs
      rw [expandPlaceholders_zero_cons, placeholderAt_ne_head c _ hc]
      show c :: _ = c :: _
      rw [ih2]
    | hole name =>
      obtain ⟨hne, hw⟩ := hs
      show expandPlaceholders 0 ('{' :: (name ++ ['}'] ++ renderPattern segs))
        = groupText name ++ regexOfSegs segs
      rw [List.append_assoc, List.singleton_append, expandPlaceholders_word name _ hne hw, ih2]
      rfl

theorem compileBody_skip (xs rest : Str) :
    compileBody xs.length (xs ++ rest) = compileBody 0 rest := by
  induction xs with
  | nil => cases rest <;> rfl
  | cons x xs ih => simpa [compileBody] using ih

theorem compileBody_zero_cons (c : Char) (cs : Str) :
    compileBody 0 (c :: cs) =
      match groupAt (c :: cs) with
      | some (n, g) => (compileBody (n - 1) cs).map (fun items => g :: items)
      | none =>
        if c = '.' then (compileBody 0 cs).map (fun items => .dot :: items)
        else if isRegexMeta c then none
        else (compileBody 0 cs).map (fun items => .lit c :: items) :=
  rfl

theorem isPrefixOf_self_append (p x : Str) : p.isPrefixOf (p ++ x) = true := by
  rw [List.isPrefixOf_iff_prefix]
  exact List.prefix_append _ _

theorem groupAt_groupText (name x : Str) :
    groupAt (groupText name ++ x) = some ((groupText name).length, itemOfName name) := by
  unfold groupText itemOfName
  by_cases h1 : "int".toList = name
  · rw [if_pos h1, if_pos h1]
    unfold groupAt
    rw [isPrefixOf_self_append]; rfl
  · rw [if_neg h1, if_neg h1]
    by_cases h2 : "float".toList = name
    · rw [if_pos h2, if_pos h2]
      unfold groupAt
      rw [show INT_PATTERN.isPrefixOf (FLOAT_PATTERN ++ x) = false from rfl,
        isPrefixOf_self_append]; rfl
    · rw [if_neg h2, if_neg h2]
      by_cases h3 : "string".toList = name
      · rw [if_pos h3, if_pos h3]
        unfold groupAt
        rw [show INT_PATTERN.isPrefixOf (STRING_PATTERN ++ x) = false from rfl,
          show FLOAT_PATTERN.isPrefixOf (STRING_PATTERN ++ x) = false from rfl,
          isPrefixOf_self_append]; rfl
      · rw [if_neg h3, if_neg h3]
        by_cases h4 : "word".toList = name
        · rw [if_pos h4, if_pos h4]
          unfold groupAt
          rw [show INT_PATTERN.isPrefixOf (WORD_PATTERN ++ x) = false from rfl,
            show FLOAT_PATTERN.isPrefixOf (WORD_PATTERN ++ x) = false from rfl,
            show STRING_PATTERN.isPrefixOf (WORD_PATTERN ++ x) = false from rfl,
            isPrefixOf_self_append]; rfl
        · rw [if_neg h4, if_neg h4]
          unfold groupAt
          rw [show INT_PATTERN.isPrefixOf (ANY_PATTERN ++ x) = false from rfl,
            show FLOAT_PATTERN.isPrefixOf (ANY_PATTERN ++ x) = false from rfl,
            show STRING_PATTERN.isPrefixOf (ANY_PATTERN ++ x) = false from rfl,
            show WORD_PATTERN.isPrefixOf (ANY_PATTERN ++ x) = false from rfl,
            isPrefixOf_self_append]; rfl

theorem groupText_cases (name : Str) :
    groupText name = INT_PATTERN ∨ groupText name = FLOAT_PATTERN
    ∨ groupText name = STRING_PATTERN ∨ groupText name = WORD_PATTERN
    ∨ groupText name = ANY_PATTERN := by
  unfold groupText
  by_cases h1 : "int".toList = name
  · rw [if_pos h1]; exact Or.inl rfl
  · rw [if_neg h1]
    by_cases h2 : "float".toList = name
    · rw [if_pos h2]; exact Or.inr (Or.inl rfl)
    · rw [if_neg h2]
      by_cases h3 : "string".toList = name
      · rw [if_pos h3]; exact Or.inr (Or.inr (Or.inl rfl))
      · rw [if_neg h3]
        by_cases h4 : "word".toList = name
        · rw [if_pos h4]; exact Or.inr (Or.inr (Or.inr (Or.inl rfl)))
        · rw [if_neg h4]; exact Or.inr (Or.inr (Or.inr (Or.inr rfl)))

theorem groupText_ne_nil (name : Str) : groupText name ≠ [] := by
  rcases groupText_cases name with h | h | h | h | h <;> rw [h] <;> decide

/-- The text after a literal quote never completes the text of the string group. -/
theorem string_group_not_at_quote (segs : List Seg) (hp : PlainPattern segs) (c : Char) :
    STRING_PATTERN.isPrefixOf (c :: regexOfSegs segs) = false := by
  cases segs with
  | nil =>
    show STRING_PATTERN.isPrefixOf [c] = false
    simp [STRING_PATTERN, List.isPrefixOf]
  | cons s segs =>
    have hs := hp s (List.mem_cons_self _ _)
    cases s with
    | lit c2 =>
      show STRING_PATTERN.isPrefixOf (c :: c2 :: regexOfSegs segs) = false
      have h2 : c2 ≠ '(' := by
        rintro rfl
        exact absurd hs (by decide)
      have hb : ('(' == c2) = false := by simpa using (Ne.symm h2)
      simp [STRING_PATTERN, List.isPrefixOf, hb]
    | hole name =>
      show STRING_PATTERN.isPrefixOf (c :: (groupText name ++ regexOfSegs segs)) = false
      rcases groupText_cases name with h | h | h | h | h <;> rw [h] <;>
        simp [STRING_PATTERN, INT_PATTERN, FLOAT_PATTERN, WORD_PATTERN, ANY_PATTERN,
          List.isPrefixOf]

theorem groupAt_lit (segs : List Seg) (hp : PlainPattern segs) (c : Char)
    (hc : isRegexMeta c = false) : groupAt (c :: regexOfSegs segs) = none := by
  have h1 : c ≠ '(' := by
    rintro rfl
    exact absurd hc (by decide)
  have hb : ('(' == c) = false := by simpa using (Ne.symm h1)
  unfold groupAt
  rw [string_group_not_at_quote segs hp c]
  simp [INT_PATTERN, FLOAT_PATTERN, WORD_PATTERN, ANY_PATTERN, List.isPrefixOf, hb]

theorem compileBody_regexOfSegs (segs : List Seg) (hp : PlainPattern segs) :
    compileBody 0 (regexOfSegs segs) = some (segs.map Seg.item) := by
  induction segs with
  | nil => rfl
  | cons s segs ih =>
    have hs := hp s (List.mem_cons_self _ _)
    have ih2 := ih (plain_tail hp)
    cases s with
    | lit c =>
      show compileBody 0 (c :: regexOfSegs segs) = _
      have hdot : c ≠ '.' := by
        rintro rfl
        exact absurd hs (by decide)
      rw [compileBody_zero_cons, groupAt_lit segs (plain_tail hp) c hs]
      simp only [hs, hdot, Bool.false_eq_true, if_false, ih2]
      rfl
    | hole name =>
      show compileBody 0 (groupText name ++ regexOfSegs segs) = _
      have hg := groupAt_groupText name (regexOfSegs segs)
      cases hgt : groupText name with
      | nil => exact absurd hgt (groupText_ne_nil name)
      | cons g gs =>
        rw [hgt] at hg
        rw [List.cons_append, compileBody_zero_cons, ← List.cons_append, hg]
        show (compileBody (gs.length + 1 - 1) (gs ++ regexOfSegs segs)).map _ = _
        rw [Nat.add_sub_cancel, compileBody_skip, ih2]
        rfl

theorem compileRegex_toRegex (segs : List Seg) (hp : PlainPattern segs) :
    compileRegex (toRegex (renderPattern segs)) = some (segs.map Seg.item) := by
  rw [toRegex_eq, expandPlaceholders_render segs hp]
  show compileRegex ('^' :: (regexOfSegs segs ++ ['$'])) = _
  unfold compileRegex
  simp only [List.getLast?_concat, List.dropLast_concat, decide_True, Bool.and_self, if_true]
  exact compileBody_regexOfSegs segs hp


theorem searchType_cons (c : Char) (cs : Str) :
    searchType (c :: cs) =
      match genericAt (c :: cs) with
      | some n => some (cs.take (n - 2), cs.drop (n - 1))
      | none => searchType cs := rfl

theorem searchType_hole (name x : Str) (hne : name ≠ [])
    (hw : ∀ c ∈ name, isWordChar c = true) :
    searchType ('{' :: (name ++ '}' :: x)) = some (name, x) := by
  have hg : genericAt ('{' :: (name ++ '}' :: x)) = some (name.length + 2) := by
    simp [genericAt, genericTail_of_word name x hne hw]
  rw [searchType_cons, hg]
  simp only [Nat.add_sub_cancel, Option.some.injEq, Prod.mk.injEq]
  constructor
  · exact List.take_left' rfl
  · have : name ++ '}' :: x = (name ++ ['}']) ++ x := by simp
    rw [this]
    exact List.drop_left' (by simp)

theorem collectTypes_render (segs : List Seg) (hp : PlainPattern segs) :
    ∀ (fuel : Nat) (types : List Str), (renderPattern segs).length ≤ fuel →
      collectTypes fuel (renderPattern segs) types = types ++ holeNames segs := by
  induction segs with
  | nil =>
    intro fuel types _
    cases fuel with
    | zero => simp [collectTypes, holeNames]
    | succ f => simp [collectTypes, renderPattern, searchType, holeNames]
  | cons s segs ih =>
    intro fuel types hf
    have hs := hp s (List.mem_cons_self _ _)
    have ih2 := ih (plain_tail hp)
    cases s with
    | lit c =>
      have hc : c ≠ '{' := by
        rintro rfl
        simp only [meta_lbrace] at hs
        cases hs
      have hr : renderPattern (Seg.lit c :: segs) = c :: renderPattern segs := rfl
      rw [hr] at hf ⊢
      cases fuel with
      | zero => simp at hf
      | succ f =>
        have hlen : (renderPattern segs).length ≤ f + 1 := by
          simp only [List.length_cons] at hf; omega
        have h1 := ih2 (f + 1) types hlen
        unfold collectTypes at h1 ⊢
        rw [searchType_cons, genericAt_ne_head c _ hc]
        exact h1
    | hole name =>
      obtain ⟨hne, hw⟩ := hs
      have hr : renderPattern (Seg.hole name :: segs)
          = '{' :: (name ++ '}' :: renderPattern segs) := by
        show '{' :: (name ++ ['}'] ++ renderPattern segs) = _
        simp
      rw [hr] at hf ⊢
      cases fuel with
      | zero => simp at hf
      | succ f =>
        have hlen : (renderPattern segs).length ≤ f := by
          simp only [List.length_cons, List.length_append] at hf; omega
        unfold collectTypes
        rw [searchType_hole name _ hne hw]
        show collectTypes f (renderPattern segs) (types ++ [name]) = _
        rw [ih2 f _ hlen]
        simp [holeNames]

theorem matchItems_group (g : Item) (hg : g.isGroup = true) (items : List Item) (text : Str) :
    matchItems (g :: items) text
      = (splitsDesc text).findSome? (fun ps =>
          if g.accepts ps.1 then
            (matchItems items ps.2).map (fun caps => g.capture ps.1 :: caps)
          else none) := by
  cases g with
  | lit c => cases hg
  | dot => cases hg
  | int => rfl
  | float => rfl
  | str => rfl
  | word => rfl
  | any => rfl

theorem mem_splitsDesc {text p s : Str} (h : (p, s) ∈ splitsDesc text) : p ++ s = text := by
  unfold splitsDesc at h
  obtain ⟨n, _, hn⟩ := List.mem_map.mp h
  injection hn with h1 h2
  rw [← h1, ← h2]
  exact List.take_append_drop n text

theorem quoted_shape {p : Str} (h : isQuotedText p = true) :
    p = dquote :: (p.tail.dropLast ++ [dquote]) := by
  cases p with
  | nil => simp [isQuotedText] at h
  | cons c cs =>
    simp only [isQuotedText, Bool.and_eq_true, decide_eq_true_eq] at h
    obtain ⟨⟨h1, h2⟩, _⟩ := h
    rw [h1]
    show dquote :: cs = dquote :: (cs.dropLast ++ [dquote])
    rw [List.dropLast_append_getLast? dquote (by simp [h2])]

theorem assemble_lit (c : Char) (items : List Item) (caps : List Str) :
    assemble (.lit c :: items) caps = c :: assemble items caps := by
  cases caps <;> rfl

theorem assemble_group (g : Item) (hg : g.isGroup = true) (items : List Item) (cap : Str)
    (caps : List Str) :
    assemble (g :: items) (cap :: caps)
      = (if g = .str then dquote :: (cap ++ [dquote]) else cap) ++ assemble items caps := by
  cases g with
  | lit c => cases hg
  | dot => cases hg
  | int => rfl
  | float => rfl
  | str => simp [assemble]
  | word => rfl
  | any => rfl

theorem matchItems_sound (items : List Item) :
    ∀ (text : Str) (caps : List Str), (∀ i ∈ items, i ≠ Item.dot) →
      matchItems items text = some caps →
      caps.length = (items.filter Item.isGroup).length ∧ text = assemble items caps := by
  induction items with
  | nil =>
    intro text caps _ h
    cases text with
    | nil =>
      simp only [matchItems, List.isEmpty_nil, if_true, Option.some.injEq] at h
      subst h
      exact ⟨rfl, rfl⟩
    | cons t ts => simp [matchItems] at h
  | cons g items ih =>
    intro text caps hd h
    have hd2 : ∀ i ∈ items, i ≠ Item.dot := fun i hi => hd i (List.mem_cons_of_mem _ hi)
    by_cases hg : g.isGroup = true
    · rw [matchItems_group g hg] at h
      obtain ⟨⟨p, s⟩, hmem, hf⟩ := List.exists_of_findSome?_eq_some h
      have hps := mem_splitsDesc hmem
      by_cases hacc : g.accepts p = true
      · simp only [hacc, if_true] at hf
        cases hrest : matchItems items s with
        | none => rw [hrest] at hf; cases hf
        | some caps2 =>
          rw [hrest] at hf
          injection hf with hf
          subst hf
          obtain ⟨h1, h2⟩ := ih s caps2 hd2 hrest
          refine ⟨by simp [List.filter_cons, hg, h1], ?_⟩
          rw [assemble_group g hg, ← hps, ← h2]
          congr 1
          by_cases hstr : g = .str
          · subst hstr
            rw [if_pos rfl]
            exact quoted_shape (p := p) hacc
          · rw [if_neg hstr]
            cases g with
            | lit c => cases hg
            | dot => cases hg
            | str => exact absurd rfl hstr
            | int => rfl
            | float => rfl
            | word => rfl
            | any => rfl
      · simp only [hacc, Bool.false_eq_true, if_false] at hf
        cases hf
    · cases g with
      | lit c =>
        cases text with
        | nil => simp [matchItems] at h
        | cons t ts =>
          simp only [matchItems] at h
          by_cases hct : c = t
          · rw [if_pos hct] at h
            obtain ⟨h1, h2⟩ := ih ts caps hd2 h
            refine ⟨by simp [List.filter_cons, Item.isGroup, h1], ?_⟩
            rw [assemble_lit, ← hct, ← h2]
          · rw [if_neg hct] at h; cases h
      | dot => exact absurd rfl (hd Item.dot (List.mem_cons_self _ _))
      | int => exact absurd rfl hg
      | float => exact absurd rfl hg
      | str => exact absurd rfl hg
      | word => exact absurd rfl hg
      | any => exact absurd rfl hg

theorem itemOfName_isGroup (name : Str) : (itemOfName name).isGroup = true := by
  unfold itemOfName
  by_cases h1 : "int".toList = name
  · rw [if_pos h1]; rfl
  · rw [if_neg h1]
    by_cases h2 : "float".toList = name
    · rw [if_pos h2]; rfl
    · rw [if_neg h2]
      by_cases h3 : "string".toList = name
      · rw [if_pos h3]; rfl
      · rw [if_neg h3]
        by_cases h4 : "word".toList = name
        · rw [if_pos h4]; rfl
        · rw [if_neg h4]; rfl

theorem itemOfName_ne_dot (name : Str) : itemOfName name ≠ Item.dot := by
  intro h
  have h1 := itemOfName_isGroup name
  rw [h] at h1
  cases h1

theorem items_no_dot (segs : List Seg) : ∀ i ∈ segs.map Seg.item, i ≠ Item.dot := by
  intro i hi
  obtain ⟨s, _, hs⟩ := List.mem_map.mp hi
  rw [← hs]
  cases s with
  | lit c => intro h; cases h
  | hole name => exact itemOfName_ne_dot name

theorem groups_of_segs (segs : List Seg) :
    ((segs.map Seg.item).filter Item.isGroup).length = (holeNames segs).length := by
  induction segs with
  | nil => rfl
  | cons s segs ih =>
    cases s with
    | lit c =>
      simp only [List.map_cons, List.filter_cons, Seg.item, Item.isGroup, Bool.false_eq_true,
        if_false, holeNames]
      exact ih
    | hole name =>
      simp only [List.map_cons, List.filter_cons, Seg.item, itemOfName_isGroup, if_true,
        holeNames, List.length_cons]
      rw [ih]

theorem groups_eq_names (segs : List Seg) :
    (segs.map Seg.item).filter Item.isGroup = (holeNames segs).map itemOfName := by
  induction segs with
  | nil => rfl
  | cons s segs ih =>
    cases s with
    | lit c =>
      simp only [List.map_cons, List.filter_cons, Seg.item, Item.isGroup, Bool.false_eq_true,
        if_false, holeNames]
      exact ih
    | hole name =>
      simp only [List.map_cons, List.filter_cons, Seg.item, itemOfName_isGroup, if_true,
        holeNames]
      rw [ih]

theorem capShape_capture (g : Item) (hg : g.isGroup = true) (p : Str)
    (hacc : g.accepts p = true) : capShape g (g.capture p) := by
  cases g with
  | lit c => cases hg
  | dot => cases hg
  | int => exact hacc
  | float => exact hacc
  | word => exact hacc
  | any => exact hacc
  | str =>
    show dquote ∉ p.tail.dropLast
    cases p with
    | nil => simp [Item.accepts, isQuotedText] at hacc
    | cons c cs =>
      simp only [Item.accepts, isQuotedText, Bool.and_eq_true, decide_eq_true_eq,
        List.all_eq_true] at hacc
      intro hmem
      have := hacc.2 dquote hmem
      simp at this

theorem matchItems_shapes (items : List Item) :
    ∀ (text : Str) (caps : List Str), matchItems items text = some caps →
      List.Forall₂ capShape (items.filter Item.isGroup) caps := by
  induction items with
  | nil =>
    intro text caps h
    cases text with
    | nil =>
      simp only [matchItems, List.isEmpty_nil, if_true, Option.some.injEq] at h
      subst h
      exact List.Forall₂.nil
    | cons t ts => simp [matchItems] at h
  | cons g items ih =>
    intro text caps h
    by_cases hg : g.isGroup = true
    · rw [matchItems_group g hg] at h
      obtain ⟨⟨p, s⟩, _, hf⟩ := List.exists_of_findSome?_eq_some h
      by_cases hacc : g.accepts p = true
      · simp only [hacc, if_true] at hf
        cases hrest : matchItems items s with
        | none => rw [hrest] at hf; cases hf
        | some caps2 =>
          rw [hrest] at hf
          injection hf with hf
          subst hf
          rw [List.filter_cons, if_pos hg]
          exact List.Forall₂.cons (capShape_capture g hg p hacc) (ih s caps2 hrest)
      · simp only [hacc, Bool.false_eq_true, if_false] at hf
        cases hf
    · cases g with
      | lit c =>
        cases text with
        | nil => simp [matchItems] at h
        | cons t ts =>
          simp only [matchItems] at h
          by_cases hct : c = t
          · rw [if_pos hct] at h
            rw [List.filter_cons]
            simp only [Item.isGroup, Bool.false_eq_true, if_false]
            exact ih ts caps h
          · rw [if_neg hct] at h; cases h
      | dot =>
        cases text with
        | nil => simp [matchItems] at h
        | cons t ts =>
          simp only [matchItems] at h
          by_cases hct : t ≠ '\n' ∧ t ≠ '\r'
          · rw [if_pos hct] at h
            rw [List.filter_cons]
            simp only [Item.isGroup, Bool.false_eq_true, if_false]
            exact ih ts caps h
          · rw [if_neg hct] at h; cases h
      | int => exact absurd rfl hg
      | float => exact absurd rfl hg
      | str => exact absurd rfl hg
      | word => exact absurd rfl hg
      | any => exact absurd rfl hg

theorem takeWhile_all {p : Char → Bool} {l : Str} (h : l.all p = true) : l.takeWhile p = l := by
  induction l with
  | nil => rfl
  | cons c cs ih =>
    simp only [List.all_cons, Bool.and_eq_true] at h
    simp [List.takeWhile, h.1, ih h.2]

theorem stoi_of_intText (v : Str) (h : isIntText v = true) :
    stoi v = if intOfText v < -(2 : Int) ^ 31 ∨ (2 : Int) ^ 31 - 1 < intOfText v
      then .error .out_of_range else .ok (intOfText v) := by
  cases v with
  | nil => simp [isIntText, dropMinus] at h
  | cons c cs =>
    by_cases hc : c = '-'
    · subst hc
      have hd : cs.all Char.isDigit = true ∧ cs ≠ [] := by
        simp only [isIntText, dropMinus, if_true, Bool.and_eq_true, Bool.not_eq_true',
          List.isEmpty_eq_false] at h
        exact ⟨h.2, h.1⟩
      have hne : (cs.takeWhile Char.isDigit).isEmpty = false := by
        rw [takeWhile_all hd.1]
        cases cs with
        | nil => exact absurd rfl hd.2
        | cons _ _ => rfl
      unfold stoi intOfText
      have hsp : List.dropWhile isSpaceChar ('-' :: cs) = '-' :: cs := by
        simp [List.dropWhile, isSpaceChar]
      have hne2 : cs.isEmpty = false := by
        cases cs with
        | nil => exact absurd rfl hd.2
        | cons _ _ => rfl
      simp only [hsp, List.head?_cons, List.tail_cons, Bool.true_or, if_true, hne,
        Bool.false_eq_true, if_false, decide_True, takeWhile_all hd.1, hne2]
    · have hd : (c :: cs).all Char.isDigit = true := by
        simp only [isIntText, dropMinus, hc, if_false, Bool.and_eq_true] at h
        exact h.2
      have hcd : c.isDigit = true := by
        simp only [List.all_cons, Bool.and_eq_true] at hd
        exact hd.1
      have hplus : c ≠ '+' := by
        rintro rfl
        exact absurd hcd (by decide)
      have hsp : List.dropWhile isSpaceChar (c :: cs) = c :: cs := by
        have : isSpaceChar c = false := by
          unfold isSpaceChar
          have e1 : c ≠ ' ' := by rintro rfl; exact absurd hcd (by decide)
          have e2 : c ≠ '\t' := by rintro rfl; exact absurd hcd (by decide)
          have e3 : c ≠ '\n' := by rintro rfl; exact absurd hcd (by decide)
          have e4 : c ≠ '\r' := by rintro rfl; exact absurd hcd (by decide)
          have e5 : c ≠ Char.ofNat 11 := by rintro rfl; exact absurd hcd (by decide)
          have e6 : c ≠ Char.ofNat 12 := by rintro rfl; exact absurd hcd (by decide)
          simp [e1, e2, e3, e4, e5, e6]
        simp [List.dropWhile, this]
      have hne : ((c :: cs).takeWhile Char.isDigit).isEmpty = false := by
        rw [takeWhile_all hd]; rfl
      unfold stoi intOfText
      have h1 : (some c = some '-') = False := by simp [hc]
      have h2 : (some c = some '+') = False := by simp [hplus]
      simp only [hsp, List.head?_cons, h1, h2, decide_False, Bool.or_self, Bool.false_eq_true,
        if_false, hne, takeWhile_all hd, List.isEmpty_cons]

/-- C10, as stated, fails on two inputs: a `{bool}` placeholder is not returned
as the captured string but as a boolean, and an `{int}` placeholder whose digits
do not fit an `int` returns no value at all (the conversion raises). -/
theorem extractParameters_bool_and_overflow :
    (StepDefinition.new "the flag is {bool}".toList).extractParameters stodText
        "the flag is yes".toList = .ok [.bool true]
    ∧ (StepDefinition.new "I have {int} cucumbers".toList).extractParameters stodText
        "I have 99999999999 cucumbers".toList = .error .out_of_range := by
  constructor <;> rfl

/-- C10, amended: for a pattern made of literal text without regex
metacharacter and of placeholders, and a step text that matches it,
`extractParameters` converts one captured text per placeholder, in placeholder
order, by the placeholder's name, and returns the values unless a conversion
raises: `int` by `std::stoi` (the written integer, or `out_of_range`), `float`
and `double` by `std::stod`, `bool` to a boolean, every other name (`string`,
`word`, generic names) to the captured text itself.  The captured texts are the
parts of the step text at the placeholders, for `{string}` the text between the
quotes. -/
theorem extractParameters_by_type {D : Type} (stod : Str → Except ConvError D)
    (segs : List Seg) (hp : PlainPattern segs) (text : Str) (caps : List Str)
    (hm : regexMatch (toRegex (renderPattern segs)) text = some caps) :
    caps.length = (holeNames segs).length
    ∧ text = assemble (segs.map Seg.item) caps
    ∧ List.Forall₂ (fun name cap => capShape (itemOfName name) cap) (holeNames segs) caps
    ∧ (StepDefinition.new (renderPattern segs)).parameterTypes = holeNames segs
    ∧ (StepDefinition.new (renderPattern segs)).extractParameters stod text
        = convertAll stod caps (holeNames segs)
    ∧ (∀ v : Str, convertParameter stod v "int".toList = (stoi v).map .int
        ∧ (isIntText v = true →
            stoi v = if intOfText v < -(2 : Int) ^ 31 ∨ (2 : Int) ^ 31 - 1 < intOfText v
              then .error .out_of_range else .ok (intOfText v))
        ∧ convertParameter stod v "float".toList = (stod v).map .double
        ∧ convertParameter stod v "double".toList = (stod v).map .double
        ∧ convertParameter stod v "bool".toList
            = .ok (.bool (v = "true".toList || v = "yes".toList || v = "1".toList))
        ∧ ∀ name : Str, name ≠ "int".toList → name ≠ "float".toList →
            name ≠ "double".toList → name ≠ "bool".toList →
            convertParameter stod v name = .ok (.string v)) := by
  have hcomp := compileRegex_toRegex segs hp
  have hm2 : matchItems (segs.map Seg.item) text = some caps := by
    unfold regexMatch at hm
    rw [hcomp] at hm
    exact hm
  obtain ⟨h1, h2⟩ := matchItems_sound _ _ _ (items_no_dot segs) hm2
  have h3 := matchItems_shapes _ _ _ hm2
  have htypes : (StepDefinition.new (renderPattern segs)).parameterTypes = holeNames segs := by
    show collectTypes (renderPattern segs).length (renderPattern segs) [] = holeNames segs
    rw [collectTypes_render segs hp _ _ (Nat.le_refl _)]
    rfl
  refine ⟨by rw [h1, groups_of_segs], h2, ?_, htypes, ?_, ?_⟩
  · rw [groups_eq_names] at h3
    exact (List.forall₂_map_left_iff).mp h3
  · unfold StepDefinition.extractParameters
    rw [htypes]
    show (match regexMatch (toRegex (renderPattern segs)) text with
      | none => Except.ok []
      | some values => convertAll stod values (holeNames segs)) = _
    rw [hm]
  · intro v
    refine ⟨rfl, stoi_of_intText v, rfl, rfl, rfl, ?_⟩
    intro name n1 n2 n3 n4
    unfold convertParameter
    rw [if_neg n1, if_neg (fun h => h.elim n2 n3), if_neg n4]

theorem segsCount_plain : PlainPattern segsCount := by
  intro s hs
  simp only [segsCount, List.mem_cons, List.mem_singleton, List.not_mem_nil, or_false] at hs
  rcases hs with rfl | rfl | rfl
  · show isRegexMeta 'n' = false
    decide
  · show isRegexMeta '=' = false
    decide
  · exact ⟨by decide, by decide⟩

/-- C10, amended, on the pattern `n={int}` and the step text `n=42`. -/
theorem extractParameters_by_type_witness :
    regexMatch (toRegex (renderPattern segsCount)) "n=42".toList = some ["42".toList]
    ∧ (StepDefinition.new (renderPattern segsCount)).extractParameters stodText "n=42".toList
        = convertAll stodText ["42".toList] (holeNames segsCount) :=
  ⟨by decide,
    (extractParameters_by_type stodText segsCount segsCount_plain "n=42".toList ["42".toList]
      (by decide)).2.2.2.2.1⟩


/-! ## The shared data of a step context and of a world -/

theorem mapFind_mapSet {α : Type} (m : List (Str × α)) (k k' : Str) (v : α) :
    mapFind (mapSet m k v) k' = if k' = k then some v else mapFind m k' := by
  induction m with
  | nil =>
    by_cases h : k' = k
    · subst h
      simp [mapSet, mapFind]
    · have h' : ¬ k = k' := fun e => h e.symm
      simp [mapSet, mapFind, h, h']
  | cons kv m ih =>
    obtain ⟨k0, v0⟩ := kv
    by_cases h0 : k0 = k
    · subst h0
      by_cases h : k' = k0
      · subst h
        simp [mapSet, mapFind]
      · have h' : ¬ k0 = k' := fun e => h e.symm
        simp [mapSet, mapFind, h, h']
    · by_cases h : k0 = k'
      · subst h
        have h' : ¬ k0 = k := h0
        simp [mapSet, mapFind, h0]
      · simp [mapSet, mapFind, h0, h, ih]

theorem mapFind_setAll_context {D : Type} (kvs : List (Str × ParamValue D))
    (ctx : StepContext D) (k : Str) (hk : k ∉ kvs.map Prod.fst) :
    mapFind (ctx.setAll kvs).sharedData k = mapFind ctx.sharedData k := by
  induction kvs generalizing ctx with
  | nil => rfl
  | cons kv kvs ih =>
    obtain ⟨k0, v0⟩ := kv
    have h0 : k ≠ k0 := fun e => hk (by rw [List.map_cons, e]; exact List.mem_cons_self _ _)
    have hrest : k ∉ kvs.map Prod.fst := fun hmem =>
      hk (by rw [List.map_cons]; exact List.mem_cons_of_mem _ hmem)
    show mapFind ((ctx.set k0 v0).setAll kvs).sharedData k = _
    rw [ih (ctx.set k0 v0) hrest]
    show mapFind (mapSet ctx.sharedData k0 v0) k = _
    rw [mapFind_mapSet, if_neg h0]

theorem mapFind_setAll_world {D : Type} (kvs : List (Str × ParamValue D))
    (w : Domain.World D) (k : Str) (hk : k ∉ kvs.map Prod.fst) :
    mapFind (w.setAll kvs).data k = mapFind w.data k := by
  induction kvs generalizing w with
  | nil => rfl
  | cons kv kvs ih =>
    obtain ⟨k0, v0⟩ := kv
    have h0 : k ≠ k0 := fun e => hk (by rw [List.map_cons, e]; exact List.mem_cons_self _ _)
    have hrest : k ∉ kvs.map Prod.fst := fun hmem =>
      hk (by rw [List.map_cons]; exact List.mem_cons_of_mem _ hmem)
    show mapFind ((w.set k0 v0).setAll kvs).data k = _
    rw [ih (w.set k0 v0) hrest]
    show mapFind (mapSet w.data k0 v0) k = _
    rw [mapFind_mapSet, if_neg h0]

/-- Claim C15: for every `StepContext`, key `k` and value `v`: after `set(k, v)`,
`hasKey(k)` holds and `get(k)` returns `v`, also when `k` had a value before; the
other keys keep what they had; and `get(k)` raises the error
`Shared data key not found: k` for a key without a value, such as every key
that none of the calls of `set` since the constructor has named.  The same holds
of `World::set`, `get` and `has`, with the error `Key not found: k`. -/
theorem set_get_hasKey {D : Type} (ctx : StepContext D) (w : Domain.World D) (k : Str)
    (v : ParamValue D) :
    ((ctx.set k v).hasKey k = true
      ∧ (∀ (T : Type) (cast : ParamValue D → Option T) (t : T), cast v = some t →
          (ctx.set k v).get cast k = .ok t)
      ∧ (∀ (T : Type) (cast : ParamValue D → Option T) (k' : Str), k' ≠ k →
          (ctx.set k v).get cast k' = ctx.get cast k'
            ∧ (ctx.set k v).hasKey k' = ctx.hasKey k')
      ∧ (∀ (T : Type) (cast : ParamValue D → Option T), ctx.hasKey k = false →
          ctx.get cast k = .error (.runtime_error ("Shared data key not found: ".toList ++ k)))
      ∧ (∀ (T : Type) (cast : ParamValue D → Option T) (step : Step)
          (params : List (ParamValue D)) (kvs : List (Str × ParamValue D)),
          k ∉ kvs.map Prod.fst →
            ((StepContext.new step params).setAll kvs).hasKey k = false
              ∧ ((StepContext.new step params).setAll kvs).get cast k
                = .error (.runtime_error ("Shared data key not found: ".toList ++ k))))
    ∧ ((w.set k v).has k = true
      ∧ (∀ (T : Type) (cast : ParamValue D → Option T) (t : T), cast v = some t →
          (w.set k v).get cast k = .ok t)
      ∧ (∀ (T : Type) (cast : ParamValue D → Option T) (k' : Str), k' ≠ k →
          (w.set k v).get cast k' = w.get cast k' ∧ (w.set k v).has k' = w.has k')
      ∧ (∀ (T : Type) (cast : ParamValue D → Option T), w.has k = false →
          w.get cast k = .error (.runtime_error ("Key not found: ".toList ++ k)))
      ∧ (∀ (T : Type) (cast : ParamValue D → Option T) (kvs : List (Str × ParamValue D)),
          k ∉ kvs.map Prod.fst →
            ((Domain.World.mk []).setAll kvs).has k = false
              ∧ ((Domain.World.mk []).setAll kvs).get cast k
                = .error (.runtime_error ("Key not found: ".toList ++ k)))) := by
  have hself : ∀ m : List (Str × ParamValue D), mapFind (mapSet m k v) k = some v := by
    intro m
    rw [mapFind_mapSet, if_pos rfl]
  have hother : ∀ (m : List (Str × ParamValue D)) (k' : Str), k' ≠ k →
      mapFind (mapSet m k v) k' = mapFind m k' := by
    intro m k' h
    rw [mapFind_mapSet, if_neg h]
  refine ⟨⟨?_, ?_, ?_, ?_, ?_⟩, ⟨?_, ?_, ?_, ?_, ?_⟩⟩
  · simp [StepContext.hasKey, StepContext.set, hself]
  · intro T cast t ht
    simp [StepContext.get, StepContext.set, hself, ht]
  · intro T cast k' h
    simp [StepContext.get, StepContext.hasKey, StepContext.set, hother _ k' h]
  · intro T cast h
    have hnone : mapFind ctx.sharedData k = none := by
      simpa [StepContext.hasKey] using h
    simp [StepContext.get, hnone]
  · intro T cast step params kvs hk
    have hnone : mapFind ((StepContext.new step params).setAll kvs).sharedData k = none := by
      rw [mapFind_setAll_context kvs _ k hk]
      rfl
    simp [StepContext.get, StepContext.hasKey, hnone]
  · simp [Domain.World.has, Domain.World.set, hself]
  · intro T cast t ht
    simp [Domain.World.get, Domain.World.set, hself, ht]
  · intro T cast k' h
    simp [Domain.World.get, Domain.World.has, Domain.World.set, hother _ k' h]
  · intro T cast h
    have hnone : mapFind w.data k = none := by
      simpa [Domain.World.has] using h
    simp [Domain.World.get, hnone]
  · intro T cast kvs hk
    have hnone : mapFind ((Domain.World.mk []).setAll kvs).data k = none := by
      rw [mapFind_setAll_world kvs _ k hk]
      rfl
    simp [Domain.World.get, Domain.World.has, hnone]

/-! ## The lookup of a step definition -/

theorem firstMatching_none_iff {D : Type} (defs : List (RegisteredStep D)) (text : Str) :
    firstMatching defs text = none ↔ ∀ sd ∈ defs, sd.definition.matches text = false := by
  induction defs with
  | nil => simp [firstMatching]
  | cons sd defs ih =>
    by_cases h : sd.definition.matches text = true
    · simp [firstMatching, h]
    · have h' : sd.definition.matches text = false := by simpa using h
      simp [firstMatching, h', ih]

theorem firstMatching_some {D : Type} (defs : List (RegisteredStep D)) (text : Str)
    (sd : RegisteredStep D) (h : firstMatching defs text = some sd) :
    sd.definition.matches text = true
      ∧ ∃ pre post, defs = pre ++ sd :: post
        ∧ ∀ x ∈ pre, x.definition.matches text = false := by
  induction defs with
  | nil => simp [firstMatching] at h
  | cons d defs ih =>
    by_cases hd : d.definition.matches text = true
    · have hsd : d = sd := by simpa [firstMatching, hd] using h
      subst hsd
      exact ⟨hd, [], defs, rfl, by simp⟩
    · have hd' : d.definition.matches text = false := by simpa using hd
      have h1 : firstMatching defs text = some sd := by simpa [firstMatching, hd'] using h
      obtain ⟨hm, pre, post, hsplit, hpre⟩ := ih h1
      refine ⟨hm, d :: pre, post, by rw [hsplit]; rfl, ?_⟩
      intro x hx
      rcases List.mem_cons.mp hx with hx | hx
      · rw [hx]; exact hd'
      · exact hpre x hx

theorem firstMatching_of_split {D : Type} (pre post : List (RegisteredStep D))
    (sd : RegisteredStep D) (text : Str) (hpre : ∀ x ∈ pre, x.definition.matches text = false)
    (hsd : sd.definition.matches text = true) :
    firstMatching (pre ++ sd :: post) text = some sd := by
  induction pre with
  | nil => simp [firstMatching, hsd]
  | cons d pre ih =>
    have hd : d.definition.matches text = false := hpre d (List.mem_cons_self _ _)
    have hrest := ih (fun x hx => hpre x (List.mem_cons_of_mem _ hx))
    simp [firstMatching, hd, hrest]

theorem firstMatchingAll_eq {D : Type} (steps : List (StepType × List (RegisteredStep D)))
    (text : Str) :
    firstMatchingAll steps text = firstMatching (steps.map Prod.snd).flatten text := by
  induction steps with
  | nil => rfl
  | cons e steps ih =>
    obtain ⟨t, defs⟩ := e
    have happ : ∀ (xs ys : List (RegisteredStep D)),
        firstMatching (xs ++ ys) text
          = match firstMatching xs text with
            | some sd => some sd
            | none => firstMatching ys text := by
      intro xs ys
      induction xs with
      | nil => rfl
      | cons x xs ihx =>
        by_cases hx : x.definition.matches text = true
        · simp [firstMatching, hx]
        · have hx' : x.definition.matches text = false := by simpa using hx
          simp [firstMatching, hx', ihx]
    show (match firstMatching defs text with
      | some sd => some sd
      | none => firstMatchingAll steps text) = firstMatching (defs ++ (steps.map Prod.snd).flatten) text
    rw [happ, ih]

theorem find_mem {D : Type} (steps : List (StepType × List (RegisteredStep D)))
    (type : StepType) (defs : List (RegisteredStep D))
    (h : StepRegistry.find steps type = some defs) : (type, defs) ∈ steps := by
  induction steps with
  | nil => simp [StepRegistry.find] at h
  | cons e steps ih =>
    obtain ⟨t, ds⟩ := e
    by_cases ht : t = type
    · have hds : ds = defs := by simpa [StepRegistry.find, ht] using h
      rw [ht, hds]
      exact List.mem_cons_self _ _
    · have h1 : StepRegistry.find steps type = some defs := by
        simpa [StepRegistry.find, ht] using h
      exact List.mem_cons_of_mem _ (ih h1)

theorem mem_definitions_of_find {D : Type} (r : StepRegistry D) (type : StepType)
    (defs : List (RegisteredStep D)) (h : StepRegistry.find r.steps type = some defs)
    (sd : RegisteredStep D) (hsd : sd ∈ defs) : sd ∈ r.definitions := by
  unfold StepRegistry.definitions
  rw [List.mem_flatten]
  exact ⟨defs, List.mem_map.mpr ⟨(type, defs), find_mem _ _ _ h, rfl⟩, hsd⟩

theorem findStep_none_iff {D : Type} (r : StepRegistry D) (type : StepType) (text : Str) :
    r.findStep type text = none ↔ ∀ sd ∈ r.definitions, sd.definition.matches text = false := by
  have hall : firstMatchingAll r.steps text = none
      ↔ ∀ sd ∈ r.definitions, sd.definition.matches text = false := by
    rw [firstMatchingAll_eq]
    exact firstMatching_none_iff _ _
  unfold StepRegistry.findStep
  cases hf : StepRegistry.find r.steps (resolveStepType type) with
  | none =>
    simp only [hf]
    exact hall
  | some defs =>
    simp only [hf]
    cases hm : firstMatching defs text with
    | none =>
      simp only [hm]
      exact hall
    | some sd =>
      have hsd := firstMatching_some defs text sd hm
      obtain ⟨hmatch, pre, post, hsplit, _⟩ := hsd
      have hmem : sd ∈ r.definitions :=
        mem_definitions_of_find r _ defs hf sd (by rw [hsplit]; simp)
      simp only [hm, reduceCtorEq, false_iff]
      intro hno
      rw [hno sd hmem] at hmatch
      exact Bool.noConfusion hmatch

theorem findStep_some {D : Type} (r : StepRegistry D) (type : StepType) (text : Str)
    (sd : RegisteredStep D) (h : r.findStep type text = some sd) :
    sd ∈ r.definitions ∧ sd.definition.matches text = true := by
  have hall : firstMatchingAll r.steps text = some sd →
      sd ∈ r.definitions ∧ sd.definition.matches text = true := by
    intro h1
    rw [firstMatchingAll_eq] at h1
    obtain ⟨hmatch, pre, post, hsplit, _⟩ := firstMatching_some _ text sd h1
    refine ⟨?_, hmatch⟩
    unfold StepRegistry.definitions
    rw [hsplit]
    simp
  unfold StepRegistry.findStep at h
  cases hf : StepRegistry.find r.steps (resolveStepType type) with
  | none =>
    simp only [hf] at h
    exact hall h
  | some defs =>
    simp only [hf] at h
    cases hm : firstMatching defs text with
    | none =>
      simp only [hm] at h
      exact hall h
    | some sd1 =>
      simp only [hm] at h
      have hsd : sd1 = sd := by simpa using h
      subst hsd
      obtain ⟨hmatch, pre, post, hsplit, _⟩ := firstMatching_some defs text sd1 hm
      exact ⟨mem_definitions_of_find r _ defs hf sd1 (by rw [hsplit]; simp), hmatch⟩

theorem executeStep_eq {D : Type} (stod : Str → Except ConvError D) (hooks : Hooks)
    (r : StepRegistry D) (step : Step) :
    r.executeStep stod hooks step
      = match r.findStep step.type step.text with
        | none =>
          .error (.no_step_definition ("No step definition found for: ".toList ++ step.text))
        | some stepDef => StepRegistry.runDefinition stod hooks stepDef step := by
  unfold StepRegistry.executeStep StepRegistry.runDefinition
  cases r.findStep step.type step.text <;> rfl

theorem runDefinition_not_missing {D : Type} (stod : Str → Except ConvError D) (hooks : Hooks)
    (sd : RegisteredStep D) (step : Step) (what : Str) :
    StepRegistry.runDefinition stod hooks sd step ≠ .error (.no_step_definition what) := by
  unfold StepRegistry.runDefinition RegisteredStep.execute
  cases sd.definition.extractParameters stod step.text with
  | error e => simp
  | ok ps =>
    dsimp only
    cases runStepHooks hooks.beforeStepHooks with
    | error e => simp
    | ok u =>
      dsimp only
      cases sd.function (StepContext.new step ps) with
      | error e => simp
      | ok c =>
        dsimp only
        cases runStepHooks hooks.afterStepHooks <;> simp

theorem findStep_specific {D : Type} (r : StepRegistry D) (type : StepType) (text : Str)
    (defs pre post : List (RegisteredStep D)) (sd : RegisteredStep D)
    (hf : StepRegistry.find r.steps (resolveStepType type) = some defs)
    (hsplit : defs = pre ++ sd :: post)
    (hpre : ∀ x ∈ pre, x.definition.matches text = false)
    (hsd : sd.definition.matches text = true) : r.findStep type text = some sd := by
  unfold StepRegistry.findStep
  simp only [hf]
  rw [hsplit, firstMatching_of_split pre post sd text hpre hsd]

theorem findStep_fallback {D : Type} (r : StepRegistry D) (type : StepType) (text : Str)
    (pre post : List (RegisteredStep D)) (sd : RegisteredStep D)
    (hnone : ∀ defs, StepRegistry.find r.steps (resolveStepType type) = some defs →
      ∀ x ∈ defs, x.definition.matches text = false)
    (hsplit : r.definitions = pre ++ sd :: post)
    (hpre : ∀ x ∈ pre, x.definition.matches text = false)
    (hsd : sd.definition.matches text = true) : r.findStep type text = some sd := by
  have hall : firstMatchingAll r.steps text = some sd := by
    rw [firstMatchingAll_eq]
    have h := firstMatching_of_split pre post sd text hpre hsd
    rw [← hsplit] at h
    exact h
  unfold StepRegistry.findStep
  cases hf : StepRegistry.find r.steps (resolveStepType type) with
  | none =>
    simp only [hf]
    exact hall
  | some defs =>
    simp only [hf]
    rw [(firstMatching_none_iff defs text).mpr (hnone defs hf)]
    exact hall

/-- Claim C12, amended: `executeStep(step)` fails with the error
`No step definition found for: <text>` if and only if no registered definition, of
any step type, matches the text of the step.  Otherwise `findStep` returns a
definition that matches, the parameters are extracted from the text with it, and
unless that extraction raises (the error then leaves `executeStep`) or a hook
before the step raises, the handler of that definition is run on a new context
with these parameters.  The definition is the first that matches among those of
the resolved type (`Given` for an `And` or `But` step), and when none of them
matches the first that matches among those of all types. -/
theorem executeStep_find_then_invoke {D : Type} (stod : Str → Except ConvError D)
    (hooks : Hooks) (r : StepRegistry D) (step : Step) :
    ((∃ what, r.executeStep stod hooks step = .error (.no_step_definition what))
        ↔ ∀ sd ∈ r.definitions, sd.definition.matches step.text = false)
    ∧ ((∀ sd ∈ r.definitions, sd.definition.matches step.text = false) →
        r.executeStep stod hooks step
          = .error (.no_step_definition ("No step definition found for: ".toList ++ step.text)))
    ∧ ((∃ sd ∈ r.definitions, sd.definition.matches step.text = true) →
        ∃ sd, r.findStep step.type step.text = some sd ∧ sd ∈ r.definitions
          ∧ sd.definition.matches step.text = true
          ∧ (∀ e, sd.definition.extractParameters stod step.text = .error e →
              r.executeStep stod hooks step = .error (.extract e))
          ∧ (∀ ps, sd.definition.extractParameters stod step.text = .ok ps →
              runStepHooks hooks.beforeStepHooks = .ok () →
              r.executeStep stod hooks step
                = match sd.function (StepContext.new step ps) with
                  | .error e => .error (.handler e)
                  | .ok context =>
                    match runStepHooks hooks.afterStepHooks with
                    | .error e => .error (.after_step_hook e)
                    | .ok _ => .ok context))
    ∧ (∀ defs pre sd post, StepRegistry.find r.steps (resolveStepType step.type) = some defs →
        defs = pre ++ sd :: post → (∀ x ∈ pre, x.definition.matches step.text = false) →
        sd.definition.matches step.text = true → r.findStep step.type step.text = some sd)
    ∧ ((∀ defs, StepRegistry.find r.steps (resolveStepType step.type) = some defs →
          ∀ x ∈ defs, x.definition.matches step.text = false) →
        ∀ pre sd post, r.definitions = pre ++ sd :: post →
          (∀ x ∈ pre, x.definition.matches step.text = false) →
          sd.definition.matches step.text = true → r.findStep step.type step.text = some sd)
    ∧ resolveStepType .AND = .GIVEN ∧ resolveStepType .BUT = .GIVEN
    ∧ resolveStepType .GIVEN = .GIVEN ∧ resolveStepType .WHEN = .WHEN
    ∧ resolveStepType .THEN = .THEN := by
  refine ⟨?_, ?_, ?_, ?_, ?_, rfl, rfl, rfl, rfl, rfl⟩
  · rw [executeStep_eq]
    cases hf : r.findStep step.type step.text with
    | none =>
      simp only
      exact ⟨fun _ => (findStep_none_iff r _ _).mp hf, fun _ => ⟨_, rfl⟩⟩
    | some sd =>
      simp only
      constructor
      · rintro ⟨what, hwhat⟩
        exact absurd hwhat (runDefinition_not_missing stod hooks sd step what)
      · intro hno
        have hsd := findStep_some r _ _ sd hf
        rw [hno sd hsd.1] at hsd
        exact Bool.noConfusion hsd.2
  · intro hno
    rw [executeStep_eq, (findStep_none_iff r step.type step.text).mpr hno]
  · rintro ⟨sd0, hmem0, hmatch0⟩
    cases hf : r.findStep step.type step.text with
    | none =>
      have hno := (findStep_none_iff r _ _).mp hf sd0 hmem0
      rw [hno] at hmatch0
      exact Bool.noConfusion hmatch0
    | some sd =>
      obtain ⟨hmem, hmatch⟩ := findStep_some r _ _ sd hf
      refine ⟨sd, rfl, hmem, hmatch, ?_, ?_⟩
      · intro e he
        rw [executeStep_eq, hf]
        simp only [StepRegistry.runDefinition, he]
      · intro ps hps hbefore
        rw [executeStep_eq, hf]
        simp only [StepRegistry.runDefinition, hps, RegisteredStep.execute, hbefore]
  · intro defs pre sd post hf hsplit hpre hsd
    exact findStep_specific r _ _ defs pre post sd hf hsplit hpre hsd
  · intro hnone pre sd post hsplit hpre hsd
    exact findStep_fallback r _ _ pre post sd hnone hsplit hpre hsd

/-! ## Evaluation of the registry on the cucumber steps -/

set_option maxRecDepth 1000000 in
/-- Claim C11: with the three cucumber definitions registered, `executeStep` on
`I have 10 cucumbers` runs its handler, which leaves the count 10 under
`cucumber_count` in the context of that call; `executeStep` on `I eat 3 cucumbers`
then builds a new context, in which the key has no value, and the handler ends
in the error `Shared data key not found: cucumber_count`: the sequence of the
three steps does not succeed and no shared value 7 is reached. -/
theorem executeSteps_shared_key_lost :
    (executeSteps stodText noHooks cucumberRegistry cucumberSteps).1.map
        (fun context => context.sharedData)
      = [[("cucumber_count".toList, ParamValue.int 10)]]
    ∧ (executeSteps stodText noHooks cucumberRegistry cucumberSteps).2
      = some (.handler (.runtime_error "Shared data key not found: cucumber_count".toList))
    ∧ cucumberRegistry.executeStep stodText noHooks (Step.new .WHEN "I eat 3 cucumbers".toList 2)
      = .error (.handler (.runtime_error "Shared data key not found: cucumber_count".toList)) := by
  refine ⟨?_, ?_, ?_⟩
  · decide
  · decide
  · rfl

set_option maxRecDepth 1000000 in
/-- Claim C12 as stated fails: the definition `I have {int} cucumbers` matches the
step `I have 99999999999 cucumbers`, yet `executeStep` ends in the `out_of_range`
error of `std::stoi` and the handler is not run. -/
theorem executeStep_match_without_handler :
    (∃ sd ∈ cucumberRegistry.definitions,
        sd.definition.matches stepTooManyCucumbers.text = true)
    ∧ cucumberRegistry.executeStep stodText noHooks stepTooManyCucumbers
      = .error (.extract .out_of_range) := by
  refine ⟨?_, ?_⟩
  · refine ⟨{ definition := StepDefinition.new "I have {int} cucumbers".toList,
              function := stepHaveCucumbers }, ?_, ?_⟩
    · simp [StepRegistry.definitions, cucumberRegistry, StepRegistry.registerGiven,
        StepRegistry.registerWhen, StepRegistry.registerThen, StepRegistry.registerStep,
        StepRegistry.pushBack]
    · decide
  · rfl

set_option maxRecDepth 1000000 in
/-- The lookup and the run of `I have 10 cucumbers` in the cucumber registry. -/
theorem executeStep_find_then_invoke_witness :
    (∃ sd ∈ cucumberRegistry.definitions,
        sd.definition.matches "I have 10 cucumbers".toList = true)
    ∧ ∃ sd, cucumberRegistry.findStep .GIVEN "I have 10 cucumbers".toList = some sd
        ∧ sd.definition.matches "I have 10 cucumbers".toList = true := by
  have hex : ∃ sd ∈ cucumberRegistry.definitions,
      sd.definition.matches "I have 10 cucumbers".toList = true := by
    refine ⟨{ definition := StepDefinition.new "I have {int} cucumbers".toList,
              function := stepHaveCucumbers }, ?_, ?_⟩
    · simp [StepRegistry.definitions, cucumberRegistry, StepRegistry.registerGiven,
        StepRegistry.registerWhen, StepRegistry.registerThen, StepRegistry.registerStep,
        StepRegistry.pushBack]
    · decide
  obtain ⟨sd, hfind, _, hmatch, _⟩ :=
    (executeStep_find_then_invoke stodText noHooks cucumberRegistry
      (Step.new .GIVEN "I have 10 cucumbers".toList 1)).2.2.1 hex
  exact ⟨hex, sd, hfind, hmatch⟩

/-- A value set in a new context is read back under its key, and another key
has no value. -/
theorem set_get_hasKey_witness :
    ((StepContext.new (Step.new .GIVEN "a step".toList 1) ([] : List (ParamValue Str))).set
        "count".toList (.int 10)).get anyCastInt "count".toList = .ok 10
    ∧ ("other".toList ∉ [("count".toList, (ParamValue.int 10 : ParamValue Str))].map Prod.fst
      ∧ ((StepContext.new (Step.new .GIVEN "a step".toList 1)
            ([] : List (ParamValue Str))).setAll [("count".toList, .int 10)]).get anyCastInt
          "other".toList
        = .error (.runtime_error "Shared data key not found: other".toList)) := by
  have h := set_get_hasKey
    (StepContext.new (Step.new .GIVEN "a step".toList 1) ([] : List (ParamValue Str)))
    (Domain.World.mk []) "count".toList (.int 10)
  have hother := set_get_hasKey
    (StepContext.new (Step.new .GIVEN "a step".toList 1) ([] : List (ParamValue Str)))
    (Domain.World.mk []) "other".toList (.int 10)
  have hnot : "other".toList ∉
      [("count".toList, (ParamValue.int 10 : ParamValue Str))].map Prod.fst := by decide
  exact ⟨h.1.2.1 Int anyCastInt 10 rfl, hnot,
    (hother.1.2.2.2.2 Int anyCastInt _ _ _ hnot).2⟩

/-! ## The registry behind `findMatch` -/

namespace Domain

theorem convertValue_cons {D : Type} (stod : Str → Except ConvError D) (value : Str)
    (h : value ≠ []) :
    convertValue stod value
      = if isQuotedValue value = true then some (.string (unquote value))
        else if isDigitsOrMinus value = true then
          match stoi value with
          | .ok intValue => some (.int intValue)
          | .error _ => some (.string value)
        else if value.contains '.' = true then
          match stod value with
          | .ok doubleValue => some (.double doubleValue)
          | .error _ => some (.string value)
        else if value = "true".toList ∨ value = "false".toList then
          some (.bool (value = "true".toList))
        else some (.string value) := by
  obtain ⟨front, hfront⟩ : ∃ f, value.head? = some f := by
    cases value with
    | nil => exact absurd rfl h
    | cons c cs => exact ⟨c, rfl⟩
  obtain ⟨back, hback⟩ : ∃ b, value.getLast? = some b := by
    cases hl : value.getLast? with
    | none => exact absurd (List.getLast?_eq_none_iff.mp hl) h
    | some b => exact ⟨b, rfl⟩
  unfold convertValue isQuotedValue isDigitsOrMinus
  rw [hfront, hback]
  simp only [Option.some.injEq, Bool.and_eq_true, Bool.or_eq_true, decide_eq_true_eq]

theorem convertValue_defined {D : Type} (stod : Str → Except ConvError D) (value : Str)
    (h : value ≠ []) : ∃ v, convertValue stod value = some v := by
  rw [convertValue_cons stod value h]
  split
  · exact ⟨_, rfl⟩
  · split
    · cases stoi value <;> exact ⟨_, rfl⟩
    · split
      · cases stod value <;> exact ⟨_, rfl⟩
      · split <;> exact ⟨_, rfl⟩

theorem extractParameters_defined {D : Type} (stod : Str → Except ConvError D)
    (caps : List Str) (params : Parameters D) (h : ∀ v ∈ caps, v ≠ []) :
    ∃ ps, extractParameters stod caps params = some ps
      ∧ ps.size = params.size + caps.length := by
  induction caps generalizing params with
  | nil => exact ⟨params, rfl, rfl⟩
  | cons value values ih =>
    obtain ⟨v, hv⟩ := convertValue_defined stod value (h value (List.mem_cons_self _ _))
    obtain ⟨ps, hps, hsize⟩ := ih (params.add v) (fun x hx => h x (List.mem_cons_of_mem _ hx))
    refine ⟨ps, ?_, ?_⟩
    · simp only [extractParameters, hv]
      exact hps
    · rw [hsize]
      simp [Parameters.size, Parameters.add]
      omega

theorem findMatchFrom_none {D : Type} (rx : Str → Str → Option (List Str))
    (stod : Str → Except ConvError D) (text : Str) (defs : List (StepDefinition D)) (i : Nat)
    (h : ∀ sd ∈ defs, rx sd.pattern text = none) :
    StepRegistry.findMatchFrom rx stod i defs text = some none := by
  induction defs generalizing i with
  | nil => rfl
  | cons sd defs ih =>
    have hsd := h sd (List.mem_cons_self _ _)
    simp only [StepRegistry.findMatchFrom, StepDefinition.match_, hsd]
    exact ih (i + 1) (fun x hx => h x (List.mem_cons_of_mem _ hx))

theorem findMatchFrom_first {D : Type} (rx : Str → Str → Option (List Str))
    (stod : Str → Except ConvError D) (text : Str) (pre post : List (StepDefinition D))
    (sd : StepDefinition D) (caps : List Str) (i : Nat)
    (hpre : ∀ x ∈ pre, rx x.pattern text = none) (hsd : rx sd.pattern text = some caps) :
    StepRegistry.findMatchFrom rx stod i (pre ++ sd :: post) text
      = (extractParameters stod caps { params := [] }).map
          (fun ps => some { definition := i + pre.length, parameters := ps }) := by
  induction pre generalizing i with
  | nil =>
    simp only [List.nil_append, StepRegistry.findMatchFrom, StepDefinition.match_, hsd]
    cases extractParameters stod caps { params := [] } <;> rfl
  | cons d pre ih =>
    have hd := hpre d (List.mem_cons_self _ _)
    have hidx : i + 1 + pre.length = i + (d :: pre).length := by simp; omega
    rw [← hidx, ← ih (i + 1) (fun x hx => hpre x (List.mem_cons_of_mem _ hx))]
    simp only [List.cons_append, StepRegistry.findMatchFrom, StepDefinition.match_, hd]
    rfl

theorem findMatchFrom_some {D : Type} (rx : Str → Str → Option (List Str))
    (stod : Str → Except ConvError D) (text : Str) (defs : List (StepDefinition D)) (i : Nat)
    (m : StepMatch D) (h : StepRegistry.findMatchFrom rx stod i defs text = some (some m)) :
    ∃ pre sd post caps, defs = pre ++ sd :: post ∧ m.definition = i + pre.length
      ∧ (∀ x ∈ pre, rx x.pattern text = none) ∧ rx sd.pattern text = some caps
      ∧ extractParameters stod caps { params := [] } = some m.parameters := by
  induction defs generalizing i with
  | nil => simp [StepRegistry.findMatchFrom] at h
  | cons d defs ih =>
    cases hd : rx d.pattern text with
    | none =>
      simp only [StepRegistry.findMatchFrom, StepDefinition.match_, hd] at h
      obtain ⟨pre, sd, post, caps, hsplit, hidx, hpre, hsd, hext⟩ := ih (i + 1) h
      refine ⟨d :: pre, sd, post, caps, by rw [hsplit]; rfl, ?_, ?_, hsd, hext⟩
      · rw [hidx]; simp; omega
      · intro x hx
        rcases List.mem_cons.mp hx with hx | hx
        · rw [hx]; exact hd
        · exact hpre x hx
    | some caps =>
      simp only [StepRegistry.findMatchFrom, StepDefinition.match_, hd] at h
      cases hext : extractParameters stod caps { params := [] } with
      | none => simp [hext] at h
      | some ps =>
        simp only [hext, Option.map_some', Option.some.injEq] at h
        refine ⟨[], d, defs, caps, rfl, ?_, by simp, hd, ?_⟩
        · rw [← h]; rfl
        · rw [← h]; exact hext

end Domain

namespace Domain

/-- Claim C13: for every list of registered definitions and every text,
`findMatch` returns the empty optional when the regex of no definition matches
the whole text; when the definition at a place is the first in registration
order whose regex matches, `findMatch` returns that place with the parameters
that `extractParameters` extracts from its sub-matches (a defined result whenever
no sub-match is empty); and a returned definition is always the first whose
regex matches the text. -/
theorem findMatch_first_in_order {D : Type} (rx : Str → Str → Option (List Str))
    (stod : Str → Except ConvError D) (r : StepRegistry D) (text : Str) :
    ((∀ sd ∈ r.definitions, rx sd.pattern text = none) → r.findMatch rx stod text = some none)
    ∧ (∀ pre sd post caps, r.definitions = pre ++ sd :: post →
        (∀ x ∈ pre, rx x.pattern text = none) → rx sd.pattern text = some caps →
        r.findMatch rx stod text
            = (extractParameters stod caps { params := [] }).map
                (fun ps => some { definition := pre.length, parameters := ps })
          ∧ ((∀ v ∈ caps, v ≠ []) →
              ∃ ps, extractParameters stod caps { params := [] } = some ps
                ∧ r.findMatch rx stod text
                  = some (some { definition := pre.length, parameters := ps })))
    ∧ (∀ m, r.findMatch rx stod text = some (some m) →
        ∃ pre sd post caps, r.definitions = pre ++ sd :: post ∧ m.definition = pre.length
          ∧ (∀ x ∈ pre, rx x.pattern text = none) ∧ rx sd.pattern text = some caps
          ∧ extractParameters stod caps { params := [] } = some m.parameters) := by
  refine ⟨?_, ?_, ?_⟩
  · intro h
    exact findMatchFrom_none rx stod text r.definitions 0 h
  · intro pre sd post caps hsplit hpre hsd
    have hfirst : r.findMatch rx stod text
        = (extractParameters stod caps { params := [] }).map
            (fun ps => some { definition := pre.length, parameters := ps }) := by
      unfold StepRegistry.findMatch
      rw [hsplit, findMatchFrom_first rx stod text pre post sd caps 0 hpre hsd]
      simp
    refine ⟨hfirst, ?_⟩
    intro hcaps
    obtain ⟨ps, hps, _⟩ := extractParameters_defined stod caps { params := [] } hcaps
    exact ⟨ps, hps, by rw [hfirst, hps]; rfl⟩
  · intro m hm
    obtain ⟨pre, sd, post, caps, hsplit, hidx, hpre, hsd, hext⟩ :=
      findMatchFrom_some rx stod text r.definitions 0 m hm
    exact ⟨pre, sd, post, caps, hsplit, by rw [hidx]; simp, hpre, hsd, hext⟩

set_option maxRecDepth 1000000 in
/-- In the sample registry the text `I have 10 cucumbers` is matched by the
second definition, before the third, with the parameter 10. -/
theorem findMatch_first_in_order_witness :
    sampleRegistry.findMatch regexMatch stodText "I have 10 cucumbers".toList
      = some (some { definition := 1, parameters := { params := [.int 10] } }) := by
  have h := ((findMatch_first_in_order regexMatch stodText sampleRegistry
      "I have 10 cucumbers".toList).2.1
    [{ pattern := "^I eat (-?\\d+) cucumbers$".toList, function := idleStep }]
    { pattern := "^I have (-?\\d+) cucumbers$".toList, function := idleStep }
    [{ pattern := "^I have (.+) cucumbers$".toList, function := idleStep }]
    ["10".toList] rfl
    (by
      intro x hx
      rw [List.mem_singleton] at hx
      rw [hx]
      decide)
    (by decide)).1
  rw [h]
  decide

set_option maxRecDepth 1000000 in
/-- Claim C14 as stated fails: the digits `99999999999`, beyond the range of
`int`, matched by `(-?\d+)`, are stored as a string parameter and `match` raises
nothing; the value `-` is stored as a string, and the value `1-2` as the
integer 1. -/
theorem match_stores_unconverted_text :
    StepDefinition.match_ regexMatch stodText
        { pattern := "^(-?\\d+)$".toList, function := idleStep } "99999999999".toList
      = some (some { params := [.string "99999999999".toList] })
    ∧ convertValue stodText "-".toList = some (.string "-".toList)
    ∧ convertValue stodText "1-2".toList = some (.int 1) := by
  refine ⟨?_, ?_, ?_⟩ <;> decide

/-- Claim C14, amended: a coercion failure is not surfaced to the caller.  For
every captured text that is not empty, the loop of `extractParameters` adds a
value and raises nothing; when the text is not between quotes and is treated as a
number (only digits and minus signs, or else containing a dot) and `std::stoi`,
respectively `std::stod`, raises on it, the text itself is stored as a string
parameter; when the conversion succeeds its number is stored; and `match` on a
text that the regex matches with sub-matches that are not empty returns the
parameters. -/
theorem convertValue_falls_back_to_string {D : Type} (stod : Str → Except ConvError D)
    (value : Str) :
    (value ≠ [] → ∃ v, convertValue stod value = some v)
    ∧ (value ≠ [] → isQuotedValue value = false → isDigitsOrMinus value = true →
        (∀ e, stoi value = .error e → convertValue stod value = some (.string value))
        ∧ (∀ i, stoi value = .ok i → convertValue stod value = some (.int i)))
    ∧ (value ≠ [] → isQuotedValue value = false → isDigitsOrMinus value = false →
        value.contains '.' = true →
        (∀ e, stod value = .error e → convertValue stod value = some (.string value))
        ∧ (∀ d, stod value = .ok d → convertValue stod value = some (.double d)))
    ∧ (∀ (rx : Str → Str → Option (List Str)) (sd : StepDefinition D) (text : Str)
        (caps : List Str), rx sd.pattern text = some caps → (∀ v ∈ caps, v ≠ []) →
        ∃ ps, sd.match_ rx stod text = some (some ps) ∧ ps.size = caps.length) := by
  refine ⟨convertValue_defined stod value, ?_, ?_, ?_⟩
  · intro h hq hd
    rw [convertValue_cons stod value h, hq, hd]
    refine ⟨?_, ?_⟩
    · intro e he
      simp [he]
    · intro i hi
      simp [hi]
  · intro h hq hd hdot
    rw [convertValue_cons stod value h, hq, hd, hdot]
    refine ⟨?_, ?_⟩
    · intro e he
      simp [he]
    · intro d hd
      simp [hd]
  · intro rx sd text caps hrx hcaps
    obtain ⟨ps, hps, hsize⟩ := extractParameters_defined stod caps { params := [] } hcaps
    refine ⟨ps, ?_, ?_⟩
    · simp [StepDefinition.match_, hrx, hps]
    · rw [hsize]
      simp [Parameters.size]

/-- The value `-`, on which `std::stoi` raises, is stored as the string `-`. -/
theorem convertValue_falls_back_to_string_witness :
    "-".toList ≠ [] ∧ isQuotedValue "-".toList = false ∧ isDigitsOrMinus "-".toList = true
      ∧ stoi "-".toList = .error .invalid_argument
      ∧ convertValue stodText "-".toList = some (.string "-".toList) :=
  ⟨by decide, by decide, by decide, rfl,
    ((convertValue_falls_back_to_string stodText "-".toList).2.1 (by decide) (by decide)
      (by decide)).1 .invalid_argument rfl⟩


theorem extractParameters_undefined {D : Type} (stod : Str → Except ConvError D)
    (caps : List Str) (params : Parameters D) (h : [] ∈ caps) :
    extractParameters stod caps params = none := by
  induction caps generalizing params with
  | nil => exact absurd h (List.not_mem_nil _)
  | cons value values ih =>
    cases value with
    | nil => rfl
    | cons c cs =>
      have hmem : [] ∈ values := by
        rcases List.mem_cons.mp h with h | h
        · exact absurd h (by simp)
        · exact h
      obtain ⟨v, hv⟩ := convertValue_defined stod (c :: cs) (by simp)
      simp only [extractParameters, hv]
      exact ih _ hmem

set_option maxRecDepth 1000000 in
/-- Claim C39 fails: `extractParameters` reads `value.front()` and `value.back()`
of every sub-match without testing for the empty text.  The regex
`^I see "([^"]*)"$` matches the text `I see ""` with the empty text as its only
sub-match, and `match` has then no defined result.  In general `match` has no
defined result whenever the regex matches the text with an empty sub-match, and
a defined one when no sub-match is empty. -/
theorem match_empty_capture_undefined :
    regexMatch quotedDefinition.pattern "I see \"\"".toList = some [[]]
    ∧ convertValue stodText [] = none
    ∧ quotedDefinition.match_ regexMatch stodText "I see \"\"".toList = none
    ∧ quotedDefinition.match_ regexMatch stodText "I see \"a\"".toList
        = some (some { params := [.string "a".toList] })
    ∧ (∀ (D : Type) (rx : Str → Str → Option (List Str)) (stod : Str → Except ConvError D)
        (sd : StepDefinition D) (text : Str) (caps : List Str),
        rx sd.pattern text = some caps →
          (([] ∈ caps → sd.match_ rx stod text = none)
            ∧ ((∀ v ∈ caps, v ≠ []) → ∃ ps, sd.match_ rx stod text = some (some ps)))) := by
  refine ⟨by decide, rfl, by decide, by decide, ?_⟩
  intro D rx stod sd text caps hrx
  refine ⟨?_, ?_⟩
  · intro hmem
    simp [StepDefinition.match_, hrx, extractParameters_undefined stod caps _ hmem]
  · intro hcaps
    obtain ⟨ps, hps, _⟩ := extractParameters_defined stod caps { params := [] } hcaps
    exact ⟨ps, by simp [StepDefinition.match_, hrx, hps]⟩

end Domain


/-! ## Literal text with a regex metacharacter -/

theorem renderPattern_lits (pattern : Str) : renderPattern (pattern.map Seg.lit) = pattern := by
  induction pattern with
  | nil => rfl
  | cons c cs ih =>
    show c :: renderPattern (cs.map Seg.lit) = c :: cs
    rw [ih]

theorem matchItems_lits (pattern text : Str) :
    (matchItems (pattern.map Item.lit) text).isSome = true ↔ text = pattern := by
  induction pattern generalizing text with
  | nil =>
    cases text with
    | nil => simp [matchItems]
    | cons t ts => simp [matchItems]
  | cons c cs ih =>
    cases text with
    | nil => simp [matchItems]
    | cons t ts =>
      simp only [List.map_cons, matchItems]
      by_cases hct : c = t
      · rw [if_pos hct, ih ts, hct]
        simp
      · rw [if_neg hct]
        simp [Ne.symm hct]

theorem matches_plain (pattern text : Str) (h : ∀ c ∈ pattern, isRegexMeta c = false) :
    (StepDefinition.new pattern).matches text = true ↔ text = pattern := by
  have hp : PlainPattern (pattern.map Seg.lit) := by
    intro s hs
    obtain ⟨c, hc, e⟩ := List.mem_map.mp hs
    rw [← e]
    exact h c hc
  have hc := compileRegex_toRegex (pattern.map Seg.lit) hp
  rw [renderPattern_lits, List.map_map] at hc
  have hm : (StepDefinition.new pattern).matches text
      = (matchItems (pattern.map Item.lit) text).isSome := by
    unfold StepDefinition.matches StepDefinition.new regexMatch
    dsimp only
    rw [hc]
    rfl
  rw [hm]
  exact matchItems_lits pattern text

set_option maxRecDepth 1000000 in
/-- Claim C34 fails: `parsePattern` builds the escaped copy of the regular
expression in the local `escaped` and then compiles the expression that is not
escaped.  The regex of the pattern `the total is 1.5` is `^the total is 1.5$`,
in which the dot is the wildcard: the definition matches `the total is 1x5` as
well as `the total is 1.5`.  For a pattern without a regex metacharacter the
claim holds: the definition matches a text exactly when the text is the
pattern. -/
theorem matches_unescaped_dot :
    (StepDefinition.new "the total is 1.5".toList).regex = "^the total is 1.5$".toList
    ∧ escapeSpecial "^the total is 1.5$".toList = "\\^the total is 1\\.5\\$".toList
    ∧ (StepDefinition.new "the total is 1.5".toList).matches "the total is 1x5".toList = true
    ∧ (StepDefinition.new "the total is 1.5".toList).matches "the total is 1.5".toList = true
    ∧ (StepDefinition.new "the total is 1.5".toList).matches "the total is 15".toList = false
    ∧ (∀ pattern text : Str, (∀ c ∈ pattern, isRegexMeta c = false) →
        ((StepDefinition.new pattern).matches text = true ↔ text = pattern)) := by
  refine ⟨by decide, by decide, by decide, by decide, by decide, ?_⟩
  intro pattern text h
  exact matches_plain pattern text h


/-! ## Evaluation of `GherkinParser` on sample documents -/

set_option maxRecDepth 1000000 in
/-- Claim C31 fails for a scenario without steps: `parseScenario` applies the
collected tags after the call of `advance` that passes the scenario line, and
that call collects the tags written before the next scenario line.  For the
document of `test_basic_feature_parsing` the feature has the tags `@integration`
and `@important` and the first scenario the tag `@smoke`, as the claim says.  For
two scenarios with a tag each, the first without a step, the first scenario gets
both tags and the second none. -/
theorem parse_tags_of_next_scenario :
    (parsedFeature docBasicFeature).map (fun f => f.tags)
        = some ["@integration".toList, "@important".toList]
    ∧ (parsedScenarios docBasicFeature).map (fun s => (s.name, s.tags))
        = [("Successful login".toList, ["@smoke".toList]),
            ("Outline: Login with different users".toList, [])]
    ∧ (parsedFeature docTagsNoSteps).map (fun f => f.tags) = some []
    ∧ (parsedScenarios docTagsNoSteps).map (fun s => (s.name, s.tags))
        = [("S1".toList, ["@a".toList, "@b".toList]), ("S2".toList, [])] := by
  refine ⟨?_, ?_, ?_, ?_⟩ <;> decide

theorem takeWhile_until (c : Char) (pre post : Str) (h : c ∉ pre) :
    (pre ++ c :: post).takeWhile (fun x => x ≠ c) = pre := by
  induction pre with
  | nil => simp [List.takeWhile]
  | cons x xs ih =>
    have hx : x ≠ c := fun e => h (e ▸ List.mem_cons_self _ _)
    rw [List.cons_append, List.takeWhile_cons]
    simp only [ne_eq, hx, not_false_eq_true, decide_True, if_true]
    rw [ih (fun hm => h (List.mem_cons_of_mem _ hm))]

theorem parseDocString_cut (p : GherkinParser) (pre post : Str)
    (hv : p.currentToken.value = pre ++ '|' :: post) (h : '|' ∉ pre) :
    (p.parseDocString).1 = (pre, post) := by
  unfold GherkinParser.parseDocString
  dsimp only
  rw [hv, takeWhile_until '|' pre post h]
  have hc : (pre ++ '|' :: post).contains '|' = true := by simp
  rw [hc, if_pos rfl]
  simp

set_option maxRecDepth 1000000 in
/-- Claim C33 fails for a body with a bar: `readDocString` joins the content and
the content type with a bar in the value of the token, and `parseDocString` cuts
the value at its first bar.  For the document of `test_doc_string_parsing`, whose
body has no bar, the content type is `json` and the content is the body.  For
the opening line `"""json` and the body `a|b`, `getContent()` is `a` and
`getContentType()` is the rest of the body, a bar and `json`.  In general the
value of a `DOC_STRING` token is cut at its first bar: a body without a bar is
the content, and of a body with a bar only the text before its first bar is. -/
theorem parseDocString_cuts_at_first_bar :
    (firstSteps docDocString).map (fun s => s.docString.map DocString.getContentType)
        = [some "json".toList, none, none]
    ∧ (firstSteps docDocString).head?.map (fun s => s.docString.map DocString.getContent)
        = some (some ("      \x7b\n        \"title\": \"Test Document\",\n"
            ++ "        \"content\": \"This is a test\"\n      \x7d\n      ").toList)
    ∧ ((GherkinLexer.new "\"\"\"json\na|b\n\"\"\"\n".toList).nextToken).1.value
        = "a|b\n|json".toList
    ∧ (firstSteps docDocStringBar).map (fun s => s.docString.map DocString.getContent)
        = [some "a".toList]
    ∧ (firstSteps docDocStringBar).map (fun s => s.docString.map DocString.getContentType)
        = [some "b\n|json".toList]
    ∧ (∀ (p : GherkinParser) (body type : Str), p.currentToken.value = body ++ '|' :: type →
        ('|' ∉ body →
          DocString.getContent (p.parseDocString).1 = body
            ∧ DocString.getContentType (p.parseDocString).1 = type)
        ∧ (∀ pre post : Str, body = pre ++ '|' :: post → '|' ∉ pre →
          DocString.getContent (p.parseDocString).1 = pre
            ∧ DocString.getContentType (p.parseDocString).1 = post ++ '|' :: type)) := by
  refine ⟨by decide, by decide, by decide, by decide, by decide, ?_⟩
  intro p body type hv
  refine ⟨?_, ?_⟩
  · intro h
    rw [parseDocString_cut p body type hv h]
    exact ⟨rfl, rfl⟩
  · intro pre post hb h
    rw [parseDocString_cut p pre (post ++ '|' :: type) (by rw [hv, hb]; simp) h]
    exact ⟨rfl, rfl⟩


/-! ## `GherkinLexer`: every token but the end consumes text -/

theorem length_dropWhile_le (f : Char → Bool) (s : Str) : (s.dropWhile f).length ≤ s.length :=
  List.IsSuffix.length_le (List.dropWhile_suffix f)

theorem glex_skipWhitespace_rest (l : GherkinLexer) :
    l.skipWhitespace.rest = l.rest.dropWhile (fun c => c = ' ' || c = '\t') := rfl

theorem glex_skipWhitespace_le (l : GherkinLexer) :
    l.skipWhitespace.rest.length ≤ l.rest.length := length_dropWhile_le _ _

theorem glex_skipWhitespace_nil (l : GherkinLexer) (h : l.rest = []) :
    l.skipWhitespace.rest = [] := by
  rw [glex_skipWhitespace_rest, h]
  rfl

theorem glex_skipComment_lt (l : GherkinLexer) (cs : Str) (h : l.rest = '#' :: cs) :
    l.skipComment.rest.length < l.rest.length := by
  have hd : l.rest.dropWhile (fun c => c ≠ '\n') = cs.dropWhile (fun c => c ≠ '\n') := by
    rw [h]
    rfl
  have hle := length_dropWhile_le (fun c => c ≠ '\n') cs
  unfold GherkinLexer.skipComment
  rw [hd]
  cases hc : cs.dropWhile (fun c => c ≠ '\n') with
  | nil =>
    rw [h]
    simp
  | cons x xs =>
    rw [hc] at hle
    rw [h]
    simp only [List.length_cons] at hle ⊢
    omega

theorem glex_readTag_lt (l : GherkinLexer) (cs : Str) (h : l.rest = '@' :: cs) :
    (l.readTag).2.rest.length < l.rest.length := by
  have ht : l.rest.takeWhile (fun c => c.isAlphanum || c = '@' || c = '_' || c = '-')
      = '@' :: cs.takeWhile (fun c => c.isAlphanum || c = '@' || c = '_' || c = '-') := by
    rw [h]
    rfl
  unfold GherkinLexer.readTag
  dsimp only
  rw [ht, h]
  simp only [List.length_cons, List.drop_succ_cons, List.length_drop]
  omega

theorem glex_readDataRow_lt (l : GherkinLexer) (cs : Str) (h : l.rest = '|' :: cs) :
    (l.readDataRow).2.rest.length < l.rest.length := by
  have ht : l.rest.takeWhile (fun c => c ≠ '\n') = '|' :: cs.takeWhile (fun c => c ≠ '\n') := by
    rw [h]
    rfl
  unfold GherkinLexer.readDataRow
  dsimp only
  rw [ht, h]
  simp only [List.length_cons, List.drop_succ_cons, List.length_drop]
  omega

theorem glex_readContent_le (s : Str) :
    ∀ (line column : Int) (content : Str),
      (GherkinLexer.readContent s line column content).2.rest.length ≤ s.length := by
  induction s with
  | nil => intro _ _ _; exact Nat.le_refl _
  | cons c cs ih =>
    intro line column content
    rw [GherkinLexer.readContent]
    split
    · split
      · simp only [List.length_drop, List.length_cons]
        omega
      · split
        · exact Nat.le_trans (ih _ _ _) (Nat.le_succ _)
        · exact Nat.le_trans (ih _ _ _) (Nat.le_succ _)
    · exact Nat.le_refl _

theorem glex_readDocString_lt (l : GherkinLexer) (h : 2 < l.rest.length) :
    (l.readDocString).2.rest.length < l.rest.length := by
  have h3 : (l.rest.drop 3).length + 3 = l.rest.length := by
    rw [List.length_drop]
    omega
  have h4 : ((l.rest.drop 3).drop
      ((l.rest.drop 3).takeWhile (fun c => c ≠ '\n' && c ≠ dquote)).length).length
      ≤ (l.rest.drop 3).length := by
    rw [List.length_drop]
    omega
  unfold GherkinLexer.readDocString
  dsimp only
  split
  · rename_i heq
    have := glex_readContent_le ((l.rest.drop 3).drop
      ((l.rest.drop 3).takeWhile (fun c => c ≠ '\n' && c ≠ dquote)).length) l.line
      (l.column + 3 + ((l.rest.drop 3).takeWhile (fun c => c ≠ '\n' && c ≠ dquote)).length) []
    omega
  · rename_i c cs heq
    have h5 := h4
    rw [heq] at h5
    simp only [List.length_cons] at h5
    split
    · have := glex_readContent_le cs (l.line + 1) 1 []
      omega
    · have := glex_readContent_le ((l.rest.drop 3).drop
        ((l.rest.drop 3).takeWhile (fun c => c ≠ '\n' && c ≠ dquote)).length) l.line
        (l.column + 3 + ((l.rest.drop 3).takeWhile (fun c => c ≠ '\n' && c ≠ dquote)).length) []
      omega

theorem glex_readText_cases (l : GherkinLexer) :
    ((l.readText).1.type = .TEXT ∧ (l.readText).2.rest = [])
      ∨ ((l.readText).1.type = .NEWLINE ∧ (l.readText).2.rest.length < l.rest.length) := by
  have hlen : (l.rest.drop (l.rest.takeWhile (fun c => c ≠ '\n')).length).length
      ≤ l.rest.length := by
    rw [List.length_drop]
    omega
  unfold GherkinLexer.readText
  dsimp only
  split
  · exact Or.inl ⟨rfl, rfl⟩
  · rename_i c cs heq
    rw [heq] at hlen
    simp only [List.length_cons] at hlen
    exact Or.inr ⟨rfl, by show cs.length < l.rest.length; omega⟩

theorem glex_skipColon_le (l : GherkinLexer) : l.skipColon.rest.length ≤ l.rest.length := by
  unfold GherkinLexer.skipColon
  split
  · exact Nat.le_refl _
  · rename_i c cs heq
    split
    · rw [heq]
      exact Nat.le_succ _
    · exact Nat.le_refl _

theorem glex_readKeywordText_le (l : GherkinLexer) :
    (l.readKeywordText).2.rest.length ≤ l.rest.length := by
  have h1 := glex_skipWhitespace_le l
  have h2 := glex_skipColon_le l.skipWhitespace
  have h3 := glex_skipWhitespace_le l.skipWhitespace.skipColon
  show (l.skipWhitespace.skipColon.skipWhitespace.rest.drop _).length ≤ l.rest.length
  rw [List.length_drop]
  omega

theorem isKeyword_ne_nil (word : Str) (h : GherkinLexer.isKeyword word = true) : word ≠ [] := by
  rintro rfl
  exact absurd h (by decide)

theorem getKeywordType_of_keyword (word : Str) (h : GherkinLexer.isKeyword word = true) :
    GherkinLexer.getKeywordType word ≠ .TEXT ∧ GherkinLexer.getKeywordType word ≠ .EOF_TOKEN
      ∧ GherkinLexer.getKeywordType word ≠ .NEWLINE ∧ GherkinLexer.getKeywordType word ≠ .TAG
      ∧ GherkinLexer.getKeywordType word ≠ .DATA_ROW
      ∧ GherkinLexer.getKeywordType word ≠ .DOC_STRING := by
  unfold GherkinLexer.isKeyword at h
  unfold GherkinLexer.getKeywordType
  dsimp only at h ⊢
  simp only [Bool.or_eq_true, decide_eq_true_eq] at h
  split
  · decide
  split
  · decide
  split
  · decide
  split
  · decide
  split
  · decide
  split
  · decide
  split
  · decide
  split
  · decide
  split
  · decide
  · rename_i h1 h2 h3 h4 h5 h6 h7 h8 h9
    rcases h with (((((((h | h) | h) | h) | h) | h) | h) | h) | h
    · exact absurd h h1
    · exact absurd h h2
    · exact absurd h h3
    · exact absurd h h4
    · exact absurd h h5
    · exact absurd h h6
    · exact absurd h h7
    · exact absurd h h8
    · exact absurd h h9

theorem glex_readKeyword_eq (l : GherkinLexer) :
    l.readKeyword
      = if GherkinLexer.isKeyword (l.rest.takeWhile Char.isAlpha) = true then
          ({ type := GherkinLexer.getKeywordType (l.rest.takeWhile Char.isAlpha)
             value := trim
              (({ l with
                  rest := l.rest.drop (l.rest.takeWhile Char.isAlpha).length
                  column := l.column + (l.rest.takeWhile Char.isAlpha).length }
                : GherkinLexer).readKeywordText).1
             line := l.line, column := l.column },
            (({ l with
                rest := l.rest.drop (l.rest.takeWhile Char.isAlpha).length
                column := l.column + (l.rest.takeWhile Char.isAlpha).length }
              : GherkinLexer).readKeywordText).2)
        else
          ({ l with
              rest := l.rest.drop (l.rest.takeWhile Char.isAlpha).length
              column := l.column + (l.rest.takeWhile Char.isAlpha).length }
            : GherkinLexer).readText := rfl

theorem glex_readKeyword_facts (l : GherkinLexer) (h : l.rest ≠ []) :
    (l.readKeyword).2.rest.length < l.rest.length
      ∧ ((l.readKeyword).1.type = .TEXT → (l.readKeyword).2.rest = [])
      ∧ (l.readKeyword).1.type ≠ .EOF_TOKEN := by
  have hpos : 0 < l.rest.length := List.length_pos.mpr h
  have hdrop : (l.rest.drop (l.rest.takeWhile Char.isAlpha).length).length
      = l.rest.length - (l.rest.takeWhile Char.isAlpha).length := List.length_drop _ _
  rw [glex_readKeyword_eq]
  split
  · rename_i hk
    have hw := isKeyword_ne_nil _ hk
    have hwpos : 0 < (l.rest.takeWhile Char.isAlpha).length := List.length_pos.mpr hw
    obtain ⟨t1, t2, _⟩ := getKeywordType_of_keyword _ hk
    have h2 := glex_readKeywordText_le ({ l with
        rest := l.rest.drop (l.rest.takeWhile Char.isAlpha).length
        column := l.column + (l.rest.takeWhile Char.isAlpha).length } : GherkinLexer)
    refine ⟨?_, fun e => absurd e t1, t2⟩
    show (({ l with
        rest := l.rest.drop (l.rest.takeWhile Char.isAlpha).length
        column := l.column + (l.rest.takeWhile Char.isAlpha).length }
        : GherkinLexer).readKeywordText).2.rest.length < l.rest.length
    have h3 : ({ l with
        rest := l.rest.drop (l.rest.takeWhile Char.isAlpha).length
        column := l.column + (l.rest.takeWhile Char.isAlpha).length } : GherkinLexer).rest.length
        = l.rest.length - (l.rest.takeWhile Char.isAlpha).length := hdrop
    omega
  · have hc := glex_readText_cases ({ l with
        rest := l.rest.drop (l.rest.takeWhile Char.isAlpha).length
        column := l.column + (l.rest.takeWhile Char.isAlpha).length } : GherkinLexer)
    have h3 : ({ l with
        rest := l.rest.drop (l.rest.takeWhile Char.isAlpha).length
        column := l.column + (l.rest.takeWhile Char.isAlpha).length } : GherkinLexer).rest.length
        = l.rest.length - (l.rest.takeWhile Char.isAlpha).length := hdrop
    rcases hc with ⟨ht, hr⟩ | ⟨ht, hr⟩
    · refine ⟨by rw [hr]; exact hpos, fun _ => hr, by rw [ht]; decide⟩
    · refine ⟨by omega, fun e => ?_, by rw [ht]; decide⟩
      rw [ht] at e
      cases e

theorem glex_nextTokenFuel_succ (fuel : Nat) (l : GherkinLexer) :
    GherkinLexer.nextTokenFuel (fuel + 1) l
      = match l.skipWhitespace.rest with
        | [] =>
          ({ type := .EOF_TOKEN, value := [], line := l.skipWhitespace.line
             column := l.skipWhitespace.column }, l.skipWhitespace)
        | c :: _ =>
          if c = '#' then GherkinLexer.nextTokenFuel fuel l.skipWhitespace.skipComment
          else if c = '@' then l.skipWhitespace.readTag
          else if c = '|' then l.skipWhitespace.readDataRow
          else if (decide (2 < l.skipWhitespace.rest.length)
              && decide (l.skipWhitespace.rest.take 3 = tripleQuote)) = true then
            l.skipWhitespace.readDocString
          else l.skipWhitespace.readKeyword := rfl

theorem glex_nextTokenFuel_facts (fuel : Nat) :
    ∀ l : GherkinLexer,
      (GherkinLexer.nextTokenFuel fuel l).2.rest.length ≤ l.rest.length
      ∧ ((GherkinLexer.nextTokenFuel fuel l).1.type ≠ .EOF_TOKEN →
          (GherkinLexer.nextTokenFuel fuel l).2.rest.length < l.rest.length)
      ∧ ((GherkinLexer.nextTokenFuel fuel l).1.type = .TEXT →
          (GherkinLexer.nextTokenFuel fuel l).2.rest = [])
      ∧ (l.rest.length < fuel →
          GherkinLexer.nextTokenFuel (fuel + 1) l = GherkinLexer.nextTokenFuel fuel l
          ∧ ((GherkinLexer.nextTokenFuel fuel l).1.type = .EOF_TOKEN →
              (GherkinLexer.nextTokenFuel fuel l).2.rest = [])) := by
  induction fuel with
  | zero =>
    intro l
    refine ⟨Nat.le_refl _, fun h => absurd rfl h, fun h => ?_, fun h => absurd h (Nat.not_lt_zero _)⟩
    cases h
  | succ fuel ih =>
    intro l
    have hws := glex_skipWhitespace_le l
    rw [glex_nextTokenFuel_succ (fuel + 1) l, glex_nextTokenFuel_succ fuel l]
    cases hrest : l.skipWhitespace.rest with
    | nil =>
      dsimp only
      refine ⟨?_, fun h => absurd rfl h, fun h => ?_, fun _ => ⟨rfl, fun _ => hrest⟩⟩
      · rw [hrest]
        exact Nat.zero_le _
      · cases h
    | cons c cs =>
      dsimp only
      have hne : l.skipWhitespace.rest ≠ [] := by rw [hrest]; simp
      by_cases h1 : c = '#'
      · rw [if_pos h1, if_pos h1]
        have hlt := glex_skipComment_lt l.skipWhitespace cs (by rw [hrest, h1])
        obtain ⟨a, b, c', d⟩ := ih l.skipWhitespace.skipComment
        refine ⟨by omega, fun _ => by omega, c', fun hf => ?_⟩
        exact d (by omega)
      · rw [if_neg h1, if_neg h1]
        by_cases h2 : c = '@'
        · rw [if_pos h2]
          have hlt := glex_readTag_lt l.skipWhitespace cs (by rw [hrest, h2])
          refine ⟨by omega, fun _ => by omega, fun h => ?_, fun _ => ⟨rfl, fun h => ?_⟩⟩
          · cases h
          · cases h
        · rw [if_neg h2]
          by_cases h3 : c = '|'
          · rw [if_pos h3]
            have hlt := glex_readDataRow_lt l.skipWhitespace cs (by rw [hrest, h3])
            refine ⟨by omega, fun _ => by omega, fun h => ?_, fun _ => ⟨rfl, fun h => ?_⟩⟩
            · cases h
            · cases h
          · rw [if_neg h3]
            by_cases h4 : (decide (2 < (c :: cs).length)
                && decide ((c :: cs).take 3 = tripleQuote)) = true
            · rw [if_pos h4]
              have h5 : 2 < l.skipWhitespace.rest.length := by
                rw [hrest]
                simp only [Bool.and_eq_true, decide_eq_true_eq] at h4
                exact h4.1
              have hlt := glex_readDocString_lt l.skipWhitespace h5
              refine ⟨by omega, fun _ => by omega, fun h => ?_, fun _ => ⟨rfl, fun h => ?_⟩⟩
              · cases h
              · cases h
            · rw [if_neg h4]
              obtain ⟨a, b, c'⟩ := glex_readKeyword_facts l.skipWhitespace hne
              exact ⟨by omega, fun _ => by omega, b, fun _ => ⟨rfl, fun h => absurd h c'⟩⟩

theorem glex_nextTokenFuel_fuel_le (fuel : Nat) (l : GherkinLexer) (h : l.rest.length < fuel) :
    GherkinLexer.nextTokenFuel fuel l = l.nextToken := by
  unfold GherkinLexer.nextToken
  induction fuel with
  | zero => exact absurd h (Nat.not_lt_zero _)
  | succ n ih =>
    by_cases heq : l.rest.length = n
    · rw [heq]
    · rw [((glex_nextTokenFuel_facts n l).2.2.2 (by omega)).1]
      exact ih (by omega)

theorem glex_nextToken_facts (l : GherkinLexer) :
    (l.nextToken).2.rest.length ≤ l.rest.length
      ∧ ((l.nextToken).1.type ≠ .EOF_TOKEN → (l.nextToken).2.rest.length < l.rest.length)
      ∧ ((l.nextToken).1.type = .TEXT → (l.nextToken).2.rest = [])
      ∧ ((l.nextToken).1.type = .EOF_TOKEN → (l.nextToken).2.rest = []) := by
  obtain ⟨a, b, c, d⟩ := glex_nextTokenFuel_facts (l.rest.length + 1) l
  exact ⟨a, b, c, (d (Nat.lt_succ_self _)).2⟩

theorem glex_nextToken_eq (l : GherkinLexer) :
    l.nextToken
      = match l.skipWhitespace.rest with
        | [] =>
          ({ type := .EOF_TOKEN, value := [], line := l.skipWhitespace.line
             column := l.skipWhitespace.column }, l.skipWhitespace)
        | c :: _ =>
          if c = '#' then l.skipWhitespace.skipComment.nextToken
          else if c = '@' then l.skipWhitespace.readTag
          else if c = '|' then l.skipWhitespace.readDataRow
          else if (decide (2 < l.skipWhitespace.rest.length)
              && decide (l.skipWhitespace.rest.take 3 = tripleQuote)) = true then
            l.skipWhitespace.readDocString
          else l.skipWhitespace.readKeyword := by
  have hws := glex_skipWhitespace_le l
  show GherkinLexer.nextTokenFuel (l.rest.length + 1) l = _
  rw [glex_nextTokenFuel_succ]
  cases hrest : l.skipWhitespace.rest with
  | nil => rfl
  | cons c cs =>
    dsimp only
    by_cases h1 : c = '#'
    · rw [if_pos h1, if_pos h1]
      have hlt := glex_skipComment_lt l.skipWhitespace cs (by rw [hrest, h1])
      exact glex_nextTokenFuel_fuel_le _ _ (by omega)
    · rw [if_neg h1, if_neg h1]

theorem glex_nextToken_nil (l : GherkinLexer) (h : l.rest = []) :
    (l.nextToken).1.type = .EOF_TOKEN ∧ (l.nextToken).2.rest = [] := by
  have hs := glex_skipWhitespace_nil l h
  rw [glex_nextToken_eq, hs]
  exact ⟨rfl, hs⟩

/-! ## `GherkinParser`: every loop ends by its own condition -/

theorem gp_advanceLoop_succ (fuel : Nat) (p : GherkinParser) :
    GherkinParser.advanceLoop (fuel + 1) p
      = if p.currentToken.type = .NEWLINE ∨ p.currentToken.type = .TAG then
          GherkinParser.advanceLoop fuel
            { lexer := (p.lexer.nextToken).2, currentToken := (p.lexer.nextToken).1
              currentTags :=
                if p.currentToken.type = .TAG then p.currentTags ++ [p.currentToken.value]
                else p.currentTags }
        else p := rfl

theorem gp_advanceLoop_of_not (fuel : Nat) (p : GherkinParser)
    (h : ¬ (p.currentToken.type = .NEWLINE ∨ p.currentToken.type = .TAG)) :
    GherkinParser.advanceLoop fuel p = p := by
  cases fuel with
  | zero => rfl
  | succ fuel => rw [gp_advanceLoop_succ, if_neg h]

theorem gp_advanceLoop_facts (fuel : Nat) :
    ∀ p : GherkinParser,
      ((GherkinParser.advanceLoop fuel p = p)
        ∨ ((GherkinParser.advanceLoop fuel p).lexer.rest.length ≤ p.lexer.rest.length
          ∧ ((GherkinParser.advanceLoop fuel p).currentToken.type ≠ .EOF_TOKEN →
              (GherkinParser.advanceLoop fuel p).lexer.rest.length < p.lexer.rest.length)
          ∧ ((GherkinParser.advanceLoop fuel p).currentToken.type = .TEXT →
              (GherkinParser.advanceLoop fuel p).lexer.rest = [])))
      ∧ (p.lexer.rest.length < fuel →
          (GherkinParser.advanceLoop fuel p).currentToken.type ≠ .NEWLINE
            ∧ (GherkinParser.advanceLoop fuel p).currentToken.type ≠ .TAG
            ∧ GherkinParser.advanceLoop (fuel + 1) p = GherkinParser.advanceLoop fuel p) := by
  induction fuel with
  | zero =>
    intro p
    exact ⟨Or.inl rfl, fun h => absurd h (Nat.not_lt_zero _)⟩
  | succ fuel ih =>
    intro p
    rw [gp_advanceLoop_succ (fuel + 1) p, gp_advanceLoop_succ fuel p]
    by_cases hc : p.currentToken.type = .NEWLINE ∨ p.currentToken.type = .TAG
    · rw [if_pos hc, if_pos hc]
      obtain ⟨na, nb, nc, _⟩ := glex_nextToken_facts p.lexer
      obtain ⟨h1, h2⟩ := ih
        { lexer := (p.lexer.nextToken).2, currentToken := (p.lexer.nextToken).1
          currentTags :=
            if p.currentToken.type = .TAG then p.currentTags ++ [p.currentToken.value]
            else p.currentTags }
      constructor
      · right
        rcases h1 with h1 | ⟨h1a, h1b, h1c⟩
        · rw [h1]
          exact ⟨na, nb, nc⟩
        · exact ⟨Nat.le_trans h1a na, fun h => Nat.lt_of_lt_of_le (h1b h) na, h1c⟩
      · intro hf
        by_cases he : (p.lexer.nextToken).1.type = .EOF_TOKEN
        · have hnot : ¬ ((p.lexer.nextToken).1.type = .NEWLINE
              ∨ (p.lexer.nextToken).1.type = .TAG) := by
            rw [he]
            decide
          rw [gp_advanceLoop_of_not fuel _ hnot, gp_advanceLoop_of_not (fuel + 1) _ hnot]
          exact ⟨fun h => hnot (Or.inl h), fun h => hnot (Or.inr h), rfl⟩
        · have hlt := nb he
          exact h2 (by
            show (p.lexer.nextToken).2.rest.length < fuel
            omega)
    · rw [if_neg hc, if_neg hc]
      exact ⟨Or.inl rfl, fun _ => ⟨fun h => hc (Or.inl h), fun h => hc (Or.inr h), rfl⟩⟩

theorem gp_advance_eq (p : GherkinParser) :
    p.advance
      = GherkinParser.advanceLoop ((p.lexer.nextToken).2.rest.length + 1)
          { p with lexer := (p.lexer.nextToken).2, currentToken := (p.lexer.nextToken).1 } := rfl

theorem gp_advance_facts (p : GherkinParser) :
    p.advance.lexer.rest.length ≤ p.lexer.rest.length
      ∧ (p.advance.currentToken.type ≠ .EOF_TOKEN →
          p.advance.lexer.rest.length < p.lexer.rest.length)
      ∧ (p.advance.currentToken.type = .TEXT → p.advance.lexer.rest = [])
      ∧ p.advance.currentToken.type ≠ .NEWLINE
      ∧ p.advance.currentToken.type ≠ .TAG := by
  obtain ⟨na, nb, nc, _⟩ := glex_nextToken_facts p.lexer
  obtain ⟨h1, h2⟩ := gp_advanceLoop_facts ((p.lexer.nextToken).2.rest.length + 1)
    { p with lexer := (p.lexer.nextToken).2, currentToken := (p.lexer.nextToken).1 }
  obtain ⟨e1, e2, _⟩ := h2 (Nat.lt_succ_self _)
  rw [gp_advance_eq]
  refine ⟨?_, ?_, ?_, e1, e2⟩
  · rcases h1 with h1 | ⟨h1a, _, _⟩
    · rw [h1]
      exact na
    · exact Nat.le_trans h1a na
  · rcases h1 with h1 | ⟨_, h1b, _⟩
    · rw [h1]
      exact nb
    · exact fun h => Nat.lt_of_lt_of_le (h1b h) na
  · rcases h1 with h1 | ⟨_, _, h1c⟩
    · rw [h1]
      exact nc
    · exact h1c

theorem gp_advance_todo (p : GherkinParser) : p.advance.todo ≤ p.lexer.rest.length := by
  obtain ⟨a, b, _⟩ := gp_advance_facts p
  unfold GherkinParser.todo
  split
  · omega
  · rename_i h
    have := b h
    omega

theorem gp_advance_adv (p : GherkinParser) (h : p.currentToken.type ≠ .EOF_TOKEN) :
    p.advance.todo < p.todo := by
  have h1 := gp_advance_todo p
  have h2 : p.todo = p.lexer.rest.length + 1 := by
    unfold GherkinParser.todo
    rw [if_neg h]
  omega

theorem adv_refl (p : GherkinParser) : p.Adv p := Or.inl rfl

theorem adv_trans {p q r : GherkinParser} (h1 : p.Adv q) (h2 : q.Adv r) : p.Adv r := by
  rcases h1 with h1 | h1
  · rw [h1] at h2
    exact h2
  · rcases h2 with h2 | h2
    · rw [h2]
      exact Or.inr h1
    · exact Or.inr (Nat.lt_trans h2 h1)

theorem adv_todo_le {p q : GherkinParser} (h : p.Adv q) : q.todo ≤ p.todo := by
  rcases h with h | h
  · rw [h]
  · exact Nat.le_of_lt h

theorem gp_advance_of_match (p : GherkinParser) (t : TokenType) (h : p.match_ t = true)
    (ht : t ≠ .EOF_TOKEN) : p.Adv p.advance := by
  have hc : p.currentToken.type = t := by simpa [GherkinParser.match_] using h
  exact Or.inr (gp_advance_adv p (by rw [hc]; exact ht))

theorem gp_todo_lt_fuel (p : GherkinParser) : p.todo < p.lexer.rest.length + 2 := by
  unfold GherkinParser.todo
  split <;> omega

theorem gp_parseTagsLoop_succ (fuel : Nat) (p : GherkinParser) :
    GherkinParser.parseTagsLoop (fuel + 1) p
      = if p.match_ .TAG = true then
          GherkinParser.parseTagsLoop fuel
            ({ p with currentTags := p.currentTags ++ [p.currentToken.value] }
              : GherkinParser).advance
        else p := rfl

theorem gp_parseTagsLoop_of_not (fuel : Nat) (p : GherkinParser) (h : p.match_ .TAG = false) :
    GherkinParser.parseTagsLoop fuel p = p := by
  cases fuel with
  | zero => rfl
  | succ fuel =>
    rw [gp_parseTagsLoop_succ, h]
    rfl

theorem gp_parseTagsLoop_facts (fuel : Nat) :
    ∀ p : GherkinParser,
      p.Adv (GherkinParser.parseTagsLoop fuel p)
      ∧ (p.todo < fuel →
          (GherkinParser.parseTagsLoop fuel p).match_ .TAG = false
            ∧ GherkinParser.parseTagsLoop (fuel + 1) p = GherkinParser.parseTagsLoop fuel p) := by
  induction fuel with
  | zero => exact fun p => ⟨adv_refl p, fun h => absurd h (Nat.not_lt_zero _)⟩
  | succ fuel ih =>
    intro p
    rw [gp_parseTagsLoop_succ (fuel + 1) p, gp_parseTagsLoop_succ fuel p]
    by_cases hc : p.match_ .TAG = true
    · rw [if_pos hc, if_pos hc]
      have hadv : p.Adv ({ p with currentTags := p.currentTags ++ [p.currentToken.value] }
          : GherkinParser).advance := by
        have hc2 : ({ p with currentTags := p.currentTags ++ [p.currentToken.value] }
            : GherkinParser).match_ .TAG = true := hc
        have := gp_advance_of_match _ _ hc2 (by decide)
        rcases this with h | h
        · exact Or.inr (by
            have hc3 : p.currentToken.type = .TAG := by simpa [GherkinParser.match_] using hc
            exact gp_advance_adv _ (by
              show p.currentToken.type ≠ .EOF_TOKEN
              rw [hc3]
              decide))
        · exact Or.inr h
      obtain ⟨h1, h2⟩ := ih ({ p with currentTags := p.currentTags ++ [p.currentToken.value] }
        : GherkinParser).advance
      refine ⟨adv_trans hadv h1, fun hf => h2 ?_⟩
      rcases hadv with h | h
      · have hc3 : p.currentToken.type = .TAG := by simpa [GherkinParser.match_] using hc
        have := gp_advance_adv ({ p with currentTags := p.currentTags ++ [p.currentToken.value] }
          : GherkinParser) (by
            show p.currentToken.type ≠ .EOF_TOKEN
            rw [hc3]
            decide)
        have e : ({ p with currentTags := p.currentTags ++ [p.currentToken.value] }
          : GherkinParser).todo = p.todo := rfl
        omega
      · omega
    · rw [if_neg hc, if_neg hc]
      exact ⟨adv_refl p, fun _ => ⟨by simpa using hc, rfl⟩⟩

theorem gp_parseTags_adv (p : GherkinParser) : p.Adv p.parseTags :=
  (gp_parseTagsLoop_facts _ p).1

theorem gp_parseTags_of_not (p : GherkinParser) (h : p.match_ .TAG = false) : p.parseTags = p :=
  gp_parseTagsLoop_of_not _ p h

theorem gp_parseDescriptionLoop_succ (fuel : Nat) (p : GherkinParser) (description : Str) :
    GherkinParser.parseDescriptionLoop (fuel + 1) p description
      = if (p.match_ .TEXT || p.match_ .NEWLINE) = true then
          GherkinParser.parseDescriptionLoop fuel p.advance
            (if (!p.currentToken.value.isEmpty) = true then
              (if (!description.isEmpty) = true then description ++ ['\n'] else description)
                ++ p.currentToken.value
            else description)
        else (description, p) := rfl

theorem gp_parseDescriptionLoop_of_not (fuel : Nat) (p : GherkinParser) (description : Str)
    (h : (p.match_ .TEXT || p.match_ .NEWLINE) = false) :
    GherkinParser.parseDescriptionLoop fuel p description = (description, p) := by
  cases fuel with
  | zero => rfl
  | succ fuel =>
    rw [gp_parseDescriptionLoop_succ, h]
    rfl

theorem gp_not_eof_of_or (p : GherkinParser) (t u : TokenType)
    (h : (p.match_ t || p.match_ u) = true) (ht : t ≠ .EOF_TOKEN) (hu : u ≠ .EOF_TOKEN) :
    p.currentToken.type ≠ .EOF_TOKEN := by
  simp only [GherkinParser.match_, Bool.or_eq_true, decide_eq_true_eq] at h
  rcases h with h | h <;> rw [h] <;> assumption

theorem gp_parseDescriptionLoop_facts (fuel : Nat) :
    ∀ (p : GherkinParser) (description : Str),
      p.Adv (GherkinParser.parseDescriptionLoop fuel p description).2
      ∧ (p.todo < fuel →
          ((GherkinParser.parseDescriptionLoop fuel p description).2.match_ .TEXT
              || (GherkinParser.parseDescriptionLoop fuel p description).2.match_ .NEWLINE) = false
            ∧ GherkinParser.parseDescriptionLoop (fuel + 1) p description
                = GherkinParser.parseDescriptionLoop fuel p description) := by
  induction fuel with
  | zero => exact fun p d => ⟨adv_refl p, fun h => absurd h (Nat.not_lt_zero _)⟩
  | succ fuel ih =>
    intro p description
    rw [gp_parseDescriptionLoop_succ (fuel + 1) p, gp_parseDescriptionLoop_succ fuel p]
    by_cases hc : (p.match_ .TEXT || p.match_ .NEWLINE) = true
    · rw [if_pos hc, if_pos hc]
      have hlt := gp_advance_adv p (gp_not_eof_of_or p _ _ hc (by decide) (by decide))
      obtain ⟨h1, h2⟩ := ih p.advance
        (if (!p.currentToken.value.isEmpty) = true then
          (if (!description.isEmpty) = true then description ++ ['\n'] else description)
            ++ p.currentToken.value
        else description)
      exact ⟨adv_trans (Or.inr hlt) h1, fun hf => h2 (by omega)⟩
    · rw [if_neg hc, if_neg hc]
      exact ⟨adv_refl p, fun _ => ⟨by simpa using hc, rfl⟩⟩

theorem gp_parseDescription_adv (p : GherkinParser) : p.Adv (p.parseDescription).2 :=
  (gp_parseDescriptionLoop_facts _ p []).1

theorem gp_parseRowsLoop_succ (fuel : Nat) (p : GherkinParser) (rows : List (List Str)) :
    GherkinParser.parseRowsLoop (fuel + 1) p rows
      = if p.match_ .DATA_ROW = true then
          GherkinParser.parseRowsLoop fuel p.advance (rows ++ [parseCells p.currentToken.value])
        else (rows, p) := rfl

theorem gp_parseRowsLoop_facts (fuel : Nat) :
    ∀ (p : GherkinParser) (rows : List (List Str)),
      p.Adv (GherkinParser.parseRowsLoop fuel p rows).2
      ∧ (p.todo < fuel →
          (GherkinParser.parseRowsLoop fuel p rows).2.match_ .DATA_ROW = false
            ∧ GherkinParser.parseRowsLoop (fuel + 1) p rows
                = GherkinParser.parseRowsLoop fuel p rows) := by
  induction fuel with
  | zero => exact fun p d => ⟨adv_refl p, fun h => absurd h (Nat.not_lt_zero _)⟩
  | succ fuel ih =>
    intro p rows
    rw [gp_parseRowsLoop_succ (fuel + 1) p, gp_parseRowsLoop_succ fuel p]
    by_cases hc : p.match_ .DATA_ROW = true
    · rw [if_pos hc, if_pos hc]
      have hc3 : p.currentToken.type = .DATA_ROW := by simpa [GherkinParser.match_] using hc
      have hlt := gp_advance_adv p (by rw [hc3]; decide)
      obtain ⟨h1, h2⟩ := ih p.advance (rows ++ [parseCells p.currentToken.value])
      exact ⟨adv_trans (Or.inr hlt) h1, fun hf => h2 (by omega)⟩
    · rw [if_neg hc, if_neg hc]
      exact ⟨adv_refl p, fun _ => ⟨by simpa using hc, rfl⟩⟩

theorem gp_parseDataTable_adv (p : GherkinParser) : p.Adv (p.parseDataTable).2 :=
  (gp_parseRowsLoop_facts _ p []).1

theorem gp_atStep_type (p : GherkinParser) (h : p.atStep = true) :
    p.currentToken.type ≠ .EOF_TOKEN
      ∧ ∃ type, stepTypeOfToken p.currentToken.type = some type := by
  unfold GherkinParser.atStep at h
  simp only [GherkinParser.match_, Bool.or_eq_true, decide_eq_true_eq] at h
  rcases h with (((h | h) | h) | h) | h <;> rw [h] <;> exact ⟨by decide, _, rfl⟩

theorem gp_stepTable_adv (p : GherkinParser) (step : Step) : p.Adv (p.stepTable step).2 := by
  unfold GherkinParser.stepTable
  split
  · exact gp_parseDataTable_adv p
  · exact adv_refl p

theorem gp_stepDocString_adv (p : GherkinParser) (step : Step) :
    p.Adv (p.stepDocString step).2 := by
  unfold GherkinParser.stepDocString
  split
  · rename_i hd
    exact gp_advance_of_match p _ hd (by decide)
  · exact adv_refl p

theorem gp_parseStep_ok (p : GherkinParser) (h : p.atStep = true) :
    ∃ step q, p.parseStep = .ok (step, q) ∧ q.todo < p.todo := by
  obtain ⟨hne, type, ht⟩ := gp_atStep_type p h
  have hlt := gp_advance_adv p hne
  unfold GherkinParser.parseStep
  rw [ht]
  refine ⟨_, _, rfl, ?_⟩
  exact Nat.lt_of_le_of_lt
    (adv_todo_le (adv_trans (gp_stepTable_adv _ _) (gp_stepDocString_adv _ _))) hlt

theorem gp_parseStepsLoop_succ (fuel : Nat) (p : GherkinParser) (steps : List Step) :
    GherkinParser.parseStepsLoop (fuel + 1) p steps
      = if p.atStep = true then
          match p.parseStep with
          | .error e => .error e
          | .ok (step, p1) => GherkinParser.parseStepsLoop fuel p1 (steps ++ [step])
        else .ok (steps, p) := rfl

theorem gp_parseStepsLoop_of_not (fuel : Nat) (p : GherkinParser) (steps : List Step)
    (h : p.atStep = false) : GherkinParser.parseStepsLoop fuel p steps = .ok (steps, p) := by
  cases fuel with
  | zero => rfl
  | succ fuel =>
    rw [gp_parseStepsLoop_succ, h]
    rfl

theorem gp_parseStepsLoop_facts (fuel : Nat) :
    ∀ (p : GherkinParser) (steps : List Step),
      ∃ ss q, GherkinParser.parseStepsLoop fuel p steps = .ok (ss, q) ∧ p.Adv q
        ∧ (p.todo < fuel →
            q.atStep = false
              ∧ GherkinParser.parseStepsLoop (fuel + 1) p steps = .ok (ss, q)) := by
  induction fuel with
  | zero => exact fun p steps => ⟨steps, p, rfl, adv_refl p, fun h => absurd h (Nat.not_lt_zero _)⟩
  | succ fuel ih =>
    intro p steps
    rw [gp_parseStepsLoop_succ (fuel + 1) p, gp_parseStepsLoop_succ fuel p]
    by_cases hc : p.atStep = true
    · rw [if_pos hc, if_pos hc]
      obtain ⟨step, q, hq, hlt⟩ := gp_parseStep_ok p hc
      rw [hq]
      dsimp only
      obtain ⟨ss, q2, h1, h2, h3⟩ := ih q (steps ++ [step])
      exact ⟨ss, q2, h1, adv_trans (Or.inr hlt) h2, fun hf => h3 (by omega)⟩
    · rw [if_neg hc, if_neg hc]
      exact ⟨steps, p, rfl, adv_refl p, fun _ => ⟨by simpa using hc, rfl⟩⟩

theorem gp_parseSteps_ok (p : GherkinParser) :
    ∃ ss q, p.parseSteps = .ok (ss, q) ∧ p.Adv q ∧ q.atStep = false := by
  obtain ⟨ss, q, h1, h2, h3⟩ := gp_parseStepsLoop_facts (p.lexer.rest.length + 2) p []
  exact ⟨ss, q, h1, h2, (h3 (gp_todo_lt_fuel p)).1⟩

theorem gp_match_of_eof (p : GherkinParser) (t : TokenType)
    (h : p.currentToken.type = .EOF_TOKEN) (ht : t ≠ .EOF_TOKEN) : p.match_ t = false := by
  unfold GherkinParser.match_
  rw [h]
  simp only [decide_eq_false_iff_not]
  exact fun e => ht e.symm

theorem gp_atStep_of_eof (p : GherkinParser) (h : p.currentToken.type = .EOF_TOKEN) :
    p.atStep = false := by
  unfold GherkinParser.atStep
  rw [gp_match_of_eof p _ h (by decide), gp_match_of_eof p _ h (by decide),
    gp_match_of_eof p _ h (by decide), gp_match_of_eof p _ h (by decide),
    gp_match_of_eof p _ h (by decide)]
  rfl

theorem gp_advance_at_end (p : GherkinParser) (h : p.lexer.rest = []) :
    p.advance.currentToken.type = .EOF_TOKEN ∧ p.advance.lexer.rest = [] := by
  obtain ⟨a, b, _⟩ := gp_advance_facts p
  rw [h] at a b
  have hr : p.advance.lexer.rest = [] := List.length_eq_zero.mp (Nat.le_zero.mp a)
  refine ⟨?_, hr⟩
  by_contra hne
  exact absurd (b hne) (Nat.not_lt_zero _)

theorem gp_scenarioHeader_facts (p : GherkinParser) :
    p.Adv (p.scenarioHeader).2
      ∧ (p.match_ TokenType.SCENARIO = true → (p.scenarioHeader).2.todo < p.todo)
      ∧ (p.match_ TokenType.SCENARIO = false → p.scenarioHeader = ((false, []), p))
      ∧ ((p.scenarioHeader).1.1 = true →
          (p.scenarioHeader).2.currentToken.type = .EOF_TOKEN) := by
  unfold GherkinParser.scenarioHeader
  by_cases hs : p.match_ TokenType.SCENARIO = true
  · rw [if_pos hs]
    have hc : p.currentToken.type = TokenType.SCENARIO := by
      simpa [GherkinParser.match_] using hs
    have hlt := gp_advance_adv p (by rw [hc]; decide)
    split
    · rename_i ho
      simp only [Bool.and_eq_true, decide_eq_true_eq] at ho
      have hrest := (gp_advance_facts p).2.2.1 ho.1
      have hlt2 := gp_advance_adv p.advance (by rw [ho.1]; decide)
      refine ⟨Or.inr (Nat.lt_trans hlt2 hlt), fun _ => Nat.lt_trans hlt2 hlt, fun h => ?_,
        fun _ => (gp_advance_at_end p.advance hrest).1⟩
      rw [hs] at h
      cases h
    · refine ⟨Or.inr hlt, fun _ => hlt, fun h => ?_, fun h => ?_⟩
      · rw [hs] at h
        cases h
      · cases h
  · rw [if_neg hs]
    exact ⟨adv_refl p, fun h => absurd h hs, fun _ => rfl, fun h => by cases h⟩

theorem gp_parseExamples_ok (p : GherkinParser) (h : p.match_ .EXAMPLES = true) :
    ∃ ex q, p.parseExamples = .ok (ex, q) ∧ q.todo < p.todo := by
  have hc : p.currentToken.type = .EXAMPLES := by simpa [GherkinParser.match_] using h
  have hlt := gp_advance_adv p (by rw [hc]; decide)
  unfold GherkinParser.parseExamples GherkinParser.expect
  rw [h]
  dsimp only
  refine ⟨_, _, rfl, ?_⟩
  have h1 : p.advance.Adv
      (if p.advance.match_ .DATA_ROW = true then
        (parseCells p.advance.currentToken.value, p.advance.advance)
      else (([] : List Str), p.advance)).2 := by
    split
    · rename_i hd
      exact gp_advance_of_match _ _ hd (by decide)
    · exact adv_refl _
  exact Nat.lt_of_le_of_lt (adv_todo_le (adv_trans h1 (gp_parseRowsLoop_facts _ _ _).1)) hlt

theorem gp_weight_clear (p : GherkinParser) :
    ({ p with currentTags := [] } : GherkinParser).weight = 2 * p.todo := by
  unfold GherkinParser.weight
  rw [if_pos rfl]
  rfl

theorem gp_weight_le (p : GherkinParser) : p.weight ≤ 2 * p.todo + 1 := by
  unfold GherkinParser.weight
  split <;> omega

theorem gp_weight_ge (p : GherkinParser) : 2 * p.todo ≤ p.weight := by
  unfold GherkinParser.weight
  omega

theorem gp_weight_of_tags (p : GherkinParser) (h : p.currentTags ≠ []) :
    p.weight = 2 * p.todo + 1 := by
  unfold GherkinParser.weight
  rw [if_neg h]

theorem gp_weight_of_adv {p q : GherkinParser} (h : p.Adv q) : q.weight ≤ p.weight ∨
    q.weight < 2 * p.todo := by
  rcases h with h | h
  · rw [h]
    exact Or.inl (Nat.le_refl _)
  · right
    have := gp_weight_le q
    omega

theorem gp_parseDescription_of_eof (p : GherkinParser)
    (h : p.currentToken.type = .EOF_TOKEN) : p.parseDescription = ([], p) := by
  unfold GherkinParser.parseDescription
  exact gp_parseDescriptionLoop_of_not _ p [] (by
    rw [gp_match_of_eof p _ h (by decide), gp_match_of_eof p _ h (by decide)]
    rfl)

theorem gp_parseSteps_of_eof (p : GherkinParser) (h : p.currentToken.type = .EOF_TOKEN) :
    p.parseSteps = .ok ([], p) := by
  unfold GherkinParser.parseSteps
  exact gp_parseStepsLoop_of_not _ p [] (gp_atStep_of_eof p h)

theorem gp_parseScenario_eq (p : GherkinParser) :
    p.parseScenario
      = match
          (({ (p.parseTags.scenarioHeader).2 with currentTags := [] }
            : GherkinParser).parseDescription).2.parseSteps with
        | .error e => .error e
        | .ok (steps, p3) =>
          if ((p.parseTags.scenarioHeader).1.1 && p3.match_ .EXAMPLES) = true then
            match p3.parseExamples with
            | .error e => .error e
            | .ok (examples, p4) =>
              .ok ({ name := (p.parseTags.scenarioHeader).1.2
                     description :=
                      (if (!(({ (p.parseTags.scenarioHeader).2 with currentTags := [] }
                          : GherkinParser).parseDescription).1.isEmpty) = true then
                        (({ (p.parseTags.scenarioHeader).2 with currentTags := [] }
                          : GherkinParser).parseDescription).1
                      else [])
                     line := p.parseTags.currentToken.line
                     tags := (p.parseTags.scenarioHeader).2.currentTags
                     steps := steps
                     examples := some examples }, p4)
          else
            .ok ({ name := (p.parseTags.scenarioHeader).1.2
                   description :=
                    (if (!(({ (p.parseTags.scenarioHeader).2 with currentTags := [] }
                        : GherkinParser).parseDescription).1.isEmpty) = true then
                      (({ (p.parseTags.scenarioHeader).2 with currentTags := [] }
                        : GherkinParser).parseDescription).1
                    else [])
                   line := p.parseTags.currentToken.line
                   tags := (p.parseTags.scenarioHeader).2.currentTags
                   steps := steps
                   examples := none }, p3) := by
  unfold GherkinParser.parseScenario
  dsimp only
  cases (({ (p.parseTags.scenarioHeader).2 with currentTags := [] }
    : GherkinParser).parseDescription).2.parseSteps with
  | error e => rfl
  | ok r =>
    dsimp only
    by_cases hd : (!(({ (p.parseTags.scenarioHeader).2 with currentTags := [] }
        : GherkinParser).parseDescription).1.isEmpty) = true
    · simp only [hd, if_true]
      rfl
    · simp only [hd, if_false]
      rfl

theorem gp_parseScenario_ok (p : GherkinParser) :
    ∃ s q, p.parseScenario = .ok (s, q) ∧ s.examples = none
      ∧ s.name = (p.parseTags.scenarioHeader).1.2
      ∧ s.tags = (p.parseTags.scenarioHeader).2.currentTags
      ∧ q.todo ≤ p.todo
      ∧ (p.atScenario = true → q.weight < p.weight) := by
  have hA0 := gp_parseTags_adv p
  obtain ⟨hh1, hh2, hh3, hh4⟩ := gp_scenarioHeader_facts p.parseTags
  have hd := gp_parseDescription_adv
    ({ (p.parseTags.scenarioHeader).2 with currentTags := [] } : GherkinParser)
  obtain ⟨ss, p3, hsteps, hadv3, _⟩ := gp_parseSteps_ok
    (({ (p.parseTags.scenarioHeader).2 with currentTags := [] }
      : GherkinParser).parseDescription).2
  have hA : ({ (p.parseTags.scenarioHeader).2 with currentTags := [] } : GherkinParser).Adv p3 :=
    adv_trans hd hadv3
  have htodo2 : ({ (p.parseTags.scenarioHeader).2 with currentTags := [] } : GherkinParser).todo
      = (p.parseTags.scenarioHeader).2.todo := rfl
  have hcond : ((p.parseTags.scenarioHeader).1.1 && p3.match_ .EXAMPLES) = false := by
    cases ho : (p.parseTags.scenarioHeader).1.1 with
    | false => rfl
    | true =>
      have he : ({ (p.parseTags.scenarioHeader).2 with currentTags := [] }
          : GherkinParser).currentToken.type = .EOF_TOKEN := hh4 ho
      have e1 := gp_parseDescription_of_eof _ he
      rw [e1] at hsteps
      rw [gp_parseSteps_of_eof _ he] at hsteps
      injection hsteps with hsteps
      injection hsteps with _ hq
      rw [← hq, gp_match_of_eof _ _ he (by decide)]
      rfl
  rw [gp_parseScenario_eq, hsteps]
  dsimp only
  rw [hcond]
  refine ⟨_, p3, rfl, rfl, rfl, rfl, ?_, ?_⟩
  · have := adv_todo_le hA
    have := adv_todo_le hh1
    have := adv_todo_le hA0
    omega
  · intro hat
    have hq1 := gp_weight_le p3
    have hp1 := gp_weight_ge p
    have hle0 := adv_todo_le hA0
    by_cases hs : p.parseTags.match_ TokenType.SCENARIO = true
    · have := hh2 hs
      have := adv_todo_le hA
      omega
    · have hs' : p.parseTags.match_ TokenType.SCENARIO = false := by simpa using hs
      have hhead := hh3 hs'
      have h2 : (p.parseTags.scenarioHeader).2 = p.parseTags := by rw [hhead]
      rw [h2] at hA htodo2
      rcases hA with hA | hA
      · have hw : p3.weight = 2 * p.parseTags.todo := by
          rw [hA]
          exact gp_weight_clear _
        rcases hA0 with hA0 | hA0
        · rw [hA0] at hs' hw
          have htags : p.currentTags ≠ [] := by
            unfold GherkinParser.atScenario at hat
            rw [hs'] at hat
            intro e
            rw [e] at hat
            exact absurd hat (by decide)
          rw [gp_weight_of_tags p htags]
          omega
        · omega
      · omega

theorem gp_parseScenariosLoop_succ (fuel : Nat) (p : GherkinParser) (scenarios : List Scenario) :
    GherkinParser.parseScenariosLoop (fuel + 1) p scenarios
      = if p.atScenario = true then
          match p.parseScenario with
          | .error e => .error e
          | .ok (scenario, p1) =>
            GherkinParser.parseScenariosLoop fuel p1 (scenarios ++ [scenario])
        else .ok (scenarios, p) := rfl

theorem gp_parseScenariosLoop_of_not (fuel : Nat) (p : GherkinParser)
    (scenarios : List Scenario) (h : p.atScenario = false) :
    GherkinParser.parseScenariosLoop fuel p scenarios = .ok (scenarios, p) := by
  cases fuel with
  | zero => rfl
  | succ fuel =>
    rw [gp_parseScenariosLoop_succ, h]
    rfl

theorem gp_parseScenariosLoop_facts (fuel : Nat) :
    ∀ (p : GherkinParser) (scenarios : List Scenario),
      ∃ ss q, GherkinParser.parseScenariosLoop fuel p scenarios = .ok (ss, q)
        ∧ (∀ s ∈ ss, s ∈ scenarios ∨ s.examples = none)
        ∧ q.todo ≤ p.todo
        ∧ (p.weight < fuel →
            q.atScenario = false
              ∧ GherkinParser.parseScenariosLoop (fuel + 1) p scenarios = .ok (ss, q)) := by
  induction fuel with
  | zero =>
    exact fun p scenarios => ⟨scenarios, p, rfl, fun s hs => Or.inl hs, Nat.le_refl _,
      fun h => absurd h (Nat.not_lt_zero _)⟩
  | succ fuel ih =>
    intro p scenarios
    rw [gp_parseScenariosLoop_succ (fuel + 1) p, gp_parseScenariosLoop_succ fuel p]
    by_cases hc : p.atScenario = true
    · rw [if_pos hc, if_pos hc]
      obtain ⟨s, q, hq, hex, _, _, hle, hw⟩ := gp_parseScenario_ok p
      rw [hq]
      dsimp only
      obtain ⟨ss, q2, h1, h2, h3, h4⟩ := ih q (scenarios ++ [s])
      refine ⟨ss, q2, h1, ?_, Nat.le_trans h3 hle, fun hf => h4 (by have := hw hc; omega)⟩
      intro x hx
      rcases h2 x hx with h | h
      · rcases List.mem_append.mp h with h | h
        · exact Or.inl h
        · rw [List.mem_singleton.mp h]
          exact Or.inr hex
      · exact Or.inr h
    · rw [if_neg hc, if_neg hc]
      exact ⟨scenarios, p, rfl, fun s hs => Or.inl hs, Nat.le_refl _,
        fun _ => ⟨by simpa using hc, rfl⟩⟩

theorem gp_weight_lt_fuel (p : GherkinParser) : p.weight < 2 * p.lexer.rest.length + 4 := by
  have h1 := gp_weight_le p
  have h2 := gp_todo_lt_fuel p
  omega

theorem gp_expect_ok (p : GherkinParser) (t : TokenType) (h : p.match_ t = true) :
    p.expect t = .ok p.advance := by
  unfold GherkinParser.expect
  rw [h]
  rfl

theorem gp_expect_error (p : GherkinParser) (t : TokenType) (h : p.match_ t = false) :
    p.expect t
      = .error ("Unexpected token at line ".toList ++ intToString p.currentToken.line) := by
  unfold GherkinParser.expect
  rw [h]
  rfl

theorem gp_parseBackground_ok (p : GherkinParser) (h : p.match_ .BACKGROUND = true) :
    ∃ bg q, p.parseBackground = .ok (bg, q) ∧ bg.examples = none := by
  obtain ⟨ss, q, hq, _, _⟩ := gp_parseSteps_ok p.advance
  unfold GherkinParser.parseBackground
  rw [gp_expect_ok p _ h]
  dsimp only
  rw [hq]
  exact ⟨_, _, rfl, rfl⟩

theorem gp_featureBackground_ok (p : GherkinParser) :
    ∃ bg q, p.featureBackground = .ok (bg, q) := by
  unfold GherkinParser.featureBackground
  split
  · rename_i hb
    obtain ⟨bg, q, hbg, _⟩ := gp_parseBackground_ok p hb
    rw [hbg]
    exact ⟨_, _, rfl⟩
  · exact ⟨_, _, rfl⟩

theorem gp_featureBody_ok (p : GherkinParser) :
    ∃ f q, p.featureBody = .ok (f, q) ∧ f.name = p.currentToken.value
      ∧ f.tags = p.currentTags
      ∧ (∀ s ∈ f.scenarios, s.examples = none) ∧ q.atScenario = false := by
  obtain ⟨bg, p2, hbg⟩ := gp_featureBackground_ok
    (({ p with currentTags := [] } : GherkinParser).advance.parseDescription).2
  obtain ⟨ss, q, hq, hall, _, hexit⟩ :=
    gp_parseScenariosLoop_facts (2 * p2.lexer.rest.length + 4) p2 []
  unfold GherkinParser.featureBody
  dsimp only
  rw [hbg]
  dsimp only
  rw [hq]
  refine ⟨_, q, rfl, rfl, rfl, ?_, (hexit (gp_weight_lt_fuel p2)).1⟩
  intro s hs
  rcases hall s hs with h | h
  · exact absurd h (List.not_mem_nil _)
  · exact h

theorem gp_parseFeature_error (p : GherkinParser) (h : p.parseTags.match_ .FEATURE = false) :
    p.parseFeature
      = .error ("Unexpected token at line ".toList ++ intToString p.parseTags.currentToken.line) := by
  unfold GherkinParser.parseFeature
  rw [h, gp_expect_error _ _ h]
  rfl

theorem gp_parseFeature_ok (p : GherkinParser) (h : p.parseTags.match_ .FEATURE = true) :
    p.parseFeature = p.parseTags.featureBody := by
  unfold GherkinParser.parseFeature
  rw [h]
  rfl

theorem gp_parse_eq (input : Str) :
    GherkinParser.parse input
      = match
          (({ lexer := GherkinLexer.new input
              currentToken := { type := .EOF_TOKEN, value := [], line := 0, column := 0 }
              currentTags := [] } : GherkinParser).advance).parseFeature with
        | .error e => .error e
        | .ok (feature, _) => .ok feature := rfl


/-! ## `GherkinLexer` and `GherkinParser` on the lines of a scenario -/

theorem lineEnd_head {tail : Str} (h : LineEnd tail) (f : Char → Bool) (hf : f '\n' = false) :
    ∀ c, tail.head? = some c → f c = false := by
  intro c hc
  rcases h with h | ⟨s, h⟩
  · rw [h] at hc
    cases hc
  · rw [h] at hc
    injection hc with hc
    rw [← hc]
    exact hf

theorem dropWhile_append_head (f : Char → Bool) (a tail : Str)
    (ht : ∀ c, tail.head? = some c → f c = false) :
    (a ++ tail).dropWhile f = a.dropWhile f ++ tail := by
  induction a with
  | nil =>
    cases tail with
    | nil => rfl
    | cons t ts =>
      rw [List.nil_append, List.dropWhile_cons, ht t rfl]
      rfl
  | cons x xs ih =>
    rw [List.cons_append, List.dropWhile_cons, List.dropWhile_cons]
    cases hx : f x
    · rfl
    · simp only [if_true]
      exact ih

theorem takeWhile_append_head (f : Char → Bool) (a tail : Str)
    (ht : ∀ c, tail.head? = some c → f c = false) :
    (a ++ tail).takeWhile f = a.takeWhile f := by
  induction a with
  | nil =>
    cases tail with
    | nil => rfl
    | cons t ts =>
      rw [List.nil_append, List.takeWhile_cons, ht t rfl]
      rfl
  | cons x xs ih =>
    rw [List.cons_append, List.takeWhile_cons, List.takeWhile_cons]
    cases hx : f x
    · rfl
    · simp only [if_true]
      rw [ih]

theorem takeWhile_of_all (f : Char → Bool) (a : Str) (h : ∀ c ∈ a, f c = true) :
    a.takeWhile f = a := by
  induction a with
  | nil => rfl
  | cons x xs ih =>
    rw [List.takeWhile_cons, h x (List.mem_cons_self _ _)]
    simp only [if_true]
    rw [ih (fun c hc => h c (List.mem_cons_of_mem _ hc))]

theorem dropWhile_of_all (f : Char → Bool) (a : Str) (h : ∀ c ∈ a, f c = true) :
    a.dropWhile f = [] := by
  induction a with
  | nil => rfl
  | cons x xs ih =>
    rw [List.dropWhile_cons, h x (List.mem_cons_self _ _)]
    simp only [if_true]
    exact ih (fun c hc => h c (List.mem_cons_of_mem _ hc))

theorem mem_of_mem_dropWhile {f : Char → Bool} {a : Str} {c : Char}
    (h : c ∈ a.dropWhile f) : c ∈ a :=
  (List.dropWhile_suffix f).subset h

theorem mem_of_mem_dropColon {a : Str} {c : Char} (h : c ∈ dropColon a) : c ∈ a := by
  cases a with
  | nil => exact h
  | cons x xs =>
    unfold dropColon at h
    dsimp only at h
    split at h
    · exact List.mem_cons_of_mem _ h
    · exact h

theorem glex_skipColon_rest (l : GherkinLexer) : l.skipColon.rest = dropColon l.rest := by
  unfold GherkinLexer.skipColon dropColon
  cases hr : l.rest with
  | nil => exact hr
  | cons c cs =>
    dsimp only
    by_cases hc : c = ':'
    · rw [if_pos hc, if_pos hc]
    · rw [if_neg hc, if_neg hc]
      exact hr

theorem dropColon_append (a tail : Str) (ht : LineEnd tail) :
    dropColon (a ++ tail) = dropColon a ++ tail := by
  cases a with
  | nil =>
    rcases ht with ht | ⟨s, ht⟩
    · rw [ht]
      rfl
    · rw [ht]
      rfl
  | cons x xs =>
    unfold dropColon
    rw [List.cons_append]
    dsimp only
    by_cases hx : x = ':'
    · rw [if_pos hx, if_pos hx]
    · rw [if_neg hx, if_neg hx]
      rfl

theorem glex_skipColon_append (l : GherkinLexer) (a tail : Str) (h : l.rest = a ++ tail)
    (ht : LineEnd tail) : l.skipColon.rest = dropColon a ++ tail := by
  rw [glex_skipColon_rest, h, dropColon_append a tail ht]

theorem glex_readKeywordText_line (l : GherkinLexer) (after tail : Str)
    (h : l.rest = after ++ tail) (hn : '\n' ∉ after) (ht : LineEnd tail) :
    (l.readKeywordText).1 = dropBlanks (dropColon (dropBlanks after))
      ∧ (l.readKeywordText).2.rest = tail := by
  have hblank := lineEnd_head ht (fun c => c = ' ' || c = '\t') (by decide)
  have hline := lineEnd_head ht (fun c => c ≠ '\n') (by decide)
  have h1 : l.skipWhitespace.rest = dropBlanks after ++ tail := by
    rw [glex_skipWhitespace_rest, h]
    exact dropWhile_append_head _ after tail hblank
  have h2 : l.skipWhitespace.skipColon.rest = dropColon (dropBlanks after) ++ tail :=
    glex_skipColon_append _ _ _ h1 ht
  have h3 : l.skipWhitespace.skipColon.skipWhitespace.rest
      = dropBlanks (dropColon (dropBlanks after)) ++ tail := by
    rw [glex_skipWhitespace_rest, h2]
    exact dropWhile_append_head _ _ tail hblank
  have hno : ∀ c ∈ dropBlanks (dropColon (dropBlanks after)),
      (fun c => decide (c ≠ '\n')) c = true := by
    intro c hc
    have hc1 := mem_of_mem_dropColon (mem_of_mem_dropWhile hc)
    have hc2 : c ∈ after := mem_of_mem_dropWhile hc1
    have : c ≠ '\n' := fun e => hn (e ▸ hc2)
    simpa using this
  have h4 : (l.skipWhitespace.skipColon.skipWhitespace.rest).takeWhile (fun c => c ≠ '\n')
      = dropBlanks (dropColon (dropBlanks after)) := by
    rw [h3, takeWhile_append_head _ _ tail hline]
    exact takeWhile_of_all _ _ hno
  refine ⟨h4, ?_⟩
  show (l.skipWhitespace.skipColon.skipWhitespace.rest).drop
    ((l.skipWhitespace.skipColon.skipWhitespace.rest).takeWhile (fun c => c ≠ '\n')).length = tail
  rw [h4, h3]
  exact List.drop_left _ _

theorem ne_of_isAlpha {c d : Char} (hc : c.isAlpha = true) (hd : d.isAlpha = false) : c ≠ d := by
  rintro rfl
  rw [hd] at hc
  cases hc

theorem afterKeyword_head {after tail : Str} (ha : AfterKeyword after) (ht : LineEnd tail) :
    ∀ c, (after ++ tail).head? = some c → c.isAlpha = false := by
  intro c hc
  cases after with
  | nil => exact lineEnd_head ht Char.isAlpha (by decide) c hc
  | cons x xs => exact ha.2 c hc

theorem glex_nextToken_readKeyword (l : GherkinLexer) (c : Char) (cs : Str)
    (hs : l.skipWhitespace.rest = c :: cs) (h1 : c ≠ '#') (h2 : c ≠ '@') (h3 : c ≠ '|')
    (h4 : c ≠ dquote) : l.nextToken = l.skipWhitespace.readKeyword := by
  rw [glex_nextToken_eq, hs]
  dsimp only
  rw [if_neg h1, if_neg h2, if_neg h3]
  have hne : (c :: cs).take 3 ≠ tripleQuote := by
    intro e
    have := congrArg List.head? e
    exact h4 (by simpa [tripleQuote] using this)
  rw [decide_eq_false hne, Bool.and_false]
  rfl

theorem glex_nextToken_keyword_line (l : GherkinLexer) (indent kw after tail : Str)
    (h : l.rest = indent ++ (kw ++ (after ++ tail)))
    (hi : ∀ c ∈ indent, c = ' ' ∨ c = '\t') (hk : GherkinLexer.isKeyword kw = true)
    (ha : ∀ c ∈ kw, c.isAlpha = true) (haft : AfterKeyword after) (ht : LineEnd tail) :
    (l.nextToken).1.type = GherkinLexer.getKeywordType kw
      ∧ (l.nextToken).1.value = keywordValue after
      ∧ (l.nextToken).2.rest = tail := by
  obtain ⟨k, kw', hkw⟩ : ∃ k kw', kw = k :: kw' := by
    cases kw with
    | nil => exact absurd rfl (isKeyword_ne_nil _ hk)
    | cons k kw' => exact ⟨k, kw', rfl⟩
  have hka : k.isAlpha = true := ha k (by rw [hkw]; exact List.mem_cons_self _ _)
  have hs : l.skipWhitespace.rest = kw ++ (after ++ tail) := by
    rw [glex_skipWhitespace_rest, h, dropWhile_append_head _ indent _ (by
      intro c hc
      rw [hkw] at hc
      injection hc with hc
      rw [← hc]
      have h1 : k ≠ ' ' := ne_of_isAlpha hka (by decide)
      have h2 : k ≠ '\t' := ne_of_isAlpha hka (by decide)
      simp [h1, h2]), dropWhile_of_all _ indent (by
      intro c hc
      rcases hi c hc with e | e <;> rw [e] <;> decide)]
    rfl
  have hs' : l.skipWhitespace.rest = k :: (kw' ++ (after ++ tail)) := by
    rw [hs, hkw]
    rfl
  have htake : l.skipWhitespace.rest.takeWhile Char.isAlpha = kw := by
    rw [hs, takeWhile_append_head _ kw _ (afterKeyword_head haft ht)]
    exact takeWhile_of_all _ kw ha
  have hdrop : l.skipWhitespace.rest.drop kw.length = after ++ tail := by
    rw [hs]
    exact List.drop_left _ _
  have e : l.nextToken = l.skipWhitespace.readKeyword :=
    glex_nextToken_readKeyword l k _ hs' (ne_of_isAlpha hka (by decide))
      (ne_of_isAlpha hka (by decide)) (ne_of_isAlpha hka (by decide))
      (ne_of_isAlpha hka (by decide))
  rw [e, glex_readKeyword_eq, htake, if_pos hk]
  obtain ⟨t1, t2⟩ := glex_readKeywordText_line
    ({ l.skipWhitespace with
        rest := l.skipWhitespace.rest.drop kw.length
        column := l.skipWhitespace.column + kw.length } : GherkinLexer) after tail hdrop
    haft.1 ht
  refine ⟨rfl, ?_, t2⟩
  show trim _ = keywordValue after
  rw [t1]
  rfl

theorem glex_nextToken_newline (l : GherkinLexer) (cs : Str) (h : l.rest = '\n' :: cs) :
    (l.nextToken).1.type = .NEWLINE ∧ (l.nextToken).2.rest = cs := by
  have hs : l.skipWhitespace.rest = '\n' :: cs := by
    rw [glex_skipWhitespace_rest, h]
    rfl
  have e : l.nextToken = l.skipWhitespace.readKeyword :=
    glex_nextToken_readKeyword l '\n' cs hs (by decide) (by decide) (by decide) (by decide)
  have htake : l.skipWhitespace.rest.takeWhile Char.isAlpha = [] := by
    rw [hs]
    rfl
  rw [e, glex_readKeyword_eq, htake, if_neg (by decide)]
  unfold GherkinLexer.readText
  dsimp only
  rw [hs]
  exact ⟨rfl, rfl⟩

theorem gp_advance_keyword_line (p : GherkinParser) (indent kw after tail : Str)
    (h : p.lexer.rest = indent ++ (kw ++ (after ++ tail)))
    (hi : ∀ c ∈ indent, c = ' ' ∨ c = '\t') (hk : GherkinLexer.isKeyword kw = true)
    (ha : ∀ c ∈ kw, c.isAlpha = true) (haft : AfterKeyword after) (ht : LineEnd tail) :
    p.advance.lexer.rest = tail
      ∧ p.advance.currentToken.type = GherkinLexer.getKeywordType kw
      ∧ p.advance.currentToken.value = keywordValue after
      ∧ p.advance.currentTags = p.currentTags := by
  obtain ⟨t1, t2, t3⟩ := glex_nextToken_keyword_line p.lexer indent kw after tail h hi hk ha haft ht
  obtain ⟨_, _, n1, n2, _⟩ := getKeywordType_of_keyword kw hk
  have hnot : ¬ (({ p with lexer := (p.lexer.nextToken).2, currentToken := (p.lexer.nextToken).1 }
      : GherkinParser).currentToken.type = .NEWLINE
      ∨ ({ p with lexer := (p.lexer.nextToken).2, currentToken := (p.lexer.nextToken).1 }
      : GherkinParser).currentToken.type = .TAG) := by
    show ¬ ((p.lexer.nextToken).1.type = .NEWLINE ∨ (p.lexer.nextToken).1.type = .TAG)
    rw [t1]
    exact fun e => e.elim n1 n2
  rw [gp_advance_eq, gp_advanceLoop_of_not _ _ hnot]
  exact ⟨t3, t1, t2, rfl⟩

theorem gp_advance_newline_keyword_line (p : GherkinParser) (indent kw after tail : Str)
    (h : p.lexer.rest = '\n' :: (indent ++ (kw ++ (after ++ tail))))
    (hi : ∀ c ∈ indent, c = ' ' ∨ c = '\t') (hk : GherkinLexer.isKeyword kw = true)
    (ha : ∀ c ∈ kw, c.isAlpha = true) (haft : AfterKeyword after) (ht : LineEnd tail) :
    p.advance.lexer.rest = tail
      ∧ p.advance.currentToken.type = GherkinLexer.getKeywordType kw
      ∧ p.advance.currentToken.value = keywordValue after
      ∧ p.advance.currentTags = p.currentTags := by
  obtain ⟨m1, m2⟩ := glex_nextToken_newline p.lexer _ h
  obtain ⟨t1, t2, t3⟩ := glex_nextToken_keyword_line (p.lexer.nextToken).2 indent kw after tail
    m2 hi hk ha haft ht
  obtain ⟨_, _, n1, n2, _⟩ := getKeywordType_of_keyword kw hk
  have hnot : ¬ ((((p.lexer.nextToken).2.nextToken).1.type = .NEWLINE)
      ∨ (((p.lexer.nextToken).2.nextToken).1.type = .TAG)) := by
    rw [t1]
    exact fun e => e.elim n1 n2
  rw [gp_advance_eq, gp_advanceLoop_succ, if_pos (Or.inl m1), gp_advanceLoop_of_not _ _ hnot]
  refine ⟨t3, t1, t2, ?_⟩
  show (if (p.lexer.nextToken).1.type = .TAG then _ else p.currentTags) = p.currentTags
  rw [if_neg (by rw [m1]; decide)]

theorem gp_advance_newline_end (p : GherkinParser) (h : p.lexer.rest = ['\n']) :
    p.advance.lexer.rest = [] ∧ p.advance.currentToken.type = .EOF_TOKEN
      ∧ p.advance.currentTags = p.currentTags := by
  obtain ⟨m1, m2⟩ := glex_nextToken_newline p.lexer _ h
  obtain ⟨t1, t2⟩ := glex_nextToken_nil (p.lexer.nextToken).2 m2
  have hnot : ¬ ((((p.lexer.nextToken).2.nextToken).1.type = .NEWLINE)
      ∨ (((p.lexer.nextToken).2.nextToken).1.type = .TAG)) := by
    rw [t1]
    decide
  rw [gp_advance_eq, gp_advanceLoop_succ, if_pos (Or.inl m1), gp_advanceLoop_of_not _ _ hnot]
  refine ⟨t2, t1, ?_⟩
  show (if (p.lexer.nextToken).1.type = .TAG then _ else p.currentTags) = p.currentTags
  rw [if_neg (by rw [m1]; decide)]

theorem stepKeyword_facts (t : StepType) :
    GherkinLexer.isKeyword t.keyword = true ∧ (∀ c ∈ t.keyword, c.isAlpha = true)
      ∧ GherkinLexer.getKeywordType t.keyword = t.token
      ∧ stepTypeOfToken t.token = some t := by
  cases t <;> decide

theorem stepToken_facts (t : StepType) :
    t.token ≠ .TEXT ∧ t.token ≠ .NEWLINE ∧ t.token ≠ .DATA_ROW ∧ t.token ≠ .DOC_STRING
      ∧ t.token ≠ .EOF_TOKEN ∧ t.token ≠ .TAG ∧ t.token ≠ .EXAMPLES
      ∧ t.token ≠ TokenType.SCENARIO ∧ t.token ≠ .BACKGROUND := by
  cases t <;> decide

theorem stepLines_cons (l : StepLine) (ls : List StepLine) :
    stepLines (l :: ls)
      = l.indent ++ (l.keyword.keyword ++ (l.rest ++ ('\n' :: stepLines ls))) := by
  unfold stepLines StepLine.render
  simp

theorem stepLines_length (ls : List StepLine) : ls.length ≤ (stepLines ls).length := by
  induction ls with
  | nil => exact Nat.le_refl _
  | cons l ls ih =>
    rw [stepLines_cons]
    simp only [List.length_append, List.length_cons]
    omega

theorem gp_match_of_type (p : GherkinParser) (t u : TokenType) (h : p.currentToken.type = t) :
    p.match_ u = decide (t = u) := by
  unfold GherkinParser.match_
  rw [h]

theorem gp_atStep_of_token (p : GherkinParser) (t : StepType)
    (h : p.currentToken.type = t.token) : p.atStep = true := by
  unfold GherkinParser.atStep GherkinParser.match_
  rw [h]
  cases t <;> rfl

theorem gp_parseStep_plain (p : GherkinParser) (type : StepType)
    (ht : stepTypeOfToken p.currentToken.type = some type)
    (h1 : p.advance.match_ .DATA_ROW = false) (h2 : p.advance.match_ .DOC_STRING = false) :
    p.parseStep
      = .ok (Step.new type p.currentToken.value p.currentToken.line, p.advance) := by
  have e1 : p.advance.stepTable (Step.new type p.currentToken.value p.currentToken.line)
      = (Step.new type p.currentToken.value p.currentToken.line, p.advance) := by
    unfold GherkinParser.stepTable
    rw [h1]
    rfl
  have e2 : p.advance.stepDocString (Step.new type p.currentToken.value p.currentToken.line)
      = (Step.new type p.currentToken.value p.currentToken.line, p.advance) := by
    unfold GherkinParser.stepDocString
    rw [h2]
    rfl
  unfold GherkinParser.parseStep
  rw [ht]
  show Except.ok ((p.advance.stepTable _).2.stepDocString (p.advance.stepTable _).1) = _
  rw [e1, e2]

theorem gp_advance_to_line (p : GherkinParser) (l2 : StepLine) (ls : List StepLine)
    (h : p.lexer.rest = '\n' :: stepLines (l2 :: ls)) (hw : l2.WellFormed) :
    p.advance.AtLine l2 ls ∧ p.advance.currentTags = p.currentTags := by
  obtain ⟨k1, k2, k3, _⟩ := stepKeyword_facts l2.keyword
  rw [stepLines_cons] at h
  obtain ⟨a1, a2, a3, a4⟩ := gp_advance_newline_keyword_line p l2.indent l2.keyword.keyword
    l2.rest ('\n' :: stepLines ls) h hw.1 k1 k2 hw.2 (Or.inr ⟨_, rfl⟩)
  exact ⟨⟨by rw [a2, k3], a3, a1⟩, a4⟩

theorem gp_advance_atLine (p : GherkinParser) (l l2 : StepLine) (ls : List StepLine)
    (h : p.AtLine l (l2 :: ls)) (hw : l2.WellFormed) :
    p.advance.AtLine l2 ls ∧ p.advance.currentTags = p.currentTags :=
  gp_advance_to_line p l2 ls h.2.2 hw

theorem gp_advance_atLine_last (p : GherkinParser) (l : StepLine) (h : p.AtLine l []) :
    p.advance.lexer.rest = [] ∧ p.advance.currentToken.type = .EOF_TOKEN
      ∧ p.advance.currentTags = p.currentTags :=
  gp_advance_newline_end p h.2.2

theorem gp_parseStepsLoop_lines (ls : List StepLine) :
    ∀ (l : StepLine) (p : GherkinParser) (acc : List Step) (fuel : Nat),
      (∀ x ∈ ls, x.WellFormed) → p.AtLine l ls → ls.length + 1 ≤ fuel →
      ∃ ss q, GherkinParser.parseStepsLoop fuel p acc = .ok (acc ++ ss, q)
        ∧ ss.map Step.view = (l :: ls).map StepLine.view
        ∧ (∀ s ∈ ss, s.dataTable = none ∧ s.docString = none)
        ∧ q.currentToken.type = .EOF_TOKEN ∧ q.lexer.rest = []
        ∧ q.currentTags = p.currentTags := by
  induction ls with
  | nil =>
    intro l p acc fuel _ hat hf
    obtain ⟨_, _, _, k4⟩ := stepKeyword_facts l.keyword
    obtain ⟨e1, e2, e3⟩ := gp_advance_atLine_last p l hat
    obtain ⟨n, hn⟩ : ∃ n, fuel = n + 1 := ⟨fuel - 1, by omega⟩
    have hstep := gp_parseStep_plain p l.keyword (by rw [hat.1]; exact k4)
      (gp_match_of_eof _ _ e2 (by decide)) (gp_match_of_eof _ _ e2 (by decide))
    rw [hn, gp_parseStepsLoop_succ, gp_atStep_of_token p l.keyword hat.1, if_pos rfl, hstep]
    dsimp only
    rw [gp_parseStepsLoop_of_not _ _ _ (gp_atStep_of_eof _ e2)]
    refine ⟨[Step.new l.keyword p.currentToken.value p.currentToken.line], p.advance, rfl, ?_,
      ?_, e2, e1, e3⟩
    · show [(l.keyword, p.currentToken.value)] = [(l.keyword, keywordValue l.rest)]
      rw [hat.2.1]
    · intro s hs
      rw [List.mem_singleton.mp hs]
      exact ⟨rfl, rfl⟩
  | cons l2 ls ih =>
    intro l p acc fuel hw hat hf
    obtain ⟨_, _, _, k4⟩ := stepKeyword_facts l.keyword
    obtain ⟨hat2, htags⟩ := gp_advance_atLine p l l2 ls hat (hw l2 (List.mem_cons_self _ _))
    obtain ⟨t1, t2, t3, t4, _⟩ := stepToken_facts l2.keyword
    obtain ⟨n, hn⟩ : ∃ n, fuel = n + 1 := ⟨fuel - 1, by omega⟩
    have hm1 : p.advance.match_ .DATA_ROW = false := by
      rw [gp_match_of_type _ _ _ hat2.1]
      exact decide_eq_false t3
    have hm2 : p.advance.match_ .DOC_STRING = false := by
      rw [gp_match_of_type _ _ _ hat2.1]
      exact decide_eq_false t4
    have hstep := gp_parseStep_plain p l.keyword (by rw [hat.1]; exact k4) hm1 hm2
    rw [hn, gp_parseStepsLoop_succ, gp_atStep_of_token p l.keyword hat.1, if_pos rfl, hstep]
    dsimp only
    obtain ⟨ss, q, h1, h2, h3, h4, h5, h6⟩ := ih l2 p.advance
      (acc ++ [Step.new l.keyword p.currentToken.value p.currentToken.line]) n
      (fun x hx => hw x (List.mem_cons_of_mem _ hx)) hat2 (by
        simp only [List.length_cons] at hf
        omega)
    refine ⟨Step.new l.keyword p.currentToken.value p.currentToken.line :: ss, q, ?_, ?_, ?_,
      h4, h5, by rw [h6, htags]⟩
    · rw [h1, List.append_assoc]
      rfl
    · rw [List.map_cons, h2]
      show (l.keyword, p.currentToken.value) :: _ = (l.keyword, keywordValue l.rest) :: _
      rw [hat.2.1]
    · intro s hs
      rcases List.mem_cons.mp hs with hs | hs
      · rw [hs]
        exact ⟨rfl, rfl⟩
      · exact h3 s hs

theorem gp_parseDescription_of_not (p : GherkinParser)
    (h1 : p.currentToken.type ≠ .TEXT) (h2 : p.currentToken.type ≠ .NEWLINE) :
    p.parseDescription = ([], p) := by
  unfold GherkinParser.parseDescription
  exact gp_parseDescriptionLoop_of_not _ p [] (by
    unfold GherkinParser.match_
    rw [decide_eq_false h1, decide_eq_false h2]
    rfl)

theorem gp_scenarioHeader_plain (p : GherkinParser)
    (h : p.currentToken.type = TokenType.SCENARIO) (ht : p.advance.currentToken.type ≠ .TEXT) :
    p.scenarioHeader = ((false, p.currentToken.value), p.advance) := by
  unfold GherkinParser.scenarioHeader
  rw [gp_match_of_type p _ _ h, decide_eq_false ht]
  rfl

theorem gp_parseScenario_lines (p : GherkinParser) (lines : List StepLine)
    (hty : p.currentToken.type = TokenType.SCENARIO)
    (hrest : p.lexer.rest = '\n' :: stepLines lines) (hw : ∀ x ∈ lines, x.WellFormed) :
    ∃ s q, p.parseScenario = .ok (s, q) ∧ s.name = p.currentToken.value
      ∧ s.tags = p.currentTags ∧ s.description = [] ∧ s.examples = none
      ∧ s.steps.map Step.view = lines.map StepLine.view
      ∧ (∀ st ∈ s.steps, st.dataTable = none ∧ st.docString = none)
      ∧ q.currentToken.type = .EOF_TOKEN ∧ q.currentTags = [] ∧ q.lexer.rest = [] := by
  have hpt : p.parseTags = p :=
    gp_parseTags_of_not p (by rw [gp_match_of_type p _ _ hty]; rfl)
  cases lines with
  | nil =>
    obtain ⟨e1, e2, e3⟩ := gp_advance_newline_end p hrest
    have hh := gp_scenarioHeader_plain p hty (by rw [e2]; decide)
    have he : ({ p.advance with currentTags := [] } : GherkinParser).currentToken.type
        = .EOF_TOKEN := e2
    rw [gp_parseScenario_eq, hpt, hh]
    dsimp only
    rw [gp_parseDescription_of_eof _ he]
    dsimp only
    rw [gp_parseSteps_of_eof _ he]
    dsimp only
    refine ⟨_, _, rfl, rfl, e3, rfl, rfl, rfl, ?_, e2, rfl, e1⟩
    intro st hst
    exact absurd hst (List.not_mem_nil _)
  | cons l ls =>
    obtain ⟨hat, htags⟩ := gp_advance_to_line p l ls hrest (hw l (List.mem_cons_self _ _))
    obtain ⟨t1, t2, _, _, _, _, t7, _⟩ := stepToken_facts l.keyword
    have hh := gp_scenarioHeader_plain p hty (by rw [hat.1]; exact t1)
    have hat2 : ({ p.advance with currentTags := [] } : GherkinParser).AtLine l ls := hat
    have hlen := stepLines_length ls
    have hfuel : ls.length + 1
        ≤ ({ p.advance with currentTags := [] } : GherkinParser).lexer.rest.length + 2 := by
      have : ({ p.advance with currentTags := [] } : GherkinParser).lexer.rest
          = '\n' :: stepLines ls := hat.2.2
      rw [this]
      simp only [List.length_cons]
      omega
    obtain ⟨ss, q, h1, h2, h3, h4, h5, h6⟩ := gp_parseStepsLoop_lines ls l
      ({ p.advance with currentTags := [] } : GherkinParser) [] _
      (fun x hx => hw x (List.mem_cons_of_mem _ hx)) hat2 hfuel
    have hsteps : ({ p.advance with currentTags := [] } : GherkinParser).parseSteps
        = .ok (ss, q) := h1
    have hd := gp_parseDescription_of_not ({ p.advance with currentTags := [] } : GherkinParser)
      (by show p.advance.currentToken.type ≠ .TEXT; rw [hat.1]; exact t1)
      (by show p.advance.currentToken.type ≠ .NEWLINE; rw [hat.1]; exact t2)
    rw [gp_parseScenario_eq, hpt, hh]
    dsimp only
    rw [hd]
    dsimp only
    rw [hsteps]
    dsimp only
    exact ⟨_, _, rfl, rfl, htags, rfl, rfl, h2, h3, h4, h6, h5⟩

theorem gp_atScenario_of_eof (p : GherkinParser) (h : p.currentToken.type = .EOF_TOKEN)
    (ht : p.currentTags = []) : p.atScenario = false := by
  unfold GherkinParser.atScenario
  rw [gp_match_of_type p _ _ h, ht]
  rfl

theorem gp_featureBody_scenario (p : GherkinParser) (afterScenario : Str)
    (lines : List StepLine)
    (hrest : p.lexer.rest
      = '\n' :: ("Scenario".toList ++ (afterScenario ++ ('\n' :: stepLines lines))))
    (hs : AfterKeyword afterScenario) (hw : ∀ x ∈ lines, x.WellFormed) :
    ∃ f s q, p.featureBody = .ok (f, q) ∧ f.name = p.currentToken.value
      ∧ f.tags = p.currentTags ∧ f.background = none ∧ f.scenarios = [s]
      ∧ s.name = keywordValue afterScenario ∧ s.tags = [] ∧ s.examples = none
      ∧ s.steps.map Step.view = lines.map StepLine.view
      ∧ (∀ st ∈ s.steps, st.dataTable = none ∧ st.docString = none) := by
  obtain ⟨a1, a2, a3, a4⟩ := gp_advance_newline_keyword_line
    ({ p with currentTags := [] } : GherkinParser) [] "Scenario".toList afterScenario
    ('\n' :: stepLines lines) hrest (fun c hc => absurd hc (List.not_mem_nil _))
    (by decide) (by decide) hs (Or.inr ⟨_, rfl⟩)
  have a2' : ({ p with currentTags := [] } : GherkinParser).advance.currentToken.type
      = TokenType.SCENARIO := by
    rw [a2]
    decide
  have hd := gp_parseDescription_of_not ({ p with currentTags := [] } : GherkinParser).advance
    (by rw [a2']; decide) (by rw [a2']; decide)
  have hb : ({ p with currentTags := [] } : GherkinParser).advance.featureBackground
      = .ok (none, ({ p with currentTags := [] } : GherkinParser).advance) := by
    unfold GherkinParser.featureBackground
    rw [gp_match_of_type _ _ _ a2']
    rfl
  obtain ⟨s, q, h1, h2, h3, _, h5, h6, h7, h8, h9, _⟩ := gp_parseScenario_lines
    ({ p with currentTags := [] } : GherkinParser).advance lines a2' a1 hw
  have hat : ({ p with currentTags := [] } : GherkinParser).advance.atScenario = true := by
    unfold GherkinParser.atScenario
    rw [gp_match_of_type _ _ _ a2']
    rfl
  have hloop : ∀ fuel, GherkinParser.parseScenariosLoop (fuel + 1)
      ({ p with currentTags := [] } : GherkinParser).advance [] = .ok ([s], q) := by
    intro fuel
    rw [gp_parseScenariosLoop_succ, if_pos hat, h1]
    exact gp_parseScenariosLoop_of_not _ _ _ (gp_atScenario_of_eof q h8 h9)
  unfold GherkinParser.featureBody
  dsimp only
  rw [hd]
  dsimp only
  rw [hb]
  dsimp only
  rw [hloop]
  exact ⟨_, s, q, rfl, rfl, rfl, rfl, rfl, by rw [h2, a3], by rw [h3, a4], h5, h6, h7⟩

theorem gp_parseFeature_scenarioText (p : GherkinParser) (afterFeature afterScenario : Str)
    (lines : List StepLine) (hp : p.lexer.rest = scenarioText afterFeature afterScenario lines)
    (htags : p.currentTags = [])
    (hf : AfterKeyword afterFeature) (hs : AfterKeyword afterScenario)
    (hw : ∀ x ∈ lines, x.WellFormed) :
    ∃ f s q, p.advance.parseFeature = .ok (f, q)
      ∧ f.name = keywordValue afterFeature ∧ f.tags = [] ∧ f.background = none
      ∧ f.scenarios = [s]
      ∧ s.name = keywordValue afterScenario ∧ s.tags = [] ∧ s.examples = none
      ∧ s.steps.map Step.view = lines.map StepLine.view
      ∧ (∀ st ∈ s.steps, st.dataTable = none ∧ st.docString = none) := by
  obtain ⟨a1, a2, a3, a4⟩ := gp_advance_keyword_line p [] "Feature".toList afterFeature
    ('\n' :: ("Scenario".toList ++ (afterScenario ++ ('\n' :: stepLines lines)))) hp
    (fun c hc => absurd hc (List.not_mem_nil _)) (by decide) (by decide) hf (Or.inr ⟨_, rfl⟩)
  have a2' : p.advance.currentToken.type = .FEATURE := by
    rw [a2]
    decide
  have hpt := gp_parseTags_of_not p.advance (by rw [gp_match_of_type _ _ _ a2']; rfl)
  have hm : p.advance.parseTags.match_ .FEATURE = true := by
    rw [hpt, gp_match_of_type _ _ _ a2']
    rfl
  obtain ⟨f, s, q, h1, h2, h3, h4, h5, h6, h7, h8, h9, h10⟩ :=
    gp_featureBody_scenario p.advance afterScenario lines a1 hs hw
  rw [gp_parseFeature_ok _ hm, hpt, h1]
  exact ⟨f, s, q, rfl, by rw [h2, a3], by rw [h3, a4, htags], h4, h5, h6, h7, h8, h9, h10⟩

theorem gp_parse_scenarioText (afterFeature afterScenario : Str) (lines : List StepLine)
    (hf : AfterKeyword afterFeature) (hs : AfterKeyword afterScenario)
    (hw : ∀ x ∈ lines, x.WellFormed) :
    ∃ f s, GherkinParser.parse (scenarioText afterFeature afterScenario lines) = .ok f
      ∧ f.name = keywordValue afterFeature ∧ f.tags = [] ∧ f.background = none
      ∧ f.scenarios = [s]
      ∧ s.name = keywordValue afterScenario ∧ s.tags = [] ∧ s.examples = none
      ∧ s.steps.map Step.view = lines.map StepLine.view
      ∧ (∀ st ∈ s.steps, st.dataTable = none ∧ st.docString = none) := by
  obtain ⟨f, s, q, h1, h2⟩ := gp_parseFeature_scenarioText
    (⟨GherkinLexer.new (scenarioText afterFeature afterScenario lines),
      ⟨.EOF_TOKEN, [], 0, 0⟩, []⟩ : GherkinParser) afterFeature afterScenario lines
    rfl rfl hf hs hw
  rw [gp_parse_eq, h1]
  exact ⟨f, s, rfl, h2⟩

theorem dropWhile_dropWhile_of_imp (f g : Char → Bool) (h : ∀ c, f c = true → g c = true)
    (s : Str) : (s.dropWhile f).dropWhile g = s.dropWhile g := by
  induction s with
  | nil => rfl
  | cons c cs ih =>
    cases hf : f c with
    | false => rw [List.dropWhile_cons_of_neg (by rw [hf]; decide)]
    | true =>
      rw [List.dropWhile_cons_of_pos hf, List.dropWhile_cons_of_pos (h c hf), ih]

theorem dropColon_of_head (s : Str) (h : s.head? ≠ some ':') : dropColon s = s := by
  cases s with
  | nil => rfl
  | cons c cs =>
    show (if c = ':' then cs else c :: cs) = c :: cs
    rw [if_neg (fun e => h (by rw [e]; rfl))]

theorem keywordValue_of_no_colon (after : Str) (h : (dropBlanks after).head? ≠ some ':') :
    keywordValue after = trim after := by
  unfold keywordValue
  rw [dropColon_of_head _ h]
  unfold dropBlanks trim
  rw [dropWhile_dropWhile_of_imp _ _ (fun _ hc => hc),
    dropWhile_dropWhile_of_imp _ _ (fun c hc => by
      simp only [Bool.or_eq_true, decide_eq_true_eq] at hc ⊢
      rcases hc with hc | hc
      · exact Or.inl (Or.inl (Or.inl hc))
      · exact Or.inl (Or.inl (Or.inr hc)))]

/-! ## Steps and scenario outlines of `GherkinParser` -/

set_option maxRecDepth 1000000 in
/-- Claim C32 fails when a colon follows the keyword of a step line: the text of
the step is not the rest of the line, trimmed.  For the lines `Given :x` and
`When: y` the texts are `x` and `y`, while the rests of the lines, trimmed, are
`:x` and `: y`.  For the document of `test_step_types` the five steps have the
types and the texts of their lines. -/
theorem parse_step_text_drops_colon :
    (firstSteps docStepColon).map Step.view
        = [(StepType.GIVEN, "x".toList), (StepType.WHEN, "y".toList)]
    ∧ [trim " :x".toList, trim ": y".toList] = [":x".toList, ": y".toList]
    ∧ (firstSteps docStepTypes).map Step.view
        = [(StepType.GIVEN, "a precondition".toList), (StepType.WHEN, "an action occurs".toList),
            (StepType.THEN, "an outcome happens".toList), (StepType.AND, "another outcome".toList),
            (StepType.BUT, "not this one".toList)] := by
  refine ⟨?_, ?_, ?_⟩ <;> decide

/-- Claim C32, amended: for a feature file made of the line of the feature, the
line of one scenario and `n` step lines (an indentation of blanks and tabs, one
of the five keywords, and a rest without a newline that does not start with a
letter), `parse` returns a feature whose scenario has exactly `n` steps, in the
order of the lines; the type of each step is the keyword of its line, and its
text is what follows the keyword after blanks, one colon if there is one, and
blanks, trimmed.  When no colon follows the keyword, that text is the rest of
the line, trimmed. -/
theorem parse_steps_of_step_lines (afterFeature afterScenario : Str) (lines : List StepLine)
    (hf : AfterKeyword afterFeature) (hs : AfterKeyword afterScenario)
    (hw : ∀ x ∈ lines, x.WellFormed) :
    ∃ f s, GherkinParser.parse (scenarioText afterFeature afterScenario lines) = .ok f
      ∧ f.scenarios = [s] ∧ s.steps.length = lines.length
      ∧ s.steps.map (fun st => (st.type, st.text))
          = lines.map (fun l => (l.keyword, keywordValue l.rest))
      ∧ (∀ st ∈ s.steps, st.dataTable = none ∧ st.docString = none)
      ∧ (∀ l ∈ lines, (dropBlanks l.rest).head? ≠ some ':' →
          keywordValue l.rest = trim l.rest) := by
  obtain ⟨f, s, h1, _, _, _, h5, _, _, _, h9, h10⟩ :=
    gp_parse_scenarioText afterFeature afterScenario lines hf hs hw
  refine ⟨f, s, h1, h5, ?_, h9, h10, fun l _ hl => keywordValue_of_no_colon l.rest hl⟩
  have := congrArg List.length h9
  simpa using this

set_option maxRecDepth 1000000 in
/-- The amended claim C32 at a feature file with three step lines, one of them
with a colon after the keyword. -/
theorem parse_steps_of_step_lines_witness :
    AfterKeyword ": F".toList ∧ AfterKeyword ": S".toList
      ∧ (∀ x ∈ sampleStepLines, x.WellFormed)
      ∧ ∃ f s, GherkinParser.parse (scenarioText ": F".toList ": S".toList sampleStepLines)
            = .ok f
          ∧ f.scenarios = [s] ∧ s.steps.length = sampleStepLines.length
          ∧ s.steps.map (fun st => (st.type, st.text))
              = sampleStepLines.map (fun l => (l.keyword, keywordValue l.rest))
          ∧ (∀ st ∈ s.steps, st.dataTable = none ∧ st.docString = none)
          ∧ (∀ l ∈ sampleStepLines, (dropBlanks l.rest).head? ≠ some ':' →
              keywordValue l.rest = trim l.rest) :=
  ⟨by decide, by decide, by decide,
    parse_steps_of_step_lines ": F".toList ": S".toList sampleStepLines
      (by decide) (by decide) (by decide)⟩

set_option maxRecDepth 1000000 in
/-- Claim C40: `GherkinParser::parse` never recognises a scenario outline.  For
every input for which `parse` returns a feature, every scenario of the feature
has `getExamples()` null and `isOutline()` false.  A feature file whose scenario
line is `Scenario Outline: T` is parsed into one plain scenario whose name is
`Outline: T`, trimmed, with the steps of its step lines.  For the document of
`test_basic_feature_parsing` the second scenario is named
`Outline: Login with different users` and no scenario is an outline. -/
theorem parse_never_scenario_outline :
    (∀ (input : Str) (f : Feature), GherkinParser.parse input = .ok f →
        ∀ s ∈ f.scenarios, s.getExamples = none ∧ s.isOutline = false)
    ∧ (∀ (afterFeature title : Str) (lines : List StepLine),
        AfterKeyword afterFeature → '\n' ∉ title → (∀ x ∈ lines, x.WellFormed) →
        ∃ f s, GherkinParser.parse
              (scenarioText afterFeature (" Outline: ".toList ++ title) lines) = .ok f
          ∧ f.scenarios = [s] ∧ s.name = trim ("Outline: ".toList ++ title)
          ∧ s.getExamples = none ∧ s.isOutline = false
          ∧ s.steps.map (fun st => (st.type, st.text))
              = lines.map (fun l => (l.keyword, keywordValue l.rest)))
    ∧ (parsedScenarios docBasicFeature).map (fun s => (s.name, s.isOutline))
        = [("Successful login".toList, false),
            ("Outline: Login with different users".toList, false)]
    ∧ (parsedScenarios docBasicFeature).map (fun s => s.getExamples.isSome)
        = [false, false] := by
  refine ⟨?_, ?_, ?_, ?_⟩
  · intro input f h s hs
    rw [gp_parse_eq] at h
    generalize GherkinParser.advance _ = p at h
    have hex : s.examples = none := by
      cases hm : p.parseTags.match_ .FEATURE with
      | false =>
        rw [gp_parseFeature_error p hm] at h
        cases h
      | true =>
        obtain ⟨f2, q, hq, _, _, hall, _⟩ := gp_featureBody_ok p.parseTags
        rw [gp_parseFeature_ok p hm, hq] at h
        injection h with h
        rw [← h] at hs
        exact hall s hs
    unfold Scenario.getExamples Scenario.isOutline
    rw [hex]
    exact ⟨rfl, rfl⟩
  · intro afterFeature title lines hf ht hw
    have hs : AfterKeyword (" Outline: ".toList ++ title) := by
      refine ⟨?_, ?_⟩
      · intro hm
        rcases List.mem_append.mp hm with hm | hm
        · exact absurd hm (by decide)
        · exact ht hm
      · intro c hc
        have : c = ' ' := by
          have h2 : (" Outline: ".toList ++ title).head? = some ' ' := rfl
          rw [h2] at hc
          exact (Option.some.inj hc).symm
        rw [this]
        decide
    obtain ⟨f, s, h1, _, _, _, h5, h6, _, h8, h9, _⟩ :=
      gp_parse_scenarioText afterFeature (" Outline: ".toList ++ title) lines hf hs hw
    refine ⟨f, s, h1, h5, ?_, h8, ?_, h9⟩
    · rw [h6]
      exact keywordValue_of_no_colon _ (by
        show (dropBlanks (' ' :: ('O' :: ("utline: ".toList ++ title)))).head? ≠ some ':'
        unfold dropBlanks
        rw [List.dropWhile_cons_of_pos (by decide), List.dropWhile_cons_of_neg (by decide)]
        show some 'O' ≠ some ':'
        decide) |>.trans (by
        show trim (' ' :: ("Outline: ".toList ++ title)) = trim ("Outline: ".toList ++ title)
        unfold trim
        rw [List.dropWhile_cons_of_pos (by decide)])
    · unfold Scenario.isOutline
      rw [h8]
      rfl
  · decide
  · decide

set_option maxRecDepth 1000000 in
/-- Claim C40 at the document of `test_basic_feature_parsing`: `parse` returns a
feature, and it has no scenario with examples. -/
theorem parse_never_scenario_outline_witness :
    ∃ f, GherkinParser.parse docBasicFeature = .ok f
      ∧ ∀ s ∈ f.scenarios, s.getExamples = none ∧ s.isOutline = false := by
  cases h : GherkinParser.parse docBasicFeature with
  | error e =>
    have hsome : (parsedFeature docBasicFeature).isSome = true := by decide
    unfold parsedFeature at hsome
    rw [h] at hsome
    cases hsome
  | ok f => exact ⟨f, rfl, parse_never_scenario_outline.1 docBasicFeature f h⟩

end Cucumber
